import Mathlib

/-!
Routing and simulation engine of the public-transport map (vut-fit-icp).

A shallow embedding of `pathfinding.cpp` and of the engine part of `scene.cpp`.

* A `QMap<K,T>` is a list of `(key, value)` entries kept in ascending key order.
* A pointer to a map entry (`Node*`, `line*`) is the key of that entry.
* `float` and `double` arithmetic is not interpreted: the operations the code
  calls are the fields of `Arith`, and the IEEE-754 facts a proof relies on are
  the fields of `Arith.Lawful`. Two instances evaluate it: `gridArith` (whole
  numbers, unrounded) and `roundArith` (whole numbers rounded to the 24-bit
  significand of binary32).
* An `int` is an `Int`; where the code subtracts or adds coordinates (the extra
  node in `loadPaths`, `distance`) the result wraps to 32 bits (`wrapInt`).
* Rendering (pens, `QGraphicsItem`s, signals) is left out.
-/

namespace Icp

/-! ## QMap -/

/-- Value stored under key `k` (first entry with that key). -/
def qfind {κ α : Type} [DecidableEq κ] : List (κ × α) → κ → Option α
  | [], _ => none
  | (k', v) :: t, k => if k' = k then some v else qfind t k

/-- `QMap::contains`. -/
def qcontains {κ α : Type} [DecidableEq κ] (m : List (κ × α)) (k : κ) : Bool :=
  (qfind m k).isSome

/-- `QMap::insert`: replaces the value of an existing key, otherwise adds the
entry at its place in key order. -/
def qinsert {κ α : Type} [DecidableEq κ] (lt : κ → κ → Bool) :
    List (κ × α) → κ → α → List (κ × α)
  | [], k, v => [(k, v)]
  | (k', v') :: t, k, v =>
    if k' = k then (k, v) :: t
    else if lt k k' then (k, v) :: (k', v') :: t
    else (k', v') :: qinsert lt t k v

/-- Write through a pointer or reference to the entry with key `k`. -/
def qmodify {κ α : Type} [DecidableEq κ] : List (κ × α) → κ → (α → α) → List (κ × α)
  | [], _, _ => []
  | (k', v) :: t, k, f => if k' = k then (k', f v) :: t else (k', v) :: qmodify t k f

/-- Read through a pointer or reference to the entry with key `k`. -/
def qget {κ α : Type} [DecidableEq κ] (dflt : α) (m : List (κ × α)) (k : κ) : α :=
  (qfind m k).getD dflt

/-- Non-const `QMap::operator[]`: a missing key is first inserted with a
value-initialised value. -/
def qindex {κ α : Type} [DecidableEq κ] (lt : κ → κ → Bool) (dflt : α)
    (m : List (κ × α)) (k : κ) : List (κ × α) :=
  if qcontains m k then m else qinsert lt m k dflt

/-- Keys of a map, in iteration order. -/
def qkeys {κ α : Type} (m : List (κ × α)) : List κ := m.map Prod.fst

/-- Insert a key into an ascending list of keys without duplicating it. -/
def insertKey {κ : Type} [DecidableEq κ] (lt : κ → κ → Bool) : List κ → κ → List κ
  | [], k => [k]
  | k' :: t, k =>
    if k' = k then k' :: t
    else if lt k k' then k :: k' :: t
    else k' :: insertKey lt t k

/-! ## Arithmetic interface -/

/-- The `float` (`F`) and `double` (`D`) operations used by the engine. -/
structure Arith where
  /-- C++ `float` -/
  F : Type
  /-- C++ `double` -/
  D : Type
  decF : DecidableEq F
  decD : DecidableEq D
  /-- `INFINITY` -/
  fInf : F
  /-- `0.0f` -/
  fZero : F
  /-- conversion `int → float` -/
  fOfInt : Int → F
  fAdd : F → F → F
  fSub : F → F → F
  /-- `<` on `float` -/
  fLt : F → F → Bool
  powf : F → F → F
  sqrtf : F → F
  fabsf : F → F
  /-- conversion `int → double` -/
  dOfInt : Int → D
  /-- conversion `double → int` (truncation) -/
  dToInt : D → Int
  /-- conversion `double → float` -/
  dToF : D → F
  /-- conversion `float → double` -/
  fToD : F → D
  dAdd : D → D → D
  dSub : D → D → D
  dMul : D → D → D
  dDiv : D → D → D
  /-- `<` on `double` -/
  dLt : D → D → Bool
  cos : D → D
  sin : D → D
  atan2 : D → D → D
  /-- the literal `0.1` -/
  dTenth : D

instance (A : Arith) : DecidableEq A.F := A.decF

instance (A : Arith) : DecidableEq A.D := A.decD

/-! ## Pathfinding -/

/-- A coordinate pair `std::tuple<int,int>`. -/
abbrev Point := Int × Int

/-- Order of `std::tuple<int,int>` keys (lexicographic). -/
def pointLt (a b : Point) : Bool :=
  decide (a.1 < b.1) || (decide (a.1 = b.1) && decide (a.2 < b.2))

/-- `Pathfinding::Node`; `neighbours` and `parent` hold keys of `nodesMap`. -/
structure Node (A : Arith) where
  obstacle : Bool
  visited : Bool
  globalGoal : A.F
  localGoal : A.F
  x : Int
  y : Int
  neighbours : List Point
  parent : Option Point
  deriving DecidableEq

/-- A value-initialised node, `Node()`: what `QMap::operator[]` stores under a
missing key. -/
def Node.zero (A : Arith) : Node A :=
  { obstacle := false, visited := false, globalGoal := A.fZero, localGoal := A.fZero,
    x := 0, y := 0, neighbours := [], parent := none }

/-- The members of class `Pathfinding`. -/
structure Pathfinding (A : Arith) where
  nodesMap : List (Point × Node A)
  nodeNum : Int
  nodeStart : Option Point
  nodeEnd : Option Point
  deriving DecidableEq

/-- A freshly constructed `Pathfinding` object. -/
def Pathfinding.empty (A : Arith) : Pathfinding A :=
  { nodesMap := [], nodeNum := 0, nodeStart := none, nodeEnd := none }

/-- Dereference a `Node*`. -/
def nodeAt {A : Arith} (m : List (Point × Node A)) (k : Point) : Node A :=
  qget (Node.zero A) m k

/-- One iteration of the loop of `Pathfinding::loadPoints`. The node's cost
fields are left uninitialised by the source; `solveAStar` writes them before
they are read. -/
def loadPoint {A : Arith} (g : Pathfinding A) (point : Point) : Pathfinding A :=
  if qcontains g.nodesMap point then g
  else
    { g with
      nodesMap := qinsert pointLt g.nodesMap point
        { obstacle := false, visited := false, globalGoal := A.fZero, localGoal := A.fZero,
          x := point.1, y := point.2, neighbours := [], parent := none }
      nodeNum := g.nodeNum + 1 }

/-- `Pathfinding::loadPoints`. -/
def loadPoints {A : Arith} (g : Pathfinding A) (points : List Point) : Pathfinding A :=
  points.foldl loadPoint g

/-- `Pathfinding::resetPoints`. -/
def resetPoints {A : Arith} (g : Pathfinding A) : Pathfinding A :=
  { g with nodesMap := g.nodesMap.map fun e =>
      (e.1, { e.2 with visited := false, obstacle := false, parent := none }) }

/-- A street segment `std::tuple<int,int,int,int>`: `(x1, y1, x2, y2)`. -/
abbrev Segment := Int × Int × Int × Int

/-- The engine part of `struct street`. -/
structure street where
  name : String
  traffic : Int
  isBlocked : Bool
  mid : List Point
  pathLines : List Segment
  deriving DecidableEq

/-- The value a 32-bit `int` holds for the mathematical result `v`. -/
def wrapInt (v : Int) : Int := (v + 2 ^ 31) % 2 ^ 32 - 2 ^ 31

/-- Coordinate of the extra node on one axis, as computed in `loadPaths` from
the coordinate `a` of the visited node and the coordinate `b` of the other end:
`(a - b)/2 + b` or `(b - a)/2 + a` in `int` arithmetic, where subtraction and
addition wrap to 32 bits and `/` truncates. -/
def midCoord (a b : Int) : Int :=
  if a ≥ b then wrapInt (Int.tdiv (wrapInt (a - b)) 2 + b)
  else wrapInt (Int.tdiv (wrapInt (b - a)) 2 + a)

/-- Coordinate of the extra node of a segment as `loadPaths` computes it from
the first end: the integer midpoint of the segment when no `int` operation
overflows. -/
def segMid (path : Segment) : Point :=
  (midCoord path.1 path.2.2.1, midCoord path.2.1 path.2.2.2)

/-- What `loadPaths` updates while it works on one street. -/
structure BuildState (A : Arith) where
  g : Pathfinding A
  st : street
  points : List Point

/-- Body shared by the two branches of the node loop of `loadPaths`: `c` is the
key of the visited entry (the reference `node`), `other` the far end of the
segment. The new node's `parent` and cost fields are uninitialised in the
source; `solveAStar` writes them before they are read. -/
def attachMid {A : Arith} (s : BuildState A) (c other : Point) : BuildState A :=
  let node := nodeAt s.g.nodesMap c
  let start_node_coord : Point := (node.x, node.y)
  let end_node_coord : Point := other
  let new_coord : Point := (midCoord node.x other.1, midCoord node.y other.2)
  let s1 : BuildState A :=
    if qcontains s.g.nodesMap new_coord then s
    else
      let m1 := qmodify s.g.nodesMap c fun n =>
        { n with obstacle := false, visited := false, parent := none }
      let points1 := if new_coord ∈ s.points then s.points else s.points ++ [new_coord]
      let mid1 := if new_coord ∈ s.st.mid then s.st.mid else s.st.mid ++ [new_coord]
      let m2 := qindex pointLt (Node.zero A) m1 start_node_coord
      let m3 := qindex pointLt (Node.zero A) m2 end_node_coord
      let new_node : Node A :=
        { obstacle := false, visited := false, globalGoal := A.fZero, localGoal := A.fZero,
          x := new_coord.1, y := new_coord.2,
          neighbours := [start_node_coord, end_node_coord], parent := none }
      { g := { s.g with nodesMap := qinsert pointLt m3 new_coord new_node
                        nodeNum := s.g.nodeNum + 1 }
        st := { s.st with mid := mid1 }
        points := points1 }
  let m5 := qindex pointLt (Node.zero A) s1.g.nodesMap new_coord
  { s1 with g := { s1.g with nodesMap := qmodify m5 c fun n =>
      { n with neighbours := n.neighbours ++ [new_coord] } } }

/-- Body of `for (auto& node : nodesMap)` in `loadPaths` for the entry with key `c`. -/
def visitNode {A : Arith} (path : Segment) (s : BuildState A) (c : Point) : BuildState A :=
  let node := nodeAt s.g.nodesMap c
  if node.x = path.1 ∧ node.y = path.2.1 then attachMid s c (path.2.2.1, path.2.2.2)
  else if node.x = path.2.2.1 ∧ node.y = path.2.2.2 then attachMid s c (path.1, path.2.1)
  else s

/-- Keys the node loop of `loadPaths` can meet for one segment: the keys
present when the loop starts and the keys its body can insert (the two ends of
the segment and its midpoint), in ascending order. -/
def loopKeys {A : Arith} (m : List (Point × Node A)) (path : Segment) : List Point :=
  [ (path.1, path.2.1), (path.2.2.1, path.2.2.2), segMid path,
    (midCoord path.2.2.1 path.1, midCoord path.2.2.2 path.2.1) ].foldl
    (insertKey pointLt) (qkeys m)

/-- The loop `for (auto& node : nodesMap)` of `loadPaths` for one segment. The
range-for runs over the live map: an entry inserted by the body is visited when
its key is greater than the current one. The loop therefore goes through
`loopKeys` in order and skips a key that is not in the map when its turn comes. -/
def loadSegment {A : Arith} (s : BuildState A) (path : Segment) : BuildState A :=
  (loopKeys s.g.nodesMap path).foldl
    (fun s c => if qcontains s.g.nodesMap c then visitNode path s c else s) s

/-- The loop over `street.pathLines` in `loadPaths`. -/
def loadStreet {A : Arith} (s : BuildState A) : BuildState A :=
  s.st.pathLines.foldl loadSegment s

/-- `Pathfinding::loadPaths`: returns the object together with the updated
`streets` and `points` arguments. -/
def loadPaths {A : Arith} (g : Pathfinding A) :
    List (String × street) → List Point → Pathfinding A × List (String × street) × List Point
  | [], points => (g, [], points)
  | (k, st) :: rest, points =>
    let s := loadStreet { g := g, st := st, points := points }
    let r := loadPaths s.g rest s.points
    (r.1, (k, s.st) :: r.2.1, r.2.2)

/-- The loop of `Pathfinding::setNodeObstacle`: the first node whose `x`, `y`
equal the point gets the flag. -/
def setObstacleLoop {A : Arith} :
    List (Point × Node A) → Point → Bool → Bool × List (Point × Node A)
  | [], _, _ => (false, [])
  | (k, n) :: t, point, obstacle =>
    if n.x = point.1 ∧ n.y = point.2 then (true, (k, { n with obstacle := obstacle }) :: t)
    else
      let r := setObstacleLoop t point obstacle
      (r.1, (k, n) :: r.2)

/-- `Pathfinding::setNodeObstacle`. -/
def setNodeObstacle {A : Arith} (g : Pathfinding A) (point : Point) (obstacle : Bool) :
    Bool × Pathfinding A :=
  let r := setObstacleLoop g.nodesMap point obstacle
  (r.1, { g with nodesMap := r.2 })

/-- `Pathfinding::loadGoal`. -/
def loadGoal {A : Arith} (g : Pathfinding A) (start finish : Point) : Pathfinding A :=
  let m1 := qindex pointLt (Node.zero A) g.nodesMap start
  let m2 := qindex pointLt (Node.zero A) m1 finish
  { g with nodesMap := m2, nodeStart := some start, nodeEnd := some finish }

/-- The lambda `distance` of `solveAStar`; `heuristic` is the same function. -/
def distance {A : Arith} (a b : Node A) : A.F :=
  A.sqrtf (A.fAdd (A.powf (A.fOfInt (wrapInt (a.x - b.x))) (A.fOfInt 2))
                  (A.powf (A.fOfInt (wrapInt (a.y - b.y))) (A.fOfInt 2)))

/-- Stable insertion of a node pointer into a list sorted by `globalGoal`. -/
def insertByGoal {A : Arith} (m : List (Point × Node A)) (k : Point) : List Point → List Point
  | [] => [k]
  | k' :: t =>
    if A.fLt (nodeAt m k').globalGoal (nodeAt m k).globalGoal then k' :: insertByGoal m k t
    else k :: k' :: t

/-- `notTestedNodes.sort(...)`: `std::list::sort` is stable. -/
def sortByGoal {A : Arith} (m : List (Point × Node A)) : List Point → List Point
  | [] => []
  | k :: t => insertByGoal m k (sortByGoal m t)

/-- State of the search loop: the node map and `notTestedNodes`. -/
structure Search (A : Arith) where
  nodes : List (Point × Node A)
  notTested : List Point

/-- Body of `for (auto nodeNeighbour : nodeCurrent->neighbours)`. -/
def relax {A : Arith} (cur finish : Point) (s : Search A) (nb : Point) : Search A :=
  let nodeNeighbour := nodeAt s.nodes nb
  let notTested :=
    if !nodeNeighbour.visited && nodeNeighbour.obstacle == false then s.notTested ++ [nb]
    else s.notTested
  let nodeCurrent := nodeAt s.nodes cur
  let possiblyLowerGoal := A.fAdd nodeCurrent.localGoal (distance nodeCurrent nodeNeighbour)
  if A.fLt possiblyLowerGoal nodeNeighbour.localGoal then
    { nodes := qmodify s.nodes nb fun n =>
        { n with parent := some cur, localGoal := possiblyLowerGoal,
                 globalGoal := A.fAdd possiblyLowerGoal (distance n (nodeAt s.nodes finish)) }
      notTested := notTested }
  else { s with notTested := notTested }

/-- One pass of `while (!notTestedNodes.empty())`; `none` when the loop is left. -/
def searchStep {A : Arith} (finish : Point) (s : Search A) : Option (Search A) :=
  if s.notTested.isEmpty then none
  else
    let sorted := sortByGoal s.nodes s.notTested
    match sorted.dropWhile fun k => (nodeAt s.nodes k).visited with
    | [] => none
    | cur :: rest =>
      let nodes1 := qmodify s.nodes cur fun n => { n with visited := true }
      some ((nodeAt nodes1 cur).neighbours.foldl (relax cur finish)
        { nodes := nodes1, notTested := cur :: rest })

/-- The `while` loop of `solveAStar`, run for at most `fuel` passes. -/
def searchLoop {A : Arith} (finish : Point) : Nat → Search A → Search A
  | 0, s => s
  | fuel + 1, s =>
    match searchStep finish s with
    | none => s
    | some s' => searchLoop finish fuel s'

/-- The reset loop at the head of `solveAStar`. -/
def resetSearch {A : Arith} (m : List (Point × Node A)) : List (Point × Node A) :=
  m.map fun e => (e.1, { e.2 with visited := false, parent := none,
                                  globalGoal := A.fInf, localGoal := A.fInf })

/-- `Pathfinding::solveAStar` (it always returns `true`). Every pass of the
loop marks a node visited that was not, so one pass more than there are nodes
is enough. With a null `nodeStart` or `nodeEnd` the source dereferences a null
pointer; the object is then returned as it is. -/
def solveAStar {A : Arith} (g : Pathfinding A) : Pathfinding A :=
  match g.nodeStart, g.nodeEnd with
  | some start, some finish =>
    let m0 := resetSearch g.nodesMap
    let m1 := qmodify m0 start fun n =>
      { n with localGoal := A.fZero }
    let m2 := qmodify m1 start fun n =>
      { n with globalGoal := distance n (nodeAt m1 finish) }
    let r := searchLoop finish (m2.length + 1) { nodes := m2, notTested := [start] }
    { g with nodesMap := r.nodes }
  | _, _ => g

/-- The `while (p->parent != nullptr)` loop of `getSolution`, for at most `fuel`
nodes. -/
def solutionLoop {A : Arith} (m : List (Point × Node A)) :
    Nat → Point → List Point → List Point
  | 0, _, solution => solution
  | fuel + 1, p, solution =>
    let n := nodeAt m p
    match n.parent with
    | some q => solutionLoop m fuel q ((n.x, n.y) :: solution)
    | none => (n.x, n.y) :: solution

/-- `Pathfinding::getSolution`. A parent chain without a cycle has at most as
many nodes as the map. -/
def getSolution {A : Arith} (g : Pathfinding A) : List Point :=
  match g.nodeEnd with
  | some finish => solutionLoop g.nodesMap g.nodesMap.length finish []
  | none => []

/-! ## Scene -/

/-- The engine part of `struct bus`. -/
structure bus (A : Arith) where
  no : Int
  lineno : Int
  pos_x : A.D
  pos_y : A.D
  d : A.D
  reversed : Bool
  halt : Bool
  slow : Int
  wait : Int
  initWait : Int
  startStation : String
  lastStation : String
  headingStation : String
  endStation : String
  currStreet : String
  visited : List Point
  path : List Segment
  deriving DecidableEq

/-- The engine part of `struct line` (`end_` is the member `end`). -/
structure line where
  no : Int
  color : String
  start : String
  startOriginal : String
  stopsAt : List String
  stopsAtOriginal : List String
  end_ : String
  endOriginal : String
  pathLines : List Segment
  deriving DecidableEq

/-- The engine part of `struct stop`. -/
structure stop where
  name : String
  linesNo : List Int
  coord : Point
  deriving DecidableEq

/-- A value-initialised `line`. -/
def line.zero : line :=
  { no := 0, color := "", start := "", startOriginal := "", stopsAt := [],
    stopsAtOriginal := [], end_ := "", endOriginal := "", pathLines := [] }

/-- A value-initialised `stop`. -/
def stop.zero : stop := { name := "", linesNo := [], coord := (0, 0) }

/-- Order of `int` keys. -/
def intLt (a b : Int) : Bool := decide (a < b)

/-- Order of `QString` keys. -/
def strLt (a b : String) : Bool := decide (a < b)

/-- The engine members of class `Scene`; `selectedLine` and `selectedStreet`
hold the key of the entry they point to. -/
structure Scene (A : Arith) where
  interval_ms : Int
  speed : Int
  waitStop : Int
  waitBeforeStart : Int
  p : Pathfinding A
  editMode : Bool
  selectedLine : Option Int
  selectedStreet : Option String
  routeEditTemp : List String
  streets : List (String × street)
  stops : List (String × stop)
  stopsReversed : List (Point × stop)
  lines : List (Int × line)
  buses : List (Int × bus A)
  points : List Point

/-- The lookup `lines[key]` as a read. -/
def lineAt {A : Arith} (sc : Scene A) (key : Int) : line := qget line.zero sc.lines key

/-- The lookup `stops[key]` as a read. -/
def stopAt {A : Arith} (sc : Scene A) (key : String) : stop := qget stop.zero sc.stops key

/-- Effect of evaluating `lines[key]` on the map. -/
def touchLine {A : Arith} (sc : Scene A) (key : Int) : Scene A :=
  { sc with lines := qindex intLt line.zero sc.lines key }

/-- Effect of evaluating `stops[key]` on the map. -/
def touchStop {A : Arith} (sc : Scene A) (key : String) : Scene A :=
  { sc with stops := qindex strLt stop.zero sc.stops key }

/-- `Scene::deselectLine`. -/
def deselectLine {A : Arith} (sc : Scene A) : Scene A := { sc with selectedLine := none }

/-- The loop of `Scene::blockStreet` / `Scene::unblockStreet` over `streets`:
`flag` is `true` for blocking. -/
def blockLoop {A : Arith} (flag : Bool) (key : String) (p : Pathfinding A) :
    List (String × street) → Bool × Pathfinding A × List (String × street)
  | [] => (false, p, [])
  | (k, st) :: rest =>
    if st.name = key then
      if st.isBlocked = flag then (true, p, (k, st) :: rest)
      else
        let p1 := st.mid.foldl (fun p point => (setNodeObstacle p point flag).2) p
        (true, p1, (k, { st with isBlocked := flag }) :: rest)
    else
      let r := blockLoop flag key p rest
      (r.1, r.2.1, (k, st) :: r.2.2)

/-- `Scene::blockStreet`. -/
def blockStreet {A : Arith} (sc : Scene A) (key : String) : Bool × Scene A :=
  let r := blockLoop true key sc.p sc.streets
  (r.1, { sc with p := r.2.1, streets := r.2.2 })

/-- `Scene::unblockStreet`. -/
def unblockStreet {A : Arith} (sc : Scene A) (key : String) : Bool × Scene A :=
  let r := blockLoop false key sc.p sc.streets
  (r.1, { sc with p := r.2.1, streets := r.2.2 })

/-- `QVector::indexOf`, with `none` for the result `-1`. -/
def indexOf (a : String) : List String → Option Nat
  | [] => none
  | x :: t => if x = a then some 0 else (indexOf a t).map (· + 1)

/-- `Scene::getBusHeadingTo`, with the scene after the three `lines[b.lineno]`. -/
def getBusHeadingTo {A : Arith} (sc : Scene A) (b : bus A) : String × Scene A :=
  let sc1 := touchLine sc b.lineno
  let l := lineAt sc1 b.lineno
  let startStation := if b.reversed then l.end_ else l.start
  let endStation := if b.reversed then l.start else l.end_
  let stopsAt := if b.reversed then l.stopsAt.reverse else l.stopsAt
  let headingTo :=
    if b.lastStation = startStation then
      match stopsAt.head? with
      | some s => s
      | none => endStation
    else if b.lastStation = endStation then
      match stopsAt.getLast? with
      | some s => s
      | none => startStation
    else
      match indexOf b.lastStation stopsAt with
      | some index =>
        if stopsAt[index]? = stopsAt.getLast? then b.endStation
        else stopsAt[index + 1]?.getD ""
      | none => "unknown"
  (headingTo, sc1)

/-- `std::tuple_cat` of two points. -/
def tupleCat (a b : Point) : Segment := (a.1, a.2, b.1, b.2)

/-- The tail of `Scene::getPath`: the point sequence turned into segments. -/
def pathSegments (path : List Point) : List Segment :=
  if path.length > 1 then
    let first := path.headD (0, 0)
    let last := path.getLastD (0, 0)
    let r := ((path.drop 1).dropLast).foldl
      (fun (r : List Segment × Point) q => (r.1 ++ [tupleCat r.2 q], q)) ([], first)
    r.1 ++ [tupleCat r.2 last]
  else []

/-- State of the loop over the via-stops in `Scene::getPath`. -/
structure Legs (A : Arith) where
  sc : Scene A
  halt : Bool
  path : List Point
  start : Point

/-- Body of `for (const auto& key : mid)` in `Scene::getPath`. -/
def viaLeg {A : Arith} (s : Legs A) (key : String) : Legs A :=
  let path1 := s.path.dropLast
  let sc1 := touchStop s.sc key
  let mid_point := (stopAt sc1 key).coord
  let p1 := solveAStar (loadGoal sc1.p s.start mid_point)
  let solution := getSolution p1
  let halt1 := if solution.head? ≠ some s.start then true else s.halt
  let halt2 := if solution.getLast? ≠ some mid_point then true else halt1
  { sc := { sc1 with p := p1 }, halt := halt2, path := path1 ++ solution, start := mid_point }

/-- The block `if (!mid.empty()) { ... }` of `Scene::getPath`. -/
def viaLegs {A : Arith} (sc : Scene A) (b : bus A) (mid0 : List String) (start : Point) :
    Legs A :=
  if mid0.isEmpty then { sc := sc, halt := b.halt, path := [], start := start }
  else
    let mid := if b.reversed then mid0.reverse else mid0
    let s1 := mid.foldl viaLeg { sc := sc, halt := b.halt, path := [(0, 0)], start := start }
    { s1 with path := s1.path.dropLast }

/-- The rest of `Scene::getPath`: the last leg, the two checks of the whole
path, the segments and the store into `lines[bus.lineno].pathLines`. -/
def lastLeg {A : Arith} (s : Legs A) (b : bus A) (startSaved finish : Point) :
    List Segment × Scene A × bus A :=
  let p1 := solveAStar (loadGoal s.sc.p s.start finish)
  let path := s.path ++ getSolution p1
  let halt1 := if path.head? ≠ some startSaved then true else s.halt
  let halt2 := if path.getLast? ≠ some finish then true else halt1
  let result := pathSegments path
  let sc4 := touchLine { s.sc with p := p1 } b.lineno
  (result,
   { sc4 with lines := qmodify sc4.lines b.lineno fun l => { l with pathLines := result } },
   { b with halt := halt2 })

/-- `Scene::getPath`: the returned segments, the scene and the bus afterwards.
`first()` and `last()` are never taken of an empty vector here, since
`getSolution` returns at least the end node. -/
def getPath {A : Arith} (sc : Scene A) (b : bus A) : List Segment × Scene A × bus A :=
  let sc1 := touchLine sc b.lineno
  let l := lineAt sc1 b.lineno
  let sc2 := touchStop sc1 l.start
  let start0 := (stopAt sc2 l.start).coord
  let sc3 := touchStop sc2 l.end_
  let end0 := (stopAt sc3 l.end_).coord
  let start := if b.reversed then end0 else start0
  let finish := if b.reversed then start0 else end0
  lastLeg (viaLegs sc3 b l.stopsAt start) b start finish

/-- Body of `for (auto &bus : buses)` in `Scene::saveEdit`; `sel` is the key
`selectedLine` points to, `s.2` the buses already passed. -/
def saveEditBus {A : Arith} (sel : Int) (start finish : String)
    (s : Scene A × List (Int × bus A)) (e : Int × bus A) : Scene A × List (Int × bus A) :=
  if e.2.lineno = (lineAt s.1 sel).no then
    let sc1 := touchStop s.1 start
    let b1 : bus A :=
      { e.2 with
        startStation := start, lastStation := start, endStation := finish,
        pos_x := A.dOfInt (stopAt sc1 start).coord.1,
        pos_y := A.dOfInt (stopAt sc1 start).coord.2,
        visited := [], slow := 0, wait := e.2.initWait, reversed := false }
    let r := getPath sc1 b1
    (r.2.1, s.2 ++ [(e.1, { r.2.2 with path := r.1 })])
  else (s.1, s.2 ++ [e])

/-- The three writes through `selectedLine` in `Scene::saveEdit` and the
clearing of `routeEditTemp`. -/
def setRoute {A : Arith} (sc : Scene A) (sel : Int) (start finish : String)
    (temp : List String) : Scene A :=
  { sc with
    lines := qmodify sc.lines sel fun l =>
      { l with start := start, end_ := finish, stopsAt := temp }
    routeEditTemp := [] }

/-- `Scene::saveEdit`. -/
def saveEdit {A : Arith} (sc : Scene A) : Bool × Scene A :=
  match sc.selectedLine with
  | none => (false, deselectLine sc)
  | some sel =>
    if sc.routeEditTemp.length < 2 then (false, deselectLine sc)
    else
      let start := sc.routeEditTemp.headD ""
      let finish := sc.routeEditTemp.getLastD ""
      let temp := (sc.routeEditTemp.drop 1).dropLast
      let sc1 := setRoute sc sel start finish temp
      let r := sc1.buses.foldl (saveEditBus sel start finish) (sc1, [])
      (true, deselectLine { r.1 with buses := r.2 })

/-- The lambda `step_error` of `Scene::setNewPosition`. -/
def stepError {A : Arith} (s : A.D) : Int :=
  A.dToInt (if A.dLt (A.dOfInt 1) s then A.dAdd (A.dDiv s (A.dOfInt 2)) (A.dOfInt 1)
            else A.dOfInt 2)

/-- The values `-e, ..., e` of a loop counter. -/
def offsets (e : Int) : List Int :=
  (List.range (2 * e + 1).toNat).map fun i => -e + (i : Int)

/-- The two nested loops of `Scene::setNewPosition` that look for a known point
near the bus: the first hit in loop order, if there is one. -/
def scanPoints (points : List Point) (px py e : Int) : Option Point :=
  ((offsets e).flatMap fun x => (offsets e).map fun y => ((px + x, py + y) : Point)).find?
    fun point => decide (point ∈ points)

/-- Body of the loop over a street's `pathLines` at the end of
`Scene::setNewPosition`. -/
def onStreet {A : Arith} (b : bus A) (name : String) (currStreet : String) (path : Segment) :
    String :=
  let pa := A.sqrtf (A.fAdd
    (A.powf (A.dToF (A.dSub (A.dOfInt path.1) b.pos_x)) (A.fOfInt 2))
    (A.powf (A.dToF (A.dSub (A.dOfInt path.2.1) b.pos_y)) (A.fOfInt 2)))
  let pb := A.sqrtf (A.fAdd
    (A.powf (A.dToF (A.dSub (A.dOfInt path.2.2.1) b.pos_x)) (A.fOfInt 2))
    (A.powf (A.dToF (A.dSub (A.dOfInt path.2.2.2) b.pos_y)) (A.fOfInt 2)))
  let pc := A.sqrtf (A.fAdd
    (A.powf (A.fOfInt (path.2.2.1 - path.1)) (A.fOfInt 2))
    (A.powf (A.fOfInt (path.2.2.2 - path.2.1)) (A.fOfInt 2)))
  let res := A.fabsf (A.fSub (A.fAdd pa pb) pc)
  if A.dLt (A.fToD res) A.dTenth then name else currStreet

/-- Body of `for (const auto& street : streets)` at the end of
`Scene::setNewPosition`. -/
def streetOf {A : Arith} (b : bus A) (e : String × street) : bus A :=
  let cs := e.2.pathLines.foldl (onStreet b e.2.name) b.currStreet
  let b1 := { b with currStreet := cs }
  if b1.currStreet = e.2.name then { b1 with slow := e.2.traffic } else b1

/-- The block "bus is in the end station -> turn around" of
`Scene::setNewPosition`. -/
def turnAround {A : Arith} (sc : Scene A) (b : bus A) : Scene A × bus A :=
  let sc1 := touchLine sc b.lineno
  let l := lineAt sc1 b.lineno
  let start := if !b.reversed then l.end_ else l.start
  let finish := if !b.reversed then l.start else l.end_
  let b1 := { b with reversed := !b.reversed, startStation := start, endStation := finish }
  let r := getPath sc1 b1
  (r.2.1, { r.2.2 with path := r.1, visited := [], wait := sc.waitStop })

/-- The block "if bus is on a certain point/stop" of `Scene::setNewPosition`,
entered with the point found by the scan. A default-constructed
`std::tuple` holds zeros. -/
def reachPoint {A : Arith} (sc : Scene A) (b : bus A) (point : Point) : Scene A × bus A :=
  let new_pos : Segment := b.path.headD (0, 0, 0, 0)
  let visited1 := (if b.visited.isEmpty then b.visited else b.visited.drop 1) ++ [point]
  let atStop := qcontains sc.stopsReversed point
  let sc1 := if atStop then touchLine sc b.lineno else sc
  let name := (qget stop.zero sc.stopsReversed point).name
  let l := lineAt sc1 b.lineno
  let last1 :=
    if atStop ∧ (l.start = name ∨ l.end_ = name ∨ name ∈ l.stopsAt) then name
    else b.lastStation
  let b1 := { b with visited := visited1, lastStation := last1 }
  let h := getBusHeadingTo sc1 b1
  let dX := A.dSub (A.dOfInt new_pos.2.2.1) b1.pos_x
  let dY := A.dSub (A.dOfInt new_pos.2.2.2) b1.pos_y
  (h.2, { b1 with headingStation := h.1, path := b1.path.drop 1, d := A.atan2 dY dX })

/-- The block `if (bus.halt == false)` of `Scene::setNewPosition`: the move and
the search for the current street. -/
def moveBus {A : Arith} (sc : Scene A) (b : bus A) (step : A.D) : bus A :=
  let b1 :=
    { b with
      pos_x := A.dAdd b.pos_x (A.dMul (A.dDiv step (A.dOfInt b.slow)) (A.cos b.d))
      pos_y := A.dAdd b.pos_y (A.dMul (A.dDiv step (A.dOfInt b.slow)) (A.sin b.d)) }
  sc.streets.foldl streetOf b1

/-- First stage of a tick of a bus that does not wait: the turn at the end
station. -/
def tickTurn {A : Arith} (sc : Scene A) (b : bus A) : Scene A × bus A :=
  if b.lastStation = b.endStation then turnAround sc b else (sc, b)

/-- Second stage: the scan for a known point near the bus and, on a hit that is
not in `visited`, the arrival at that point. -/
def tickPoint {A : Arith} (r : Scene A × bus A) (step : A.D) : Scene A × bus A :=
  match scanPoints r.1.points (A.dToInt r.2.pos_x) (A.dToInt r.2.pos_y) (stepError step) with
  | none => r
  | some point => if point ∈ r.2.visited then r else reachPoint r.1 r.2 point

/-- Third stage: the second test of the end station and the move. -/
def tickMove {A : Arith} (r : Scene A × bus A) (step : A.D) : Scene A × bus A :=
  if r.2.lastStation = r.2.endStation then r
  else if r.2.halt = false then (r.1, moveBus r.1 r.2 step)
  else r

/-- `Scene::setNewPosition`: the scene and the bus after one tick. -/
def setNewPosition {A : Arith} (sc : Scene A) (b : bus A) (step : A.D) : Scene A × bus A :=
  if b.wait > 0 then
    let w := A.dToInt (A.dSub (A.dOfInt b.wait) (A.dMul (A.dOfInt sc.interval_ms) step))
    (sc, { b with wait := if w < 0 then 0 else w })
  else tickMove (tickPoint (tickTurn sc b) step) step

/-- Consecutive ticks of one bus, each in its own scene and with its own step. -/
def ticks {A : Arith} (b : bus A) (ts : List (Scene A × A.D)) : bus A :=
  ts.foldl (fun b t => (setNewPosition t.1 b t.2).2) b

/-- Consecutive ticks of one bus, the scene handed from tick to tick. -/
def ticksFrom {A : Arith} (s : Scene A × bus A) (steps : List A.D) : Scene A × bus A :=
  steps.foldl (fun s step => setNewPosition s.1 s.2 step) s

/-- The station names of a line: start, via-stops, end. -/
def stations (l : line) : List String := l.start :: (l.stopsAt ++ [l.end_])

/-- The station fields of a bus name stations of its line. -/
def StationsOk {A : Arith} (sc : Scene A) (b : bus A) : Prop :=
  b.lastStation ∈ stations (lineAt sc b.lineno) ∧
  b.headingStation ∈ stations (lineAt sc b.lineno) ∧
  b.endStation ∈ stations (lineAt sc b.lineno)

/-- The street `blockStreet(key)` and `unblockStreet(key)` work on: the first one
in map order whose `name` is `key`. -/
def streetNamed (streets : List (String × street)) (key : String) : Option street :=
  (streets.find? fun e => e.2.name = key).map Prod.snd

/-- Two line maps agree except for the cached `pathLines`: on the entries of
the first (`found`) and on what a lookup reads (`read`). -/
structure SameRoutes (m m' : List (Int × line)) : Prop where
  found : ∀ k l, qfind m k = some l → ∃ pl, qfind m' k = some { l with pathLines := pl }
  read : ∀ k, ∃ pl, qget line.zero m' k = { qget line.zero m k with pathLines := pl }

/-- What `getPath` leaves alone in the scene: everything but the stop map, the
pathfinding object and the cached `pathLines`. -/
structure SceneFrame {A : Arith} (sc sc' : Scene A) : Prop where
  routes : SameRoutes sc.lines sc'.lines
  interval_ms : sc'.interval_ms = sc.interval_ms
  speed : sc'.speed = sc.speed
  waitStop : sc'.waitStop = sc.waitStop
  waitBeforeStart : sc'.waitBeforeStart = sc.waitBeforeStart
  editMode : sc'.editMode = sc.editMode
  selectedLine : sc'.selectedLine = sc.selectedLine
  selectedStreet : sc'.selectedStreet = sc.selectedStreet
  routeEditTemp : sc'.routeEditTemp = sc.routeEditTemp
  streets : sc'.streets = sc.streets
  stopsReversed : sc'.stopsReversed = sc.stopsReversed
  buses : sc'.buses = sc.buses
  points : sc'.points = sc.points

/-- The fields of a bus that the claims about a halted bus speak of. -/
structure Halted {A : Arith} (b b' : bus A) : Prop where
  pos_x : b'.pos_x = b.pos_x
  pos_y : b'.pos_y = b.pos_y
  halt : b'.halt = true

/-! ## Arithmetic on whole numbers, and test data -/

/-- Integer square root (rounded down). -/
def isqrt (n : Nat) : Nat :=
  ((List.range (n + 1)).filter fun r => r * r ≤ n).length - 1

/-- Addition of `float` values in `gridArith`. -/
def gridAdd : Option Int → Option Int → Option Int
  | some x, some y => some (x + y)
  | _, _ => none

/-- Order of `float` values in `gridArith`. -/
def gridLt : Option Int → Option Int → Bool
  | some x, some y => decide (x < y)
  | some _, none => true
  | none, _ => false

/-- Whole-number arithmetic standing in for `float` and `double` on data where
the C++ operations are exact: integer coordinates, axis-parallel segments (the
square roots are taken of perfect squares) and sums far below `2^24`. `none`
is `INFINITY`. `cos`, `sin` and `atan2` stand for heading `0`: a bus that is
moved in an evaluation below heads along the positive x axis, where
`atan2(0, dX)` is `0`, `cos` is `1` and `sin` is `0`. The literal `0.1` is
`1`: a whole number is below `0.1` exactly when it is below `1`. -/
def gridArith : Arith :=
  { F := Option Int
    D := Int
    decF := inferInstance
    decD := inferInstance
    fInf := none
    fZero := some 0
    fOfInt := fun i => some i
    fAdd := gridAdd
    fSub := fun a b => gridAdd a (b.map fun y => -y)
    fLt := gridLt
    powf := fun a b =>
      match a, b with
      | some x, some y => some (x ^ y.toNat)
      | _, _ => none
    sqrtf := fun a => a.map fun x => (isqrt x.toNat : Int)
    fabsf := fun a => a.map fun x => (x.natAbs : Int)
    dOfInt := id
    dToInt := id
    dToF := some
    fToD := fun a => a.getD 0
    dAdd := fun a b => a + b
    dSub := fun a b => a - b
    dMul := fun a b => a * b
    dDiv := fun a b => a / b
    dLt := fun a b => decide (a < b)
    cos := fun _ => 1
    sin := fun _ => 0
    atan2 := fun _ _ => 0
    dTenth := 1 }

/-- A street as `Scene::loadBackground` creates it. -/
def mkStreet (name : String) (pathLines : List Segment) : street :=
  { name := name, traffic := 1, isBlocked := false, mid := [], pathLines := pathLines }

/-- A line as `Scene::loadLines` creates it. -/
def mkLine (no : Int) (start : String) (stopsAt : List String) (finish : String) : line :=
  { no := no, color := "", start := start, startOriginal := start, stopsAt := stopsAt,
    stopsAtOriginal := stopsAt, end_ := finish, endOriginal := finish, pathLines := [] }

/-- A bus at rest at `(x, y)` on line `lineno`. -/
def mkBus (lineno : Int) (x y : Int) (start finish : String) (halt : Bool) : bus gridArith :=
  { no := 1, lineno := lineno, pos_x := gridArith.dOfInt x, pos_y := gridArith.dOfInt y,
    d := gridArith.dOfInt 0, reversed := false, halt := halt,
    slow := 1, wait := 0, initWait := 0, startStation := start, lastStation := start,
    headingStation := finish, endStation := finish, currStreet := "", visited := [], path := [] }

/-- The scene after `loadPoints` and `loadPaths` (as in `Scene::loadAll`) for
the given stops, streets (in key order), lines and start points. -/
def mkScene (stops : List (String × stop)) (streets : List (String × street))
    (lines : List (Int × line)) (points : List Point) : Scene gridArith :=
  let r := loadPaths (loadPoints (Pathfinding.empty gridArith) points) streets points
  { interval_ms := 10, speed := 1, waitStop := 3000, waitBeforeStart := 10000,
    p := r.1, editMode := false, selectedLine := none, selectedStreet := none,
    routeEditTemp := [], streets := r.2.1, stops := stops,
    stopsReversed := [], lines := lines, buses := [], points := r.2.2 }

/-- Three stops: `A` and `B` joined by one street, `C` with no street. -/
def sceneGap : Scene gridArith :=
  mkScene [("A", { name := "A", linesNo := [], coord := (0, 0) }),
           ("B", { name := "B", linesNo := [], coord := (10, 0) }),
           ("C", { name := "C", linesNo := [], coord := (20, 20) })]
    [("s", mkStreet "s" [(0, 0, 10, 0)])]
    [(1, mkLine 1 "A" ["B"] "C")]
    [(0, 0), (10, 0), (20, 20)]

/-- Two streets that cross in their common midpoint `(5, 5)`. -/
def sceneCross : Scene gridArith :=
  mkScene [] [("a", mkStreet "a" [(0, 0, 10, 10)]), ("b", mkStreet "b" [(0, 10, 10, 0)])] []
    [(0, 0), (10, 10), (0, 10), (10, 0)]

/-- `sceneGap` in edit mode with line 1 selected and the given provisional list. -/
def sceneEdit (temp : List String) : Scene gridArith :=
  { sceneGap with editMode := true, selectedLine := some 1, routeEditTemp := temp }

/-! ## Predicates used in the statements -/

/-- Every entry of the node map sits under its own coordinate. -/
def NodesWf {A : Arith} (m : List (Point × Node A)) : Prop :=
  ∀ e ∈ m, ((e.2.x, e.2.y) : Point) = e.1

/-- The mid lists of all streets of a map, one after the other. -/
def allMids (streets : List (String × street)) : List Point :=
  streets.flatMap fun e => e.2.mid

/-- What the build keeps true while it runs: the coordinates in `mids` (the mid
lists filled so far) are keys of the node map, no coordinate occurs twice in
them, every start point is a key, and no start point is in them. -/
structure GInv {A : Arith} (pts mids : List Point) (g : Pathfinding A) : Prop where
  keysMid : ∀ c ∈ mids, qcontains g.nodesMap c = true
  nodup : mids.Nodup
  keysPts : ∀ c ∈ pts, qcontains g.nodesMap c = true
  fresh : ∀ c ∈ mids, c ∉ pts

/-- `blockStreet(k)` for `flag = true`, `unblockStreet(k)` for `flag = false`. -/
def toggleStreet {A : Arith} (flag : Bool) (sc : Scene A) (k : String) : Bool × Scene A :=
  if flag then blockStreet sc k else unblockStreet sc k

/-- A sequence of `blockStreet` (`true`) and `unblockStreet` (`false`) calls. -/
def runBlocks {A : Arith} (sc : Scene A) (ops : List (Bool × String)) : Scene A :=
  ops.foldl (fun sc op => (toggleStreet op.1 sc op.2).2) sc

/-- The build invariant when every segment end is a start point: on top of
`GInv`, every entry sits under its own coordinate and every key is a start
point or in a mid list. -/
structure BInv {A : Arith} (pts mids : List Point) (g : Pathfinding A) : Prop where
  ginv : GInv pts mids g
  wf : NodesWf g.nodesMap
  only : ∀ c, qcontains g.nodesMap c = true → c ∈ pts ∨ c ∈ mids

/-- Both ends of a segment are start points. -/
abbrev EndsIn (pts : List Point) (path : Segment) : Prop :=
  ((path.1, path.2.1) : Point) ∈ pts ∧ ((path.2.2.1, path.2.2.2) : Point) ∈ pts

/-- What holds of the node map and the streets in every state reached from the
built scene by blocking and unblocking (`pts` are the start points): the node
map is well formed, the mid lists are disjoint lists of keys, street names are
distinct, the mid nodes of a blocked street are obstacles, every key is a start
point or in a mid list, and the midpoint of every segment is a key. -/
structure BlockInv {A : Arith} (pts : List Point) (sc : Scene A) : Prop where
  wf : NodesWf sc.p.nodesMap
  keys : ∀ c ∈ allMids sc.streets, qcontains sc.p.nodesMap c = true
  nodup : (allMids sc.streets).Nodup
  names : (sc.streets.map fun e => e.2.name).Nodup
  blocked : ∀ e ∈ sc.streets, e.2.isBlocked = true →
    ∀ c ∈ e.2.mid, (nodeAt sc.p.nodesMap c).obstacle = true
  only : ∀ c, qcontains sc.p.nodesMap c = true → c ∈ pts ∨ c ∈ allMids sc.streets
  segs : ∀ e ∈ sc.streets, ∀ p ∈ e.2.pathLines, qcontains sc.p.nodesMap (segMid p) = true

/-- The facts about `float` arithmetic that the proofs about the search use.
All hold of IEEE-754 binary32 with round-to-nearest as long as no NaN arises,
which is the case in `solveAStar`: `<` is a strict weak order, nothing is above
`INFINITY`, adding a square root to a value does not make it smaller, and
adding the distance of two points with `int` coordinates to a finite value
gives a finite value. -/
structure Arith.Lawful (A : Arith) : Prop where
  lt_irrefl : ∀ a, A.fLt a a = false
  lt_trans : ∀ a b c, A.fLt a b = true → A.fLt b c = true → A.fLt a c = true
  ge_trans : ∀ a b c, A.fLt a b = false → A.fLt b c = false → A.fLt a c = false
  inf_max : ∀ a, A.fLt A.fInf a = false
  zero_lt_inf : A.fLt A.fZero A.fInf = true
  add_sqrt_ge : ∀ a x, A.fLt (A.fAdd a (A.sqrtf x)) a = false
  add_dist_lt_inf : ∀ a (dx dy : Int), A.fLt a A.fInf = true →
    -(2 ^ 32) < dx → dx < 2 ^ 32 → -(2 ^ 32) < dy → dy < 2 ^ 32 →
    A.fLt (A.fAdd a (A.sqrtf (A.fAdd (A.powf (A.fOfInt dx) (A.fOfInt 2))
      (A.powf (A.fOfInt dy) (A.fOfInt 2))))) A.fInf = true

/-- A coordinate in the range of a 32-bit `int`. -/
abbrev InInt (v : Int) : Prop := -(2 ^ 31) ≤ v ∧ v < 2 ^ 31

/-- What the search needs of the node map: every neighbour pointer leads to a
node of the map, and the coordinates are 32-bit values. -/
abbrev LinksOk {A : Arith} (m : List (Point × Node A)) : Prop :=
  (∀ e ∈ m, ∀ nb ∈ e.2.neighbours, qcontains m nb = true) ∧
  (∀ e ∈ m, InInt e.2.x ∧ InInt e.2.y)

/-- A graph as the build makes it: every node sits under its own coordinate,
every neighbour pointer leads to a node of the map, and the coordinates are
32-bit values. -/
abbrev GraphOk {A : Arith} (m : List (Point × Node A)) : Prop :=
  (∀ e ∈ m, ((e.2.x, e.2.y) : Point) = e.1) ∧ LinksOk m

/-- The nodes the search can expand from `start`: `start` itself and every
node that is not an obstacle and is a neighbour of such a node. -/
inductive Expandable {A : Arith} (m : List (Point × Node A)) (start : Point) : Point → Prop
  | start : Expandable m start start
  | step (u v : Point) : Expandable m start u → v ∈ (nodeAt m u).neighbours →
      (nodeAt m v).obstacle = false → Expandable m start v

/-- `finish` is reachable from `start`: it is `start`, or a walk along
neighbour links leads from `start` to it whose intermediate nodes are not
obstacles. -/
def Reachable {A : Arith} (m : List (Point × Node A)) (start finish : Point) : Prop :=
  finish = start ∨ ∃ u, Expandable m start u ∧ finish ∈ (nodeAt m u).neighbours

/-- The parent chain of `n` ends at the node `r` that has no parent. -/
inductive ChainTo {A : Arith} (m : List (Point × Node A)) : Point → Point → Nat → Prop
  | root (n : Point) : (nodeAt m n).parent = none → ChainTo m n n 0
  | step (n p r : Point) (d : Nat) : (nodeAt m n).parent = some p → ChainTo m p r d →
      ChainTo m n r (d + 1)

/-- Two node maps hold the same graph: same keys, coordinates, obstacle flags
and neighbour lists. -/
structure SameGraph {A : Arith} (m m' : List (Point × Node A)) : Prop where
  keys : ∀ k, qcontains m' k = qcontains m k
  len : m'.length = m.length
  x : ∀ k, (nodeAt m' k).x = (nodeAt m k).x
  y : ∀ k, (nodeAt m' k).y = (nodeAt m k).y
  obstacle : ∀ k, (nodeAt m' k).obstacle = (nodeAt m k).obstacle
  neighbours : ∀ k, (nodeAt m' k).neighbours = (nodeAt m k).neighbours

/-- `localGoal` of the node is below `INFINITY`. -/
def LocalFin {A : Arith} (m : List (Point × Node A)) (k : Point) : Prop :=
  A.fLt (nodeAt m k).localGoal A.fInf = true

/-- What the search loop keeps true. `G` is the graph, `cur` the node being
expanded (if any) and `done` the neighbours of it already handled. -/
structure SInv {A : Arith} (G : List (Point × Node A)) (start : Point) (cur : Option Point)
    (done : List Point) (s : Search A) : Prop where
  same : SameGraph G s.nodes
  front : ∀ f ∈ s.notTested, qcontains G f = true ∧ Expandable G start f ∧ LocalFin s.nodes f ∧
    (f = start ∨ (nodeAt G f).obstacle = false)
  startN : (nodeAt s.nodes start).localGoal = A.fZero ∧ (nodeAt s.nodes start).parent = none
  seen : (nodeAt s.nodes start).visited = true ∨ start ∈ s.notTested
  vis : ∀ v, (nodeAt s.nodes v).visited = true → qcontains G v = true ∧ Expandable G start v ∧
    LocalFin s.nodes v ∧ (v = start ∨ (nodeAt G v).obstacle = false)
  closed : ∀ v, (nodeAt s.nodes v).visited = true →
    ∀ nb ∈ (if some v = cur then done else (nodeAt G v).neighbours),
      LocalFin s.nodes nb ∧ ((nodeAt G nb).obstacle = false →
        (nodeAt s.nodes nb).visited = true ∨ nb ∈ s.notTested)
  par : ∀ n p, (nodeAt s.nodes n).parent = some p → (nodeAt s.nodes p).visited = true ∧
    n ∈ (nodeAt G p).neighbours ∧
    A.fLt (nodeAt s.nodes n).localGoal (nodeAt s.nodes p).localGoal = false
  rooted : ∀ n, ∃ r d, ChainTo s.nodes n r d
  finPar : ∀ n, qcontains G n = true → LocalFin s.nodes n →
    n = start ∨ (nodeAt s.nodes n).parent ≠ none
  nonneg : ∀ n, A.fLt (nodeAt s.nodes n).localGoal A.fZero = false

/-- Number of entries of the node map not yet marked visited. -/
def unvisited {A : Arith} (m : List (Point × Node A)) : Nat :=
  (m.filter fun e => !e.2.visited).length

/-- `n` is on the parent chain that starts at `p` (`p` itself included). -/
inductive OnChain {A : Arith} (m : List (Point × Node A)) : Point → Point → Prop
  | self (p : Point) : OnChain m p p
  | step (p q n : Point) : (nodeAt m p).parent = some q → OnChain m q n → OnChain m p n

/-! ## The route in the direction of a bus -/

/-- The start of the line of `b` in the direction of `b`: the line's end when
the bus is reversed. -/
def dirStart {A : Arith} (sc : Scene A) (b : bus A) : String :=
  if b.reversed then (lineAt sc b.lineno).end_ else (lineAt sc b.lineno).start

/-- The end of the line of `b` in the direction of `b`. -/
def dirEnd {A : Arith} (sc : Scene A) (b : bus A) : String :=
  if b.reversed then (lineAt sc b.lineno).start else (lineAt sc b.lineno).end_

/-- The via-sequence of the line of `b` in the direction of `b`. -/
def dirVia {A : Arith} (sc : Scene A) (b : bus A) : List String :=
  if b.reversed then (lineAt sc b.lineno).stopsAt.reverse else (lineAt sc b.lineno).stopsAt

/-- A scene with one line whose via-sequence names the stop `X` twice. -/
def sceneLoop : Scene gridArith :=
  mkScene [] [] [(1, mkLine 1 "S" ["X", "Y", "X"] "E")] []

/-- A bus of line 1 that has `last` as its last station. -/
def busAt (last : String) (reversed : Bool) : bus gridArith :=
  { mkBus 1 0 0 "S" "E" false with lastStation := last, reversed := reversed }

/-! ## Selection and the route editor -/

/-- The engine part of `struct container`: what `renderedItems` holds for the
item under the cursor. -/
structure container where
  type : String
  stringKey : String
  intKey : Int
  deriving DecidableEq

/-- `Scene::selectLine`. -/
def selectLine {A : Arith} (sc : Scene A) (key : Int) : Bool × Scene A :=
  if qcontains sc.lines key then (true, { sc with selectedLine := some key })
  else (false, sc)

/-- `Scene::selectLineViaBus`. -/
def selectLineViaBus {A : Arith} (sc : Scene A) (key : Int) : Bool × Scene A :=
  match qfind sc.buses key with
  | none => (false, sc)
  | some b =>
    if qcontains sc.lines b.lineno then (true, { sc with selectedLine := some b.lineno })
    else (false, sc)

/-- `Scene::selectStreet`. -/
def selectStreet {A : Arith} (sc : Scene A) (key : String) : Bool × Scene A :=
  if qcontains sc.streets key then (true, { sc with selectedStreet := some key })
  else (false, sc)

/-- `Scene::deselectStreet`. -/
def deselectStreet {A : Arith} (sc : Scene A) : Scene A := { sc with selectedStreet := none }

/-- `Scene::setEditMode`. -/
def setEditMode {A : Arith} (sc : Scene A) (val : Bool) : Scene A :=
  let sc1 := { sc with editMode := val }
  if !val then deselectLine sc1 else sc1

/-- `Scene::mousePressEvent`, engine state only: `ctrl` is the control
modifier, `item` the container of the first selected item after the base class
has handled the event (`none` when nothing is selected). -/
def mousePressEvent {A : Arith} (sc : Scene A) (ctrl : Bool) (item : Option container) :
    Scene A :=
  if ctrl then sc
  else
    match item with
    | some cont =>
      if cont.type = "" then sc
      else if cont.type = "street" then
        if sc.editMode = false then (selectStreet sc cont.stringKey).2 else sc
      else if cont.type = "stop" then
        let sc1 := deselectStreet sc
        if sc1.editMode = false then sc1
        else if sc1.routeEditTemp.contains cont.stringKey then sc1
        else { sc1 with routeEditTemp := sc1.routeEditTemp ++ [cont.stringKey] }
      else if cont.type = "line" then
        let sc1 := deselectStreet sc
        if sc1.editMode = false then (selectLine sc1 cont.intKey).2 else sc1
      else if cont.type = "bus" then
        let sc1 := deselectStreet sc
        if sc1.editMode = false then (selectLineViaBus sc1 cont.intKey).2 else sc1
      else sc
    | none =>
      if sc.editMode = false then deselectStreet (deselectLine sc) else sc

/-- The operations of the route editor. -/
inductive EditOp where
  /-- `setEditMode(true)` -/
  | begin
  /-- a mouse press (without the control modifier) on the given item -/
  | press (item : Option container)
  /-- `saveEdit()` -/
  | commit
  /-- `setEditMode(false)` -/
  | cancel
  deriving DecidableEq

/-- One editor operation. -/
def editStep {A : Arith} (sc : Scene A) : EditOp → Scene A
  | EditOp.begin => setEditMode sc true
  | EditOp.press item => mousePressEvent sc false item
  | EditOp.commit => (saveEdit sc).2
  | EditOp.cancel => setEditMode sc false

/-- A sequence of editor operations. -/
def runEdits {A : Arith} (sc : Scene A) (ops : List EditOp) : Scene A :=
  ops.foldl editStep sc

/-- The container of a stop. -/
def stopItem (name : String) : Option container :=
  some { type := "stop", stringKey := name, intKey := 0 }

/-- One element of the array `json["lines"]`, as `Scene::loadLines` reads it. -/
structure lineObj where
  no : Int
  color : String
  start : String
  goes : List String
  end_ : String
  deriving DecidableEq

/-- `Scene::loadLines`, from the parsed array. -/
def loadLines (lines : List (Int × line)) (objs : List lineObj) : List (Int × line) :=
  objs.foldl (fun m o => qinsert intLt m o.no
    { no := o.no, color := o.color, start := o.start, startOriginal := o.start,
      stopsAt := o.goes, stopsAtOriginal := o.goes, end_ := o.end_, endOriginal := o.end_,
      pathLines := [] }) lines

/-- Body of `for (auto& bus : buses)` in `Scene::resetVehicles`; `s.2` holds
the buses already passed. -/
def resetVehicle {A : Arith} (s : Scene A × List (Int × bus A)) (e : Int × bus A) :
    Scene A × List (Int × bus A) :=
  let sc1 := touchLine s.1 e.2.lineno
  let l := lineAt sc1 e.2.lineno
  let sc2 := touchStop sc1 l.start
  let st := stopAt sc2 l.start
  let b1 : bus A :=
    { e.2 with
      pos_x := A.dOfInt st.coord.1, pos_y := A.dOfInt st.coord.2, d := A.fToD A.fZero,
      reversed := false, startStation := l.start, lastStation := l.start,
      endStation := l.end_, headingStation := "", currStreet := "", visited := [],
      halt := false, slow := 1 }
  let r := getPath sc2 b1
  (r.2.1, s.2 ++ [(e.1, { r.2.2 with path := r.1, wait := e.2.initWait })])

/-- `Scene::resetVehicles`. -/
def resetVehicles {A : Arith} (sc : Scene A) : Scene A :=
  let r := sc.buses.foldl resetVehicle (sc, [])
  { r.1 with buses := r.2 }

/-- `Scene::resetLines`. -/
def resetLines {A : Arith} (sc : Scene A) : Scene A :=
  resetVehicles
    { sc with
      lines := sc.lines.map fun e =>
        (e.1, { e.2 with start := e.2.startOriginal, stopsAt := e.2.stopsAtOriginal,
                         end_ := e.2.endOriginal, pathLines := [] }) }

/-- Only mid nodes of blocked streets are obstacles. -/
def ClearInv {A : Arith} (sc : Scene A) : Prop :=
  ∀ c, (nodeAt sc.p.nodesMap c).obstacle = true →
    ∃ e ∈ sc.streets, e.2.isBlocked = true ∧ c ∈ e.2.mid

/-- Every line of the map has the route it was loaded with: `start`, `stopsAt`
and `end` equal the `Original` members. -/
def AsLoaded (m : List (Int × line)) : Prop :=
  ∀ e ∈ m, e.2.start = e.2.startOriginal ∧ e.2.stopsAt = e.2.stopsAtOriginal ∧
    e.2.end_ = e.2.endOriginal

/-- Every line of `m` is still in `m'`, with the same `Original` members. -/
def KeepOrig (m m' : List (Int × line)) : Prop :=
  ∀ k l, qfind m k = some l → ∃ l', qfind m' k = some l' ∧
    l'.startOriginal = l.startOriginal ∧ l'.stopsAtOriginal = l.stopsAtOriginal ∧
    l'.endOriginal = l.endOriginal

/-- A scene right after `loadLines` has read two lines. -/
def sceneLines : Scene gridArith :=
  { sceneGap with
    lines := loadLines []
      [{ no := 1, color := "red", start := "A", goes := ["B"], end_ := "C" },
       { no := 2, color := "blue", start := "B", goes := [], end_ := "A" }] }

/-- The container of a line. -/
def lineItem (key : Int) : Option container :=
  some { type := "line", stringKey := "", intKey := key }

/-- What `getPath` for a bus of line `lineno` leaves alone besides the frame:
the other lines, and what a lookup in `stops` reads. -/
structure PathFrame {A : Arith} (lineno : Int) (sc sc' : Scene A) : Prop where
  others : ∀ k, k ≠ lineno → qfind sc'.lines k = qfind sc.lines k
  stopRead : ∀ k, stopAt sc' k = stopAt sc k

/-- The bus as `saveEdit` sets it up before it calls `getPath`: at the new
start stop, not reversed, with its initial wait and an empty visited window. -/
def routeBus {A : Arith} (sc : Scene A) (start finish : String) (b : bus A) : bus A :=
  { b with
    startStation := start, lastStation := start, endStation := finish,
    pos_x := A.dOfInt (stopAt sc start).coord.1,
    pos_y := A.dOfInt (stopAt sc start).coord.2,
    visited := [], slow := 0, wait := b.initWait, reversed := false }

/-- The scene `sceneLines` with one bus on each line, in edit mode with line 1
selected and the provisional list `B, A`. -/
def sceneBus : Scene gridArith :=
  { sceneLines with
    editMode := true, selectedLine := some 1, routeEditTemp := ["B", "A"],
    buses := [(0, mkBus 1 0 0 "A" "C" false), (1, mkBus 2 10 0 "B" "A" false)] }

/-- The extra node of the segment, at `segMid`, has exactly the two ends of the
segment as its neighbours. -/
def MidOk {A : Arith} (m : List (Point × Node A)) (seg : Segment) : Prop :=
  qcontains m (segMid seg) = true ∧
  ((nodeAt m (segMid seg)).neighbours = [(seg.1, seg.2.1), (seg.2.2.1, seg.2.2.2)] ∨
   (nodeAt m (segMid seg)).neighbours = [(seg.2.2.1, seg.2.2.2), (seg.1, seg.2.1)])

/-- The nodes at the two ends of the segment have the extra node of the
segment, at `segMid`, among their neighbours. -/
def EndsLinked {A : Arith} (m : List (Point × Node A)) (seg : Segment) : Prop :=
  segMid seg ∈ (nodeAt m (seg.1, seg.2.1)).neighbours ∧
  segMid seg ∈ (nodeAt m (seg.2.2.1, seg.2.2.2)).neighbours

/-! ## The point sequence of a route -/

/-- The local variable `path` of `Scene::getPath` at the point where the
segments are made from it. -/
def getPathPoints {A : Arith} (sc : Scene A) (b : bus A) : List Point :=
  let sc1 := touchLine sc b.lineno
  let l := lineAt sc1 b.lineno
  let sc2 := touchStop sc1 l.start
  let start0 := (stopAt sc2 l.start).coord
  let sc3 := touchStop sc2 l.end_
  let end0 := (stopAt sc3 l.end_).coord
  let start := if b.reversed then end0 else start0
  let finish := if b.reversed then start0 else end0
  let s := viaLegs sc3 b l.stopsAt start
  s.path ++ getSolution (solveAStar (loadGoal s.sc.p s.start finish))

/-- The nodes `getSolution` walks through, from `p` along the parent pointers,
for at most `fuel` nodes. -/
def chainFrom {A : Arith} (m : List (Point × Node A)) : Nat → Point → List Point
  | 0, _ => []
  | fuel + 1, p =>
    match (nodeAt m p).parent with
    | some q => p :: chainFrom m fuel q
    | none => [p]

/-- A walk along neighbour links: every point is a neighbour of the one before it. -/
def Walk {A : Arith} (m : List (Point × Node A)) (w : List Point) : Prop :=
  w.Chain' fun a b => b ∈ (nodeAt m a).neighbours

/-- The sequence `getSolution` returns after `loadGoal(u, v)` and `solveAStar`. -/
def solution {A : Arith} (g : Pathfinding A) (u v : Point) : List Point :=
  getSolution (solveAStar (loadGoal g u v))

/-- The legs `sol u v` between consecutive coordinates of `cs`, joined as
`getPath` joins them: every leg but the last without its last point. -/
def joinLegs (sol : Point → Point → List Point) : List Point → List Point
  | [] => []
  | [_] => []
  | u :: v :: rest =>
    match rest with
    | [] => sol u v
    | _ :: _ => (sol u v).dropLast ++ joinLegs sol (v :: rest)

/-- The coordinates of the stops of a line: start, via-stops, end. -/
def routeCoords {A : Arith} (sc : Scene A) (lineno : Int) : List Point :=
  (stations (lineAt sc lineno)).map fun n => (stopAt sc n).coord

/-- Three stops in a row: `A` `(0,0)`, `B` `(10,0)` and `C` `(20,0)`, joined by
the streets `s` and `t`; line 1 runs from `A` over `B` to `C`. -/
def sceneStraight : Scene gridArith :=
  mkScene [("A", { name := "A", linesNo := [], coord := (0, 0) }),
           ("B", { name := "B", linesNo := [], coord := (10, 0) }),
           ("C", { name := "C", linesNo := [], coord := (20, 0) })]
    [("s", mkStreet "s" [(0, 0, 10, 0)]), ("t", mkStreet "t" [(10, 0, 20, 0)])]
    [(1, mkLine 1 "A" ["B"] "C")]
    [(0, 0), (10, 0), (20, 0)]

/-! ## The graph behind a node map -/

/-- What a node map holds besides the search fields `visited`, `parent`,
`localGoal` and `globalGoal`: the key, the coordinates, the neighbour list and
the obstacle flag of every entry, in map order. -/
def graphPart {A : Arith} (m : List (Point × Node A)) :
    List (Point × Int × Int × List Point × Bool) :=
  m.map fun e => (e.1, e.2.x, e.2.y, e.2.neighbours, e.2.obstacle)

/-- The state in which `solveAStar` enters its `while` loop: the node map after
the reset loop and the two writes to the start node, and `notTestedNodes`
holding the start node. -/
def searchStart {A : Arith} (m : List (Point × Node A)) (start finish : Point) : Search A :=
  let m0 := resetSearch m
  let m1 := qmodify m0 start fun n =>
    { n with localGoal := A.fZero }
  let m2 := qmodify m1 start fun n =>
    { n with globalGoal := distance n (nodeAt m1 finish) }
  { nodes := m2, notTested := [start] }

/-- The graph of `sceneGap` with the node `(5,0)` marked as an obstacle. -/
def graphBlocked : Pathfinding gridArith := (setNodeObstacle sceneGap.p (5, 0) true).2

/-- The state of the search for `start` and `finish` on `g` after `n` passes of
the `while` loop of `solveAStar` (the last state, if the loop is left before). -/
def searchAfter {A : Arith} (g : Pathfinding A) (start finish : Point) (n : Nat) : Search A :=
  searchLoop finish n (searchStart (loadGoal g start finish).nodesMap start finish)

/-! ## The turn at the end station -/

/-- One street between the stops `B` `(0,0)` and `A` `(10,0)`; line 1 runs from
`A` to `B`. -/
def sceneTurn : Scene gridArith :=
  { mkScene [("A", { name := "A", linesNo := [], coord := (10, 0) }),
             ("B", { name := "B", linesNo := [], coord := (0, 0) })]
      [("s", mkStreet "s" [(0, 0, 10, 0)])]
      [(1, mkLine 1 "A" [] "B")]
      [(10, 0), (0, 0)] with
    stopsReversed := [((0, 0), { name := "B", linesNo := [], coord := (0, 0) }),
                      ((10, 0), { name := "A", linesNo := [], coord := (10, 0) })] }

/-- A bus of line 1 of `sceneTurn` that has arrived at the end stop `B`. -/
def busArrived : bus gridArith :=
  { mkBus 1 0 0 "A" "B" false with lastStation := "B" }

/-- The fields of a bus that say which way it runs on its line, and its wait. -/
structure SameRoute {A : Arith} (b b' : bus A) : Prop where
  lineno : b'.lineno = b.lineno
  reversed : b'.reversed = b.reversed
  startStation : b'.startStation = b.startStation
  endStation : b'.endStation = b.endStation
  wait : b'.wait = b.wait

/-- The scene `sceneBus` with the provisional list `A, B`: line 1 is about to
be saved as the line from `A` to `B`. -/
def sceneSave : Scene gridArith := { sceneBus with routeEditTemp := ["A", "B"] }

/-! ## The point sequence of a route, leg by leg -/

/-- The coordinates of the stops of the line of `b` in the direction of `b`:
start, via-stops, end for a bus that is not reversed, the reverse otherwise. -/
def dirCoords {A : Arith} (sc : Scene A) (b : bus A) : List Point :=
  if b.reversed then (routeCoords sc b.lineno).reverse else routeCoords sc b.lineno

/-- The legs after the first one, each without its first point. -/
def laterLegs (sol : Point → Point → List Point) : List Point → List Point
  | [] => []
  | [_] => []
  | u :: v :: rest => (sol u v).tail ++ laterLegs sol (v :: rest)

/-- The first leg followed by every later leg without its first point. -/
def joinTails (sol : Point → Point → List Point) : List Point → List Point
  | [] => []
  | [_] => []
  | u :: v :: rest => sol u v ++ laterLegs sol (v :: rest)

/-- The sequence `path` passes the coordinates `cs` in this order (two
consecutive coordinates that are equal may be passed at the same place). -/
inductive InOrder : List Point → List Point → Prop
  | nil (path : List Point) : InOrder path []
  | cons (l1 l2 : List Point) (c : Point) (cs : List Point) :
      InOrder (c :: l2) cs → InOrder (l1 ++ c :: l2) (c :: cs)

/-! ## Machine arithmetic of the midpoint, and the size of the graph -/

/-- The coordinate of the extra node on one axis as the machine computes it in
`loadPaths`: `int` subtraction and addition wrap to 32 bits, `/` truncates. -/
def midCoordInt (a b : Int) : Int :=
  if a ≥ b then wrapInt (Int.tdiv (wrapInt (a - b)) 2 + b)
  else wrapInt (Int.tdiv (wrapInt (b - a)) 2 + a)

/-- All segments of all streets, in map order. -/
def allSegs (streets : List (String × street)) : List Segment :=
  streets.flatMap fun e => e.2.pathLines

/-- The two ends of every segment. -/
def segEnds (segs : List Segment) : List Point :=
  segs.flatMap fun p => [(p.1, p.2.1), (p.2.2.1, p.2.2.2)]

/-- The keys of the map are strictly ascending, as in a `QMap`. -/
def KeysAsc {A : Arith} (m : List (Point × Node A)) : Prop :=
  (qkeys m).Pairwise fun a b => pointLt a b = true

/-- `loadPoints` followed by `loadPaths` on a new `Pathfinding` object, as in
`Scene::loadAll`. -/
def build (A : Arith) (pts : List Point) (streets : List (String × street)) :
    Pathfinding A × List (String × street) × List Point :=
  loadPaths (loadPoints (Pathfinding.empty A) pts) streets pts

/-- What the build keeps true of the node map and of `points` when every
segment end is a start point (`pts` are the start points, `segs` the segments
of all streets): every node sits under its own coordinate, every start point
has a node, the keys ascend, every node is a start point or the integer
midpoint of a segment, and every coordinate in `points` has a node. -/
structure BuildInv {A : Arith} (pts : List Point) (segs : List Segment)
    (m : List (Point × Node A)) (points : List Point) : Prop where
  wf : NodesWf m
  starts : ∀ c ∈ pts, qcontains m c = true
  asc : KeysAsc m
  origin : ∀ c, qcontains m c = true → c ∈ pts ∨ c ∈ segs.map segMid
  known : ∀ c ∈ points, qcontains m c = true

/-- Running `loadPoints` and `loadPaths` again on the object `g`. -/
def rebuild {A : Arith} (g : Pathfinding A) (points : List Point)
    (streets : List (String × street)) : Pathfinding A :=
  (loadPaths (loadPoints g points) streets points).1

/-- What a second run of the build keeps true of the node map `m`, `g1` being
the node map before it: every node sits under its own coordinate, the keys are
those of `g1`, and the neighbour list of every node is the one in `g1` with
further neighbours appended, none where the node is not an end of a segment. -/
structure RebuildInv {A : Arith} (segs : List Segment) (g1 m : List (Point × Node A)) :
    Prop where
  wf : NodesWf m
  keys : qkeys m = qkeys g1
  grown : ∀ k, ∃ extra, (nodeAt m k).neighbours = (nodeAt g1 k).neighbours ++ extra ∧
    (k ∉ segEnds segs → extra = [])

/-- The start points of `sceneGap`. -/
def gapPoints : List Point := [(0, 0), (10, 0), (20, 20)]

/-- The streets of `sceneGap` as loaded. -/
def gapStreets : List (String × street) := [("s", mkStreet "s" [(0, 0, 10, 0)])]

/-! ## The extra node and the integer midpoint -/

/-- The integer midpoint of a segment: on each axis the mean of the two ends,
rounded down. -/
def intMid (seg : Segment) : Point :=
  ((seg.1 + seg.2.2.1) / 2, (seg.2.1 + seg.2.2.2) / 2)

/-- The ends of the segment are `int` coordinates, and their difference on
each axis is in `int` range. -/
abbrev SegInRange (seg : Segment) : Prop :=
  (InInt seg.1 ∧ InInt seg.2.2.1 ∧ seg.1 - seg.2.2.1 < 2 ^ 31 ∧ seg.2.2.1 - seg.1 < 2 ^ 31) ∧
  (InInt seg.2.1 ∧ InInt seg.2.2.2 ∧ seg.2.1 - seg.2.2.2 < 2 ^ 31 ∧ seg.2.2.2 - seg.2.1 < 2 ^ 31)

/-- One street `s` whose ends `(-2000000000, 0)` and `(2000000000, 0)` are
further apart than the `int` range. -/
def sceneFar : Scene gridArith :=
  mkScene [] [("s", mkStreet "s" [(-2000000000, 0, 2000000000, 0)])] []
    [(-2000000000, 0), (2000000000, 0)]

/-! ## Whole numbers in binary32 -/

theorem wrapInt_range (v : Int) : -(2 ^ 31) ≤ wrapInt v ∧ wrapInt v < 2 ^ 31 := by
  unfold wrapInt
  norm_num
  omega

theorem wrapInt_of_range (v : Int) (h : InInt v) : wrapInt v = v := by
  obtain ⟨h1, h2⟩ := h
  unfold wrapInt
  norm_num at h1 h2 ⊢
  omega

theorem midCoord_exact (a b : Int) (ha : InInt a) (hb : InInt b)
    (hd : a - b < 2 ^ 31 ∧ b - a < 2 ^ 31) :
    midCoord a b = if a ≥ b then (a - b) / 2 + b else (b - a) / 2 + a := by
  obtain ⟨ha1, ha2⟩ := ha
  obtain ⟨hb1, hb2⟩ := hb
  obtain ⟨hd1, hd2⟩ := hd
  unfold midCoord wrapInt
  norm_num at ha1 ha2 hb1 hb2 hd1 hd2 ⊢
  split
  · rename_i hab
    have h1 : (a - b + 2147483648) % 4294967296 - 2147483648 = a - b := by omega
    rw [h1, Int.tdiv_eq_ediv (by omega) (by omega)]
    omega
  · rename_i hab
    have h1 : (b - a + 2147483648) % 4294967296 - 2147483648 = b - a := by omega
    rw [h1, Int.tdiv_eq_ediv (by omega) (by omega)]
    omega

theorem midCoord_floor (a b : Int) (ha : InInt a) (hb : InInt b)
    (hd : a - b < 2 ^ 31 ∧ b - a < 2 ^ 31) :
    midCoord a b = min a b + (max a b - min a b) / 2 ∧ midCoord a b = (a + b) / 2 ∧
    min a b ≤ midCoord a b ∧ midCoord a b ≤ max a b := by
  rw [midCoord_exact a b ha hb hd]
  split
  · rename_i h
    rw [min_eq_right h, max_eq_left h]
    omega
  · rename_i h
    have h' : a ≤ b := by omega
    rw [min_eq_left h', max_eq_right h']
    omega

theorem segMid_intMid (seg : Segment) (h : SegInRange seg) : segMid seg = intMid seg := by
  obtain ⟨⟨a1, a2, a3, a4⟩, b1, b2, b3, b4⟩ := h
  unfold segMid intMid
  rw [(midCoord_floor seg.1 seg.2.2.1 a1 a2 ⟨a3, a4⟩).2.1,
    (midCoord_floor seg.2.1 seg.2.2.2 b1 b2 ⟨b3, b4⟩).2.1]


section QMapLemmas

variable {κ α : Type} [DecidableEq κ]

theorem qfind_qinsert_self (lt : κ → κ → Bool) (m : List (κ × α)) (k : κ) (v : α) :
    qfind (qinsert lt m k v) k = some v := by
  induction m with
  | nil => simp [qinsert, qfind]
  | cons e t ih =>
    obtain ⟨k', v'⟩ := e
    by_cases h : k' = k
    · simp [qinsert, qfind, h]
    · by_cases h2 : lt k k' = true
      · simp [qinsert, qfind, h, h2]
      · simp [qinsert, qfind, h, h2, ih]

theorem qfind_qinsert_ne (lt : κ → κ → Bool) (m : List (κ × α)) (k k1 : κ) (v : α)
    (hne : k1 ≠ k) : qfind (qinsert lt m k v) k1 = qfind m k1 := by
  induction m with
  | nil => simp [qinsert, qfind, Ne.symm hne]
  | cons e t ih =>
    obtain ⟨k', v'⟩ := e
    by_cases h : k' = k
    · subst h
      simp [qinsert, qfind, Ne.symm hne]
    · by_cases h2 : lt k k' = true
      · simp [qinsert, qfind, h, h2, Ne.symm hne]
      · by_cases h3 : k' = k1
        · subst h3
          simp [qinsert, qfind, h, h2]
        · simp [qinsert, qfind, h, h2, h3, ih]

theorem qfind_qmodify_self (m : List (κ × α)) (k : κ) (f : α → α) :
    qfind (qmodify m k f) k = (qfind m k).map f := by
  induction m with
  | nil => simp [qmodify, qfind]
  | cons e t ih =>
    obtain ⟨k', v'⟩ := e
    by_cases h : k' = k
    · simp [qmodify, qfind, h]
    · simp [qmodify, qfind, h, ih]

theorem qfind_qmodify_ne (m : List (κ × α)) (k k1 : κ) (f : α → α) (hne : k1 ≠ k) :
    qfind (qmodify m k f) k1 = qfind m k1 := by
  induction m with
  | nil => simp [qmodify, qfind]
  | cons e t ih =>
    obtain ⟨k', v'⟩ := e
    by_cases h : k' = k
    · subst h
      simp [qmodify, qfind, Ne.symm hne]
    · by_cases h3 : k' = k1
      · subst h3
        simp [qmodify, qfind, h]
      · simp [qmodify, qfind, h, h3, ih]

theorem qfind_qindex_self (lt : κ → κ → Bool) (d : α) (m : List (κ × α)) (k : κ) :
    qfind (qindex lt d m k) k = some ((qfind m k).getD d) := by
  unfold qindex qcontains
  cases h : qfind m k with
  | none => simp [qfind_qinsert_self]
  | some v => simp [h]

theorem qfind_qindex_ne (lt : κ → κ → Bool) (d : α) (m : List (κ × α)) (k k1 : κ)
    (hne : k1 ≠ k) : qfind (qindex lt d m k) k1 = qfind m k1 := by
  unfold qindex
  split
  · rfl
  · exact qfind_qinsert_ne lt m k k1 d hne

theorem qget_qindex (lt : κ → κ → Bool) (d : α) (m : List (κ × α)) (k k1 : κ) :
    qget d (qindex lt d m k) k1 = qget d m k1 := by
  unfold qget
  by_cases h : k1 = k
  · subst h
    rw [qfind_qindex_self]
    rfl
  · rw [qfind_qindex_ne lt d m k k1 h]

end QMapLemmas

theorem blockLoop_noop {A : Arith} (flag : Bool) (key : String) (p : Pathfinding A)
    (streets : List (String × street)) (st : street)
    (h : streetNamed streets key = some st) (hb : st.isBlocked = flag) :
    blockLoop flag key p streets = (true, p, streets) := by
  induction streets with
  | nil => simp [streetNamed] at h
  | cons e t ih =>
    obtain ⟨k, s⟩ := e
    by_cases hn : s.name = key
    · simp [streetNamed, List.find?, hn] at h
      subst h
      simp [blockLoop, hn, hb]
    · simp [streetNamed, List.find?, hn] at h
      have := ih (by simpa [streetNamed] using h)
      simp [blockLoop, hn, this]

theorem blockLoop_named {A : Arith} (flag : Bool) (key : String) (p : Pathfinding A)
    (streets : List (String × street)) (st : street)
    (h : streetNamed streets key = some st) :
    streetNamed (blockLoop flag key p streets).2.2 key = some { st with isBlocked := flag } := by
  induction streets with
  | nil => simp [streetNamed] at h
  | cons e t ih =>
    obtain ⟨k, s⟩ := e
    by_cases hn : s.name = key
    · simp [streetNamed, List.find?, hn] at h
      subst h
      by_cases hb : s.isBlocked = flag
      · simp [blockLoop, hn, hb, streetNamed, List.find?]
        cases s; simp_all
      · simp [blockLoop, hn, hb, streetNamed, List.find?]
    · simp [streetNamed, List.find?, hn] at h
      have := ih (by simpa [streetNamed] using h)
      simpa [blockLoop, hn, streetNamed, List.find?] using this

theorem blockLoop_none {A : Arith} (flag : Bool) (key : String) (p : Pathfinding A)
    (streets : List (String × street)) (h : streetNamed streets key = none) :
    blockLoop flag key p streets = (false, p, streets) := by
  induction streets with
  | nil => simp [blockLoop]
  | cons e t ih =>
    obtain ⟨k, s⟩ := e
    by_cases hn : s.name = key
    · simp [streetNamed, List.find?, hn] at h
    · simp [streetNamed, List.find?, hn] at h
      have := ih (by simpa [streetNamed] using h)
      simp [blockLoop, hn, this]

theorem blockLoop_twice {A : Arith} (flag : Bool) (key : String) (p : Pathfinding A)
    (streets : List (String × street)) :
    (blockLoop flag key (blockLoop flag key p streets).2.1 (blockLoop flag key p streets).2.2).2
      = (blockLoop flag key p streets).2 := by
  cases h : streetNamed streets key with
  | none => simp [blockLoop_none flag key p streets h]
  | some st =>
    have h1 := blockLoop_named flag key p streets st h
    rw [blockLoop_noop flag key _ _ _ h1 rfl]

/-- C10: blocking a street that is already blocked returns `true` and changes
nothing, and blocking twice gives the state of blocking once; the same for
unblocking a street that is not blocked. -/
theorem blockStreet_idempotent {A : Arith} (sc : Scene A) (k : String) :
    (∀ st, streetNamed sc.streets k = some st → st.isBlocked = true →
        blockStreet sc k = (true, sc)) ∧
    (blockStreet (blockStreet sc k).2 k).2 = (blockStreet sc k).2 ∧
    (∀ st, streetNamed sc.streets k = some st → st.isBlocked = false →
        unblockStreet sc k = (true, sc)) ∧
    (unblockStreet (unblockStreet sc k).2 k).2 = (unblockStreet sc k).2 := by
  refine ⟨?_, ?_, ?_, ?_⟩
  · intro st h hb
    simp [blockStreet, blockLoop_noop true k sc.p sc.streets st h hb]
  · simp only [blockStreet]
    rw [blockLoop_twice]
  · intro st h hb
    simp [unblockStreet, blockLoop_noop false k sc.p sc.streets st h hb]
  · simp only [unblockStreet]
    rw [blockLoop_twice]

/-- C7: with fewer than two stops in the provisional list `saveEdit` returns
`false` and leaves the lines and the buses as they were. -/
theorem saveEdit_short {A : Arith} (sc : Scene A) (h : sc.routeEditTemp.length < 2) :
    (saveEdit sc).1 = false ∧ (saveEdit sc).2.lines = sc.lines ∧
      (saveEdit sc).2.buses = sc.buses := by
  unfold saveEdit
  cases sc.selectedLine with
  | none => simp [deselectLine]
  | some sel => simp [h, deselectLine]

theorem sameRoutes_refl (m : List (Int × line)) : SameRoutes m m :=
  ⟨fun _ l h => ⟨l.pathLines, by simpa using h⟩, fun k => ⟨(qget line.zero m k).pathLines, rfl⟩⟩

theorem sameRoutes_trans {m1 m2 m3 : List (Int × line)} (h12 : SameRoutes m1 m2)
    (h23 : SameRoutes m2 m3) : SameRoutes m1 m3 := by
  constructor
  · intro k l h
    obtain ⟨pl, h2⟩ := h12.found k l h
    obtain ⟨pl3, h3⟩ := h23.found k _ h2
    exact ⟨pl3, by simpa using h3⟩
  · intro k
    obtain ⟨pl, h2⟩ := h12.read k
    obtain ⟨pl3, h3⟩ := h23.read k
    exact ⟨pl3, by rw [h3, h2]⟩

theorem sameRoutes_qindex (m : List (Int × line)) (k : Int) :
    SameRoutes m (qindex intLt line.zero m k) := by
  constructor
  · intro k1 l h
    refine ⟨l.pathLines, ?_⟩
    by_cases hk : k1 = k
    · subst hk
      rw [qfind_qindex_self, h]
      rfl
    · rw [qfind_qindex_ne _ _ _ _ _ hk, h]
  · intro k1
    exact ⟨_, by rw [qget_qindex]⟩

theorem sameRoutes_qmodify (m : List (Int × line)) (k : Int) (r : List Segment) :
    SameRoutes m (qmodify m k fun l => { l with pathLines := r }) := by
  constructor
  · intro k1 l h
    by_cases hk : k1 = k
    · subst hk
      exact ⟨r, by rw [qfind_qmodify_self, h]; rfl⟩
    · exact ⟨l.pathLines, by rw [qfind_qmodify_ne _ _ _ _ hk, h]⟩
  · intro k1
    unfold qget
    by_cases hk : k1 = k
    · subst hk
      rw [qfind_qmodify_self]
      cases qfind m k1 with
      | none => exact ⟨line.zero.pathLines, rfl⟩
      | some l => exact ⟨r, rfl⟩
    · rw [qfind_qmodify_ne _ _ _ _ hk]
      exact ⟨_, rfl⟩

theorem sceneFrame_refl {A : Arith} (sc : Scene A) : SceneFrame sc sc :=
  ⟨sameRoutes_refl _, rfl, rfl, rfl, rfl, rfl, rfl, rfl, rfl, rfl, rfl, rfl, rfl⟩

theorem sceneFrame_trans {A : Arith} {a b c : Scene A} (h1 : SceneFrame a b)
    (h2 : SceneFrame b c) : SceneFrame a c :=
  ⟨sameRoutes_trans h1.routes h2.routes, h2.interval_ms.trans h1.interval_ms,
    h2.speed.trans h1.speed, h2.waitStop.trans h1.waitStop,
    h2.waitBeforeStart.trans h1.waitBeforeStart, h2.editMode.trans h1.editMode,
    h2.selectedLine.trans h1.selectedLine, h2.selectedStreet.trans h1.selectedStreet,
    h2.routeEditTemp.trans h1.routeEditTemp, h2.streets.trans h1.streets,
    h2.stopsReversed.trans h1.stopsReversed, h2.buses.trans h1.buses,
    h2.points.trans h1.points⟩

theorem sceneFrame_touchLine {A : Arith} (sc : Scene A) (k : Int) :
    SceneFrame sc (touchLine sc k) :=
  ⟨sameRoutes_qindex sc.lines k, rfl, rfl, rfl, rfl, rfl, rfl, rfl, rfl, rfl, rfl, rfl, rfl⟩

theorem sceneFrame_touchStop {A : Arith} (sc : Scene A) (k : String) :
    SceneFrame sc (touchStop sc k) :=
  ⟨sameRoutes_refl _, rfl, rfl, rfl, rfl, rfl, rfl, rfl, rfl, rfl, rfl, rfl, rfl⟩

theorem sceneFrame_setP {A : Arith} (sc : Scene A) (p : Pathfinding A) :
    SceneFrame sc { sc with p := p } :=
  ⟨sameRoutes_refl _, rfl, rfl, rfl, rfl, rfl, rfl, rfl, rfl, rfl, rfl, rfl, rfl⟩

theorem sceneFrame_setPathLines {A : Arith} (sc : Scene A) (k : Int) (r : List Segment) :
    SceneFrame sc { sc with lines := qmodify sc.lines k fun l => { l with pathLines := r } } :=
  ⟨sameRoutes_qmodify _ _ _, rfl, rfl, rfl, rfl, rfl, rfl, rfl, rfl, rfl, rfl, rfl, rfl⟩

theorem viaLeg_frame {A : Arith} (s : Legs A) (key : String) :
    SceneFrame s.sc (viaLeg s key).sc := by
  unfold viaLeg
  exact sceneFrame_trans (sceneFrame_touchStop _ _) (sceneFrame_setP _ _)

theorem viaLegFold_frame {A : Arith} (mid : List String) (s : Legs A) :
    SceneFrame s.sc (mid.foldl viaLeg s).sc := by
  induction mid generalizing s with
  | nil => exact sceneFrame_refl _
  | cons k t ih => exact sceneFrame_trans (viaLeg_frame s k) (ih _)

theorem viaLeg_halt {A : Arith} (s : Legs A) (key : String) (h : s.halt = true) :
    (viaLeg s key).halt = true := by
  simp [viaLeg, h]

theorem viaLegFold_halt {A : Arith} (mid : List String) (s : Legs A) (h : s.halt = true) :
    (mid.foldl viaLeg s).halt = true := by
  induction mid generalizing s with
  | nil => exact h
  | cons k t ih => exact ih _ (viaLeg_halt s k h)

theorem viaLegs_frame {A : Arith} (sc : Scene A) (b : bus A) (mid0 : List String)
    (start : Point) : SceneFrame sc (viaLegs sc b mid0 start).sc := by
  unfold viaLegs
  split
  · exact sceneFrame_refl _
  · exact viaLegFold_frame _ { sc := sc, halt := b.halt, path := [(0, 0)], start := start }

theorem viaLegs_halt {A : Arith} (sc : Scene A) (b : bus A) (mid0 : List String)
    (start : Point) (h : b.halt = true) : (viaLegs sc b mid0 start).halt = true := by
  unfold viaLegs
  split
  · exact h
  · exact viaLegFold_halt _ { sc := sc, halt := b.halt, path := [(0, 0)], start := start } h

theorem lastLeg_frame {A : Arith} (s : Legs A) (b : bus A) (startSaved finish : Point) :
    SceneFrame s.sc (lastLeg s b startSaved finish).2.1 := by
  unfold lastLeg
  refine sceneFrame_trans
    (sceneFrame_setP s.sc (solveAStar (loadGoal s.sc.p s.start finish))) ?_
  refine sceneFrame_trans (sceneFrame_touchLine _ b.lineno) ?_
  exact sceneFrame_setPathLines _ _ _

theorem lastLeg_bus {A : Arith} (s : Legs A) (b : bus A) (startSaved finish : Point) :
    (lastLeg s b startSaved finish).2.2 =
      { b with halt := (lastLeg s b startSaved finish).2.2.halt } := rfl

theorem lastLeg_halt {A : Arith} (s : Legs A) (b : bus A) (startSaved finish : Point)
    (h : s.halt = true) : (lastLeg s b startSaved finish).2.2.halt = true := by
  simp [lastLeg, h]

theorem getPath_frame {A : Arith} (sc : Scene A) (b : bus A) :
    SceneFrame sc (getPath sc b).2.1 := by
  unfold getPath
  dsimp only
  refine sceneFrame_trans ?_ (lastLeg_frame _ _ _ _)
  refine sceneFrame_trans ?_ (viaLegs_frame _ _ _ _)
  refine sceneFrame_trans ?_ (sceneFrame_touchStop _ _)
  refine sceneFrame_trans ?_ (sceneFrame_touchStop _ _)
  exact sceneFrame_touchLine sc b.lineno

theorem getPath_bus {A : Arith} (sc : Scene A) (b : bus A) :
    (getPath sc b).2.2 = { b with halt := (getPath sc b).2.2.halt } := by
  unfold getPath
  exact lastLeg_bus _ _ _ _

theorem getPath_halt {A : Arith} (sc : Scene A) (b : bus A) (h : b.halt = true) :
    (getPath sc b).2.2.halt = true := by
  unfold getPath
  exact lastLeg_halt _ _ _ _ (viaLegs_halt _ _ _ _ h)

theorem saveEditBus_frame {A : Arith} (sel : Int) (start finish : String)
    (s : Scene A × List (Int × bus A)) (e : Int × bus A) :
    SceneFrame s.1 (saveEditBus sel start finish s e).1 := by
  unfold saveEditBus
  split
  · exact sceneFrame_trans (sceneFrame_touchStop _ _) (getPath_frame _ _)
  · exact sceneFrame_refl _

theorem saveEditFold_frame {A : Arith} (sel : Int) (start finish : String)
    (bs : List (Int × bus A)) (s : Scene A × List (Int × bus A)) :
    SceneFrame s.1 (bs.foldl (saveEditBus sel start finish) s).1 := by
  induction bs generalizing s with
  | nil => exact sceneFrame_refl _
  | cons e t ih => exact sceneFrame_trans (saveEditBus_frame sel start finish s e) (ih _)

theorem route_split (l : List String) (h : 2 ≤ l.length) :
    l.headD "" :: ((l.drop 1).dropLast ++ [l.getLastD ""]) = l ∧
      l.head? = some (l.headD "") ∧ l.getLast? = some (l.getLastD "") := by
  match l, h with
  | a :: b :: t, _ =>
    have hne : (b :: t) ≠ [] := by simp
    refine ⟨?_, by simp, ?_⟩
    · have := List.dropLast_append_getLast hne
      simp only [List.headD_cons, List.drop_one, List.tail_cons]
      rw [List.getLastD_cons, List.getLastD_eq_getLast?]
      rw [List.getLast?_eq_getLast _ hne]
      simpa using this
    · rw [List.getLast?_eq_getLast _ (by simp), List.getLastD_eq_getLast?,
        List.getLast?_eq_getLast _ (by simp)]
      rfl

/-- C6: with at least two stops in the provisional list and a selected line,
`saveEdit` returns `true`; afterwards the line starts at the first stop of the
list, ends at its last stop, has the stops in between as `stopsAt`, and the
provisional list is empty. -/
theorem saveEdit_commit {A : Arith} (sc : Scene A) (sel : Int) (l0 : line)
    (hsel : sc.selectedLine = some sel) (hl : qfind sc.lines sel = some l0)
    (hlen : 2 ≤ sc.routeEditTemp.length) :
    (saveEdit sc).1 = true ∧
    (∃ l1, qfind (saveEdit sc).2.lines sel = some l1 ∧
      sc.routeEditTemp.head? = some l1.start ∧
      sc.routeEditTemp.getLast? = some l1.end_ ∧
      l1.stopsAt = (sc.routeEditTemp.drop 1).dropLast ∧
      l1.start :: (l1.stopsAt ++ [l1.end_]) = sc.routeEditTemp) ∧
    (saveEdit sc).2.routeEditTemp = [] := by
  have hlt : ¬ sc.routeEditTemp.length < 2 := by omega
  obtain ⟨hsplit, hhead, hlast⟩ := route_split sc.routeEditTemp hlen
  have hfr := saveEditFold_frame sel
    (sc.routeEditTemp.headD "") (sc.routeEditTemp.getLastD "") sc.buses
    (setRoute sc sel (sc.routeEditTemp.headD "") (sc.routeEditTemp.getLastD "")
      (sc.routeEditTemp.drop 1).dropLast, [])
  have hq : qfind (setRoute sc sel (sc.routeEditTemp.headD "") (sc.routeEditTemp.getLastD "")
      (sc.routeEditTemp.drop 1).dropLast).lines sel =
      some { l0 with start := sc.routeEditTemp.headD "", end_ := sc.routeEditTemp.getLastD "",
                     stopsAt := (sc.routeEditTemp.drop 1).dropLast } := by
    simp only [setRoute]
    rw [qfind_qmodify_self, hl]
    rfl
  obtain ⟨pl, hpl⟩ := hfr.routes.found sel _ hq
  unfold saveEdit
  rw [hsel]
  simp only [hlt, if_false]
  refine ⟨trivial, ⟨_, hpl, ?_⟩, hfr.routeEditTemp⟩
  exact ⟨hhead, hlast, rfl, hsplit⟩

theorem sceneFrame_stations {A : Arith} {sc sc' : Scene A} (h : SceneFrame sc sc') (k : Int) :
    stations (lineAt sc' k) = stations (lineAt sc k) := by
  obtain ⟨pl, hpl⟩ := h.routes.read k
  unfold lineAt
  rw [hpl]
  rfl

theorem turnAround_frame {A : Arith} (sc : Scene A) (b : bus A) :
    SceneFrame sc (turnAround sc b).1 := by
  unfold turnAround
  exact sceneFrame_trans (sceneFrame_touchLine sc b.lineno) (getPath_frame _ _)

theorem getBusHeadingTo_frame {A : Arith} (sc : Scene A) (b : bus A) :
    SceneFrame sc (getBusHeadingTo sc b).2 := by
  unfold getBusHeadingTo
  exact sceneFrame_touchLine sc b.lineno

theorem reachPoint_frame {A : Arith} (sc : Scene A) (b : bus A) (point : Point) :
    SceneFrame sc (reachPoint sc b point).1 := by
  unfold reachPoint
  dsimp only
  refine sceneFrame_trans ?_ (getBusHeadingTo_frame _ _)
  split
  · exact sceneFrame_touchLine sc b.lineno
  · exact sceneFrame_refl _

theorem streetFold_pos {A : Arith} (l : List (String × street)) (b : bus A) :
    (l.foldl streetOf b).pos_x = b.pos_x ∧ (l.foldl streetOf b).pos_y = b.pos_y ∧
    (l.foldl streetOf b).halt = b.halt ∧ (l.foldl streetOf b).lineno = b.lineno ∧
    (l.foldl streetOf b).lastStation = b.lastStation ∧
    (l.foldl streetOf b).headingStation = b.headingStation ∧
    (l.foldl streetOf b).endStation = b.endStation := by
  induction l generalizing b with
  | nil => simp
  | cons e t ih =>
    simp only [List.foldl_cons]
    obtain ⟨h1, h2, h3, h4, h5, h6, h7⟩ := ih (streetOf b e)
    rw [h1, h2, h3, h4, h5, h6, h7]
    unfold streetOf
    dsimp only
    split <;> simp

theorem tickTurn_halted {A : Arith} (sc : Scene A) (b : bus A) (hb : b.halt = true) :
    Halted b (tickTurn sc b).2 := by
  unfold tickTurn
  split
  · unfold turnAround
    dsimp only
    rw [getPath_bus]
    exact ⟨rfl, rfl, getPath_halt _ _ hb⟩
  · exact ⟨rfl, rfl, hb⟩

theorem tickPoint_halted {A : Arith} (r : Scene A × bus A) (step : A.D) (b : bus A)
    (h : Halted b r.2) : Halted b (tickPoint r step).2 := by
  unfold tickPoint
  split
  · exact h
  · split
    · exact h
    · exact ⟨h.pos_x, h.pos_y, h.halt⟩

theorem tickMove_halted {A : Arith} (r : Scene A × bus A) (step : A.D) (b : bus A)
    (h : Halted b r.2) : Halted b (tickMove r step).2 := by
  unfold tickMove
  split
  · exact h
  · split
    · rename_i hf
      rw [h.halt] at hf
      exact absurd hf (by simp)
    · exact h

/-- What one tick keeps of a halted bus. -/
theorem setNewPosition_halted {A : Arith} (sc : Scene A) (b : bus A) (step : A.D)
    (hb : b.halt = true) : Halted b (setNewPosition sc b step).2 := by
  unfold setNewPosition
  split
  · exact ⟨rfl, rfl, hb⟩
  · exact tickMove_halted _ _ _ (tickPoint_halted _ _ _ (tickTurn_halted sc b hb))

theorem ticks_halted {A : Arith} (ts : List (Scene A × A.D)) (b0 b : bus A)
    (h : Halted b0 b) : Halted b0 (ticks b ts) := by
  induction ts generalizing b with
  | nil => exact h
  | cons t rest ih =>
    have h1 := setNewPosition_halted t.1 b t.2 h.halt
    exact ih _ ⟨h1.pos_x.trans h.pos_x, h1.pos_y.trans h.pos_y, h1.halt⟩

theorem indexOf_some (a : String) (l : List String) (i : Nat) (h : indexOf a l = some i) :
    l[i]? = some a := by
  induction l generalizing i with
  | nil => simp [indexOf] at h
  | cons x t ih =>
    unfold indexOf at h
    split at h
    · rename_i hx
      simp at h
      subst h
      simp [hx]
    · cases ht : indexOf a t with
      | none => simp [ht] at h
      | some j =>
        simp [ht] at h
        subst h
        simpa using ih j ht

theorem indexOf_none (a : String) (l : List String) (h : indexOf a l = none) : a ∉ l := by
  induction l with
  | nil => simp
  | cons x t ih =>
    unfold indexOf at h
    split at h
    · simp at h
    · rename_i hx
      simp at h
      simp [ih h, Ne.symm hx]

theorem next_mem (l : List String) (i : Nat) (a : String) (h : l[i]? = some a)
    (hne : l[i]? ≠ l.getLast?) : l[i + 1]?.getD "" ∈ l := by
  have hi : i < l.length := by
    by_contra hc
    rw [List.getElem?_eq_none (by omega)] at h
    cases h
  have hi1 : i + 1 < l.length := by
    by_contra hc
    apply hne
    rw [List.getLast?_eq_getElem?]
    congr 1
    omega
  rw [List.getElem?_eq_getElem hi1]
  simp

theorem getBusHeadingTo_station {A : Arith} (sc : Scene A) (b : bus A)
    (h1 : b.lastStation ∈ stations (lineAt sc b.lineno))
    (h2 : b.endStation ∈ stations (lineAt sc b.lineno)) :
    (getBusHeadingTo sc b).1 ∈ stations (lineAt sc b.lineno) := by
  unfold getBusHeadingTo
  dsimp only
  have hl : lineAt (touchLine sc b.lineno) b.lineno = lineAt sc b.lineno := by
    unfold lineAt touchLine
    exact qget_qindex _ _ _ _ _
  rw [hl]
  generalize lineAt sc b.lineno = l at h1 h2 ⊢
  have hS : ∀ x, x ∈ (if b.reversed = true then l.stopsAt.reverse else l.stopsAt) →
      x ∈ stations l := by
    intro x hx
    have : x ∈ l.stopsAt := by
      split at hx
      · simpa using hx
      · exact hx
    simp [stations, this]
  have hs : (if b.reversed = true then l.end_ else l.start) ∈ stations l := by
    split <;> simp [stations]
  have he : (if b.reversed = true then l.start else l.end_) ∈ stations l := by
    split <;> simp [stations]
  have h3 : b.lastStation = (if b.reversed = true then l.end_ else l.start) ∨
      b.lastStation = (if b.reversed = true then l.start else l.end_) ∨
      b.lastStation ∈ (if b.reversed = true then l.stopsAt.reverse else l.stopsAt) := by
    simp only [stations, List.mem_cons, List.mem_append, List.mem_singleton] at h1
    cases hr : b.reversed <;> simp <;> tauto
  generalize (if b.reversed = true then l.stopsAt.reverse else l.stopsAt) = V at hS h3 ⊢
  generalize (if b.reversed = true then l.end_ else l.start) = S at hs h3 ⊢
  generalize (if b.reversed = true then l.start else l.end_) = E at he h3 ⊢
  split
  · cases hV : V.head? with
    | none => simpa using he
    | some s => exact hS s (List.mem_of_mem_head? hV)
  · split
    · cases hV : V.getLast? with
      | none => simpa using hs
      | some s => exact hS s (List.mem_of_mem_getLast? hV)
    · rename_i hnS hnE
      cases hi : indexOf b.lastStation V with
      | none =>
        exfalso
        have hnot := indexOf_none _ _ hi
        tauto
      | some i =>
        dsimp only
        split
        · exact h2
        · rename_i hne
          exact hS _ (next_mem V i _ (indexOf_some _ _ _ hi) hne)

theorem reachPoint_stations {A : Arith} (sc : Scene A) (b : bus A) (point : Point)
    (h : StationsOk sc b) : StationsOk (reachPoint sc b point).1 (reachPoint sc b point).2 := by
  obtain ⟨h1, h2, h3⟩ := h
  have hfr := reachPoint_frame sc b point
  unfold StationsOk
  have hln : (reachPoint sc b point).2.lineno = b.lineno := rfl
  rw [hln, sceneFrame_stations hfr]
  unfold reachPoint
  dsimp only
  have hsc1 : ∀ sc1 : Scene A,
      sc1 = (if qcontains sc.stopsReversed point = true then touchLine sc b.lineno else sc) →
      lineAt sc1 b.lineno = lineAt sc b.lineno := by
    intro sc1 hsc1
    subst hsc1
    split
    · unfold lineAt touchLine
      exact qget_qindex _ _ _ _ _
    · rfl
  generalize (if qcontains sc.stopsReversed point = true then touchLine sc b.lineno else sc)
    = sc1 at hsc1 ⊢
  have hl := hsc1 sc1 rfl
  rw [hl]
  have hlast : (if qcontains sc.stopsReversed point = true ∧
        ((lineAt sc b.lineno).start = (qget stop.zero sc.stopsReversed point).name ∨
         (lineAt sc b.lineno).end_ = (qget stop.zero sc.stopsReversed point).name ∨
         (qget stop.zero sc.stopsReversed point).name ∈ (lineAt sc b.lineno).stopsAt)
        then (qget stop.zero sc.stopsReversed point).name else b.lastStation) ∈
      stations (lineAt sc b.lineno) := by
    split
    · rename_i hc
      obtain ⟨_, hc | hc | hc⟩ := hc
      · rw [← hc]; simp [stations]
      · rw [← hc]; simp [stations]
      · simp [stations, hc]
    · exact h1
  refine ⟨hlast, ?_, h3⟩
  have := getBusHeadingTo_station sc1
    { b with
      visited := (if b.visited.isEmpty then b.visited else b.visited.drop 1) ++ [point]
      lastStation := (if qcontains sc.stopsReversed point = true ∧
        ((lineAt sc b.lineno).start = (qget stop.zero sc.stopsReversed point).name ∨
         (lineAt sc b.lineno).end_ = (qget stop.zero sc.stopsReversed point).name ∨
         (qget stop.zero sc.stopsReversed point).name ∈ (lineAt sc b.lineno).stopsAt)
        then (qget stop.zero sc.stopsReversed point).name else b.lastStation) }
    (by rw [hl]; exact hlast) (by rw [hl]; exact h3)
  rw [hl] at this
  exact this

theorem turnAround_stations {A : Arith} (sc : Scene A) (b : bus A)
    (h : StationsOk sc b) : StationsOk (turnAround sc b).1 (turnAround sc b).2 := by
  obtain ⟨h1, h2, h3⟩ := h
  have hfr := turnAround_frame sc b
  unfold StationsOk
  have hln : (turnAround sc b).2.lineno = b.lineno := by
    unfold turnAround
    dsimp only
    rw [getPath_bus]
  have hl : lineAt (touchLine sc b.lineno) b.lineno = lineAt sc b.lineno := by
    unfold lineAt touchLine
    exact qget_qindex _ _ _ _ _
  rw [hln, sceneFrame_stations hfr]
  unfold turnAround
  dsimp only
  rw [getPath_bus, hl]
  refine ⟨h1, h2, ?_⟩
  dsimp only
  split <;> simp [stations]

theorem setNewPosition_stations {A : Arith} (sc : Scene A) (b : bus A) (step : A.D)
    (h : StationsOk sc b) :
    StationsOk (setNewPosition sc b step).1 (setNewPosition sc b step).2 := by
  unfold setNewPosition
  split
  · exact h
  · have h1 : StationsOk (tickTurn sc b).1 (tickTurn sc b).2 := by
      unfold tickTurn
      split
      · exact turnAround_stations sc b h
      · exact h
    generalize tickTurn sc b = r1 at h1
    have h2 : StationsOk (tickPoint r1 step).1 (tickPoint r1 step).2 := by
      unfold tickPoint
      split
      · exact h1
      · split
        · exact h1
        · exact reachPoint_stations _ _ _ h1
    generalize tickPoint r1 step = r2 at h2
    unfold tickMove
    split
    · exact h2
    · split
      · unfold StationsOk moveBus
        dsimp only
        obtain ⟨e1, e2, e3, e4, e5, e6, e7⟩ := streetFold_pos r2.1.streets
          { r2.2 with
            pos_x := A.dAdd r2.2.pos_x (A.dMul (A.dDiv step (A.dOfInt r2.2.slow)) (A.cos r2.2.d))
            pos_y := A.dAdd r2.2.pos_y (A.dMul (A.dDiv step (A.dOfInt r2.2.slow)) (A.sin r2.2.d)) }
        rw [e4, e5, e6, e7]
        exact h2
      · exact h2

theorem ticksFrom_stations {A : Arith} (steps : List A.D) (s : Scene A × bus A)
    (h : StationsOk s.1 s.2) :
    StationsOk (ticksFrom s steps).1 (ticksFrom s steps).2 := by
  induction steps generalizing s with
  | nil => exact h
  | cons step rest ih => exact ih _ (setNewPosition_stations s.1 s.2 step h)

/-- C5: a halted bus keeps its position and stays halted over any number of
ticks, whatever the scenes and the steps are; and when its `lastStation`,
`headingStation` and `endStation` name stations of its line (start, via-stop or
end), they still do after any number of ticks. -/
theorem halted_bus_stays {A : Arith} (b : bus A) (hb : b.halt = true) :
    (∀ sc step, (setNewPosition sc b step).2.pos_x = b.pos_x ∧
      (setNewPosition sc b step).2.pos_y = b.pos_y ∧
      (setNewPosition sc b step).2.halt = true) ∧
    (∀ ts, (ticks b ts).pos_x = b.pos_x ∧ (ticks b ts).pos_y = b.pos_y ∧
      (ticks b ts).halt = true) ∧
    (∀ sc steps, StationsOk sc b →
      StationsOk (ticksFrom (sc, b) steps).1 (ticksFrom (sc, b) steps).2) := by
  refine ⟨?_, ?_, ?_⟩
  · intro sc step
    have h := setNewPosition_halted sc b step hb
    exact ⟨h.pos_x, h.pos_y, h.halt⟩
  · intro ts
    have h := ticks_halted ts b b ⟨rfl, rfl, hb⟩
    exact ⟨h.pos_x, h.pos_y, h.halt⟩
  · intro sc steps h
    exact ticksFrom_stations steps (sc, b) h

/-- Witness for `saveEdit_short`: a single stop in the provisional list. -/
theorem saveEdit_short_witness :
    (sceneEdit ["A"]).routeEditTemp.length < 2 ∧
    (saveEdit (sceneEdit ["A"])).1 = false ∧
    (saveEdit (sceneEdit ["A"])).2.lines = (sceneEdit ["A"]).lines ∧
    (saveEdit (sceneEdit ["A"])).2.buses = (sceneEdit ["A"]).buses :=
  ⟨by decide, saveEdit_short (sceneEdit ["A"]) (by decide)⟩

/-- Witness for `saveEdit_commit`: the route `C, B, A` committed to line 1. -/
theorem saveEdit_commit_witness :
    (saveEdit (sceneEdit ["C", "B", "A"])).1 = true ∧
    (∃ l1, qfind (saveEdit (sceneEdit ["C", "B", "A"])).2.lines 1 = some l1 ∧
      (sceneEdit ["C", "B", "A"]).routeEditTemp.head? = some l1.start ∧
      (sceneEdit ["C", "B", "A"]).routeEditTemp.getLast? = some l1.end_ ∧
      l1.stopsAt = ((sceneEdit ["C", "B", "A"]).routeEditTemp.drop 1).dropLast ∧
      l1.start :: (l1.stopsAt ++ [l1.end_]) = (sceneEdit ["C", "B", "A"]).routeEditTemp) ∧
    (saveEdit (sceneEdit ["C", "B", "A"])).2.routeEditTemp = [] :=
  saveEdit_commit (sceneEdit ["C", "B", "A"]) 1 (mkLine 1 "A" ["B"] "C") rfl rfl (by decide)

/-- Witness for `halted_bus_stays`: a halted bus at stop `A` of `sceneGap`. -/
theorem halted_bus_stays_witness :
    (mkBus 1 0 0 "A" "C" true).halt = true ∧
    (ticks (mkBus 1 0 0 "A" "C" true)
        [(sceneGap, gridArith.dOfInt 1), (sceneGap, gridArith.dOfInt 4)]).pos_x =
      (mkBus 1 0 0 "A" "C" true).pos_x :=
  ⟨rfl, ((halted_bus_stays (mkBus 1 0 0 "A" "C" true) rfl).2.1
    [(sceneGap, gridArith.dOfInt 1), (sceneGap, gridArith.dOfInt 4)]).1⟩

set_option maxRecDepth 100000 in
/-- C4 at a failing input: line 1 of `sceneGap` runs `A`, `B`, `C`, and no
street leads to `C`; `getPath` returns the path `A`, `(5,0)`, `C` and leaves
`halt = false`, although the leg from `B` to `C` has no path (its solution is
the single point `C`). -/
theorem getPath_misses_last_leg :
    getSolution (solveAStar (loadGoal sceneGap.p (10, 0) (20, 20))) = [(20, 20)] ∧
    (getPath sceneGap (mkBus 1 0 0 "A" "C" false)).1 = [(0, 0, 5, 0), (5, 0, 20, 20)] ∧
    (getPath sceneGap (mkBus 1 0 0 "A" "C" false)).2.2.halt = false := by
  decide

set_option maxRecDepth 100000 in
/-- C8 fails as stated, in two ways. Street `b` of `sceneCross` has the segment
`(0,10)-(10,0)` with midpoint `(5,5)`, a node that was created for street `a`;
`blockStreet("b")` returns `true` and leaves that node with `obstacle = false`.
Street `s` of `sceneFar` has the segment `(-2000000000,0)-(2000000000,0)` with
the integer midpoint `(0,0)`; the `int` difference of the ends overflows, the
extra node is at `(-2147483648,0)`, and after `blockStreet("s")`, which returns
`true`, there is no node at `(0,0)`. -/
theorem blockStreet_shared_midpoint :
    ((streetNamed sceneCross.streets "b").map (fun st => st.pathLines) = some [(0, 10, 10, 0)] ∧
      segMid (0, 10, 10, 0) = (5, 5) ∧
      qcontains sceneCross.p.nodesMap (5, 5) = true ∧
      (blockStreet sceneCross "b").1 = true ∧
      (nodeAt (blockStreet sceneCross "b").2.p.nodesMap (5, 5)).obstacle = false) ∧
    ((streetNamed sceneFar.streets "s").map (fun st => st.pathLines) =
        some [(-2000000000, 0, 2000000000, 0)] ∧
      intMid (-2000000000, 0, 2000000000, 0) = (0, 0) ∧
      segMid (-2000000000, 0, 2000000000, 0) = (-2147483648, 0) ∧
      qkeys sceneFar.p.nodesMap = [(-2147483648, 0), (-2000000000, 0), (2000000000, 0)] ∧
      (blockStreet sceneFar "s").1 = true ∧
      qcontains (blockStreet sceneFar "s").2.p.nodesMap (0, 0) = false ∧
      (nodeAt (blockStreet sceneFar "s").2.p.nodesMap (0, 0)).obstacle = false) := by
  decide

section QMapKeys
variable {κ α : Type} [DecidableEq κ]

theorem qcontains_qinsert (lt : κ → κ → Bool) (m : List (κ × α)) (k k1 : κ) (v : α) :
    qcontains (qinsert lt m k v) k1 = (decide (k1 = k) || qcontains m k1) := by
  unfold qcontains
  by_cases h : k1 = k
  · subst h
    simp [qfind_qinsert_self]
  · simp [qfind_qinsert_ne lt m k k1 v h, h]

theorem qcontains_qmodify (m : List (κ × α)) (k k1 : κ) (f : α → α) :
    qcontains (qmodify m k f) k1 = qcontains m k1 := by
  unfold qcontains
  by_cases h : k1 = k
  · subst h
    rw [qfind_qmodify_self]
    cases qfind m k1 <;> rfl
  · rw [qfind_qmodify_ne m k k1 f h]

theorem qcontains_qindex (lt : κ → κ → Bool) (d : α) (m : List (κ × α)) (k k1 : κ) :
    qcontains (qindex lt d m k) k1 = (decide (k1 = k) || qcontains m k1) := by
  unfold qindex
  by_cases hc : qcontains m k = true
  · simp only [hc, if_true]
    by_cases h : k1 = k
    · subst h
      simp [hc]
    · simp [h]
  · simp only [hc]
    exact qcontains_qinsert lt m k k1 d

theorem qindex_of_contains (lt : κ → κ → Bool) (d : α) (m : List (κ × α)) (k : κ)
    (h : qcontains m k = true) : qindex lt d m k = m := by
  simp [qindex, h]

theorem mem_qinsert (lt : κ → κ → Bool) (m : List (κ × α)) (k : κ) (v : α) (e : κ × α)
    (h : e ∈ qinsert lt m k v) : e = (k, v) ∨ e ∈ m := by
  induction m with
  | nil => simpa [qinsert] using h
  | cons x t ih =>
    obtain ⟨k', v'⟩ := x
    unfold qinsert at h
    split at h
    · simp only [List.mem_cons] at h ⊢
      tauto
    · split at h
      · simp only [List.mem_cons] at h ⊢
        tauto
      · simp only [List.mem_cons] at h ⊢
        rcases h with h | h
        · tauto
        · have := ih h
          tauto

theorem mem_qmodify (m : List (κ × α)) (k : κ) (f : α → α) (e : κ × α)
    (h : e ∈ qmodify m k f) : e ∈ m ∨ ∃ v, (k, v) ∈ m ∧ e = (k, f v) := by
  induction m with
  | nil => simp [qmodify] at h
  | cons x t ih =>
    obtain ⟨k', v'⟩ := x
    unfold qmodify at h
    split at h
    · rename_i hk
      subst hk
      simp only [List.mem_cons] at h ⊢
      rcases h with h | h
      · exact Or.inr ⟨v', Or.inl rfl, h⟩
      · tauto
    · simp only [List.mem_cons] at h ⊢
      rcases h with h | h
      · tauto
      · rcases ih h with h1 | ⟨v, hv, he⟩
        · tauto
        · exact Or.inr ⟨v, Or.inr hv, he⟩

theorem qcontains_of_mem (m : List (κ × α)) (e : κ × α) (h : e ∈ m) :
    qcontains m e.1 = true := by
  induction m with
  | nil => simp at h
  | cons x t ih =>
    obtain ⟨k', v'⟩ := x
    unfold qcontains qfind
    by_cases hk : k' = e.1
    · simp [hk]
    · simp only [hk, if_false]
      rcases List.mem_cons.mp h with h | h
      · subst h
        exact absurd rfl hk
      · exact ih h

theorem qfind_mem (m : List (κ × α)) (k : κ) (v : α) (h : qfind m k = some v) :
    (k, v) ∈ m := by
  induction m with
  | nil => simp [qfind] at h
  | cons x t ih =>
    obtain ⟨k', v'⟩ := x
    unfold qfind at h
    split at h
    · rename_i hk
      subst hk
      simp only [Option.some.injEq] at h
      subst h
      exact List.mem_cons_self _ _
    · exact List.mem_cons_of_mem _ (ih h)

end QMapKeys

theorem attachMid_street {A : Arith} (s : BuildState A) (c other : Point) :
    (attachMid s c other).st.name = s.st.name ∧
    (attachMid s c other).st.pathLines = s.st.pathLines ∧
    (attachMid s c other).st.isBlocked = s.st.isBlocked ∧
    (attachMid s c other).st.traffic = s.st.traffic := by
  unfold attachMid
  dsimp only
  split <;> exact ⟨rfl, rfl, rfl, rfl⟩

theorem attachMid_keys {A : Arith} (s : BuildState A) (c other k : Point)
    (h : qcontains s.g.nodesMap k = true) :
    qcontains (attachMid s c other).g.nodesMap k = true := by
  unfold attachMid
  dsimp only
  split
  · simp [qcontains_qmodify, qcontains_qindex, h]
  · simp [qcontains_qmodify, qcontains_qindex, qcontains_qinsert, h]

theorem attachMid_ginv {A : Arith} (pts done : List Point) (s : BuildState A) (c other : Point)
    (h : GInv pts (done ++ s.st.mid) s.g) :
    GInv pts (done ++ (attachMid s c other).st.mid) (attachMid s c other).g := by
  have hk := attachMid_keys s c other
  by_cases hc : qcontains s.g.nodesMap
      (midCoord (nodeAt s.g.nodesMap c).x other.1, midCoord (nodeAt s.g.nodesMap c).y other.2)
      = true
  · have hm : (attachMid s c other).st.mid = s.st.mid := by
      unfold attachMid
      simp [hc]
    rw [hm]
    exact ⟨fun x hx => hk x (h.keysMid x hx), h.nodup, fun x hx => hk x (h.keysPts x hx),
      h.fresh⟩
  · have hnew : ∀ x ∈ done ++ s.st.mid,
        x ≠ (midCoord (nodeAt s.g.nodesMap c).x other.1,
             midCoord (nodeAt s.g.nodesMap c).y other.2) := by
      intro x hx hxe
      rw [← hxe] at hc
      exact hc (h.keysMid x hx)
    have hnm : (midCoord (nodeAt s.g.nodesMap c).x other.1,
        midCoord (nodeAt s.g.nodesMap c).y other.2) ∉ s.st.mid := by
      intro hin
      exact hnew _ (List.mem_append_right _ hin) rfl
    have hm : (attachMid s c other).st.mid = s.st.mid ++
        [(midCoord (nodeAt s.g.nodesMap c).x other.1,
          midCoord (nodeAt s.g.nodesMap c).y other.2)] := by
      unfold attachMid
      simp [hc, hnm]
    have hin : qcontains (attachMid s c other).g.nodesMap
        (midCoord (nodeAt s.g.nodesMap c).x other.1,
         midCoord (nodeAt s.g.nodesMap c).y other.2) = true := by
      unfold attachMid
      simp [hc, qcontains_qmodify, qcontains_qindex, qcontains_qinsert]
    rw [hm, ← List.append_assoc]
    refine ⟨?_, ?_, fun x hx => hk x (h.keysPts x hx), ?_⟩
    · intro x hx
      rcases List.mem_append.mp hx with hx | hx
      · exact hk x (h.keysMid x hx)
      · rw [List.mem_singleton.mp hx]
        exact hin
    · rw [List.nodup_append]
      refine ⟨h.nodup, List.nodup_singleton _, ?_⟩
      intro x hx hx2
      exact hnew x hx (List.mem_singleton.mp hx2)
    · intro x hx
      rcases List.mem_append.mp hx with hx | hx
      · exact h.fresh x hx
      · rw [List.mem_singleton.mp hx]
        intro hp
        exact hc (h.keysPts _ hp)

theorem visitNode_ginv {A : Arith} (pts done : List Point) (path : Segment) (s : BuildState A)
    (c : Point) (h : GInv pts (done ++ s.st.mid) s.g) :
    GInv pts (done ++ (visitNode path s c).st.mid) (visitNode path s c).g := by
  unfold visitNode
  dsimp only
  split
  · exact attachMid_ginv pts done s c _ h
  · split
    · exact attachMid_ginv pts done s c _ h
    · exact h

theorem visitNode_street {A : Arith} (path : Segment) (s : BuildState A) (c : Point) :
    (visitNode path s c).st.name = s.st.name ∧
    (visitNode path s c).st.pathLines = s.st.pathLines ∧
    (visitNode path s c).st.isBlocked = s.st.isBlocked ∧
    (visitNode path s c).st.traffic = s.st.traffic := by
  unfold visitNode
  dsimp only
  split
  · exact attachMid_street s c _
  · split
    · exact attachMid_street s c _
    · exact ⟨rfl, rfl, rfl, rfl⟩

theorem nodeFold_ginv {A : Arith} (pts done : List Point) (path : Segment) (ks : List Point)
    (s : BuildState A) (h : GInv pts (done ++ s.st.mid) s.g) :
    GInv pts (done ++ (ks.foldl
        (fun s c => if qcontains s.g.nodesMap c then visitNode path s c else s) s).st.mid)
      (ks.foldl (fun s c => if qcontains s.g.nodesMap c then visitNode path s c else s) s).g := by
  induction ks generalizing s with
  | nil => exact h
  | cons c t ih =>
    simp only [List.foldl_cons]
    apply ih
    split
    · exact visitNode_ginv pts done path s c h
    · exact h

theorem nodeFold_street {A : Arith} (path : Segment) (ks : List Point) (s : BuildState A) :
    (ks.foldl (fun s c => if qcontains s.g.nodesMap c then visitNode path s c else s) s).st.name
      = s.st.name ∧
    (ks.foldl (fun s c => if qcontains s.g.nodesMap c then visitNode path s c else s)
      s).st.pathLines = s.st.pathLines ∧
    (ks.foldl (fun s c => if qcontains s.g.nodesMap c then visitNode path s c else s)
      s).st.isBlocked = s.st.isBlocked ∧
    (ks.foldl (fun s c => if qcontains s.g.nodesMap c then visitNode path s c else s)
      s).st.traffic = s.st.traffic := by
  induction ks generalizing s with
  | nil => exact ⟨rfl, rfl, rfl, rfl⟩
  | cons c t ih =>
    simp only [List.foldl_cons]
    obtain ⟨h1, h2, h3, h4⟩ := ih (if qcontains s.g.nodesMap c then visitNode path s c else s)
    rw [h1, h2, h3, h4]
    split
    · exact visitNode_street path s c
    · exact ⟨rfl, rfl, rfl, rfl⟩

theorem loadSegment_ginv {A : Arith} (pts done : List Point) (s : BuildState A) (path : Segment)
    (h : GInv pts (done ++ s.st.mid) s.g) :
    GInv pts (done ++ (loadSegment s path).st.mid) (loadSegment s path).g :=
  nodeFold_ginv pts done path _ s h

theorem loadSegment_street {A : Arith} (s : BuildState A) (path : Segment) :
    (loadSegment s path).st.name = s.st.name ∧
    (loadSegment s path).st.pathLines = s.st.pathLines ∧
    (loadSegment s path).st.isBlocked = s.st.isBlocked ∧
    (loadSegment s path).st.traffic = s.st.traffic :=
  nodeFold_street path _ s

theorem segFold_ginv {A : Arith} (pts done : List Point) (segs : List Segment)
    (s : BuildState A) (h : GInv pts (done ++ s.st.mid) s.g) :
    GInv pts (done ++ (segs.foldl loadSegment s).st.mid) (segs.foldl loadSegment s).g := by
  induction segs generalizing s with
  | nil => exact h
  | cons p t ih => exact ih _ (loadSegment_ginv pts done s p h)

theorem segFold_street {A : Arith} (segs : List Segment) (s : BuildState A) :
    (segs.foldl loadSegment s).st.name = s.st.name ∧
    (segs.foldl loadSegment s).st.pathLines = s.st.pathLines ∧
    (segs.foldl loadSegment s).st.isBlocked = s.st.isBlocked ∧
    (segs.foldl loadSegment s).st.traffic = s.st.traffic := by
  induction segs generalizing s with
  | nil => exact ⟨rfl, rfl, rfl, rfl⟩
  | cons p t ih =>
    simp only [List.foldl_cons]
    obtain ⟨h1, h2, h3, h4⟩ := ih (loadSegment s p)
    rw [h1, h2, h3, h4]
    exact loadSegment_street s p

theorem loadPaths_ginv {A : Arith} (pts : List Point) (streets : List (String × street))
    (g : Pathfinding A) (points done : List Point)
    (hfresh : ∀ e ∈ streets, e.2.mid = []) (h : GInv pts done g) :
    GInv pts (done ++ allMids (loadPaths g streets points).2.1) (loadPaths g streets points).1 := by
  induction streets generalizing g points done with
  | nil => simpa [loadPaths, allMids] using h
  | cons e t ih =>
    obtain ⟨k, st⟩ := e
    have hst : st.mid = [] := hfresh (k, st) (List.mem_cons_self _ _)
    have h1 : GInv pts (done ++ (loadStreet { g := g, st := st, points := points }).st.mid)
        (loadStreet { g := g, st := st, points := points }).g := by
      unfold loadStreet
      apply segFold_ginv
      simpa [hst] using h
    have h2 := ih (loadStreet { g := g, st := st, points := points }).g
      (loadStreet { g := g, st := st, points := points }).points _
      (fun e he => hfresh e (List.mem_cons_of_mem _ he)) h1
    simp only [loadPaths, allMids, List.flatMap_cons]
    rw [← List.append_assoc]
    exact h2

theorem loadPoints_keys {A : Arith} (points : List Point) (g : Pathfinding A) (c : Point)
    (h : c ∈ points ∨ qcontains g.nodesMap c = true) :
    qcontains (loadPoints g points).nodesMap c = true := by
  induction points generalizing g with
  | nil => simpa [loadPoints] using h
  | cons p t ih =>
    simp only [loadPoints, List.foldl_cons]
    apply ih
    by_cases hc : c ∈ t
    · exact Or.inl hc
    · right
      unfold loadPoint
      split
      · rename_i hp
        rcases h with h | h
        · rcases List.mem_cons.mp h with h | h
          · rw [h]; exact hp
          · exact absurd h hc
        · exact h
      · rcases h with h | h
        · rcases List.mem_cons.mp h with h | h
          · simp [qcontains_qinsert, h]
          · exact absurd h hc
        · simp [qcontains_qinsert, h]

/-- The mid lists after the build are pairwise disjoint and hold no start point. -/
theorem build_mids {A : Arith} (pts : List Point) (streets : List (String × street))
    (hfresh : ∀ e ∈ streets, e.2.mid = []) :
    (allMids (loadPaths (loadPoints (Pathfinding.empty A) pts) streets pts).2.1).Nodup ∧
    ∀ c ∈ allMids (loadPaths (loadPoints (Pathfinding.empty A) pts) streets pts).2.1,
      c ∉ pts := by
  have h0 : GInv pts [] (loadPoints (Pathfinding.empty A) pts) :=
    ⟨by simp, List.nodup_nil, fun c hc => loadPoints_keys pts _ c (Or.inl hc), by simp⟩
  have h := loadPaths_ginv pts streets _ pts [] hfresh h0
  simp only [List.nil_append] at h
  exact ⟨h.nodup, h.fresh⟩

theorem setObstacleLoop_find {A : Arith} (m : List (Point × Node A)) (point : Point)
    (flag : Bool) (key : Point) (n : Node A) (h : qfind m key = some n) :
    ∃ n', qfind (setObstacleLoop m point flag).2 key = some n' ∧
      n' = { n with obstacle := n'.obstacle } ∧
      (n'.obstacle ≠ n.obstacle → ((n.x, n.y) : Point) = point) := by
  induction m with
  | nil => simp [qfind] at h
  | cons e t ih =>
    obtain ⟨k, v⟩ := e
    unfold setObstacleLoop
    by_cases hxy : v.x = point.1 ∧ v.y = point.2
    · rw [if_pos hxy]
      dsimp only
      by_cases hk : k = key
      · simp only [qfind, hk, if_true, Option.some.injEq] at h ⊢
        subst h
        exact ⟨_, rfl, rfl, fun _ => Prod.ext hxy.1 hxy.2⟩
      · simp only [qfind, hk, if_false] at h ⊢
        exact ⟨n, h, rfl, fun hne => absurd rfl hne⟩
    · rw [if_neg hxy]
      dsimp only
      by_cases hk : k = key
      · simp only [qfind, hk, if_true, Option.some.injEq] at h ⊢
        subst h
        exact ⟨_, rfl, rfl, fun hne => absurd rfl hne⟩
      · simp only [qfind, hk, if_false] at h ⊢
        exact ih h

theorem obstacleFold_find {A : Arith} (mid : List Point) (flag : Bool) (p : Pathfinding A)
    (key : Point) (n : Node A) (h : qfind p.nodesMap key = some n) :
    ∃ n', qfind (mid.foldl (fun p point => (setNodeObstacle p point flag).2) p).nodesMap key
        = some n' ∧
      n' = { n with obstacle := n'.obstacle } ∧
      (n'.obstacle ≠ n.obstacle → ((n.x, n.y) : Point) ∈ mid) := by
  induction mid generalizing p n with
  | nil => exact ⟨n, h, rfl, fun hne => absurd rfl hne⟩
  | cons c t ih =>
    obtain ⟨n1, h1, e1, o1⟩ := setObstacleLoop_find p.nodesMap c flag key n h
    obtain ⟨n2, h2, e2, o2⟩ := ih (setNodeObstacle p c flag).2 n1 h1
    refine ⟨n2, h2, ?_, ?_⟩
    · rw [e2, e1]
    · intro hne
      by_cases hc : n1.obstacle = n.obstacle
      · have hxy : ((n1.x, n1.y) : Point) = (n.x, n.y) := by rw [e1]
        rw [← hxy]
        exact List.mem_cons_of_mem _ (o2 (by rw [hc]; exact hne))
      · rw [o1 hc]
        exact List.mem_cons_self _ _

theorem blockLoop_find {A : Arith} (flag : Bool) (k : String) (p : Pathfinding A)
    (streets : List (String × street)) (key : Point) (n : Node A)
    (h : qfind p.nodesMap key = some n) :
    ∃ n', qfind (blockLoop flag k p streets).2.1.nodesMap key = some n' ∧
      n' = { n with obstacle := n'.obstacle } ∧
      (n'.obstacle ≠ n.obstacle →
        ∃ st, streetNamed streets k = some st ∧ ((n.x, n.y) : Point) ∈ st.mid) := by
  induction streets with
  | nil => exact ⟨n, h, rfl, fun hne => absurd rfl hne⟩
  | cons e t ih =>
    obtain ⟨key1, st⟩ := e
    unfold blockLoop
    by_cases hn : st.name = k
    · simp only [hn, if_true]
      by_cases hb : st.isBlocked = flag
      · simp only [hb, if_true]
        exact ⟨n, h, rfl, fun hne => absurd rfl hne⟩
      · simp only [hb, if_false]
        obtain ⟨n1, h1, e1, o1⟩ := obstacleFold_find st.mid flag p key n h
        exact ⟨n1, h1, e1, fun hne => ⟨st, by simp [streetNamed, List.find?, hn], o1 hne⟩⟩
    · simp only [hn, if_false]
      obtain ⟨n1, h1, e1, o1⟩ := ih
      refine ⟨n1, h1, e1, fun hne => ?_⟩
      obtain ⟨st1, hs1, hm1⟩ := o1 hne
      exact ⟨st1, by simpa [streetNamed, List.find?, hn] using hs1, hm1⟩

theorem blockLoop_shape {A : Arith} (flag : Bool) (k : String) (p : Pathfinding A)
    (streets : List (String × street)) :
    (blockLoop flag k p streets).2.2.map (fun e => (e.2.name, e.2.mid)) =
      streets.map (fun e => (e.2.name, e.2.mid)) := by
  induction streets with
  | nil => rfl
  | cons e t ih =>
    obtain ⟨key1, st⟩ := e
    unfold blockLoop
    split
    · split <;> rfl
    · simp only [List.map_cons, ih]

theorem toggleStreet_eq {A : Arith} (flag : Bool) (sc : Scene A) (k : String) :
    (toggleStreet flag sc k).2.p = (blockLoop flag k sc.p sc.streets).2.1 ∧
    (toggleStreet flag sc k).2.streets = (blockLoop flag k sc.p sc.streets).2.2 := by
  cases flag <;> exact ⟨rfl, rfl⟩

theorem allMids_shape (l : List (String × street)) :
    allMids l = (l.map (fun e => (e.2.name, e.2.mid))).flatMap Prod.snd := by
  induction l with
  | nil => rfl
  | cons e t ih =>
    simp only [allMids, List.flatMap_cons, List.map_cons] at ih ⊢
    rw [ih]

theorem runBlocks_mids {A : Arith} (ops : List (Bool × String)) (sc : Scene A) :
    allMids (runBlocks sc ops).streets = allMids sc.streets := by
  induction ops generalizing sc with
  | nil => rfl
  | cons op t ih =>
    simp only [runBlocks, List.foldl_cons] at ih ⊢
    rw [ih, allMids_shape, (toggleStreet_eq op.1 sc op.2).2, blockLoop_shape, ← allMids_shape]

theorem streetNamed_mem (streets : List (String × street)) (k : String) (st : street)
    (h : streetNamed streets k = some st) : ∃ key, (key, st) ∈ streets ∧ st.name = k := by
  unfold streetNamed at h
  cases hf : streets.find? (fun e => decide (e.2.name = k)) with
  | none => simp [hf] at h
  | some e =>
    simp only [hf, Option.map_some', Option.some.injEq] at h
    subst h
    exact ⟨e.1, List.mem_of_find?_eq_some hf, by simpa using List.find?_some hf⟩

theorem mids_disjoint (l : List (String × street)) (hn : (allMids l).Nodup)
    (e1 e2 : String × street) (h1 : e1 ∈ l) (h2 : e2 ∈ l) (hne : e1.2.name ≠ e2.2.name)
    (c : Point) (hc1 : c ∈ e1.2.mid) : c ∉ e2.2.mid := by
  unfold allMids at hn
  rw [List.nodup_flatMap] at hn
  have hsym : Symmetric fun (a b : String × street) => List.Disjoint a.2.mid b.2.mid :=
    fun a b hab => hab.symm
  have hd := hn.2.forall hsym h1 h2 (fun he => hne (by rw [he]))
  exact fun hc2 => hd hc1 hc2

/-- C9: `blockStreet(k)` and `unblockStreet(k)` change nothing of a node but the
obstacle flag, and that only when the node's coordinate is in the mid list of
street `k`; after the build the mid lists are pairwise disjoint and hold no
coordinate passed to `loadPoints`; hence, in every state reached from the built
scene by blocking and unblocking, doing so for street `k` leaves the obstacle
flag of every node at a start point and of every node in the mid list of a
street with another name as it is. -/
theorem block_touches_own_mids {A : Arith} :
    (∀ (flag : Bool) (sc : Scene A) (k : String) (key : Point) (n : Node A),
      qfind sc.p.nodesMap key = some n →
      ∃ n', qfind (toggleStreet flag sc k).2.p.nodesMap key = some n' ∧
        n' = { n with obstacle := n'.obstacle } ∧
        (n'.obstacle ≠ n.obstacle →
          ∃ st, streetNamed sc.streets k = some st ∧ ((n.x, n.y) : Point) ∈ st.mid)) ∧
    (∀ (pts : List Point) (streets : List (String × street)),
      (∀ e ∈ streets, e.2.mid = []) →
      (loadPaths (loadPoints (Pathfinding.empty A) pts) streets pts).2.1.Pairwise
          (fun a b => List.Disjoint a.2.mid b.2.mid) ∧
      ∀ e ∈ (loadPaths (loadPoints (Pathfinding.empty A) pts) streets pts).2.1,
        ∀ c ∈ e.2.mid, c ∉ pts) ∧
    (∀ (pts : List Point) (streets : List (String × street)) (sc0 : Scene A)
      (ops : List (Bool × String)) (flag : Bool) (k : String) (key : Point) (n : Node A),
      (∀ e ∈ streets, e.2.mid = []) →
      sc0.streets = (loadPaths (loadPoints (Pathfinding.empty A) pts) streets pts).2.1 →
      qfind (runBlocks sc0 ops).p.nodesMap key = some n →
      (((n.x, n.y) : Point) ∈ pts ∨
        ∃ e ∈ (runBlocks sc0 ops).streets, e.2.name ≠ k ∧ ((n.x, n.y) : Point) ∈ e.2.mid) →
      ∃ n', qfind (toggleStreet flag (runBlocks sc0 ops) k).2.p.nodesMap key = some n' ∧
        n'.obstacle = n.obstacle) := by
  refine ⟨?_, ?_, ?_⟩
  · intro flag sc k key n h
    rw [(toggleStreet_eq flag sc k).1]
    exact blockLoop_find flag k sc.p sc.streets key n h
  · intro pts streets hfresh
    obtain ⟨hnd, hfr⟩ := build_mids (A := A) pts streets hfresh
    constructor
    · unfold allMids at hnd
      exact (List.nodup_flatMap.mp hnd).2
    · intro e he c hc
      exact hfr c (List.mem_flatMap.mpr ⟨e, he, hc⟩)
  · intro pts streets sc0 ops flag k key n hfresh hs0 hq hor
    obtain ⟨hnd, hfr⟩ := build_mids (A := A) pts streets hfresh
    rw [← hs0, ← runBlocks_mids ops sc0] at hnd hfr
    rw [(toggleStreet_eq flag _ k).1]
    obtain ⟨n1, h1, _, o1⟩ := blockLoop_find flag k _ (runBlocks sc0 ops).streets key n hq
    refine ⟨n1, h1, ?_⟩
    by_contra hne
    obtain ⟨st, hst, hmid⟩ := o1 hne
    obtain ⟨key1, hmem, hname⟩ := streetNamed_mem _ _ _ hst
    rcases hor with hp | ⟨e, he, hen, hec⟩
    · exact hfr _ (List.mem_flatMap.mpr ⟨(key1, st), hmem, hmid⟩) hp
    · exact mids_disjoint _ hnd e (key1, st) he hmem (by rw [hname]; exact hen) _ hec hmid

theorem nodesWf_qmodify {A : Arith} (m : List (Point × Node A)) (k : Point)
    (f : Node A → Node A) (hf : ∀ n, (f n).x = n.x ∧ (f n).y = n.y) (h : NodesWf m) :
    NodesWf (qmodify m k f) := by
  intro e he
  rcases mem_qmodify m k f e he with he | ⟨v, hv, rfl⟩
  · exact h e he
  · have := h (k, v) hv
    simp only [(hf v).1, (hf v).2]
    exact this

theorem nodesWf_qinsert {A : Arith} (m : List (Point × Node A)) (k : Point) (v : Node A)
    (hv : ((v.x, v.y) : Point) = k) (h : NodesWf m) : NodesWf (qinsert pointLt m k v) := by
  intro e he
  rcases mem_qinsert pointLt m k v e he with rfl | he
  · exact hv
  · exact h e he

theorem nodeAt_wf {A : Arith} (m : List (Point × Node A)) (k : Point) (h : NodesWf m)
    (hk : qcontains m k = true) : (((nodeAt m k).x, (nodeAt m k).y) : Point) = k := by
  unfold qcontains at hk
  unfold nodeAt qget
  cases hf : qfind m k with
  | none => simp [hf] at hk
  | some v => exact h (k, v) (qfind_mem m k v hf)

theorem attachMid_binv {A : Arith} (pts done : List Point) (s : BuildState A) (c other : Point)
    (hc : qcontains s.g.nodesMap c = true) (ho : other ∈ pts)
    (h : BInv pts (done ++ s.st.mid) s.g) :
    BInv pts (done ++ (attachMid s c other).st.mid) (attachMid s c other).g := by
  refine ⟨attachMid_ginv pts done s c other h.ginv, ?_, ?_⟩
  · have hxy := nodeAt_wf s.g.nodesMap c h.wf hc
    have hoc : qcontains s.g.nodesMap other = true := h.ginv.keysPts other ho
    unfold attachMid
    dsimp only
    split
    · rename_i hnc
      rw [qindex_of_contains _ _ _ _ hnc]
      exact nodesWf_qmodify _ _ _ (fun n => ⟨rfl, rfl⟩) h.wf
    · dsimp only
      refine nodesWf_qmodify _ _ _ ?_ ?_
      · intro n
        exact ⟨rfl, rfl⟩
      rw [qindex_of_contains]
      · refine nodesWf_qinsert _ _ _ rfl ?_
        rw [hxy, qindex_of_contains _ _ _ c (by rw [qcontains_qmodify]; exact hc),
          qindex_of_contains _ _ _ other (by rw [qcontains_qmodify]; exact hoc)]
        exact nodesWf_qmodify _ _ _ (fun n => ⟨rfl, rfl⟩) h.wf
      · simp [qcontains_qinsert]
  · have hxy := nodeAt_wf s.g.nodesMap c h.wf hc
    have hoc : qcontains s.g.nodesMap other = true := h.ginv.keysPts other ho
    intro k hk
    by_cases hnc : qcontains s.g.nodesMap
        (midCoord (nodeAt s.g.nodesMap c).x other.1, midCoord (nodeAt s.g.nodesMap c).y other.2)
        = true
    · have hm : (attachMid s c other).st.mid = s.st.mid := by
        unfold attachMid
        simp [hnc]
      rw [hm]
      apply h.only
      unfold attachMid at hk
      simp only [hnc, if_true, qcontains_qmodify, qindex_of_contains _ _ _ _ hnc] at hk
      exact hk
    · have hnm : (midCoord (nodeAt s.g.nodesMap c).x other.1,
          midCoord (nodeAt s.g.nodesMap c).y other.2) ∉ s.st.mid := by
        intro hin
        exact hnc (h.ginv.keysMid _ (List.mem_append_right _ hin))
      have hm : (attachMid s c other).st.mid = s.st.mid ++
          [(midCoord (nodeAt s.g.nodesMap c).x other.1,
            midCoord (nodeAt s.g.nodesMap c).y other.2)] := by
        unfold attachMid
        simp [hnc, hnm]
      rw [hm]
      unfold attachMid at hk
      simp only [hnc, qcontains_qmodify, qcontains_qindex, qcontains_qinsert, hxy] at hk
      simp only [Bool.false_eq_true, if_false, qcontains_qmodify, qcontains_qindex,
        qcontains_qinsert, Bool.or_eq_true, decide_eq_true_eq] at hk
      rcases hk with hk | hk | hk | hk | hk
      · right; rw [hk]; simp
      · right; rw [hk]; simp
      · rw [hk]; exact Or.inl ho
      · rw [hk]
        rcases h.only c hc with h1 | h1
        · exact Or.inl h1
        · right
          rw [← List.append_assoc]
          exact List.mem_append_left _ h1
      · rcases h.only k hk with h1 | h1
        · exact Or.inl h1
        · right
          rw [← List.append_assoc]
          exact List.mem_append_left _ h1

theorem visitNode_binv {A : Arith} (pts done : List Point) (path : Segment) (s : BuildState A)
    (c : Point) (hc : qcontains s.g.nodesMap c = true) (he : EndsIn pts path)
    (h : BInv pts (done ++ s.st.mid) s.g) :
    BInv pts (done ++ (visitNode path s c).st.mid) (visitNode path s c).g := by
  unfold visitNode
  dsimp only
  split
  · exact attachMid_binv pts done s c _ hc he.2 h
  · split
    · exact attachMid_binv pts done s c _ hc he.1 h
    · exact h

theorem visitNode_keys {A : Arith} (path : Segment) (s : BuildState A) (c k : Point)
    (h : qcontains s.g.nodesMap k = true) :
    qcontains (visitNode path s c).g.nodesMap k = true := by
  unfold visitNode
  dsimp only
  split
  · exact attachMid_keys s c _ k h
  · split
    · exact attachMid_keys s c _ k h
    · exact h

theorem nodeFold_keys {A : Arith} (path : Segment) (ks : List Point) (s : BuildState A)
    (k : Point) (h : qcontains s.g.nodesMap k = true) :
    qcontains (ks.foldl (fun s c => if qcontains s.g.nodesMap c then visitNode path s c else s)
      s).g.nodesMap k = true := by
  induction ks generalizing s with
  | nil => exact h
  | cons c t ih =>
    simp only [List.foldl_cons]
    apply ih
    split
    · exact visitNode_keys path s c k h
    · exact h

theorem nodeFold_binv {A : Arith} (pts done : List Point) (path : Segment) (ks : List Point)
    (s : BuildState A) (he : EndsIn pts path) (h : BInv pts (done ++ s.st.mid) s.g) :
    BInv pts (done ++ (ks.foldl
        (fun s c => if qcontains s.g.nodesMap c then visitNode path s c else s) s).st.mid)
      (ks.foldl (fun s c => if qcontains s.g.nodesMap c then visitNode path s c else s) s).g := by
  induction ks generalizing s with
  | nil => exact h
  | cons c t ih =>
    simp only [List.foldl_cons]
    apply ih
    split
    · rename_i hc
      exact visitNode_binv pts done path s c hc he h
    · exact h

theorem attachMid_has_mid {A : Arith} (s : BuildState A) (c other : Point) :
    qcontains (attachMid s c other).g.nodesMap
      (midCoord (nodeAt s.g.nodesMap c).x other.1, midCoord (nodeAt s.g.nodesMap c).y other.2)
      = true := by
  unfold attachMid
  dsimp only
  split
  · rename_i hnc
    simp [qcontains_qmodify, qcontains_qindex]
  · simp [qcontains_qmodify, qcontains_qindex]

theorem nodeFold_reach {A : Arith} (pts done : List Point) (path : Segment) (ks : List Point)
    (s : BuildState A) (he : EndsIn pts path) (h : BInv pts (done ++ s.st.mid) s.g)
    (hk : ((path.1, path.2.1) : Point) ∈ ks) :
    qcontains (ks.foldl (fun s c => if qcontains s.g.nodesMap c then visitNode path s c else s)
      s).g.nodesMap (segMid path) = true := by
  induction ks generalizing s with
  | nil => simp at hk
  | cons c t ih =>
    simp only [List.foldl_cons]
    by_cases hct : ((path.1, path.2.1) : Point) ∈ t
    · apply ih _ _ hct
      split
      · rename_i hc
        exact visitNode_binv pts done path s c hc he h
      · exact h
    · have hc : c = (path.1, path.2.1) := by
        rcases List.mem_cons.mp hk with hk | hk
        · exact hk.symm
        · exact absurd hk hct
      have hcon : qcontains s.g.nodesMap c = true := by
        rw [hc]
        exact h.ginv.keysPts _ he.1
      apply nodeFold_keys
      rw [if_pos hcon]
      have hxy := nodeAt_wf s.g.nodesMap c h.wf hcon
      have hx : (nodeAt s.g.nodesMap c).x = path.1 := by
        have := congrArg Prod.fst hxy
        simpa [hc] using this
      have hy : (nodeAt s.g.nodesMap c).y = path.2.1 := by
        have := congrArg Prod.snd hxy
        simpa [hc] using this
      unfold visitNode
      dsimp only
      rw [if_pos ⟨hx, hy⟩]
      have := attachMid_has_mid s c (path.2.2.1, path.2.2.2)
      rw [hx, hy] at this
      exact this

theorem mem_insertKey {κ : Type} [DecidableEq κ] (lt : κ → κ → Bool) (l : List κ) (k k1 : κ) :
    k1 ∈ insertKey lt l k ↔ k1 = k ∨ k1 ∈ l := by
  induction l with
  | nil => simp [insertKey]
  | cons x t ih =>
    unfold insertKey
    split
    · rename_i hx
      subst hx
      simp only [List.mem_cons]
      tauto
    · split
      · simp only [List.mem_cons]
      · simp only [List.mem_cons, ih]
        tauto

theorem mem_loopKeys {A : Arith} (m : List (Point × Node A)) (path : Segment) :
    ((path.1, path.2.1) : Point) ∈ loopKeys m path := by
  unfold loopKeys
  simp only [List.foldl_cons, List.foldl_nil, mem_insertKey]
  tauto

theorem loadSegment_binv {A : Arith} (pts done : List Point) (s : BuildState A) (path : Segment)
    (he : EndsIn pts path) (h : BInv pts (done ++ s.st.mid) s.g) :
    BInv pts (done ++ (loadSegment s path).st.mid) (loadSegment s path).g :=
  nodeFold_binv pts done path _ s he h

theorem loadSegment_reach {A : Arith} (pts done : List Point) (s : BuildState A)
    (path : Segment) (he : EndsIn pts path) (h : BInv pts (done ++ s.st.mid) s.g) :
    qcontains (loadSegment s path).g.nodesMap (segMid path) = true :=
  nodeFold_reach pts done path _ s he h (mem_loopKeys _ path)

theorem loadSegment_keys {A : Arith} (s : BuildState A) (path : Segment) (k : Point)
    (h : qcontains s.g.nodesMap k = true) :
    qcontains (loadSegment s path).g.nodesMap k = true :=
  nodeFold_keys path _ s k h

theorem segFold_keys {A : Arith} (segs : List Segment) (s : BuildState A) (k : Point)
    (h : qcontains s.g.nodesMap k = true) :
    qcontains (segs.foldl loadSegment s).g.nodesMap k = true := by
  induction segs generalizing s with
  | nil => exact h
  | cons p t ih => exact ih _ (loadSegment_keys s p k h)

theorem segFold_binv {A : Arith} (pts done : List Point) (segs : List Segment)
    (s : BuildState A) (he : ∀ p ∈ segs, EndsIn pts p) (h : BInv pts (done ++ s.st.mid) s.g) :
    BInv pts (done ++ (segs.foldl loadSegment s).st.mid) (segs.foldl loadSegment s).g ∧
    ∀ p ∈ segs, qcontains (segs.foldl loadSegment s).g.nodesMap (segMid p) = true := by
  induction segs generalizing s with
  | nil => exact ⟨h, by simp⟩
  | cons p t ih =>
    have h1 := loadSegment_binv pts done s p (he p (List.mem_cons_self _ _)) h
    obtain ⟨h2, h3⟩ := ih (loadSegment s p) (fun q hq => he q (List.mem_cons_of_mem _ hq)) h1
    refine ⟨h2, ?_⟩
    intro q hq
    rcases List.mem_cons.mp hq with hq | hq
    · rw [hq]
      exact segFold_keys t _ _ (loadSegment_reach pts done s p (he p (List.mem_cons_self _ _)) h)
    · exact h3 q hq

theorem loadPaths_keys {A : Arith} (streets : List (String × street)) (g : Pathfinding A)
    (points : List Point) (k : Point) (h : qcontains g.nodesMap k = true) :
    qcontains (loadPaths g streets points).1.nodesMap k = true := by
  induction streets generalizing g points with
  | nil => exact h
  | cons e t ih =>
    obtain ⟨key, st⟩ := e
    simp only [loadPaths]
    apply ih
    unfold loadStreet
    exact segFold_keys _ _ k h

theorem loadPaths_binv {A : Arith} (pts : List Point) (streets : List (String × street))
    (g : Pathfinding A) (points done : List Point)
    (hfresh : ∀ e ∈ streets, e.2.mid = [])
    (he : ∀ e ∈ streets, ∀ p ∈ e.2.pathLines, EndsIn pts p) (h : BInv pts done g) :
    BInv pts (done ++ allMids (loadPaths g streets points).2.1) (loadPaths g streets points).1 ∧
    ∀ e ∈ (loadPaths g streets points).2.1, ∀ p ∈ e.2.pathLines,
      qcontains (loadPaths g streets points).1.nodesMap (segMid p) = true := by
  induction streets generalizing g points done with
  | nil => exact ⟨by simpa [loadPaths, allMids] using h, by simp [loadPaths]⟩
  | cons e t ih =>
    obtain ⟨k, st⟩ := e
    have hst : st.mid = [] := hfresh (k, st) (List.mem_cons_self _ _)
    obtain ⟨h1, h1r⟩ := segFold_binv pts done st.pathLines { g := g, st := st, points := points }
      (he (k, st) (List.mem_cons_self _ _)) (by simpa [hst] using h)
    obtain ⟨h2, h2r⟩ := ih (loadStreet { g := g, st := st, points := points }).g
      (loadStreet { g := g, st := st, points := points }).points _
      (fun e he1 => hfresh e (List.mem_cons_of_mem _ he1))
      (fun e he1 => he e (List.mem_cons_of_mem _ he1)) h1
    simp only [loadPaths, allMids, List.flatMap_cons]
    rw [← List.append_assoc]
    refine ⟨h2, ?_⟩
    intro e1 he1 p hp
    rcases List.mem_cons.mp he1 with he1 | he1
    · subst he1
      apply loadPaths_keys
      apply h1r
      have := (segFold_street st.pathLines { g := g, st := st, points := points }).2.1
      unfold loadStreet at hp
      rw [this] at hp
      exact hp
    · exact h2r e1 he1 p hp

theorem nodeAt_qmodify_self {A : Arith} (m : List (Point × Node A)) (k : Point)
    (f : Node A → Node A) (h : qcontains m k = true) :
    nodeAt (qmodify m k f) k = f (nodeAt m k) := by
  unfold nodeAt qget
  rw [qfind_qmodify_self]
  unfold qcontains at h
  cases hf : qfind m k with
  | none => simp [hf] at h
  | some v => rfl

theorem nodeAt_qmodify_ne {A : Arith} (m : List (Point × Node A)) (k k1 : Point)
    (f : Node A → Node A) (h : k1 ≠ k) : nodeAt (qmodify m k f) k1 = nodeAt m k1 := by
  unfold nodeAt qget
  rw [qfind_qmodify_ne m k k1 f h]

theorem setObstacleLoop_wf {A : Arith} (m : List (Point × Node A)) (point : Point)
    (flag : Bool) (h : NodesWf m) :
    (setObstacleLoop m point flag).2 = qmodify m point fun n => { n with obstacle := flag } := by
  induction m with
  | nil => rfl
  | cons e t ih =>
    obtain ⟨k, n⟩ := e
    have hk : ((n.x, n.y) : Point) = k := h (k, n) (List.mem_cons_self _ _)
    have ht : NodesWf t := fun e he => h e (List.mem_cons_of_mem _ he)
    unfold setObstacleLoop qmodify
    by_cases hxy : n.x = point.1 ∧ n.y = point.2
    · have hkp : k = point := by
        rw [← hk]
        exact Prod.ext hxy.1 hxy.2
      rw [if_pos hxy, if_pos hkp]
    · have hkp : ¬ k = point := by
        intro hkp
        apply hxy
        rw [← hkp, ← hk]
        exact ⟨rfl, rfl⟩
      rw [if_neg hxy, if_neg hkp]
      dsimp only
      rw [ih ht]

theorem obstacleFold_wf {A : Arith} (mid : List Point) (flag : Bool) (p : Pathfinding A)
    (h : NodesWf p.nodesMap) :
    NodesWf (mid.foldl (fun p point => (setNodeObstacle p point flag).2) p).nodesMap ∧
    (∀ c, qcontains (mid.foldl (fun p point => (setNodeObstacle p point flag).2) p).nodesMap c
      = qcontains p.nodesMap c) ∧
    (∀ c, qcontains p.nodesMap c = true →
      (c ∈ mid ∨ (nodeAt p.nodesMap c).obstacle = flag) →
      (nodeAt (mid.foldl (fun p point => (setNodeObstacle p point flag).2) p).nodesMap
        c).obstacle = flag) ∧
    (∀ c, c ∉ mid →
      nodeAt (mid.foldl (fun p point => (setNodeObstacle p point flag).2) p).nodesMap c
        = nodeAt p.nodesMap c) := by
  induction mid generalizing p with
  | nil =>
    refine ⟨h, fun _ => rfl, ?_, fun _ _ => rfl⟩
    intro c _ hc
    simpa using hc
  | cons x t ih =>
    have hstep : (setNodeObstacle p x flag).2.nodesMap =
        qmodify p.nodesMap x fun n => { n with obstacle := flag } :=
      setObstacleLoop_wf p.nodesMap x flag h
    have hwf1 : NodesWf (setNodeObstacle p x flag).2.nodesMap := by
      rw [hstep]
      exact nodesWf_qmodify _ _ _ (fun n => ⟨rfl, rfl⟩) h
    obtain ⟨i1, i2, i3, i4⟩ := ih (setNodeObstacle p x flag).2 hwf1
    simp only [List.foldl_cons]
    refine ⟨i1, ?_, ?_, ?_⟩
    · intro c
      rw [i2 c, hstep, qcontains_qmodify]
    · intro c hc hor
      apply i3 c (by rw [hstep, qcontains_qmodify]; exact hc)
      by_cases hcx : c = x
      · right
        rw [hstep, hcx, nodeAt_qmodify_self _ _ _ (by rw [← hcx]; exact hc)]
      · rcases hor with hor | hor
        · rcases List.mem_cons.mp hor with hor | hor
          · exact absurd hor hcx
          · exact Or.inl hor
        · right
          rw [hstep, nodeAt_qmodify_ne _ _ _ _ hcx]
          exact hor
    · intro c hc
      rw [i4 c (fun hct => hc (List.mem_cons_of_mem _ hct)), hstep,
        nodeAt_qmodify_ne _ _ _ _ (fun hcx => hc (by rw [hcx]; exact List.mem_cons_self _ _))]

theorem blockLoop_changed {A : Arith} (flag : Bool) (k : String) (p : Pathfinding A)
    (streets : List (String × street)) (st : street)
    (hn : (streets.map fun e => e.2.name).Nodup)
    (h : streetNamed streets k = some st) (hb : st.isBlocked ≠ flag) :
    (blockLoop flag k p streets).2.1 =
      st.mid.foldl (fun p point => (setNodeObstacle p point flag).2) p ∧
    ∀ e ∈ (blockLoop flag k p streets).2.2,
      (e ∈ streets ∧ e.2.name ≠ k) ∨ e.2 = { st with isBlocked := flag } := by
  induction streets with
  | nil => simp [streetNamed] at h
  | cons e t ih =>
    obtain ⟨key, s⟩ := e
    simp only [List.map_cons, List.nodup_cons] at hn
    by_cases hname : s.name = k
    · have hst : s = st := by simpa [streetNamed, List.find?, hname] using h
      subst hst
      unfold blockLoop
      rw [if_pos hname, if_neg hb]
      refine ⟨rfl, ?_⟩
      intro e he
      rcases List.mem_cons.mp he with he | he
      · right
        rw [he]
      · left
        refine ⟨List.mem_cons_of_mem _ he, ?_⟩
        intro hek
        apply hn.1
        rw [hname, ← hek]
        exact List.mem_map_of_mem _ he
    · have ht : streetNamed t k = some st := by
        simpa [streetNamed, List.find?, hname] using h
      obtain ⟨i1, i2⟩ := ih hn.2 ht
      unfold blockLoop
      rw [if_neg hname]
      refine ⟨i1, ?_⟩
      intro e he
      rcases List.mem_cons.mp he with he | he
      · left
        rw [he]
        exact ⟨List.mem_cons_self _ _, hname⟩
      · rcases i2 e he with ⟨h1, h2⟩ | h1
        · exact Or.inl ⟨List.mem_cons_of_mem _ h1, h2⟩
        · exact Or.inr h1

theorem blockLoop_lines {A : Arith} (flag : Bool) (k : String) (p : Pathfinding A)
    (streets : List (String × street)) :
    ∀ e ∈ (blockLoop flag k p streets).2.2, ∃ e0 ∈ streets, e.2.pathLines = e0.2.pathLines := by
  induction streets with
  | nil => simp [blockLoop]
  | cons e t ih =>
    obtain ⟨key1, st⟩ := e
    unfold blockLoop
    split
    · split
      · intro e he
        exact ⟨e, he, rfl⟩
      · intro e he
        rcases List.mem_cons.mp he with he | he
        · exact ⟨(key1, st), List.mem_cons_self _ _, by rw [he]⟩
        · exact ⟨e, List.mem_cons_of_mem _ he, rfl⟩
    · intro e he
      rcases List.mem_cons.mp he with he | he
      · exact ⟨(key1, st), List.mem_cons_self _ _, by rw [he]⟩
      · obtain ⟨e0, h0, h1⟩ := ih e he
        exact ⟨e0, List.mem_cons_of_mem _ h0, h1⟩

theorem toggle_blockInv {A : Arith} (pts : List Point) (flag : Bool) (sc : Scene A)
    (k : String) (h : BlockInv pts sc) : BlockInv pts (toggleStreet flag sc k).2 := by
  have hshape := blockLoop_shape flag k sc.p sc.streets
  have hmids : allMids (toggleStreet flag sc k).2.streets = allMids sc.streets := by
    rw [allMids_shape, (toggleStreet_eq flag sc k).2, hshape, ← allMids_shape]
  have hnames : ((toggleStreet flag sc k).2.streets.map fun e => e.2.name) =
      sc.streets.map fun e => e.2.name := by
    rw [(toggleStreet_eq flag sc k).2]
    have := congrArg (List.map Prod.fst) hshape
    simpa [List.map_map, Function.comp_def] using this
  have hp := (toggleStreet_eq flag sc k).1
  have hs := (toggleStreet_eq flag sc k).2
  cases hst : streetNamed sc.streets k with
  | none =>
    have hr := blockLoop_none flag k sc.p sc.streets hst
    rw [hr] at hp hs
    exact ⟨by rw [hp]; exact h.wf, by rw [hp, hs]; exact h.keys, by rw [hs]; exact h.nodup,
      by rw [hs]; exact h.names, by rw [hp, hs]; exact h.blocked,
      by rw [hp, hs]; exact h.only, by rw [hp, hs]; exact h.segs⟩
  | some st =>
    by_cases hb : st.isBlocked = flag
    · have hr := blockLoop_noop flag k sc.p sc.streets st hst hb
      rw [hr] at hp hs
      exact ⟨by rw [hp]; exact h.wf, by rw [hp, hs]; exact h.keys, by rw [hs]; exact h.nodup,
        by rw [hs]; exact h.names, by rw [hp, hs]; exact h.blocked,
        by rw [hp, hs]; exact h.only, by rw [hp, hs]; exact h.segs⟩
    · obtain ⟨hfold, hmem⟩ := blockLoop_changed flag k sc.p sc.streets st h.names hst hb
      obtain ⟨f1, f2, f3, f4⟩ := obstacleFold_wf st.mid flag sc.p h.wf
      obtain ⟨key1, hstmem, hstname⟩ := streetNamed_mem _ _ _ hst
      rw [hfold] at hp
      refine ⟨by rw [hp]; exact f1, ?_, by rw [hmids]; exact h.nodup,
        by rw [hnames]; exact h.names, ?_, ?_, ?_⟩
      · intro c hc
        rw [hp, f2]
        exact h.keys c (by rw [← hmids]; exact hc)
      · intro e he heb c hc
        rw [hs] at he
        rw [hp]
        rcases hmem e he with ⟨he1, he2⟩ | he1
        · have hnot : c ∉ st.mid :=
            mids_disjoint _ h.nodup e (key1, st) he1 hstmem (by rw [hstname]; exact he2) c hc
          rw [f4 c hnot]
          exact h.blocked e he1 heb c hc
        · rw [he1] at heb hc
          have hflag : flag = true := heb
          have := f3 c (h.keys c (List.mem_flatMap.mpr ⟨(key1, st), hstmem, hc⟩)) (Or.inl hc)
          rw [this, hflag]
      · intro c hc
        rw [hp, f2] at hc
        rw [hmids]
        exact h.only c hc
      · intro e he q hq
        rw [hs] at he
        rw [hp, f2]
        obtain ⟨e0, h0, h1⟩ := blockLoop_lines flag k sc.p sc.streets e he
        exact h.segs e0 h0 q (by rw [← h1]; exact hq)

theorem runBlocks_blockInv {A : Arith} (pts : List Point) (ops : List (Bool × String))
    (sc : Scene A) (h : BlockInv pts sc) : BlockInv pts (runBlocks sc ops) := by
  induction ops generalizing sc with
  | nil => exact h
  | cons op t ih => exact ih _ (toggle_blockInv pts op.1 sc op.2 h)

theorem loadPoint_wf {A : Arith} (g : Pathfinding A) (point : Point) (h : NodesWf g.nodesMap) :
    NodesWf (loadPoint g point).nodesMap := by
  unfold loadPoint
  split
  · exact h
  · exact nodesWf_qinsert _ _ _ rfl h

theorem loadPoints_wf {A : Arith} (points : List Point) (g : Pathfinding A)
    (h : NodesWf g.nodesMap) : NodesWf (loadPoints g points).nodesMap := by
  induction points generalizing g with
  | nil => exact h
  | cons p t ih => exact ih _ (loadPoint_wf g p h)

theorem loadPoints_only {A : Arith} (points : List Point) (g : Pathfinding A) (c : Point)
    (h : qcontains (loadPoints g points).nodesMap c = true) :
    c ∈ points ∨ qcontains g.nodesMap c = true := by
  induction points generalizing g with
  | nil => exact Or.inr h
  | cons p t ih =>
    simp only [loadPoints, List.foldl_cons] at h
    rcases ih _ h with h1 | h1
    · exact Or.inl (List.mem_cons_of_mem _ h1)
    · unfold loadPoint at h1
      split at h1
      · exact Or.inr h1
      · simp only [qcontains_qinsert, Bool.or_eq_true, decide_eq_true_eq] at h1
        rcases h1 with h1 | h1
        · left
          rw [h1]
          exact List.mem_cons_self _ _
        · exact Or.inr h1

theorem loadPaths_shape {A : Arith} (streets : List (String × street)) (g : Pathfinding A)
    (points : List Point) :
    (loadPaths g streets points).2.1.map (fun e => (e.2.name, e.2.isBlocked)) =
      streets.map (fun e => (e.2.name, e.2.isBlocked)) := by
  induction streets generalizing g points with
  | nil => rfl
  | cons e t ih =>
    obtain ⟨k, st⟩ := e
    simp only [loadPaths, List.map_cons, ih]
    have := segFold_street st.pathLines { g := g, st := st, points := points }
    unfold loadStreet
    rw [this.1, this.2.2.1]

theorem build_blockInv {A : Arith} (pts : List Point) (streets : List (String × street))
    (sc : Scene A)
    (hfresh : ∀ e ∈ streets, e.2.mid = [] ∧ e.2.isBlocked = false)
    (hnames : (streets.map fun e => e.2.name).Nodup)
    (hends : ∀ e ∈ streets, ∀ p ∈ e.2.pathLines, EndsIn pts p)
    (hp : sc.p = (loadPaths (loadPoints (Pathfinding.empty A) pts) streets pts).1)
    (hs : sc.streets = (loadPaths (loadPoints (Pathfinding.empty A) pts) streets pts).2.1) :
    BlockInv pts sc := by
  have h0 : BInv pts [] (loadPoints (Pathfinding.empty A) pts) := by
    refine ⟨⟨by simp, List.nodup_nil, fun c hc => loadPoints_keys pts _ c (Or.inl hc), by simp⟩,
      loadPoints_wf pts _ (fun e he => by simp [Pathfinding.empty] at he), ?_⟩
    intro c hc
    rcases loadPoints_only pts _ c hc with h1 | h1
    · exact Or.inl h1
    · simp [Pathfinding.empty, qcontains, qfind] at h1
  obtain ⟨hb, hseg⟩ := loadPaths_binv pts streets _ pts [] (fun e he => (hfresh e he).1) hends h0
  simp only [List.nil_append] at hb
  have hsh := loadPaths_shape (A := A) streets (loadPoints (Pathfinding.empty A) pts) pts
  rw [← hp, ← hs] at hb hseg
  rw [← hs] at hsh
  refine ⟨hb.wf, hb.ginv.keysMid, hb.ginv.nodup, ?_, ?_, hb.only, hseg⟩
  · have := congrArg (List.map Prod.fst) hsh
    simp only [List.map_map, Function.comp_def] at this
    rw [this]
    exact hnames
  · intro e he heb
    have hin : (e.2.name, e.2.isBlocked) ∈ sc.streets.map (fun e => (e.2.name, e.2.isBlocked)) :=
      List.mem_map_of_mem _ he
    rw [hsh] at hin
    obtain ⟨e0, he0, heq⟩ := List.mem_map.mp hin
    have := (hfresh e0 he0).2
    simp only [Prod.mk.injEq] at heq
    rw [heq.2, heb] at this
    cases this

theorem streetNamed_of_mem (l : List (String × street)) (e : String × street)
    (hn : (l.map fun e => e.2.name).Nodup) (he : e ∈ l) :
    streetNamed l e.2.name = some e.2 := by
  induction l with
  | nil => simp at he
  | cons x t ih =>
    simp only [List.map_cons, List.nodup_cons] at hn
    rcases List.mem_cons.mp he with he | he
    · subst he
      simp [streetNamed, List.find?]
    · have hne : x.2.name ≠ e.2.name := by
        intro hx
        apply hn.1
        rw [hx]
        exact List.mem_map_of_mem _ he
      have := ih hn.2 he
      simpa [streetNamed, List.find?, hne] using this

theorem blockInv_blocks {A : Arith} (pts : List Point) (sc : Scene A) (h : BlockInv pts sc)
    (e : String × street) (he : e ∈ sc.streets) :
    (blockStreet sc e.2.name).1 = true ∧
    ∀ c ∈ e.2.mid, (nodeAt (blockStreet sc e.2.name).2.p.nodesMap c).obstacle = true := by
  have hst := streetNamed_of_mem sc.streets e h.names he
  have hinv : BlockInv pts (blockStreet sc e.2.name).2 := toggle_blockInv pts true sc e.2.name h
  have hnamed := blockLoop_named true e.2.name sc.p sc.streets e.2 hst
  obtain ⟨key1, hmem, _⟩ := streetNamed_mem _ _ _ hnamed
  constructor
  · unfold blockStreet
    dsimp only
    by_cases hb : e.2.isBlocked = true
    · rw [blockLoop_noop true e.2.name sc.p sc.streets e.2 hst hb]
    · have hres : ∀ (p : Pathfinding A) (l : List (String × street)) (st : street),
          streetNamed l e.2.name = some st → (blockLoop true e.2.name p l).1 = true := by
        intro p l st hl
        induction l with
        | nil => simp [streetNamed] at hl
        | cons x t ih =>
          unfold blockLoop
          split
          · split <;> rfl
          · rename_i hx
            exact ih (by simpa [streetNamed, List.find?, hx] using hl)
      exact hres _ _ _ hst
  · intro c hc
    exact hinv.blocked (key1, { e.2 with isBlocked := true }) hmem rfl c hc

/-- C8 (amended): in every state reached from the built scene by blocking and
unblocking, for every street `k` and every segment of `k` whose extra-node
coordinate (`segMid`, as `loadPaths` computes it in `int` arithmetic) is not a
start point (a coordinate passed to `loadPoints`) and is not in the mid list
of a street with another name, `blockStreet(k)` returns `true` and leaves the
node at that coordinate with `obstacle = true`; the same holds for every
coordinate in the mid list of `k`. The extra-node coordinate is the integer
midpoint of the segment whenever the ends of the segment are `int` coordinates
whose difference on each axis is in `int` range. -/
theorem blockStreet_marks_own_mids {A : Arith} (pts : List Point)
    (streets : List (String × street)) (sc0 : Scene A) (ops : List (Bool × String))
    (hfresh : ∀ e ∈ streets, e.2.mid = [] ∧ e.2.isBlocked = false)
    (hnames : (streets.map fun e => e.2.name).Nodup)
    (hends : ∀ e ∈ streets, ∀ p ∈ e.2.pathLines, EndsIn pts p)
    (hp : sc0.p = (loadPaths (loadPoints (Pathfinding.empty A) pts) streets pts).1)
    (hs : sc0.streets = (loadPaths (loadPoints (Pathfinding.empty A) pts) streets pts).2.1) :
    (∀ e ∈ (runBlocks sc0 ops).streets,
      (blockStreet (runBlocks sc0 ops) e.2.name).1 = true ∧
      (∀ c ∈ e.2.mid,
        (nodeAt (blockStreet (runBlocks sc0 ops) e.2.name).2.p.nodesMap c).obstacle = true) ∧
      (∀ p ∈ e.2.pathLines, segMid p ∉ pts →
        (∀ e1 ∈ (runBlocks sc0 ops).streets, e1.2.name ≠ e.2.name → segMid p ∉ e1.2.mid) →
        qcontains (blockStreet (runBlocks sc0 ops) e.2.name).2.p.nodesMap (segMid p) = true ∧
        (nodeAt (blockStreet (runBlocks sc0 ops) e.2.name).2.p.nodesMap (segMid p)).obstacle
          = true)) ∧
    (∀ p : Segment, SegInRange p → segMid p = intMid p) := by
  refine ⟨?_, fun p hp => segMid_intMid p hp⟩
  intro e he
  have hinv : BlockInv pts (runBlocks sc0 ops) :=
    runBlocks_blockInv pts ops sc0 (build_blockInv pts streets sc0 hfresh hnames hends hp hs)
  obtain ⟨h1, h2⟩ := blockInv_blocks pts _ hinv e he
  refine ⟨h1, h2, ?_⟩
  intro p hpl hnp hother
  have hkey := hinv.segs e he p hpl
  have hinv2 : BlockInv pts (blockStreet (runBlocks sc0 ops) e.2.name).2 :=
    toggle_blockInv pts true _ e.2.name hinv
  have hmid : segMid p ∈ e.2.mid := by
    rcases hinv.only _ hkey with h3 | h3
    · exact absurd h3 hnp
    · obtain ⟨e1, he1, hc1⟩ := List.mem_flatMap.mp h3
      by_cases hn : e1.2.name = e.2.name
      · have := List.inj_on_of_nodup_map hinv.names he1 he hn
        rw [← this]
        exact hc1
      · exact absurd hc1 (hother e1 he1 hn)
  refine ⟨?_, h2 _ hmid⟩
  have hq : qcontains (blockStreet (runBlocks sc0 ops) e.2.name).2.p.nodesMap (segMid p) =
      qcontains (runBlocks sc0 ops).p.nodesMap (segMid p) := by
    have := (toggleStreet_eq true (runBlocks sc0 ops) e.2.name).1
    have hshape : (blockStreet (runBlocks sc0 ops) e.2.name).2.p =
        (blockLoop true e.2.name (runBlocks sc0 ops).p (runBlocks sc0 ops).streets).2.1 := rfl
    rw [hshape]
    cases hst : streetNamed (runBlocks sc0 ops).streets e.2.name with
    | none => rw [blockLoop_none true _ _ _ hst]
    | some st =>
      by_cases hb : st.isBlocked = true
      · rw [blockLoop_noop true _ _ _ st hst hb]
      · rw [(blockLoop_changed true _ _ _ st hinv.names hst hb).1]
        exact (obstacleFold_wf st.mid true _ hinv.wf).2.1 _
  rw [hq]
  exact hkey

set_option maxRecDepth 100000 in
/-- Witness for `blockStreet_marks_own_mids`: in `sceneCross`, after blocking
`b` and unblocking `a`, `blockStreet("a")` marks the node `(5,5)` of street `a`,
the integer midpoint of its segment `(0,0)-(10,10)`. -/
theorem blockStreet_marks_own_mids_witness :
    SegInRange (0, 0, 10, 10) ∧ intMid (0, 0, 10, 10) = (5, 5) ∧
    (blockStreet (runBlocks sceneCross [(true, "b"), (false, "a")]) "a").1 = true ∧
    (nodeAt (blockStreet (runBlocks sceneCross [(true, "b"), (false, "a")]) "a").2.p.nodesMap
      (5, 5)).obstacle = true ∧
    segMid (0, 0, 10, 10) = intMid (0, 0, 10, 10) :=
  have h := blockStreet_marks_own_mids (A := gridArith) [(0, 0), (10, 10), (0, 10), (10, 0)]
    [("a", mkStreet "a" [(0, 0, 10, 10)]), ("b", mkStreet "b" [(0, 10, 10, 0)])]
    sceneCross [(true, "b"), (false, "a")] (by decide) (by decide) (by decide) rfl rfl
  have he := h.1 ("a", { mkStreet "a" [(0, 0, 10, 10)] with mid := [(5, 5)] }) (by decide)
  ⟨by decide, by decide, he.1, he.2.1 (5, 5) (by decide), h.2 (0, 0, 10, 10) (by decide)⟩

theorem sameGraph_refl {A : Arith} (m : List (Point × Node A)) : SameGraph m m :=
  ⟨fun _ => rfl, rfl, fun _ => rfl, fun _ => rfl, fun _ => rfl, fun _ => rfl⟩

theorem sameGraph_trans {A : Arith} {a b c : List (Point × Node A)} (h1 : SameGraph a b)
    (h2 : SameGraph b c) : SameGraph a c :=
  ⟨fun k => (h2.keys k).trans (h1.keys k), h2.len.trans h1.len,
    fun k => (h2.x k).trans (h1.x k), fun k => (h2.y k).trans (h1.y k),
    fun k => (h2.obstacle k).trans (h1.obstacle k),
    fun k => (h2.neighbours k).trans (h1.neighbours k)⟩

theorem length_qmodify {κ α : Type} [DecidableEq κ] (m : List (κ × α)) (k : κ) (f : α → α) :
    (qmodify m k f).length = m.length := by
  induction m with
  | nil => rfl
  | cons e t ih =>
    obtain ⟨k', v⟩ := e
    unfold qmodify
    split <;> simp [ih]

theorem nodeAt_qmodify {A : Arith} (m : List (Point × Node A)) (k k1 : Point)
    (f : Node A → Node A) :
    nodeAt (qmodify m k f) k1 = nodeAt m k1 ∨
      (k1 = k ∧ qcontains m k = true ∧ nodeAt (qmodify m k f) k1 = f (nodeAt m k)) := by
  by_cases h : k1 = k
  · subst h
    by_cases hc : qcontains m k1 = true
    · exact Or.inr ⟨rfl, hc, nodeAt_qmodify_self m k1 f hc⟩
    · left
      unfold nodeAt qget
      rw [qfind_qmodify_self]
      unfold qcontains at hc
      cases hf : qfind m k1 with
      | none => rfl
      | some v => simp [hf] at hc
  · exact Or.inl (nodeAt_qmodify_ne m k k1 f h)

theorem sameGraph_qmodify {A : Arith} (m : List (Point × Node A)) (k : Point)
    (f : Node A → Node A)
    (hf : ∀ n, (f n).x = n.x ∧ (f n).y = n.y ∧ (f n).obstacle = n.obstacle ∧
      (f n).neighbours = n.neighbours) : SameGraph m (qmodify m k f) := by
  refine ⟨fun k1 => qcontains_qmodify m k k1 f, length_qmodify m k f, ?_, ?_, ?_, ?_⟩ <;>
  · intro k1
    rcases nodeAt_qmodify m k k1 f with h | ⟨h1, _, h2⟩
    · rw [h]
    · rw [h2, h1]
      first
        | exact (hf _).1
        | exact (hf _).2.1
        | exact (hf _).2.2.1
        | exact (hf _).2.2.2

theorem mem_insertByGoal {A : Arith} (m : List (Point × Node A)) (k k1 : Point)
    (l : List Point) : k1 ∈ insertByGoal m k l ↔ k1 = k ∨ k1 ∈ l := by
  induction l with
  | nil => simp [insertByGoal]
  | cons x t ih =>
    unfold insertByGoal
    split
    · simp only [List.mem_cons, ih]
      tauto
    · simp only [List.mem_cons]

theorem mem_sortByGoal {A : Arith} (m : List (Point × Node A)) (k : Point) (l : List Point) :
    k ∈ sortByGoal m l ↔ k ∈ l := by
  induction l with
  | nil => simp [sortByGoal]
  | cons x t ih =>
    unfold sortByGoal
    rw [mem_insertByGoal, ih]
    simp only [List.mem_cons]

theorem mem_dropWhile_or {α : Type} (p : α → Bool) (l : List α) (x : α) (h : x ∈ l) :
    x ∈ l.dropWhile p ∨ p x = true := by
  induction l with
  | nil => simp at h
  | cons a t ih =>
    by_cases hp : p a = true
    · rw [List.dropWhile_cons_of_pos hp]
      rcases List.mem_cons.mp h with h | h
      · right
        rw [h]
        exact hp
      · exact ih h
    · left
      rw [List.dropWhile_cons_of_neg hp]
      exact h

theorem dropWhile_head_neg {α : Type} (p : α → Bool) (l : List α) (x : α) (t : List α)
    (h : l.dropWhile p = x :: t) : p x = false := by
  induction l with
  | nil => simp at h
  | cons a r ih =>
    by_cases hp : p a = true
    · rw [List.dropWhile_cons_of_pos hp] at h
      exact ih h
    · rw [List.dropWhile_cons_of_neg hp] at h
      simp only [List.cons.injEq] at h
      rw [← h.1]
      simpa using hp

theorem fin_of_not_lt {A : Arith} (hA : A.Lawful) (v x : A.F) (hv : A.fLt v A.fInf = true)
    (h : A.fLt v x = false) : A.fLt x A.fInf = true := by
  by_contra hx
  have hx1 : A.fLt x A.fInf = false := by simpa using hx
  have := hA.ge_trans v x A.fInf h hx1
  rw [hv] at this
  cases this

theorem chainTo_relax_low {A : Arith} (hA : A.Lawful) (m m' : List (Point × Node A))
    (cur nb : Point) (v : A.F)
    (hpar : ∀ n p, (nodeAt m n).parent = some p →
      A.fLt (nodeAt m n).localGoal (nodeAt m p).localGoal = false)
    (hp' : ∀ k, k ≠ nb → (nodeAt m' k).parent = (nodeAt m k).parent)
    (hlt : A.fLt v (nodeAt m nb).localGoal = true)
    (hge : A.fLt v (nodeAt m cur).localGoal = false)
    (y r : Point) (d : Nat) (hc : ChainTo m y r d)
    (hy : A.fLt (nodeAt m cur).localGoal (nodeAt m y).localGoal = false) :
    ∃ r' d', ChainTo m' y r' d' := by
  induction hc with
  | root n hn =>
    have hne : n ≠ nb := by
      intro h
      rw [h] at hy
      have := hA.ge_trans _ _ _ hge hy
      rw [hlt] at this
      cases this
    exact ⟨n, 0, ChainTo.root n (by rw [hp' n hne]; exact hn)⟩
  | step n p r d hn _ ih =>
    have hne : n ≠ nb := by
      intro h
      rw [h] at hy
      have := hA.ge_trans _ _ _ hge hy
      rw [hlt] at this
      cases this
    have hp : A.fLt (nodeAt m cur).localGoal (nodeAt m p).localGoal = false :=
      hA.ge_trans _ _ _ hy (hpar n p hn)
    obtain ⟨r', d', h'⟩ := ih hp
    exact ⟨r', d' + 1, ChainTo.step n p r' d' (by rw [hp' n hne]; exact hn) h'⟩

theorem chainTo_relax {A : Arith} (hA : A.Lawful) (m m' : List (Point × Node A))
    (cur nb : Point) (v : A.F)
    (hpar : ∀ n p, (nodeAt m n).parent = some p →
      A.fLt (nodeAt m n).localGoal (nodeAt m p).localGoal = false)
    (hp' : ∀ k, k ≠ nb → (nodeAt m' k).parent = (nodeAt m k).parent)
    (hnb : (nodeAt m' nb).parent = some cur)
    (hlt : A.fLt v (nodeAt m nb).localGoal = true)
    (hge : A.fLt v (nodeAt m cur).localGoal = false)
    (hroot : ∀ n, ∃ r d, ChainTo m n r d) (n : Point) :
    ∃ r d, ChainTo m' n r d := by
  obtain ⟨rc, dc, hcc⟩ := hroot cur
  obtain ⟨rc', dc', hcur⟩ := chainTo_relax_low hA m m' cur nb v hpar hp' hlt hge cur rc dc hcc
    (hA.lt_irrefl _)
  obtain ⟨r, d, hn⟩ := hroot n
  clear hcc
  induction hn with
  | root n hn =>
    by_cases h : n = nb
    · exact ⟨rc', dc' + 1, ChainTo.step n cur rc' dc' (by rw [h]; exact hnb) hcur⟩
    · exact ⟨n, 0, ChainTo.root n (by rw [hp' n h]; exact hn)⟩
  | step n p r d hn _ ih =>
    by_cases h : n = nb
    · exact ⟨rc', dc' + 1, ChainTo.step n cur rc' dc' (by rw [h]; exact hnb) hcur⟩
    · obtain ⟨r', d', h'⟩ := ih
      exact ⟨r', d' + 1, ChainTo.step n p r' d' (by rw [hp' n h]; exact hn) h'⟩

theorem nodeAt_mem {A : Arith} (m : List (Point × Node A)) (k : Point)
    (h : qcontains m k = true) : (k, nodeAt m k) ∈ m := by
  unfold qcontains at h
  unfold nodeAt qget
  cases hf : qfind m k with
  | none => simp [hf] at h
  | some v => exact qfind_mem m k v hf

theorem linksOk_range {A : Arith} (G : List (Point × Node A)) (hG : LinksOk G) (k : Point) :
    InInt (nodeAt G k).x ∧ InInt (nodeAt G k).y := by
  by_cases h : qcontains G k = true
  · exact hG.2 _ (nodeAt_mem G k h)
  · unfold qcontains at h
    unfold nodeAt qget
    cases hf : qfind G k with
    | none =>
      simp only [Option.getD_none, Node.zero]
      constructor <;> constructor <;> norm_num
    | some v => simp [hf] at h

/-- The effect of one neighbour on the search state, as far as the invariant
needs it. -/
theorem relax_facts {A : Arith} (hA : A.Lawful) (G : List (Point × Node A)) (hG : LinksOk G)
    (start cur finish nb : Point) (done : List Point) (s : Search A)
    (h : SInv G start (some cur) done s) (hcur : (nodeAt s.nodes cur).visited = true)
    (hnb : nb ∈ (nodeAt G cur).neighbours) :
    SameGraph s.nodes (relax cur finish s nb).nodes ∧
    (∀ k, (nodeAt (relax cur finish s nb).nodes k).visited = (nodeAt s.nodes k).visited) ∧
    (∀ k, k ≠ nb → nodeAt (relax cur finish s nb).nodes k = nodeAt s.nodes k) ∧
    LocalFin (relax cur finish s nb).nodes nb ∧
    A.fLt (nodeAt (relax cur finish s nb).nodes nb).localGoal A.fZero = false ∧
    (∀ f, f ∈ (relax cur finish s nb).notTested ↔ f ∈ s.notTested ∨
      (f = nb ∧ (nodeAt s.nodes nb).visited = false ∧ (nodeAt s.nodes nb).obstacle = false)) ∧
    (((nodeAt (relax cur finish s nb).nodes nb).localGoal = (nodeAt s.nodes nb).localGoal ∧
      (nodeAt (relax cur finish s nb).nodes nb).parent = (nodeAt s.nodes nb).parent) ∨
     ((nodeAt (relax cur finish s nb).nodes nb).parent = some cur ∧
      A.fLt (nodeAt (relax cur finish s nb).nodes nb).localGoal (nodeAt s.nodes nb).localGoal
        = true ∧
      A.fLt (nodeAt (relax cur finish s nb).nodes nb).localGoal (nodeAt s.nodes cur).localGoal
        = false ∧ nb ≠ start ∧ nb ≠ cur)) := by
  have hcurG : qcontains G cur = true := (h.vis cur hcur).1
  have hnbG : qcontains G nb = true := hG.1 _ (nodeAt_mem G cur hcurG) nb hnb
  have hnbS : qcontains s.nodes nb = true := by rw [h.same.keys]; exact hnbG
  have hfinCur : A.fLt (nodeAt s.nodes cur).localGoal A.fInf = true := (h.vis cur hcur).2.2.1
  have hrc := linksOk_range G hG cur
  have hrn := linksOk_range G hG nb
  rw [← h.same.x cur, ← h.same.y cur] at hrc
  rw [← h.same.x nb, ← h.same.y nb] at hrn
  have hvfin : A.fLt (A.fAdd (nodeAt s.nodes cur).localGoal
      (distance (nodeAt s.nodes cur) (nodeAt s.nodes nb))) A.fInf = true := by
    unfold distance
    apply hA.add_dist_lt_inf _ _ _ hfinCur
    · have := (wrapInt_range ((nodeAt s.nodes cur).x - (nodeAt s.nodes nb).x)).1; omega
    · have := (wrapInt_range ((nodeAt s.nodes cur).x - (nodeAt s.nodes nb).x)).2; omega
    · have := (wrapInt_range ((nodeAt s.nodes cur).y - (nodeAt s.nodes nb).y)).1; omega
    · have := (wrapInt_range ((nodeAt s.nodes cur).y - (nodeAt s.nodes nb).y)).2; omega
  have hvge : A.fLt (A.fAdd (nodeAt s.nodes cur).localGoal
      (distance (nodeAt s.nodes cur) (nodeAt s.nodes nb))) (nodeAt s.nodes cur).localGoal
      = false := hA.add_sqrt_ge _ _
  have hvnn : A.fLt (A.fAdd (nodeAt s.nodes cur).localGoal
      (distance (nodeAt s.nodes cur) (nodeAt s.nodes nb))) A.fZero = false :=
    hA.ge_trans _ _ _ hvge (h.nonneg cur)
  have hmem : ∀ f, f ∈ (if (!(nodeAt s.nodes nb).visited && (nodeAt s.nodes nb).obstacle == false)
        = true then s.notTested ++ [nb] else s.notTested) ↔ f ∈ s.notTested ∨
      (f = nb ∧ (nodeAt s.nodes nb).visited = false ∧ (nodeAt s.nodes nb).obstacle = false) := by
    intro f
    split
    · rename_i hc
      simp only [Bool.and_eq_true, Bool.not_eq_true', beq_iff_eq] at hc
      simp only [List.mem_append, List.mem_singleton]
      tauto
    · rename_i hc
      simp only [Bool.and_eq_true, Bool.not_eq_true', beq_iff_eq] at hc
      tauto
  unfold relax
  dsimp only
  split
  · rename_i hlt
    dsimp only
    have hne_start : nb ≠ start := by
      intro hs
      rw [hs, h.startN.1] at hlt
      rw [hs] at hvnn
      rw [hvnn] at hlt
      cases hlt
    have hne_cur : nb ≠ cur := by
      intro hc
      rw [hc] at hlt
      rw [hc] at hvge
      rw [hvge] at hlt
      cases hlt
    have hself := nodeAt_qmodify_self s.nodes nb (fun n =>
      { n with parent := some cur
               localGoal := A.fAdd (nodeAt s.nodes cur).localGoal
                 (distance (nodeAt s.nodes cur) (nodeAt s.nodes nb))
               globalGoal := A.fAdd (A.fAdd (nodeAt s.nodes cur).localGoal
                 (distance (nodeAt s.nodes cur) (nodeAt s.nodes nb)))
                 (distance n (nodeAt s.nodes finish)) }) hnbS
    refine ⟨sameGraph_qmodify _ _ _ (fun n => ⟨rfl, rfl, rfl, rfl⟩), ?_, ?_, ?_, ?_, hmem, ?_⟩
    · intro k
      by_cases hk : k = nb
      · rw [hk, hself]
      · rw [nodeAt_qmodify_ne _ _ _ _ hk]
    · intro k hk
      exact nodeAt_qmodify_ne _ _ _ _ hk
    · unfold LocalFin
      rw [hself]
      exact hvfin
    · rw [hself]
      exact hvnn
    · right
      rw [hself]
      exact ⟨rfl, hlt, hvge, hne_start, hne_cur⟩
  · rename_i hlt
    have hlt' : A.fLt (A.fAdd (nodeAt s.nodes cur).localGoal
        (distance (nodeAt s.nodes cur) (nodeAt s.nodes nb))) (nodeAt s.nodes nb).localGoal
        = false := by simpa using hlt
    refine ⟨sameGraph_refl _, fun _ => rfl, fun _ _ => rfl, ?_, h.nonneg nb, hmem,
      Or.inl ⟨rfl, rfl⟩⟩
    exact fin_of_not_lt hA _ _ hvfin hlt'

theorem relax_inv {A : Arith} (hA : A.Lawful) (G : List (Point × Node A)) (hG : LinksOk G)
    (start cur finish nb : Point) (done : List Point) (s : Search A)
    (h : SInv G start (some cur) done s) (hcur : (nodeAt s.nodes cur).visited = true)
    (hnb : nb ∈ (nodeAt G cur).neighbours) :
    SInv G start (some cur) (done ++ [nb]) (relax cur finish s nb) := by
  obtain ⟨fsame, fvis, fne, ffin, fnn, fmem, fcase⟩ :=
    relax_facts hA G hG start cur finish nb done s h hcur hnb
  have hcurG : qcontains G cur = true := (h.vis cur hcur).1
  have hnbG : qcontains G nb = true := hG.1 _ (nodeAt_mem G cur hcurG) nb hnb
  have hsub : ∀ f, f ∈ s.notTested → f ∈ (relax cur finish s nb).notTested :=
    fun f hf => (fmem f).mpr (Or.inl hf)
  have hfin : ∀ k, LocalFin s.nodes k → LocalFin (relax cur finish s nb).nodes k := by
    intro k hk
    by_cases hkn : k = nb
    · rw [hkn]
      exact ffin
    · unfold LocalFin
      rw [fne k hkn]
      exact hk
  have hstart : nb = start →
      (nodeAt (relax cur finish s nb).nodes nb).localGoal = (nodeAt s.nodes nb).localGoal ∧
      (nodeAt (relax cur finish s nb).nodes nb).parent = (nodeAt s.nodes nb).parent := by
    intro hs
    rcases fcase with hc | hc
    · exact hc
    · exact absurd hs hc.2.2.2.1
  refine ⟨sameGraph_trans h.same fsame, ?_, ?_, ?_, ?_, ?_, ?_, ?_, ?_, ?_⟩
  · intro f hf
    rcases (fmem f).mp hf with hf | ⟨hf, hv, ho⟩
    · obtain ⟨h1, h2, h3, h4⟩ := h.front f hf
      exact ⟨h1, h2, hfin f h3, h4⟩
    · rw [hf]
      have hoG : (nodeAt G nb).obstacle = false := by rw [← h.same.obstacle]; exact ho
      exact ⟨hnbG, Expandable.step cur nb (h.vis cur hcur).2.1 hnb hoG, ffin, Or.inr hoG⟩
  · by_cases hs : start = nb
    · rw [hs, (hstart hs.symm).1, (hstart hs.symm).2, ← hs]
      exact h.startN
    · rw [fne start hs]
      exact h.startN
  · rcases h.seen with h1 | h1
    · left
      rw [fvis]
      exact h1
    · exact Or.inr (hsub _ h1)
  · intro v hv
    rw [fvis] at hv
    obtain ⟨h1, h2, h3, h4⟩ := h.vis v hv
    exact ⟨h1, h2, hfin v h3, h4⟩
  · intro v hv x hx
    rw [fvis] at hv
    have hold : ∀ y, (LocalFin s.nodes y ∧ ((nodeAt G y).obstacle = false →
          (nodeAt s.nodes y).visited = true ∨ y ∈ s.notTested)) →
        (LocalFin (relax cur finish s nb).nodes y ∧ ((nodeAt G y).obstacle = false →
          (nodeAt (relax cur finish s nb).nodes y).visited = true ∨
            y ∈ (relax cur finish s nb).notTested)) := by
      intro y ⟨hy1, hy2⟩
      refine ⟨hfin y hy1, fun ho => ?_⟩
      rcases hy2 ho with hy | hy
      · left
        rw [fvis]
        exact hy
      · exact Or.inr (hsub _ hy)
    by_cases hvc : some v = some cur
    · rw [if_pos hvc] at hx
      rcases List.mem_append.mp hx with hx | hx
      · apply hold
        have := h.closed v hv x
        rw [if_pos hvc] at this
        exact this hx
      · rw [List.mem_singleton.mp hx]
        refine ⟨ffin, fun ho => ?_⟩
        rw [fvis]
        by_cases hvn : (nodeAt s.nodes nb).visited = true
        · exact Or.inl hvn
        · right
          apply (fmem nb).mpr
          right
          refine ⟨rfl, by simpa using hvn, ?_⟩
          rw [h.same.obstacle]
          exact ho
    · rw [if_neg hvc] at hx
      apply hold
      have := h.closed v hv x
      rw [if_neg hvc] at this
      exact this hx
  · intro n p hp
    have hlocp : ∀ q, A.fLt (nodeAt s.nodes n).localGoal (nodeAt s.nodes q).localGoal = false →
        n ≠ nb →
        A.fLt (nodeAt (relax cur finish s nb).nodes n).localGoal
          (nodeAt (relax cur finish s nb).nodes q).localGoal = false := by
      intro q hq hn
      rw [fne n hn]
      by_cases hqn : q = nb
      · rw [hqn] at hq ⊢
        rcases fcase with hc | hc
        · rw [hc.1]
          exact hq
        · by_contra hcon
          have hcon' : A.fLt (nodeAt s.nodes n).localGoal
              (nodeAt (relax cur finish s nb).nodes nb).localGoal = true := by simpa using hcon
          have := hA.lt_trans _ _ _ hcon' hc.2.1
          rw [hq] at this
          cases this
      · rw [fne q hqn]
        exact hq
    by_cases hn : n = nb
    · rw [hn] at hp ⊢
      rcases fcase with hc | hc
      · rw [hc.2] at hp
        obtain ⟨h1, h2, h3⟩ := h.par nb p hp
        refine ⟨by rw [fvis]; exact h1, h2, ?_⟩
        rw [hc.1]
        by_cases hpn : p = nb
        · rw [hpn, hc.1]
          exact hA.lt_irrefl _
        · rw [fne p hpn]
          exact h3
      · rw [hc.1] at hp
        simp only [Option.some.injEq] at hp
        rw [← hp]
        refine ⟨by rw [fvis]; exact hcur, hnb, ?_⟩
        rw [fne cur (Ne.symm hc.2.2.2.2)]
        exact hc.2.2.1
    · rw [fne n hn] at hp
      obtain ⟨h1, h2, h3⟩ := h.par n p hp
      exact ⟨by rw [fvis]; exact h1, h2, hlocp p h3 hn⟩
  · rcases fcase with hc | hc
    · intro n
      obtain ⟨r, d, hch⟩ := h.rooted n
      have hpeq : ∀ k, (nodeAt (relax cur finish s nb).nodes k).parent
          = (nodeAt s.nodes k).parent := by
        intro k
        by_cases hk : k = nb
        · rw [hk, hc.2]
        · rw [fne k hk]
      clear hstart
      induction hch with
      | root n hn => exact ⟨n, 0, ChainTo.root n (by rw [hpeq]; exact hn)⟩
      | step n p r d hn _ ih =>
        obtain ⟨r', d', h'⟩ := ih
        exact ⟨r', d' + 1, ChainTo.step n p r' d' (by rw [hpeq]; exact hn) h'⟩
    · intro n
      exact chainTo_relax hA s.nodes (relax cur finish s nb).nodes cur nb
        (nodeAt (relax cur finish s nb).nodes nb).localGoal
        (fun n p hp => (h.par n p hp).2.2)
        (fun k hk => by rw [fne k hk]) hc.1 hc.2.1 hc.2.2.1 h.rooted n
  · intro n hnG hn
    by_cases hnn : n = nb
    · rcases fcase with hc | hc
      · rw [hnn] at hn hnG ⊢
        rw [hc.2]
        apply h.finPar nb hnG
        unfold LocalFin at hn ⊢
        rw [← hc.1]
        exact hn
      · right
        rw [hnn, hc.1]
        simp
    · unfold LocalFin at hn
      rw [fne n hnn] at hn ⊢
      exact h.finPar n hnG hn
  · intro n
    by_cases hnn : n = nb
    · rw [hnn]
      exact fnn
    · rw [fne n hnn]
      exact h.nonneg n

theorem unvisited_qmodify {A : Arith} (m : List (Point × Node A)) (k : Point)
    (f : Node A → Node A) (hf : ∀ n, (f n).visited = n.visited) :
    unvisited (qmodify m k f) = unvisited m := by
  induction m with
  | nil => rfl
  | cons e t ih =>
    obtain ⟨k', v⟩ := e
    unfold unvisited at ih ⊢
    unfold qmodify
    split
    · simp only [List.filter_cons, hf]
      split <;> simp
    · simp only [List.filter_cons]
      split <;> simp [ih]

theorem unvisited_mark {A : Arith} (m : List (Point × Node A)) (k : Point)
    (hk : qcontains m k = true) (hv : (nodeAt m k).visited = false) :
    unvisited (qmodify m k fun n => { n with visited := true }) + 1 = unvisited m := by
  induction m with
  | nil => simp [qcontains, qfind] at hk
  | cons e t ih =>
    obtain ⟨k', v⟩ := e
    by_cases h : k' = k
    · subst h
      have hvv : v.visited = false := by simpa [nodeAt, qget, qfind] using hv
      simp [unvisited, qmodify, List.filter_cons, hvv]
    · have hk' : qcontains t k = true := by simpa [qcontains, qfind, h] using hk
      have hv' : (nodeAt t k).visited = false := by simpa [nodeAt, qget, qfind, h] using hv
      have := ih hk' hv'
      unfold unvisited at this ⊢
      unfold qmodify
      rw [if_neg h]
      simp only [List.filter_cons]
      split
      · simp only [List.length_cons]
        omega
      · exact this

theorem relax_unvisited {A : Arith} (cur finish nb : Point) (s : Search A) :
    unvisited (relax cur finish s nb).nodes = unvisited s.nodes := by
  unfold relax
  dsimp only
  split
  · exact unvisited_qmodify _ _ _ (fun _ => rfl)
  · rfl

theorem relaxFold_unvisited {A : Arith} (cur finish : Point) (l : List Point) (s : Search A) :
    unvisited (l.foldl (relax cur finish) s).nodes = unvisited s.nodes := by
  induction l generalizing s with
  | nil => rfl
  | cons nb t ih =>
    simp only [List.foldl_cons]
    rw [ih, relax_unvisited]

theorem relax_visited {A : Arith} (cur finish nb k : Point) (s : Search A) :
    (nodeAt (relax cur finish s nb).nodes k).visited = (nodeAt s.nodes k).visited := by
  unfold relax
  dsimp only
  split
  · rcases nodeAt_qmodify s.nodes nb k _ with h | ⟨h1, _, h2⟩
    · rw [h]
    · rw [h2, h1]
  · rfl

theorem relaxFold_inv {A : Arith} (hA : A.Lawful) (G : List (Point × Node A)) (hG : LinksOk G)
    (start cur finish : Point) (rest done : List Point) (s : Search A)
    (h : SInv G start (some cur) done s) (hcur : (nodeAt s.nodes cur).visited = true)
    (hrest : ∀ nb ∈ rest, nb ∈ (nodeAt G cur).neighbours) :
    SInv G start (some cur) (done ++ rest) (rest.foldl (relax cur finish) s) := by
  induction rest generalizing done s with
  | nil => simpa using h
  | cons nb t ih =>
    simp only [List.foldl_cons]
    have h1 := relax_inv hA G hG start cur finish nb done s h hcur
      (hrest nb (List.mem_cons_self _ _))
    have h2 := ih (done ++ [nb]) (relax cur finish s nb) h1
      (by rw [relax_visited]; exact hcur) (fun x hx => hrest x (List.mem_cons_of_mem _ hx))
    simpa using h2

theorem sinv_close {A : Arith} (G : List (Point × Node A)) (start cur : Point) (s : Search A)
    (h : SInv G start (some cur) (nodeAt G cur).neighbours s) : SInv G start none [] s := by
  refine ⟨h.same, h.front, h.startN, h.seen, h.vis, ?_, h.par, h.rooted, h.finPar, h.nonneg⟩
  intro v hv x hx
  simp only [reduceCtorEq, if_false] at hx
  have := h.closed v hv x
  by_cases hvc : some v = some cur
  · rw [if_pos hvc] at this
    simp only [Option.some.injEq] at hvc
    rw [hvc] at hx
    exact this hx
  · rw [if_neg hvc] at this
    exact this hx

theorem mark_inv {A : Arith} (G : List (Point × Node A)) (start cur : Point)
    (rest : List Point) (s : Search A) (h : SInv G start none [] s)
    (hsub : ∀ f ∈ cur :: rest, f ∈ s.notTested)
    (hdrop : ∀ f ∈ s.notTested, f ∈ cur :: rest ∨ (nodeAt s.nodes f).visited = true) :
    SInv G start (some cur) []
      { nodes := qmodify s.nodes cur fun n => { n with visited := true },
        notTested := cur :: rest } := by
  have hcurF := h.front cur (hsub cur (List.mem_cons_self _ _))
  have hcurS : qcontains s.nodes cur = true := by rw [h.same.keys]; exact hcurF.1
  have hself := nodeAt_qmodify_self s.nodes cur (fun n => { n with visited := true }) hcurS
  have hne : ∀ k, k ≠ cur →
      nodeAt (qmodify s.nodes cur fun n => { n with visited := true }) k = nodeAt s.nodes k :=
    fun k hk => nodeAt_qmodify_ne _ _ _ _ hk
  have hloc : ∀ k, (nodeAt (qmodify s.nodes cur fun n => { n with visited := true }) k).localGoal
      = (nodeAt s.nodes k).localGoal := by
    intro k
    by_cases hk : k = cur
    · rw [hk, hself]
    · rw [hne k hk]
  have hparent : ∀ k, (nodeAt (qmodify s.nodes cur fun n => { n with visited := true }) k).parent
      = (nodeAt s.nodes k).parent := by
    intro k
    by_cases hk : k = cur
    · rw [hk, hself]
    · rw [hne k hk]
  have hvisited : ∀ k,
      (nodeAt (qmodify s.nodes cur fun n => { n with visited := true }) k).visited = true ↔
      (k = cur ∨ (nodeAt s.nodes k).visited = true) := by
    intro k
    by_cases hk : k = cur
    · rw [hk, hself]
      simp
    · rw [hne k hk]
      simp [hk]
  have hfin : ∀ k, LocalFin (qmodify s.nodes cur fun n => { n with visited := true }) k ↔
      LocalFin s.nodes k := by
    intro k
    unfold LocalFin
    rw [hloc]
  refine ⟨sameGraph_trans h.same (sameGraph_qmodify _ _ _ (fun n => ⟨rfl, rfl, rfl, rfl⟩)),
    ?_, ?_, ?_, ?_, ?_, ?_, ?_, ?_, ?_⟩
  · intro f hf
    obtain ⟨h1, h2, h3, h4⟩ := h.front f (hsub f hf)
    exact ⟨h1, h2, (hfin f).mpr h3, h4⟩
  · rw [hloc, hparent]
    exact h.startN
  · rcases h.seen with h1 | h1
    · exact Or.inl ((hvisited start).mpr (Or.inr h1))
    · rcases hdrop start h1 with h2 | h2
      · exact Or.inr h2
      · exact Or.inl ((hvisited start).mpr (Or.inr h2))
  · intro v hv
    rcases (hvisited v).mp hv with hv | hv
    · rw [hv]
      exact ⟨hcurF.1, hcurF.2.1, (hfin cur).mpr hcurF.2.2.1, hcurF.2.2.2⟩
    · obtain ⟨h1, h2, h3, h4⟩ := h.vis v hv
      exact ⟨h1, h2, (hfin v).mpr h3, h4⟩
  · intro v hv x hx
    by_cases hvc : some v = some cur
    · rw [if_pos hvc] at hx
      simp at hx
    · rw [if_neg hvc] at hx
      have hvne : v ≠ cur := fun hc => hvc (by rw [hc])
      have hv' : (nodeAt s.nodes v).visited = true := by
        rcases (hvisited v).mp hv with hv | hv
        · exact absurd hv hvne
        · exact hv
      have := h.closed v hv' x
      simp only [reduceCtorEq, if_false] at this
      obtain ⟨h1, h2⟩ := this hx
      refine ⟨(hfin x).mpr h1, fun ho => ?_⟩
      rcases h2 ho with h3 | h3
      · exact Or.inl ((hvisited x).mpr (Or.inr h3))
      · rcases hdrop x h3 with h4 | h4
        · exact Or.inr h4
        · exact Or.inl ((hvisited x).mpr (Or.inr h4))
  · intro n p hp
    rw [hparent] at hp
    obtain ⟨h1, h2, h3⟩ := h.par n p hp
    refine ⟨(hvisited p).mpr (Or.inr h1), h2, ?_⟩
    rw [hloc, hloc]
    exact h3
  · intro n
    obtain ⟨r, d, hch⟩ := h.rooted n
    induction hch with
    | root n hn => exact ⟨n, 0, ChainTo.root n (by rw [hparent]; exact hn)⟩
    | step n p r d hn _ ih =>
      obtain ⟨r', d', h'⟩ := ih
      exact ⟨r', d' + 1, ChainTo.step n p r' d' (by rw [hparent]; exact hn) h'⟩
  · intro n hnG hn
    rw [hparent]
    exact h.finPar n hnG ((hfin n).mp hn)
  · intro n
    rw [hloc]
    exact h.nonneg n

theorem searchStep_none {A : Arith} (finish : Point) (s : Search A)
    (h : searchStep finish s = none) :
    ∀ f ∈ s.notTested, (nodeAt s.nodes f).visited = true := by
  intro f hf
  unfold searchStep at h
  split at h
  · rename_i he
    simp only [List.isEmpty_iff] at he
    rw [he] at hf
    simp at hf
  · dsimp only at h
    split at h
    · rename_i hd
      have hs : f ∈ sortByGoal s.nodes s.notTested := (mem_sortByGoal _ _ _).mpr hf
      rcases mem_dropWhile_or (fun k => (nodeAt s.nodes k).visited) _ f hs with h1 | h1
      · rw [hd] at h1
        simp at h1
      · exact h1
    · cases h

theorem searchStep_some {A : Arith} (hA : A.Lawful) (G : List (Point × Node A))
    (hG : LinksOk G) (start finish : Point) (s s' : Search A) (h : SInv G start none [] s)
    (hs : searchStep finish s = some s') :
    SInv G start none [] s' ∧ unvisited s'.nodes + 1 = unvisited s.nodes := by
  unfold searchStep at hs
  split at hs
  · cases hs
  · dsimp only at hs
    split at hs
    · cases hs
    · rename_i cur rest hd
      simp only [Option.some.injEq] at hs
      have hcurv : (nodeAt s.nodes cur).visited = false :=
        dropWhile_head_neg (fun k => (nodeAt s.nodes k).visited) _ cur rest hd
      have hsub : ∀ f ∈ cur :: rest, f ∈ s.notTested := by
        intro f hf
        rw [← hd] at hf
        exact (mem_sortByGoal _ _ _).mp ((List.dropWhile_sublist _).subset hf)
      have hdrop : ∀ f ∈ s.notTested,
          f ∈ cur :: rest ∨ (nodeAt s.nodes f).visited = true := by
        intro f hf
        have := mem_dropWhile_or (fun k => (nodeAt s.nodes k).visited) _ f
          ((mem_sortByGoal s.nodes f s.notTested).mpr hf)
        rw [hd] at this
        exact this
      have hcurG : qcontains G cur = true :=
        (h.front cur (hsub cur (List.mem_cons_self _ _))).1
      have hcurS : qcontains s.nodes cur = true := by rw [h.same.keys]; exact hcurG
      have h1 := mark_inv G start cur rest s h hsub hdrop
      have hself := nodeAt_qmodify_self s.nodes cur (fun n => { n with visited := true }) hcurS
      have hnbrs : (nodeAt (qmodify s.nodes cur fun n => { n with visited := true })
          cur).neighbours = (nodeAt G cur).neighbours := by
        rw [hself]
        exact h.same.neighbours cur
      have h2 := relaxFold_inv hA G hG start cur finish
        (nodeAt (qmodify s.nodes cur fun n => { n with visited := true }) cur).neighbours []
        _ h1 (by rw [hself]) (by rw [hnbrs]; exact fun _ hx => hx)
      rw [List.nil_append, hnbrs] at h2
      rw [← hs]
      refine ⟨sinv_close G start cur _ ?_, ?_⟩
      · rw [hnbrs]
        exact h2
      · rw [relaxFold_unvisited]
        exact unvisited_mark s.nodes cur hcurS hcurv

theorem searchLoop_end {A : Arith} (hA : A.Lawful) (G : List (Point × Node A))
    (hG : LinksOk G) (start finish : Point) (fuel : Nat) (s : Search A)
    (h : SInv G start none [] s) (hf : unvisited s.nodes < fuel) :
    SInv G start none [] (searchLoop finish fuel s) ∧
    ∀ f ∈ (searchLoop finish fuel s).notTested,
      (nodeAt (searchLoop finish fuel s).nodes f).visited = true := by
  induction fuel generalizing s with
  | zero => omega
  | succ n ih =>
    unfold searchLoop
    cases hs : searchStep finish s with
    | none => exact ⟨h, searchStep_none finish s hs⟩
    | some s' =>
      obtain ⟨h1, h2⟩ := searchStep_some hA G hG start finish s s' h hs
      exact ih s' h1 (by omega)

theorem search_complete {A : Arith} (G : List (Point × Node A)) (start : Point)
    (s : Search A) (h : SInv G start none [] s)
    (hf : ∀ f ∈ s.notTested, (nodeAt s.nodes f).visited = true) (u : Point)
    (hu : Expandable G start u) : (nodeAt s.nodes u).visited = true := by
  induction hu with
  | start =>
    rcases h.seen with h1 | h1
    · exact h1
    · exact hf _ h1
  | step u v _ hv ho ih =>
    have := h.closed u ih v
    simp only [reduceCtorEq, if_false] at this
    rcases (this hv).2 ho with h1 | h1
    · exact h1
    · exact hf _ h1

theorem unvisited_le {A : Arith} (m : List (Point × Node A)) : unvisited m ≤ m.length :=
  List.length_filter_le _ _

theorem chainTo_det {A : Arith} (m : List (Point × Node A)) (p r r' : Point) (d d' : Nat)
    (h : ChainTo m p r d) (h' : ChainTo m p r' d') : r = r' ∧ d = d' := by
  induction h generalizing r' d' with
  | root n hn =>
    cases h' with
    | root _ _ => exact ⟨rfl, rfl⟩
    | step _ p1 _ d1 hp _ =>
      rw [hn] at hp
      cases hp
  | step n p r d hn _ ih =>
    cases h' with
    | root _ hn' =>
      rw [hn] at hn'
      cases hn'
    | step _ p1 _ d1 hp hc =>
      rw [hn] at hp
      simp only [Option.some.injEq] at hp
      subst hp
      obtain ⟨h1, h2⟩ := ih _ _ hc
      exact ⟨h1, by rw [h2]⟩

theorem chainTo_list {A : Arith} (m : List (Point × Node A)) (p r : Point) (d : Nat)
    (h : ChainTo m p r d) :
    ∃ l : List Point, l.length = d + 1 ∧ l.Nodup ∧
      (∀ x ∈ l, ∃ r' d', ChainTo m x r' d' ∧ d' ≤ d) ∧
      (∀ x ∈ l, x = p ∨ ∃ y, (nodeAt m y).parent = some x) := by
  induction h with
  | root n hn =>
    refine ⟨[n], rfl, List.nodup_singleton _, ?_, ?_⟩
    · intro x hx
      rw [List.mem_singleton.mp hx]
      exact ⟨n, 0, ChainTo.root n hn, le_refl _⟩
    · intro x hx
      exact Or.inl (List.mem_singleton.mp hx)
  | step n p r d hn hc ih =>
    obtain ⟨l, hl, hnd, hdep, hpar⟩ := ih
    refine ⟨n :: l, by simp [hl], ?_, ?_, ?_⟩
    · rw [List.nodup_cons]
      refine ⟨?_, hnd⟩
      intro hin
      obtain ⟨r', d', hc', hle⟩ := hdep n hin
      have := (chainTo_det m n r r' (d + 1) d' (ChainTo.step n p r d hn hc) hc').2
      omega
    · intro x hx
      rcases List.mem_cons.mp hx with hx | hx
      · rw [hx]
        exact ⟨r, d + 1, ChainTo.step n p r d hn hc, le_refl _⟩
      · obtain ⟨r', d', hc', hle⟩ := hdep x hx
        exact ⟨r', d', hc', by omega⟩
    · intro x hx
      rcases List.mem_cons.mp hx with hx | hx
      · exact Or.inl hx
      · right
        rcases hpar x hx with h1 | h1
        · exact ⟨n, by rw [h1]; exact hn⟩
        · exact h1

theorem mem_qkeys {κ α : Type} [DecidableEq κ] (m : List (κ × α)) (k : κ)
    (h : qcontains m k = true) : k ∈ qkeys m := by
  induction m with
  | nil => simp [qcontains, qfind] at h
  | cons e t ih =>
    obtain ⟨k', v⟩ := e
    unfold qkeys
    simp only [List.map_cons, List.mem_cons]
    by_cases hk : k' = k
    · exact Or.inl hk.symm
    · right
      apply ih
      simpa [qcontains, qfind, hk] using h

theorem chainTo_depth {A : Arith} (m : List (Point × Node A)) (p r : Point) (d : Nat)
    (h : ChainTo m p r d) (hp : qcontains m p = true)
    (hpar : ∀ y x, (nodeAt m y).parent = some x → qcontains m x = true) : d < m.length := by
  obtain ⟨l, hl, hnd, _, hmem⟩ := chainTo_list m p r d h
  have hsub : l ⊆ qkeys m := by
    intro x hx
    apply mem_qkeys
    rcases hmem x hx with h1 | ⟨y, hy⟩
    · rw [h1]
      exact hp
    · exact hpar y x hy
  have := (List.subperm_of_subset hnd hsub).length_le
  unfold qkeys at this
  rw [List.length_map] at this
  omega

theorem solutionLoop_last {A : Arith} (m : List (Point × Node A)) (fuel : Nat) (p : Point)
    (acc : List Point) (h : acc ≠ []) :
    (solutionLoop m fuel p acc).getLast? = acc.getLast? := by
  induction fuel generalizing p acc with
  | zero => rfl
  | succ n ih =>
    unfold solutionLoop
    dsimp only
    split
    · rw [ih _ _ (by simp)]
      cases acc with
      | nil => exact absurd rfl h
      | cons a t => exact List.getLast?_cons_cons
    · cases acc with
      | nil => exact absurd rfl h
      | cons a t => rfl

theorem solutionLoop_last_nil {A : Arith} (m : List (Point × Node A)) (fuel : Nat) (p : Point) :
    (solutionLoop m (fuel + 1) p []).getLast? = some ((nodeAt m p).x, (nodeAt m p).y) := by
  unfold solutionLoop
  dsimp only
  split
  · rw [solutionLoop_last _ _ _ _ (by simp)]
    rfl
  · rfl

theorem solutionLoop_head {A : Arith} (m : List (Point × Node A)) (p r : Point) (d : Nat)
    (h : ChainTo m p r d) (fuel : Nat) (hf : d < fuel) (acc : List Point) :
    (solutionLoop m fuel p acc).head? = some ((nodeAt m r).x, (nodeAt m r).y) := by
  induction h generalizing fuel acc with
  | root n hn =>
    cases fuel with
    | zero => omega
    | succ f =>
      unfold solutionLoop
      dsimp only
      rw [hn]
      rfl
  | step n p r d hn _ ih =>
    cases fuel with
    | zero => omega
    | succ f =>
      unfold solutionLoop
      dsimp only
      rw [hn]
      exact ih f (by omega) _

theorem solutionLoop_mem {A : Arith} (m : List (Point × Node A)) (fuel : Nat) (p : Point)
    (acc : List Point) (x : Point) (h : x ∈ solutionLoop m fuel p acc) :
    x ∈ acc ∨ ∃ n, OnChain m p n ∧ x = ((nodeAt m n).x, (nodeAt m n).y) := by
  induction fuel generalizing p acc with
  | zero => exact Or.inl h
  | succ f ih =>
    unfold solutionLoop at h
    dsimp only at h
    split at h
    · rename_i q hq
      rcases ih _ _ h with h1 | ⟨n, h1, h2⟩
      · rcases List.mem_cons.mp h1 with h1 | h1
        · exact Or.inr ⟨p, OnChain.self p, h1⟩
        · exact Or.inl h1
      · exact Or.inr ⟨n, OnChain.step p q n hq h1, h2⟩
    · rcases List.mem_cons.mp h with h1 | h1
      · exact Or.inr ⟨p, OnChain.self p, h1⟩
      · exact Or.inl h1

theorem qfind_resetSearch {A : Arith} (m : List (Point × Node A)) (k : Point) :
    qfind (resetSearch m) k = (qfind m k).map fun n =>
      { n with visited := false, parent := none, globalGoal := A.fInf, localGoal := A.fInf } := by
  induction m with
  | nil => rfl
  | cons e t ih =>
    obtain ⟨k', v⟩ := e
    unfold resetSearch at ih ⊢
    simp only [List.map_cons, qfind]
    split
    · rfl
    · exact ih

theorem nodeAt_resetSearch {A : Arith} (m : List (Point × Node A)) (k : Point)
    (h : qcontains m k = true) :
    nodeAt (resetSearch m) k =
      { nodeAt m k with visited := false, parent := none, globalGoal := A.fInf,
                        localGoal := A.fInf } := by
  unfold nodeAt qget
  rw [qfind_resetSearch]
  unfold qcontains at h
  cases hf : qfind m k with
  | none => simp [hf] at h
  | some v => rfl

theorem nodeAt_absent {A : Arith} (m : List (Point × Node A)) (k : Point)
    (h : ¬ qcontains m k = true) : nodeAt m k = Node.zero A := by
  unfold nodeAt qget
  unfold qcontains at h
  cases hf : qfind m k with
  | none => rfl
  | some v => simp [hf] at h

theorem qcontains_resetSearch {A : Arith} (m : List (Point × Node A)) (k : Point) :
    qcontains (resetSearch m) k = qcontains m k := by
  unfold qcontains
  rw [qfind_resetSearch]
  cases qfind m k <;> rfl

theorem sameGraph_resetSearch {A : Arith} (m : List (Point × Node A)) :
    SameGraph m (resetSearch m) := by
  refine ⟨qcontains_resetSearch m, by simp [resetSearch], ?_, ?_, ?_, ?_⟩ <;>
  · intro k
    by_cases h : qcontains m k = true
    · rw [nodeAt_resetSearch m k h]
    · rw [nodeAt_absent m k h,
        nodeAt_absent _ k (by rw [qcontains_resetSearch]; exact h)]

theorem linksOk_same {A : Arith} (m m' : List (Point × Node A)) (h : SameGraph m m')
    (hm : LinksOk m) (hent : ∀ e ∈ m', e.2 = nodeAt m' e.1 ∨
      ∃ e0 ∈ m, e0.1 = e.1 ∧ e0.2.x = e.2.x ∧ e0.2.y = e.2.y ∧
        e0.2.neighbours = e.2.neighbours) : LinksOk m' := by
  have hcase : ∀ e ∈ m', ∃ e0 ∈ m, e0.1 = e.1 ∧ e0.2.x = e.2.x ∧ e0.2.y = e.2.y ∧
      e0.2.neighbours = e.2.neighbours := by
    intro e he
    rcases hent e he with h1 | h1
    · have hc : qcontains m e.1 = true := by
        rw [← h.keys]
        exact qcontains_of_mem m' e he
      refine ⟨(e.1, nodeAt m e.1), nodeAt_mem m e.1 hc, rfl, ?_, ?_, ?_⟩
      · rw [h1]; exact (h.x e.1).symm
      · rw [h1]; exact (h.y e.1).symm
      · rw [h1]; exact (h.neighbours e.1).symm
    · exact h1
  refine ⟨?_, ?_⟩
  · intro e he nb hnb
    obtain ⟨e0, h0, _, _, _, h4⟩ := hcase e he
    rw [h.keys]
    exact hm.1 e0 h0 nb (by rw [h4]; exact hnb)
  · intro e he
    obtain ⟨e0, h0, _, h2, h3, _⟩ := hcase e he
    rw [← h2, ← h3]
    exact hm.2 e0 h0

theorem linksOk_resetSearch {A : Arith} (m : List (Point × Node A)) (hm : LinksOk m) :
    LinksOk (resetSearch m) := by
  apply linksOk_same m _ (sameGraph_resetSearch m) hm
  intro e he
  right
  unfold resetSearch at he
  obtain ⟨e0, h0, h1⟩ := List.mem_map.mp he
  exact ⟨e0, h0, by rw [← h1], by rw [← h1], by rw [← h1], by rw [← h1]⟩

theorem linksOk_qmodify {A : Arith} (m : List (Point × Node A)) (k : Point)
    (f : Node A → Node A)
    (hf : ∀ n, (f n).x = n.x ∧ (f n).y = n.y ∧ (f n).obstacle = n.obstacle ∧
      (f n).neighbours = n.neighbours) (hm : LinksOk m) : LinksOk (qmodify m k f) := by
  apply linksOk_same m _ (sameGraph_qmodify m k f hf) hm
  intro e he
  right
  rcases mem_qmodify m k f e he with h1 | ⟨v, hv, h1⟩
  · exact ⟨e, h1, rfl, rfl, rfl, rfl⟩
  · refine ⟨(k, v), hv, by rw [h1], ?_, ?_, ?_⟩
    · rw [h1]; exact (hf v).1.symm
    · rw [h1]; exact (hf v).2.1.symm
    · rw [h1]; exact (hf v).2.2.2.symm

theorem expandable_same {A : Arith} (m m' : List (Point × Node A)) (h : SameGraph m m')
    (start u : Point) (hu : Expandable m start u) : Expandable m' start u := by
  induction hu with
  | start => exact Expandable.start
  | step u v _ hv ho ih =>
    exact Expandable.step u v ih (by rw [h.neighbours]; exact hv) (by rw [h.obstacle]; exact ho)

theorem sameGraph_symm {A : Arith} {m m' : List (Point × Node A)} (h : SameGraph m m') :
    SameGraph m' m :=
  ⟨fun k => (h.keys k).symm, h.len.symm, fun k => (h.x k).symm, fun k => (h.y k).symm,
    fun k => (h.obstacle k).symm, fun k => (h.neighbours k).symm⟩

/-- The graph the search starts from, after the reset loop and the two writes
to the start node. -/
theorem search_init {A : Arith} (hA : A.Lawful) (m : List (Point × Node A)) (start : Point)
    (gg : Node A → A.F) (hs : qcontains m start = true) :
    SInv (qmodify (qmodify (resetSearch m) start fun n => { n with localGoal := A.fZero })
        start fun n => { n with globalGoal := gg n })
      start none []
      { nodes := qmodify (qmodify (resetSearch m) start fun n => { n with localGoal := A.fZero })
          start fun n => { n with globalGoal := gg n },
        notTested := [start] } := by
  have hs0 : qcontains (resetSearch m) start = true := by
    rw [qcontains_resetSearch]; exact hs
  have hs1 : qcontains (qmodify (resetSearch m) start fun n => { n with localGoal := A.fZero })
      start = true := by rw [qcontains_qmodify]; exact hs0
  have hnode : ∀ k, (nodeAt (qmodify (qmodify (resetSearch m) start
        fun n => { n with localGoal := A.fZero }) start
        fun n => { n with globalGoal := gg n }) k).visited = false ∧
      (nodeAt (qmodify (qmodify (resetSearch m) start
        fun n => { n with localGoal := A.fZero }) start
        fun n => { n with globalGoal := gg n }) k).parent = none ∧
      ((k = start ∧ (nodeAt (qmodify (qmodify (resetSearch m) start
        fun n => { n with localGoal := A.fZero }) start
        fun n => { n with globalGoal := gg n }) k).localGoal = A.fZero) ∨
       (k ≠ start ∧ (qcontains m k = true →
        (nodeAt (qmodify (qmodify (resetSearch m) start
        fun n => { n with localGoal := A.fZero }) start
        fun n => { n with globalGoal := gg n }) k).localGoal = A.fInf) ∧
        (¬ qcontains m k = true →
        (nodeAt (qmodify (qmodify (resetSearch m) start
        fun n => { n with localGoal := A.fZero }) start
        fun n => { n with globalGoal := gg n }) k).localGoal = A.fZero))) := by
    intro k
    by_cases hk : k = start
    · rw [hk, nodeAt_qmodify_self _ _ _ hs1, nodeAt_qmodify_self _ _ _ hs0,
        nodeAt_resetSearch m start hs]
      exact ⟨rfl, rfl, Or.inl ⟨rfl, rfl⟩⟩
    · rw [nodeAt_qmodify_ne _ _ _ _ hk, nodeAt_qmodify_ne _ _ _ _ hk]
      by_cases hc : qcontains m k = true
      · rw [nodeAt_resetSearch m k hc]
        exact ⟨rfl, rfl, Or.inr ⟨hk, fun _ => rfl, fun h => absurd hc h⟩⟩
      · rw [nodeAt_absent _ k (by rw [qcontains_resetSearch]; exact hc)]
        exact ⟨rfl, rfl, Or.inr ⟨hk, fun h => absurd h hc, fun _ => rfl⟩⟩
  have hkeys : ∀ k, qcontains (qmodify (qmodify (resetSearch m) start
        fun n => { n with localGoal := A.fZero }) start
        fun n => { n with globalGoal := gg n }) k = qcontains m k := by
    intro k
    rw [qcontains_qmodify, qcontains_qmodify, qcontains_resetSearch]
  refine ⟨sameGraph_refl _, ?_, ?_, Or.inr (List.mem_singleton.mpr rfl), ?_, ?_, ?_, ?_, ?_, ?_⟩
  · intro f hf
    rw [List.mem_singleton.mp hf]
    refine ⟨by rw [hkeys]; exact hs, Expandable.start, ?_, Or.inl rfl⟩
    unfold LocalFin
    rcases (hnode start).2.2 with ⟨_, h1⟩ | ⟨h1, _⟩
    · rw [h1]
      exact hA.zero_lt_inf
    · exact absurd rfl h1
  · refine ⟨?_, (hnode start).2.1⟩
    rcases (hnode start).2.2 with ⟨_, h1⟩ | ⟨h1, _⟩
    · exact h1
    · exact absurd rfl h1
  · intro v hv
    rw [(hnode v).1] at hv
    cases hv
  · intro v hv
    rw [(hnode v).1] at hv
    cases hv
  · intro n p hp
    rw [(hnode n).2.1] at hp
    cases hp
  · intro n
    exact ⟨n, 0, ChainTo.root n (hnode n).2.1⟩
  · intro n hn hfin
    rcases (hnode n).2.2 with ⟨h1, _⟩ | ⟨_, h1, _⟩
    · exact Or.inl h1
    · unfold LocalFin at hfin
      rw [hkeys] at hn
      rw [h1 hn, hA.lt_irrefl] at hfin
      cases hfin
  · intro n
    rcases (hnode n).2.2 with ⟨_, h1⟩ | ⟨_, h1, h2⟩
    · rw [h1]
      exact hA.lt_irrefl _
    · by_cases hc : qcontains m n = true
      · rw [h1 hc]
        exact hA.inf_max _
      · rw [h2 hc]
        exact hA.lt_irrefl _

theorem loadGoal_present {A : Arith} (g : Pathfinding A) (start finish : Point)
    (hs : qcontains g.nodesMap start = true) (hf : qcontains g.nodesMap finish = true) :
    (loadGoal g start finish).nodesMap = g.nodesMap := by
  unfold loadGoal
  dsimp only
  rw [qindex_of_contains _ _ _ _ hs, qindex_of_contains _ _ _ _ hf]

/-- Reading through a pointer gives the same node before and after `loadGoal`:
a node that `operator[]` inserts is the value-initialised one. -/
theorem nodeAt_loadGoal {A : Arith} (g : Pathfinding A) (start finish k : Point) :
    nodeAt (loadGoal g start finish).nodesMap k = nodeAt g.nodesMap k := by
  unfold loadGoal nodeAt
  dsimp only
  rw [qget_qindex, qget_qindex]

theorem linksOk_qindex {A : Arith} (m : List (Point × Node A)) (k : Point) (h : LinksOk m) :
    LinksOk (qindex pointLt (Node.zero A) m k) := by
  unfold qindex
  split
  · exact h
  · refine ⟨?_, ?_⟩
    · intro e he nb hnb
      rw [qcontains_qinsert]
      rcases mem_qinsert pointLt m k _ e he with h1 | h1
      · rw [h1] at hnb
        simp [Node.zero] at hnb
      · simp [h.1 e h1 nb hnb]
    · intro e he
      rcases mem_qinsert pointLt m k _ e he with h1 | h1
      · rw [h1]
        simp only [Node.zero]
        constructor <;> constructor <;> norm_num
      · exact h.2 e h1

/-- What `solveAStar` leaves behind after `loadGoal`: the invariant of the
search at a state in which every node of `notTestedNodes` is visited. -/
theorem solve_inv {A : Arith} (hA : A.Lawful) (g : Pathfinding A) (start finish : Point)
    (hG : LinksOk g.nodesMap) :
    ∃ (G : List (Point × Node A)) (s : Search A),
      (solveAStar (loadGoal g start finish)).nodesMap = s.nodes ∧
      (solveAStar (loadGoal g start finish)).nodeEnd = some finish ∧
      SameGraph (loadGoal g start finish).nodesMap G ∧ LinksOk G ∧
      SInv G start none [] s ∧
      ∀ f ∈ s.notTested, (nodeAt s.nodes f).visited = true := by
  have hL : LinksOk (loadGoal g start finish).nodesMap := by
    unfold loadGoal
    exact linksOk_qindex _ _ (linksOk_qindex _ _ hG)
  have hs : qcontains (loadGoal g start finish).nodesMap start = true := by
    unfold loadGoal
    dsimp only
    rw [qcontains_qindex, qcontains_qindex]
    simp
  have hsn : (loadGoal g start finish).nodeStart = some start := rfl
  have hen : (loadGoal g start finish).nodeEnd = some finish := rfl
  generalize loadGoal g start finish = g0 at hL hs hsn hen
  unfold solveAStar
  rw [hsn, hen]
  dsimp only
  have hsame : SameGraph g0.nodesMap
      (qmodify (qmodify (resetSearch g0.nodesMap) start
        fun n => { n with localGoal := A.fZero }) start fun n =>
        { n with globalGoal := distance n (nodeAt (qmodify (resetSearch g0.nodesMap) start
          fun n => { n with localGoal := A.fZero }) finish) }) := by
    refine sameGraph_trans (sameGraph_trans (sameGraph_resetSearch _)
      (sameGraph_qmodify _ _ _ ?_)) (sameGraph_qmodify _ _ _ ?_) <;>
    · intro n
      exact ⟨rfl, rfl, rfl, rfl⟩
  have hok : LinksOk
      (qmodify (qmodify (resetSearch g0.nodesMap) start
        fun n => { n with localGoal := A.fZero }) start fun n =>
        { n with globalGoal := distance n (nodeAt (qmodify (resetSearch g0.nodesMap) start
          fun n => { n with localGoal := A.fZero }) finish) }) := by
    refine linksOk_qmodify _ _ _ ?_ (linksOk_qmodify _ _ _ ?_ (linksOk_resetSearch _ hL)) <;>
    · intro n
      exact ⟨rfl, rfl, rfl, rfl⟩
  have hinit := search_init hA g0.nodesMap start
    (fun n => distance n (nodeAt (qmodify (resetSearch g0.nodesMap) start
      fun n => { n with localGoal := A.fZero }) finish)) hs
  have hend := searchLoop_end hA _ hok start finish
    ((qmodify (qmodify (resetSearch g0.nodesMap) start
        fun n => { n with localGoal := A.fZero }) start fun n =>
        { n with globalGoal := distance n (nodeAt (qmodify (resetSearch g0.nodesMap) start
          fun n => { n with localGoal := A.fZero }) finish) }).length + 1) _ hinit
    (Nat.lt_succ_of_le (unvisited_le _))
  exact ⟨_, _, rfl, rfl, hsame, hok, hend.1, hend.2⟩

theorem chainTo_root {A : Arith} (m : List (Point × Node A)) (p r : Point) (d : Nat)
    (h : ChainTo m p r d) :
    (nodeAt m r).parent = none ∧ (r = p ∨ ∃ y, (nodeAt m y).parent = some r) := by
  induction h with
  | root n hn => exact ⟨hn, Or.inl rfl⟩
  | step n p r d hn _ ih =>
    refine ⟨ih.1, Or.inr ?_⟩
    rcases ih.2 with h1 | h1
    · exact ⟨n, by rw [h1]; exact hn⟩
    · exact h1

theorem onChain_cases {A : Arith} (m : List (Point × Node A)) (p n : Point)
    (h : OnChain m p n) : n = p ∨ ∃ y, (nodeAt m y).parent = some n := by
  induction h with
  | self p => exact Or.inl rfl
  | step p q n hq _ ih =>
    right
    rcases ih with h1 | h1
    · exact ⟨p, by rw [h1]; exact hq⟩
    · exact h1

/-- The coordinate fields of a node of the graph, read in the map the search
leaves behind, are the node's key. -/
theorem coord_final {A : Arith} (g m : List (Point × Node A))
    (hwf : ∀ e ∈ g, ((e.2.x, e.2.y) : Point) = e.1)
    (hx : ∀ k, (nodeAt m k).x = (nodeAt g k).x) (hy : ∀ k, (nodeAt m k).y = (nodeAt g k).y)
    (k : Point) (hk : qcontains g k = true) :
    (((nodeAt m k).x, (nodeAt m k).y) : Point) = k := by
  rw [hx, hy]
  exact nodeAt_wf g k hwf hk

/-- C2: for a graph as the build makes it and start and end coordinates that
both have nodes, the sequence returned by `getSolution` after `loadGoal` and
`solveAStar` is not empty and ends with `end`; it begins with `start` when
`end` is reachable and with another point when it is not. -/
theorem solution_endpoints {A : Arith} (hA : A.Lawful) (g : Pathfinding A)
    (start finish : Point) (hG : GraphOk g.nodesMap)
    (hs : qcontains g.nodesMap start = true) (hf : qcontains g.nodesMap finish = true) :
    getSolution (solveAStar (loadGoal g start finish)) ≠ [] ∧
    (getSolution (solveAStar (loadGoal g start finish))).getLast? = some finish ∧
    (Reachable g.nodesMap start finish →
      (getSolution (solveAStar (loadGoal g start finish))).head? = some start) ∧
    (¬ Reachable g.nodesMap start finish →
      (getSolution (solveAStar (loadGoal g start finish))).head? ≠ some start) := by
  obtain ⟨G, s, hnodes, hend, hsame0, _, hinv, hdone⟩ := solve_inv hA g start finish hG.2
  have hsame : SameGraph g.nodesMap G := by
    rw [loadGoal_present g start finish hs hf] at hsame0
    exact hsame0
  have hx : ∀ k, (nodeAt s.nodes k).x = (nodeAt g.nodesMap k).x :=
    fun k => (hinv.same.x k).trans (hsame.x k)
  have hy : ∀ k, (nodeAt s.nodes k).y = (nodeAt g.nodesMap k).y :=
    fun k => (hinv.same.y k).trans (hsame.y k)
  have hfG : qcontains G finish = true := by rw [hsame.keys]; exact hf
  have hfS : qcontains s.nodes finish = true := by rw [hinv.same.keys]; exact hfG
  have hlen : ∃ f, s.nodes.length = f + 1 := by
    cases hl : s.nodes with
    | nil => simp [hl, qcontains, qfind] at hfS
    | cons e t => exact ⟨t.length, rfl⟩
  have hparP : ∀ y x, (nodeAt s.nodes y).parent = some x → qcontains s.nodes x = true := by
    intro y x hyx
    rw [hinv.same.keys]
    exact (hinv.vis x (hinv.par y x hyx).1).1
  obtain ⟨r, d, hch⟩ := hinv.rooted finish
  have hd := chainTo_depth s.nodes finish r d hch hfS hparP
  have hhead := solutionLoop_head s.nodes finish r d hch s.nodes.length hd []
  have hsol : getSolution (solveAStar (loadGoal g start finish)) =
      solutionLoop s.nodes s.nodes.length finish [] := by
    unfold getSolution
    rw [hend, hnodes]
  rw [hsol]
  obtain ⟨f, hfl⟩ := hlen
  have hlast : (solutionLoop s.nodes s.nodes.length finish []).getLast? = some finish := by
    rw [hfl, solutionLoop_last_nil, coord_final g.nodesMap s.nodes hG.1 hx hy finish hf]
  obtain ⟨hrpar, hrcase⟩ := chainTo_root s.nodes finish r d hch
  have hrstart : (∃ y, (nodeAt s.nodes y).parent = some r) → r = start := by
    intro ⟨y, hy⟩
    obtain ⟨h1, _, h3, _⟩ := hinv.vis r (hinv.par y r hy).1
    rcases hinv.finPar r h1 h3 with h4 | h4
    · exact h4
    · exact absurd hrpar h4
  have hrG : qcontains g.nodesMap r = true := by
    rcases hrcase with h1 | ⟨y, hy⟩
    · rw [h1]; exact hf
    · rw [← hsame.keys]
      exact (hinv.vis r (hinv.par y r hy).1).1
  rw [coord_final g.nodesMap s.nodes hG.1 hx hy r hrG] at hhead
  refine ⟨?_, hlast, ?_, ?_⟩
  · intro hnil
    rw [hnil] at hlast
    cases hlast
  · intro hreach
    rw [hhead]
    congr 1
    have hfs : finish = start → r = start := by
      intro hfs
      rw [hfs] at hch
      exact (chainTo_det s.nodes start r start d 0 hch (ChainTo.root start hinv.startN.2)).1
    rcases hreach with h1 | ⟨u, hu, hnb⟩
    · exact hfs h1
    · have huG := expandable_same g.nodesMap G hsame start u hu
      have huv := search_complete G start s hinv hdone u huG
      have hcl := hinv.closed u huv finish
      simp only [reduceCtorEq, if_false] at hcl
      have hfin := (hcl (by rw [hsame.neighbours]; exact hnb)).1
      rcases hinv.finPar finish hfG hfin with h2 | h2
      · exact hfs h2
      · rcases hrcase with h3 | h3
        · rw [h3] at hrpar
          exact absurd hrpar h2
        · exact hrstart h3
  · intro hnot
    rw [hhead]
    intro hc
    simp only [Option.some.injEq] at hc
    apply hnot
    rcases hrcase with h1 | ⟨y, hy⟩
    · left
      rw [← h1, hc]
    · right
      cases hch with
      | root _ hn => exact absurd hc.symm (fun h => hnot (Or.inl h.symm))
      | step _ p _ d1 hp _ =>
        obtain ⟨h1, h2, _⟩ := hinv.par finish p hp
        refine ⟨p, expandable_same G g.nodesMap (sameGraph_symm hsame) start p
          (hinv.vis p h1).2.1, ?_⟩
        rw [← hsame.neighbours]
        exact h2

/-- C3 (amended): for a graph as the build makes it, every start coordinate,
every end coordinate that has a node, and every node whose obstacle flag is
set, other than the start node and the end node: the coordinate of that node
does not occur in the sequence returned by `getSolution` after `loadGoal` and
`solveAStar`. -/
theorem obstacle_not_on_path {A : Arith} (hA : A.Lawful) (g : Pathfinding A)
    (start finish n : Point) (hG : GraphOk g.nodesMap)
    (hf : qcontains g.nodesMap finish = true)
    (hn : qcontains g.nodesMap n = true) (hobs : (nodeAt g.nodesMap n).obstacle = true)
    (hns : n ≠ start) (hnf : n ≠ finish) :
    (((nodeAt g.nodesMap n).x, (nodeAt g.nodesMap n).y) : Point) ∉
      getSolution (solveAStar (loadGoal g start finish)) := by
  obtain ⟨G, s, hnodes, hend, hsame, _, hinv, hdone⟩ := solve_inv hA g start finish hG.2
  have hnode : ∀ k, nodeAt (loadGoal g start finish).nodesMap k = nodeAt g.nodesMap k :=
    nodeAt_loadGoal g start finish
  have hx : ∀ k, (nodeAt s.nodes k).x = (nodeAt g.nodesMap k).x :=
    fun k => by rw [hinv.same.x, hsame.x, hnode]
  have hy : ∀ k, (nodeAt s.nodes k).y = (nodeAt g.nodesMap k).y :=
    fun k => by rw [hinv.same.y, hsame.y, hnode]
  have hsol : getSolution (solveAStar (loadGoal g start finish)) =
      solutionLoop s.nodes s.nodes.length finish [] := by
    unfold getSolution
    rw [hend, hnodes]
  rw [hsol, nodeAt_wf g.nodesMap n hG.1 hn]
  intro hmem
  rcases solutionLoop_mem s.nodes _ finish [] n hmem with h1 | ⟨c, hc, hxy⟩
  · simp at h1
  · rcases onChain_cases s.nodes finish c hc with h2 | ⟨y, hyc⟩
    · rw [h2, coord_final g.nodesMap s.nodes hG.1 hx hy finish hf] at hxy
      exact hnf hxy
    · obtain ⟨hcv, hnb, _⟩ := hinv.par y c hyc
      obtain ⟨_, _, _, h4⟩ := hinv.vis c hcv
      by_cases hcg : qcontains g.nodesMap c = true
      · rw [coord_final g.nodesMap s.nodes hG.1 hx hy c hcg] at hxy
        rcases h4 with h4 | h4
        · exact hns (by rw [hxy, h4])
        · rw [← hxy, hsame.obstacle, hnode, hobs] at h4
          cases h4
      · rw [hsame.neighbours, hnode, nodeAt_absent g.nodesMap c hcg] at hnb
        simp [Node.zero] at hnb

/-- The whole-number arithmetic `gridArith` has the order and addition facts
the search relies on. -/
theorem gridArith_lawful : gridArith.Lawful where
  lt_irrefl := by
    intro a
    cases a <;> simp [gridArith, gridLt]
  lt_trans := by
    intro a b c
    cases a <;> cases b <;> cases c <;> simp [gridArith, gridLt]
    omega
  ge_trans := by
    intro a b c
    cases a <;> cases b <;> cases c <;> simp [gridArith, gridLt]
    omega
  inf_max := by
    intro a
    rfl
  zero_lt_inf := rfl
  add_sqrt_ge := by
    intro a x
    cases a <;> cases x <;> simp [gridArith, gridLt, gridAdd]
  add_dist_lt_inf := by
    intro a dx dy ha _ _ _ _
    cases a with
    | none => simp [gridArith, gridLt] at ha
    | some v => simp [gridArith, gridLt, gridAdd]

set_option maxRecDepth 100000 in
/-- Instance of `solution_endpoints`: in the graph of `sceneGap` the solution
from `(0,0)` to `(10,0)` runs over the midpoint `(5,0)`. -/
theorem solution_endpoints_witness :
    gridArith.Lawful ∧ GraphOk sceneGap.p.nodesMap ∧
    qcontains sceneGap.p.nodesMap (0, 0) = true ∧
    qcontains sceneGap.p.nodesMap (10, 0) = true ∧
    Reachable sceneGap.p.nodesMap (0, 0) (10, 0) ∧
    getSolution (solveAStar (loadGoal sceneGap.p (0, 0) (10, 0))) = [(0, 0), (5, 0), (10, 0)] ∧
    (getSolution (solveAStar (loadGoal sceneGap.p (0, 0) (10, 0))) ≠ [] ∧
     (getSolution (solveAStar (loadGoal sceneGap.p (0, 0) (10, 0)))).getLast? = some (10, 0) ∧
     (Reachable sceneGap.p.nodesMap (0, 0) (10, 0) →
       (getSolution (solveAStar (loadGoal sceneGap.p (0, 0) (10, 0)))).head? = some (0, 0)) ∧
     (¬ Reachable sceneGap.p.nodesMap (0, 0) (10, 0) →
       (getSolution (solveAStar (loadGoal sceneGap.p (0, 0) (10, 0)))).head? ≠ some (0, 0))) :=
  ⟨gridArith_lawful, by decide, by decide, by decide,
    Or.inr ⟨(5, 0), Expandable.step (0, 0) (5, 0) Expandable.start (by decide) (by decide),
      by decide⟩,
    by decide,
    solution_endpoints gridArith_lawful sceneGap.p (0, 0) (10, 0) (by decide) (by decide)
      (by decide)⟩

set_option maxRecDepth 100000 in
/-- C3 fails as stated, in the graph of `sceneGap` (nodes `(0,0)`, `(5,0)`,
`(10,0)`, `(20,20)`): with the obstacle flag of `(10,0)` set, the solution from
`(0,0)` to `(10,0)` contains `(10,0)`, the end node; with the flag of `(0,0)`
set, the solution from `(0,0)` to `(10,0)` contains `(0,0)`, the start node, and
the solution from `(10,0)` to `(7,7)`, a coordinate without a node, is `[(0,0)]`:
the coordinate fields of the node that `loadGoal` inserts. -/
theorem obstacle_end_on_path :
    (setNodeObstacle sceneGap.p (10, 0) true).1 = true ∧
    (nodeAt (setNodeObstacle sceneGap.p (10, 0) true).2.nodesMap (10, 0)).obstacle = true ∧
    getSolution (solveAStar (loadGoal (setNodeObstacle sceneGap.p (10, 0) true).2 (0, 0) (10, 0)))
      = [(0, 0), (5, 0), (10, 0)] ∧
    (nodeAt (setNodeObstacle sceneGap.p (0, 0) true).2.nodesMap (0, 0)).obstacle = true ∧
    getSolution (solveAStar (loadGoal (setNodeObstacle sceneGap.p (0, 0) true).2 (0, 0) (10, 0)))
      = [(0, 0), (5, 0), (10, 0)] ∧
    qcontains (setNodeObstacle sceneGap.p (0, 0) true).2.nodesMap (7, 7) = false ∧
    getSolution (solveAStar (loadGoal (setNodeObstacle sceneGap.p (0, 0) true).2 (10, 0) (7, 7)))
      = [(0, 0)] := by
  decide

set_option maxRecDepth 100000 in
/-- Instance of `obstacle_not_on_path`: with the midpoint `(5,0)` of `sceneGap`
an obstacle, the solution from `(0,0)` to `(10,0)` is `[(10,0)]`. -/
theorem obstacle_not_on_path_witness :
    gridArith.Lawful ∧ GraphOk (setNodeObstacle sceneGap.p (5, 0) true).2.nodesMap ∧
    qcontains (setNodeObstacle sceneGap.p (5, 0) true).2.nodesMap (10, 0) = true ∧
    qcontains (setNodeObstacle sceneGap.p (5, 0) true).2.nodesMap (5, 0) = true ∧
    (nodeAt (setNodeObstacle sceneGap.p (5, 0) true).2.nodesMap (5, 0)).obstacle = true ∧
    getSolution (solveAStar (loadGoal (setNodeObstacle sceneGap.p (5, 0) true).2 (0, 0) (10, 0)))
      = [(10, 0)] ∧
    (((nodeAt (setNodeObstacle sceneGap.p (5, 0) true).2.nodesMap (5, 0)).x,
      (nodeAt (setNodeObstacle sceneGap.p (5, 0) true).2.nodesMap (5, 0)).y) : Point) ∉
      getSolution (solveAStar (loadGoal (setNodeObstacle sceneGap.p (5, 0) true).2 (0, 0)
        (10, 0))) :=
  ⟨gridArith_lawful, by decide, by decide, by decide, by decide, by decide,
    obstacle_not_on_path gridArith_lawful (setNodeObstacle sceneGap.p (5, 0) true).2
      (0, 0) (10, 0) (5, 0) (by decide) (by decide) (by decide) (by decide) (by decide)
      (by decide)⟩

theorem lineAt_touchLine {A : Arith} (sc : Scene A) (k k1 : Int) :
    lineAt (touchLine sc k) k1 = lineAt sc k1 := by
  unfold lineAt touchLine
  exact qget_qindex intLt line.zero sc.lines k k1

/-- C15: with `(S, E, V)` the start, end and via-sequence of the line in the
direction of the bus, `getBusHeadingTo` returns the first element of `V` (or
`E` when `V` is empty) for a bus whose `lastStation` is `S`, and otherwise the
last element of `V` (or `S` when `V` is empty) for a bus whose `lastStation`
is `E`. -/
theorem heading_at_terminus {A : Arith} (sc : Scene A) (b : bus A) :
    (b.lastStation = dirStart sc b →
      (getBusHeadingTo sc b).1 = (dirVia sc b).head?.getD (dirEnd sc b)) ∧
    (b.lastStation ≠ dirStart sc b → b.lastStation = dirEnd sc b →
      (getBusHeadingTo sc b).1 = (dirVia sc b).getLast?.getD (dirStart sc b)) := by
  unfold getBusHeadingTo dirStart dirEnd dirVia
  simp only [lineAt_touchLine]
  constructor
  · intro h
    rw [if_pos h]
    cases (if b.reversed = true then (lineAt sc b.lineno).stopsAt.reverse
      else (lineAt sc b.lineno).stopsAt).head? <;> rfl
  · intro h1 h2
    rw [if_neg h1, if_pos h2]
    cases (if b.reversed = true then (lineAt sc b.lineno).stopsAt.reverse
      else (lineAt sc b.lineno).stopsAt).getLast? <;> rfl

set_option maxRecDepth 100000 in
/-- Instance of `heading_at_terminus`: a reversed bus of line 1 of `sceneGap`
(start `A`, via `B`, end `C`) at `C` heads to `B`, and at `A` too. -/
theorem heading_at_terminus_witness :
    ((busAt "C" true).lastStation = dirStart sceneGap (busAt "C" true) ∧
      (getBusHeadingTo sceneGap (busAt "C" true)).1 = "B") ∧
    ((busAt "A" true).lastStation ≠ dirStart sceneGap (busAt "A" true) ∧
      (busAt "A" true).lastStation = dirEnd sceneGap (busAt "A" true) ∧
      (getBusHeadingTo sceneGap (busAt "A" true)).1 = "B") :=
  ⟨⟨by decide, ((heading_at_terminus sceneGap (busAt "C" true)).1 (by decide)).trans
      (by decide)⟩,
   ⟨by decide, by decide,
    ((heading_at_terminus sceneGap (busAt "A" true)).2 (by decide) (by decide)).trans
      (by decide)⟩⟩

theorem indexOf_first (a : String) (l : List String) (i : Nat) (h : indexOf a l = some i) :
    ∀ j, j < i → l[j]? ≠ some a := by
  induction l generalizing i with
  | nil => simp [indexOf] at h
  | cons x t ih =>
    unfold indexOf at h
    split at h
    · simp at h
      subst h
      intro j hj
      omega
    · rename_i hx
      cases ht : indexOf a t with
      | none => simp [ht] at h
      | some k =>
        simp [ht] at h
        subst h
        intro j hj
        cases j with
        | zero => simpa using hx
        | succ j => simpa using ih k ht j (by omega)

theorem indexOf_of_mem (a : String) (l : List String) (h : a ∈ l) :
    ∃ i, indexOf a l = some i := by
  cases hi : indexOf a l with
  | none => exact absurd h (indexOf_none a l hi)
  | some i => exact ⟨i, rfl⟩

theorem last_iff_of_nodup (l : List String) (i : Nat) (a : String) (h : l[i]? = some a)
    (hn : l.Nodup) : some a = l.getLast? ↔ i + 1 = l.length := by
  have hi : i < l.length := by
    by_contra hc
    rw [List.getElem?_eq_none (by omega)] at h
    cases h
  rw [List.getLast?_eq_getElem?, ← h, List.getElem?_eq_getElem hi,
    List.getElem?_eq_getElem (by omega : l.length - 1 < l.length)]
  constructor
  · intro he
    have := (List.Nodup.getElem_inj_iff hn).mp (Option.some.inj he)
    omega
  · intro he
    congr 2
    omega

/-- C16 fails as stated: on a line with via-sequence `[X, Y, X]` a bus with
`lastStation = X` (first position `0`, which is not the last position) and
`endStation = E` is told `E`, not `Y`. -/
theorem heading_repeated_stop :
    dirStart sceneLoop (busAt "X" false) = "S" ∧
    dirEnd sceneLoop (busAt "X" false) = "E" ∧
    dirVia sceneLoop (busAt "X" false) = ["X", "Y", "X"] ∧
    (busAt "X" false).endStation = "E" ∧
    (busAt "X" false).lastStation = "X" ∧
    indexOf "X" ["X", "Y", "X"] = some 0 ∧
    (getBusHeadingTo sceneLoop (busAt "X" false)).1 = "E" := by
  decide

/-- C16 (amended): with `(S, E, V)` the start, end and via-sequence of the line
in the direction of the bus, for a bus whose `endStation` is `E` and whose
`lastStation` is neither `S` nor `E`: when `lastStation` occurs in `V`, first
at position `i`, `getBusHeadingTo` returns `E` if `lastStation` equals the last
element of `V` and `V[i+1]` otherwise, and `i+1` is then a position of `V`;
when `V` has no repeated name this is the case distinction "`i` is the last
position or not"; when `lastStation` does not occur in `V`, the result is
`"unknown"`. -/
theorem heading_at_via {A : Arith} (sc : Scene A) (b : bus A)
    (hend : b.endStation = dirEnd sc b)
    (hS : b.lastStation ≠ dirStart sc b) (hE : b.lastStation ≠ dirEnd sc b) :
    (∀ i, indexOf b.lastStation (dirVia sc b) = some i →
      (dirVia sc b)[i]? = some b.lastStation ∧
      (∀ j, j < i → (dirVia sc b)[j]? ≠ some b.lastStation) ∧
      (some b.lastStation = (dirVia sc b).getLast? →
        (getBusHeadingTo sc b).1 = dirEnd sc b) ∧
      (some b.lastStation ≠ (dirVia sc b).getLast? →
        i + 1 < (dirVia sc b).length ∧
        (dirVia sc b)[i + 1]? = some (getBusHeadingTo sc b).1) ∧
      ((dirVia sc b).Nodup →
        (some b.lastStation = (dirVia sc b).getLast? ↔ i + 1 = (dirVia sc b).length))) ∧
    (b.lastStation ∈ dirVia sc b → ∃ i, indexOf b.lastStation (dirVia sc b) = some i) ∧
    (b.lastStation ∉ dirVia sc b → (getBusHeadingTo sc b).1 = "unknown") := by
  have hres : (getBusHeadingTo sc b).1 =
      match indexOf b.lastStation (dirVia sc b) with
      | some index =>
        if (dirVia sc b)[index]? = (dirVia sc b).getLast? then b.endStation
        else (dirVia sc b)[index + 1]?.getD ""
      | none => "unknown" := by
    unfold getBusHeadingTo
    unfold dirStart at hS
    unfold dirEnd at hE
    simp only [lineAt_touchLine]
    rw [if_neg hS, if_neg hE]
    rfl
  refine ⟨?_, indexOf_of_mem _ _, ?_⟩
  · intro i hi
    have hget := indexOf_some _ _ i hi
    rw [hi] at hres
    dsimp only at hres
    refine ⟨hget, indexOf_first _ _ i hi, ?_, ?_, last_iff_of_nodup _ i _ hget⟩
    · intro hlast
      rw [hres, hget, if_pos hlast, hend]
    · intro hlast
      rw [hget, if_neg hlast] at hres
      have hi0 : i < (dirVia sc b).length := by
        by_contra hc
        rw [List.getElem?_eq_none (by omega)] at hget
        cases hget
      have hi1 : i + 1 < (dirVia sc b).length := by
        by_contra hc
        apply hlast
        rw [List.getLast?_eq_getElem?, ← hget]
        congr 1
        omega
      refine ⟨hi1, ?_⟩
      rw [hres, List.getElem?_eq_getElem hi1]
      rfl
  · intro hnot
    cases hi : indexOf b.lastStation (dirVia sc b) with
    | none =>
      rw [hi] at hres
      exact hres
    | some i =>
      exact absurd (List.getElem?_mem (indexOf_some _ _ i hi)) hnot

set_option maxRecDepth 100000 in
/-- Instance of `heading_at_via`: on the line of `sceneLoop` (start `S`, via
`X, Y, X`, end `E`) a bus with `lastStation = Y` and `endStation = E` heads to
the `X` after it. -/
theorem heading_at_via_witness :
    (busAt "Y" false).endStation = dirEnd sceneLoop (busAt "Y" false) ∧
    (busAt "Y" false).lastStation ≠ dirStart sceneLoop (busAt "Y" false) ∧
    (busAt "Y" false).lastStation ≠ dirEnd sceneLoop (busAt "Y" false) ∧
    indexOf (busAt "Y" false).lastStation (dirVia sceneLoop (busAt "Y" false)) = some 1 ∧
    some (busAt "Y" false).lastStation ≠ (dirVia sceneLoop (busAt "Y" false)).getLast? ∧
    (getBusHeadingTo sceneLoop (busAt "Y" false)).1 = "X" ∧
    (1 + 1 < (dirVia sceneLoop (busAt "Y" false)).length ∧
      (dirVia sceneLoop (busAt "Y" false))[1 + 1]? =
        some (getBusHeadingTo sceneLoop (busAt "Y" false)).1) :=
  ⟨by decide, by decide, by decide, by decide, by decide, by decide,
    ((heading_at_via sceneLoop (busAt "Y" false) (by decide) (by decide) (by decide)).1 1
      (by decide)).2.2.2.1 (by decide)⟩

/-- The line a successful `saveEdit` leaves under the selected key. -/
theorem saveEdit_route {A : Arith} (sc : Scene A) (sel : Int) (l0 : line)
    (hsel : sc.selectedLine = some sel) (hl : qfind sc.lines sel = some l0)
    (hlen : 2 ≤ sc.routeEditTemp.length) :
    ∃ pl, qfind (saveEdit sc).2.lines sel =
      some { l0 with start := sc.routeEditTemp.headD "", end_ := sc.routeEditTemp.getLastD "",
                     stopsAt := (sc.routeEditTemp.drop 1).dropLast, pathLines := pl } := by
  have hlt : ¬ sc.routeEditTemp.length < 2 := by omega
  have hfr := saveEditFold_frame sel
    (sc.routeEditTemp.headD "") (sc.routeEditTemp.getLastD "") sc.buses
    (setRoute sc sel (sc.routeEditTemp.headD "") (sc.routeEditTemp.getLastD "")
      (sc.routeEditTemp.drop 1).dropLast, [])
  have hq : qfind (setRoute sc sel (sc.routeEditTemp.headD "") (sc.routeEditTemp.getLastD "")
      (sc.routeEditTemp.drop 1).dropLast).lines sel =
      some { l0 with start := sc.routeEditTemp.headD "", end_ := sc.routeEditTemp.getLastD "",
                     stopsAt := (sc.routeEditTemp.drop 1).dropLast } := by
    simp only [setRoute]
    rw [qfind_qmodify_self, hl]
    rfl
  obtain ⟨pl, hpl⟩ := hfr.routes.found sel _ hq
  unfold saveEdit
  rw [hsel]
  simp only [hlt, if_false]
  exact ⟨pl, hpl⟩

theorem saveEdit_true {A : Arith} (sc : Scene A) (h : (saveEdit sc).1 = true) :
    (∃ sel, sc.selectedLine = some sel) ∧ 2 ≤ sc.routeEditTemp.length := by
  unfold saveEdit at h
  cases hs : sc.selectedLine with
  | none => simp [hs] at h
  | some sel =>
    rw [hs] at h
    dsimp only at h
    by_cases hlt : sc.routeEditTemp.length < 2
    · simp [hlt] at h
    · exact ⟨⟨sel, rfl⟩, by omega⟩

/-- A press on a stop in edit mode: only `selectedStreet` and the provisional
list change, the latter by appending the name when it is absent. -/
theorem pressStop_eq {A : Arith} (sc : Scene A) (s : String) (i : Int)
    (h : sc.editMode = true) :
    mousePressEvent sc false (some { type := "stop", stringKey := s, intKey := i }) =
      { sc with selectedStreet := none,
                routeEditTemp :=
                  if s ∈ sc.routeEditTemp then sc.routeEditTemp else sc.routeEditTemp ++ [s] } := by
  unfold mousePressEvent deselectStreet
  by_cases hs : s ∈ sc.routeEditTemp
  · simp [h, hs]
  · simp [h, hs]

theorem pressStops_inv {A : Arith} (names : List String) (sc : Scene A)
    (h : sc.editMode = true) (hn : sc.routeEditTemp.Nodup) :
    (names.foldl (fun sc s => mousePressEvent sc false (stopItem s)) sc).editMode = true ∧
    (names.foldl (fun sc s => mousePressEvent sc false (stopItem s)) sc).routeEditTemp.Nodup ∧
    (names.foldl (fun sc s => mousePressEvent sc false (stopItem s)) sc).selectedLine =
      sc.selectedLine ∧
    (names.foldl (fun sc s => mousePressEvent sc false (stopItem s)) sc).lines = sc.lines ∧
    ∀ x ∈ (names.foldl (fun sc s => mousePressEvent sc false (stopItem s)) sc).routeEditTemp,
      x ∈ sc.routeEditTemp ∨ x ∈ names := by
  induction names generalizing sc with
  | nil => exact ⟨h, hn, rfl, rfl, fun x hx => Or.inl hx⟩
  | cons s t ih =>
    rw [List.foldl_cons]
    have he := pressStop_eq sc s 0 h
    have hstep : mousePressEvent sc false (stopItem s) =
        { sc with selectedStreet := none,
                  routeEditTemp :=
                    if s ∈ sc.routeEditTemp then sc.routeEditTemp
                    else sc.routeEditTemp ++ [s] } := he
    have h1 : (mousePressEvent sc false (stopItem s)).editMode = true := by
      rw [hstep]; exact h
    have h2 : (mousePressEvent sc false (stopItem s)).routeEditTemp.Nodup := by
      rw [hstep]
      dsimp only
      split
      · exact hn
      · rename_i hs
        exact List.Nodup.append hn (List.nodup_singleton s) (by simpa using hs)
    obtain ⟨i1, i2, i3, i4, i5⟩ := ih _ h1 h2
    refine ⟨i1, i2, ?_, ?_, ?_⟩
    · rw [i3, hstep]
    · rw [i4, hstep]
    · intro x hx
      rcases i5 x hx with hx1 | hx1
      · rw [hstep] at hx1
        dsimp only at hx1
        split at hx1
        · exact Or.inl hx1
        · rcases List.mem_append.mp hx1 with hx2 | hx2
          · exact Or.inl hx2
          · right
            simp only [List.mem_singleton] at hx2
            rw [hx2]
            exact List.mem_cons_self _ _
      · exact Or.inr (List.mem_cons_of_mem _ hx1)

theorem route_distinct (l : List String) (a e : String) (v : List String)
    (h : a :: (v ++ [e]) = l) (hn : l.Nodup) : a ≠ e ∧ a ∉ v ∧ e ∉ v := by
  subst h
  rw [List.nodup_cons, List.nodup_append] at hn
  obtain ⟨h1, _, _, h4⟩ := hn
  simp only [List.mem_append, List.mem_singleton, not_or] at h1
  refine ⟨h1.2, h1.1, ?_⟩
  intro he
  exact h4 he (List.mem_singleton_self e)

/-- C19: in edit mode, a press on stop `s` appends `s` to the provisional list
exactly when `s` is not in it; a second press on the same stop changes nothing;
a list built from the empty list by presses on stops has no repeated name; and
the route a successful `saveEdit` commits from such a list has a start
different from its end, neither of them among its via-stops. -/
theorem stop_selection_no_duplicates {A : Arith} :
    (∀ (sc : Scene A) (s : String) (i : Int), sc.editMode = true →
      (mousePressEvent sc false
          (some { type := "stop", stringKey := s, intKey := i })).routeEditTemp =
        if s ∈ sc.routeEditTemp then sc.routeEditTemp else sc.routeEditTemp ++ [s]) ∧
    (∀ (sc : Scene A) (s : String) (i j : Int), sc.editMode = true →
      mousePressEvent
          (mousePressEvent sc false (some { type := "stop", stringKey := s, intKey := i }))
          false (some { type := "stop", stringKey := s, intKey := j }) =
        mousePressEvent sc false (some { type := "stop", stringKey := s, intKey := i })) ∧
    (∀ (sc : Scene A) (names : List String), sc.editMode = true → sc.routeEditTemp = [] →
      (names.foldl (fun sc s => mousePressEvent sc false (stopItem s)) sc).routeEditTemp.Nodup) ∧
    (∀ (sc : Scene A) (names : List String) (sel : Int) (l0 : line),
      sc.editMode = true → sc.routeEditTemp = [] →
      sc.selectedLine = some sel → qfind sc.lines sel = some l0 →
      (saveEdit (names.foldl (fun sc s => mousePressEvent sc false (stopItem s)) sc)).1 = true →
      ∃ l1,
        qfind (saveEdit (names.foldl (fun sc s => mousePressEvent sc false (stopItem s))
          sc)).2.lines sel = some l1 ∧
        l1.start :: (l1.stopsAt ++ [l1.end_]) =
          (names.foldl (fun sc s => mousePressEvent sc false (stopItem s)) sc).routeEditTemp ∧
        l1.start ≠ l1.end_ ∧ l1.start ∉ l1.stopsAt ∧ l1.end_ ∉ l1.stopsAt) := by
  refine ⟨?_, ?_, ?_, ?_⟩
  · intro sc s i h
    rw [pressStop_eq sc s i h]
  · intro sc s i j h
    rw [pressStop_eq sc s i h]
    rw [pressStop_eq
      { sc with selectedStreet := none,
                routeEditTemp :=
                  if s ∈ sc.routeEditTemp then sc.routeEditTemp else sc.routeEditTemp ++ [s] }
      s j h]
    dsimp only
    by_cases hs : s ∈ sc.routeEditTemp
    · simp [hs]
    · simp [hs]
  · intro sc names h h0
    exact (pressStops_inv names sc h (by rw [h0]; exact List.nodup_nil)).2.1
  · intro sc names sel l0 h h0 hsel hl hok
    obtain ⟨_, i2, i3, i4, _⟩ := pressStops_inv names sc h (by rw [h0]; exact List.nodup_nil)
    obtain ⟨_, hlen⟩ := saveEdit_true _ hok
    obtain ⟨pl, hq⟩ := saveEdit_route _ sel l0 (by rw [i3]; exact hsel)
      (by rw [i4]; exact hl) hlen
    have hsplit := (route_split _ hlen).1
    refine ⟨_, hq, hsplit, ?_⟩
    exact route_distinct _ _ _ _ hsplit i2

set_option maxRecDepth 100000 in
/-- Instance of `stop_selection_no_duplicates`: in `sceneEdit []` the presses
on `A`, `B`, `A`, `C` give the list `A, B, C`, and `saveEdit` commits the route
start `A`, via `B`, end `C`. -/
theorem stop_selection_no_duplicates_witness :
    (sceneEdit []).editMode = true ∧ (sceneEdit []).routeEditTemp = [] ∧
    (sceneEdit []).selectedLine = some 1 ∧
    (["A", "B", "A", "C"].foldl (fun sc s => mousePressEvent sc false (stopItem s))
      (sceneEdit [])).routeEditTemp = ["A", "B", "C"] ∧
    (saveEdit (["A", "B", "A", "C"].foldl (fun sc s => mousePressEvent sc false (stopItem s))
      (sceneEdit []))).1 = true ∧
    (∃ l1,
      qfind (saveEdit (["A", "B", "A", "C"].foldl
        (fun sc s => mousePressEvent sc false (stopItem s)) (sceneEdit []))).2.lines 1 =
          some l1 ∧
      l1.start :: (l1.stopsAt ++ [l1.end_]) =
        (["A", "B", "A", "C"].foldl (fun sc s => mousePressEvent sc false (stopItem s))
          (sceneEdit [])).routeEditTemp ∧
      l1.start ≠ l1.end_ ∧ l1.start ∉ l1.stopsAt ∧ l1.end_ ∉ l1.stopsAt) :=
  ⟨by decide, by decide, by decide, by decide, by decide,
    (stop_selection_no_duplicates (A := gridArith)).2.2.2 (sceneEdit [])
      ["A", "B", "A", "C"] 1 (mkLine 1 "A" ["B"] "C") (by decide) (by decide) (by decide)
      (by decide) (by decide)⟩

set_option maxRecDepth 100000 in
/-- C20: `setEditMode` never writes `routeEditTemp` (nor any line), and a failed
`saveEdit` leaves the list as it is, so the list is not empty when edit mode is
entered after a cancel or a failed commit: from `sceneGap` (empty list), begin,
a press on stop `A` and cancel leave the list `[A]`, and it is still `[A]`
right after the next begin; likewise after begin, a press on `A`, a commit
(which fails on a list of one stop) and the next begin. -/
theorem cancel_keeps_list :
    (∀ (A : Arith) (sc : Scene A) (val : Bool),
      (setEditMode sc val).routeEditTemp = sc.routeEditTemp ∧
      (setEditMode sc val).lines = sc.lines) ∧
    sceneGap.routeEditTemp = [] ∧
    (runEdits sceneGap [EditOp.begin, EditOp.press (stopItem "A"),
      EditOp.cancel]).routeEditTemp = ["A"] ∧
    (runEdits sceneGap [EditOp.begin, EditOp.press (stopItem "A"),
      EditOp.cancel]).editMode = false ∧
    (runEdits sceneGap [EditOp.begin, EditOp.press (stopItem "A"), EditOp.cancel,
      EditOp.begin]).routeEditTemp = ["A"] ∧
    (runEdits sceneGap [EditOp.begin, EditOp.press (stopItem "A"), EditOp.cancel,
      EditOp.begin]).editMode = true ∧
    (saveEdit (runEdits sceneGap [EditOp.begin, EditOp.press (stopItem "A")])).1 = false ∧
    (runEdits sceneGap [EditOp.begin, EditOp.press (stopItem "A"), EditOp.commit,
      EditOp.begin]).routeEditTemp = ["A"] := by
  refine ⟨?_, by decide, by decide, by decide, by decide, by decide, by decide, by decide⟩
  intro A sc val
  unfold setEditMode deselectLine
  cases val <;> exact ⟨rfl, rfl⟩

theorem expandable_isolated {A : Arith} (G : List (Point × Node A)) (start c : Point)
    (h : (nodeAt G start).neighbours = []) (hc : Expandable G start c) : c = start := by
  induction hc with
  | start => rfl
  | step u v _ hv _ ih =>
    rw [ih, h] at hv
    simp at hv

theorem solutionLoop_root {A : Arith} (m : List (Point × Node A)) (fuel : Nat) (p : Point)
    (acc : List Point) (h : (nodeAt m p).parent = none) :
    solutionLoop m (fuel + 1) p acc = ((nodeAt m p).x, (nodeAt m p).y) :: acc := by
  unfold solutionLoop
  simp only [h]

set_option maxRecDepth 100000 in
/-- C13 fails as stated: in the graph of `sceneGap` no node has the coordinate
`(7,7)`; the solution from `(0,0)` to `(7,7)` is `[(0,0)]` and the solution from
`(7,7)` to `(10,0)` is `[(10,0)]`, not the empty sequence. -/
theorem solution_without_node :
    qcontains sceneGap.p.nodesMap (7, 7) = false ∧
    qcontains sceneGap.p.nodesMap (0, 0) = true ∧
    qcontains sceneGap.p.nodesMap (10, 0) = true ∧
    getSolution (solveAStar (loadGoal sceneGap.p (0, 0) (7, 7))) = [(0, 0)] ∧
    getSolution (solveAStar (loadGoal sceneGap.p (7, 7) (10, 0))) = [(10, 0)] := by
  decide

/-- C13 (amended): for a graph as the build makes it and a start/end pair in
which the start coordinate or the end coordinate has no node, `loadGoal`
followed by `solveAStar` and `getSolution` returns one point: the end
coordinate when the end has a node, and `(0,0)`, the coordinate fields of the
node that `loadGoal` inserts, when it has none. -/
theorem missing_node_solution {A : Arith} (hA : A.Lawful) (g : Pathfinding A)
    (start finish : Point) (hG : GraphOk g.nodesMap)
    (hmiss : qcontains g.nodesMap start = false ∨ qcontains g.nodesMap finish = false) :
    getSolution (solveAStar (loadGoal g start finish)) =
      [if qcontains g.nodesMap finish then finish else (0, 0)] := by
  obtain ⟨G, s, hnodes, hend, hsame, _, hinv, _⟩ := solve_inv hA g start finish hG.2
  have hnode : ∀ k, nodeAt (loadGoal g start finish).nodesMap k = nodeAt g.nodesMap k :=
    nodeAt_loadGoal g start finish
  have hx : ∀ k, (nodeAt s.nodes k).x = (nodeAt g.nodesMap k).x :=
    fun k => by rw [hinv.same.x, hsame.x, hnode]
  have hy : ∀ k, (nodeAt s.nodes k).y = (nodeAt g.nodesMap k).y :=
    fun k => by rw [hinv.same.y, hsame.y, hnode]
  have hnb : ∀ k, (nodeAt G k).neighbours = (nodeAt g.nodesMap k).neighbours :=
    fun k => by rw [hsame.neighbours, hnode]
  have hfS : qcontains s.nodes finish = true := by
    rw [hinv.same.keys, hsame.keys]
    unfold loadGoal
    dsimp only
    rw [qcontains_qindex]
    simp
  obtain ⟨f, hfl⟩ : ∃ f, s.nodes.length = f + 1 := by
    cases hl : s.nodes with
    | nil => simp [hl, qcontains, qfind] at hfS
    | cons e t => exact ⟨t.length, rfl⟩
  have hpar : (nodeAt s.nodes finish).parent = none := by
    cases hp : (nodeAt s.nodes finish).parent with
    | none => rfl
    | some c =>
      exfalso
      obtain ⟨hcv, hfc, _⟩ := hinv.par finish c hp
      obtain ⟨_, hexp, _, _⟩ := hinv.vis c hcv
      rw [hnb] at hfc
      rcases hmiss with hs | hf
      · have hs0 : (nodeAt G start).neighbours = [] := by
          rw [hnb, nodeAt_absent g.nodesMap start (by rw [hs]; simp)]
          rfl
        rw [expandable_isolated G start c hs0 hexp,
          nodeAt_absent g.nodesMap start (by rw [hs]; simp)] at hfc
        simp [Node.zero] at hfc
      · by_cases hc : qcontains g.nodesMap c = true
        · have := hG.2.1 _ (nodeAt_mem g.nodesMap c hc) finish hfc
          rw [hf] at this
          cases this
        · rw [nodeAt_absent g.nodesMap c hc] at hfc
          simp [Node.zero] at hfc
  have hsol : getSolution (solveAStar (loadGoal g start finish)) =
      solutionLoop s.nodes s.nodes.length finish [] := by
    unfold getSolution
    rw [hend, hnodes]
  rw [hsol, hfl, solutionLoop_root s.nodes f finish [] hpar, hx, hy]
  congr 1
  by_cases hf : qcontains g.nodesMap finish = true
  · rw [if_pos hf]
    exact nodeAt_wf g.nodesMap finish hG.1 hf
  · rw [if_neg hf, nodeAt_absent g.nodesMap finish hf]
    rfl

set_option maxRecDepth 100000 in
/-- Instance of `missing_node_solution`: the graph of `sceneGap`, start `(0,0)`
and end `(7,7)`. -/
theorem missing_node_solution_witness :
    gridArith.Lawful ∧ GraphOk sceneGap.p.nodesMap ∧
    (qcontains sceneGap.p.nodesMap (0, 0) = false ∨
      qcontains sceneGap.p.nodesMap (7, 7) = false) ∧
    getSolution (solveAStar (loadGoal sceneGap.p (0, 0) (7, 7))) =
      [if qcontains sceneGap.p.nodesMap (7, 7) then (7, 7) else (0, 0)] :=
  ⟨gridArith_lawful, by decide, by decide,
    missing_node_solution gridArith_lawful sceneGap.p (0, 0) (7, 7) (by decide) (by decide)⟩

theorem all_qmodify {κ α : Type} [DecidableEq κ] (P : α → Prop) (m : List (κ × α)) (k : κ)
    (f : α → α) (hf : ∀ v, P v → P (f v)) (h : ∀ e ∈ m, P e.2) :
    ∀ e ∈ qmodify m k f, P e.2 := by
  intro e he
  rcases mem_qmodify m k f e he with he | ⟨v, hv, rfl⟩
  · exact h e he
  · exact hf v (h (k, v) hv)

theorem all_qinsert {κ α : Type} [DecidableEq κ] (P : α → Prop) (lt : κ → κ → Bool)
    (m : List (κ × α)) (k : κ) (v : α) (hv : P v) (h : ∀ e ∈ m, P e.2) :
    ∀ e ∈ qinsert lt m k v, P e.2 := by
  intro e he
  rcases mem_qinsert lt m k v e he with rfl | he
  · exact hv
  · exact h e he

theorem all_qindex {κ α : Type} [DecidableEq κ] (P : α → Prop) (lt : κ → κ → Bool)
    (m : List (κ × α)) (k : κ) (d : α) (hd : P d) (h : ∀ e ∈ m, P e.2) :
    ∀ e ∈ qindex lt d m k, P e.2 := by
  unfold qindex
  split
  · exact h
  · exact all_qinsert P lt m k d hd h

theorem attachMid_clear {A : Arith} (s : BuildState A) (c other : Point)
    (h : ∀ e ∈ s.g.nodesMap, e.2.obstacle = false) :
    ∀ e ∈ (attachMid s c other).g.nodesMap, e.2.obstacle = false := by
  unfold attachMid
  dsimp only
  split
  · refine all_qmodify (fun n : Node A => n.obstacle = false) _ _ _ (fun v hv => hv) ?_
    exact all_qindex (fun n : Node A => n.obstacle = false) _ _ _ _ rfl h
  · dsimp only
    refine all_qmodify (fun n : Node A => n.obstacle = false) _ _ _ (fun v hv => hv) ?_
    refine all_qindex (fun n : Node A => n.obstacle = false) _ _ _ _ rfl ?_
    refine all_qinsert (fun n : Node A => n.obstacle = false) _ _ _ _ rfl ?_
    refine all_qindex (fun n : Node A => n.obstacle = false) _ _ _ _ rfl ?_
    refine all_qindex (fun n : Node A => n.obstacle = false) _ _ _ _ rfl ?_
    exact all_qmodify (fun n : Node A => n.obstacle = false) _ _ _ (fun v _ => rfl) h

theorem visitNode_clear {A : Arith} (path : Segment) (s : BuildState A) (c : Point)
    (h : ∀ e ∈ s.g.nodesMap, e.2.obstacle = false) :
    ∀ e ∈ (visitNode path s c).g.nodesMap, e.2.obstacle = false := by
  unfold visitNode
  dsimp only
  split
  · exact attachMid_clear s c _ h
  · split
    · exact attachMid_clear s c _ h
    · exact h

theorem loadSegment_clear {A : Arith} (s : BuildState A) (path : Segment)
    (h : ∀ e ∈ s.g.nodesMap, e.2.obstacle = false) :
    ∀ e ∈ (loadSegment s path).g.nodesMap, e.2.obstacle = false := by
  unfold loadSegment
  generalize loopKeys s.g.nodesMap path = ks
  induction ks generalizing s with
  | nil => exact h
  | cons c t ih =>
    simp only [List.foldl_cons]
    apply ih
    split
    · exact visitNode_clear path s c h
    · exact h

theorem segFold_clear {A : Arith} (segs : List Segment) (s : BuildState A)
    (h : ∀ e ∈ s.g.nodesMap, e.2.obstacle = false) :
    ∀ e ∈ (segs.foldl loadSegment s).g.nodesMap, e.2.obstacle = false := by
  induction segs generalizing s with
  | nil => exact h
  | cons p t ih => exact ih _ (loadSegment_clear s p h)

theorem loadPaths_clear {A : Arith} (streets : List (String × street)) (g : Pathfinding A)
    (points : List Point) (h : ∀ e ∈ g.nodesMap, e.2.obstacle = false) :
    ∀ e ∈ (loadPaths g streets points).1.nodesMap, e.2.obstacle = false := by
  induction streets generalizing g points with
  | nil => exact h
  | cons e t ih =>
    obtain ⟨key, st⟩ := e
    simp only [loadPaths]
    apply ih
    unfold loadStreet
    exact segFold_clear _ _ h

theorem loadPoints_clear {A : Arith} (points : List Point) (g : Pathfinding A)
    (h : ∀ e ∈ g.nodesMap, e.2.obstacle = false) :
    ∀ e ∈ (loadPoints g points).nodesMap, e.2.obstacle = false := by
  unfold loadPoints
  induction points generalizing g with
  | nil => exact h
  | cons p t ih =>
    simp only [List.foldl_cons]
    apply ih
    unfold loadPoint
    split
    · exact h
    · exact all_qinsert (fun n : Node A => n.obstacle = false) _ _ _ _ rfl h

theorem qmodify_cons {κ α : Type} [DecidableEq κ] (k' : κ) (v : α) (t : List (κ × α)) (k : κ)
    (f : α → α) :
    qmodify ((k', v) :: t) k f =
      if k' = k then (k', f v) :: t else (k', v) :: qmodify t k f := rfl

theorem qmodify_qmodify_self {κ α : Type} [DecidableEq κ] (m : List (κ × α)) (k : κ)
    (f g : α → α) : qmodify (qmodify m k f) k g = qmodify m k (fun v => g (f v)) := by
  induction m with
  | nil => rfl
  | cons e t ih =>
    obtain ⟨k', v⟩ := e
    by_cases h : k' = k
    · rw [qmodify_cons, qmodify_cons, if_pos h, if_pos h, qmodify_cons, if_pos h]
    · rw [qmodify_cons, qmodify_cons, if_neg h, if_neg h, qmodify_cons, if_neg h, ih]

theorem qmodify_comm {κ α : Type} [DecidableEq κ] (m : List (κ × α)) (k k1 : κ)
    (f g : α → α) (hne : k ≠ k1) :
    qmodify (qmodify m k f) k1 g = qmodify (qmodify m k1 g) k f := by
  induction m with
  | nil => rfl
  | cons e t ih =>
    obtain ⟨k', v⟩ := e
    by_cases h : k' = k
    · have h1 : ¬ k' = k1 := fun hc => hne (h.symm.trans hc)
      rw [qmodify_cons, if_pos h, qmodify_cons, if_neg h1, qmodify_cons, if_neg h1,
        qmodify_cons, if_pos h]
    · by_cases h1 : k' = k1
      · rw [qmodify_cons, if_neg h, qmodify_cons, if_pos h1, qmodify_cons, if_pos h1,
          qmodify_cons, if_neg h]
      · rw [qmodify_cons, if_neg h, qmodify_cons, if_neg h1, qmodify_cons, if_neg h1,
          qmodify_cons, if_neg h, ih]

theorem qmodify_id {κ α : Type} [DecidableEq κ] (m : List (κ × α)) (k : κ) (f : α → α)
    (h : ∀ v, qfind m k = some v → f v = v) : qmodify m k f = m := by
  induction m with
  | nil => rfl
  | cons e t ih =>
    obtain ⟨k', v⟩ := e
    rw [qmodify_cons]
    by_cases hk : k' = k
    · rw [if_pos hk, h v (by simp [qfind, hk])]
    · rw [if_neg hk, ih]
      intro v1 hv1
      apply h
      simp [qfind, hk, hv1]

theorem obstacleFold_eq {A : Arith} (mid : List Point) (flag : Bool) (p : Pathfinding A)
    (h : NodesWf p.nodesMap) :
    mid.foldl (fun p point => (setNodeObstacle p point flag).2) p =
      { p with nodesMap :=
          mid.foldl (fun m c => qmodify m c fun n => { n with obstacle := flag }) p.nodesMap } := by
  induction mid generalizing p with
  | nil => rfl
  | cons c t ih =>
    simp only [List.foldl_cons]
    have h1 : (setNodeObstacle p c flag).2 =
        { p with nodesMap := qmodify p.nodesMap c fun n => { n with obstacle := flag } } := by
      unfold setNodeObstacle
      dsimp only
      rw [setObstacleLoop_wf p.nodesMap c flag h]
    rw [h1, ih]
    exact nodesWf_qmodify _ _ _ (fun n => ⟨rfl, rfl⟩) h

theorem flagFold_comm {A : Arith} (mid : List Point) (flag : Bool) (m : List (Point × Node A))
    (c : Point) (f : Node A → Node A) (hc : c ∉ mid) :
    qmodify (mid.foldl (fun m c => qmodify m c fun n => { n with obstacle := flag }) m) c f =
      mid.foldl (fun m c => qmodify m c fun n => { n with obstacle := flag }) (qmodify m c f) := by
  induction mid generalizing m with
  | nil => rfl
  | cons d t ih =>
    simp only [List.foldl_cons]
    have hd : d ≠ c := fun h => hc (by rw [h]; exact List.mem_cons_self _ _)
    rw [ih _ (fun h => hc (List.mem_cons_of_mem _ h)), qmodify_comm _ d c _ _ hd]

theorem flagFold_undo {A : Arith} (mid : List Point) (m : List (Point × Node A))
    (hn : mid.Nodup) (h : ∀ c ∈ mid, (nodeAt m c).obstacle = false) :
    mid.foldl (fun m c => qmodify m c fun n => { n with obstacle := false })
      (mid.foldl (fun m c => qmodify m c fun n => { n with obstacle := true }) m) = m := by
  induction mid generalizing m with
  | nil => rfl
  | cons c t ih =>
    simp only [List.foldl_cons]
    rw [List.nodup_cons] at hn
    rw [← flagFold_comm t true m c _ hn.1, ← flagFold_comm t false _ c _ hn.1,
      ← flagFold_comm t false _ c _ hn.1]
    rw [ih m hn.2 (fun d hd => h d (List.mem_cons_of_mem _ hd))]
    rw [qmodify_qmodify_self]
    apply qmodify_id
    intro v hv
    have hc := h c (List.mem_cons_self _ _)
    unfold nodeAt qget at hc
    rw [hv] at hc
    simp only [Option.getD_some] at hc
    cases v
    simp only at hc
    simp [hc]

theorem blockLoop_keeps {A : Arith} (flag : Bool) (k : String) (p : Pathfinding A)
    (streets : List (String × street)) :
    ∀ e ∈ streets, e.2.name ≠ k → e ∈ (blockLoop flag k p streets).2.2 := by
  induction streets with
  | nil => simp
  | cons x t ih =>
    obtain ⟨k0, s0⟩ := x
    intro e he hne
    unfold blockLoop
    by_cases hn : s0.name = k
    · have het : e ∈ t := by
        rcases List.mem_cons.mp he with h1 | h1
        · rw [h1] at hne
          exact absurd hn hne
        · exact h1
      simp only [hn, if_true]
      split
      · exact List.mem_cons_of_mem _ het
      · exact List.mem_cons_of_mem _ het
    · simp only [hn, if_false]
      rcases List.mem_cons.mp he with h1 | h1
      · rw [h1]
        exact List.mem_cons_self _ _
      · exact List.mem_cons_of_mem _ (ih e h1 hne)

theorem nodeAt_obstacle_of_all {A : Arith} (m : List (Point × Node A))
    (h : ∀ e ∈ m, e.2.obstacle = false) (c : Point) : (nodeAt m c).obstacle = false := by
  by_cases hc : qcontains m c = true
  · exact h _ (nodeAt_mem m c hc)
  · rw [nodeAt_absent m c hc]
    rfl

theorem toggle_clearInv {A : Arith} (pts : List Point) (flag : Bool) (sc : Scene A)
    (k : String) (h : BlockInv pts sc) (hc : ClearInv sc) :
    ClearInv (toggleStreet flag sc k).2 := by
  have hp := (toggleStreet_eq flag sc k).1
  have hs := (toggleStreet_eq flag sc k).2
  cases hst : streetNamed sc.streets k with
  | none =>
    have hr := blockLoop_none flag k sc.p sc.streets hst
    rw [hr] at hp hs
    unfold ClearInv
    rw [hp, hs]
    exact hc
  | some st =>
    by_cases hb : st.isBlocked = flag
    · have hr := blockLoop_noop flag k sc.p sc.streets st hst hb
      rw [hr] at hp hs
      unfold ClearInv
      rw [hp, hs]
      exact hc
    · obtain ⟨hfold, _⟩ := blockLoop_changed flag k sc.p sc.streets st h.names hst hb
      obtain ⟨_, _, f3, f4⟩ := obstacleFold_wf st.mid flag sc.p h.wf
      obtain ⟨key1, hstmem, hstname⟩ := streetNamed_mem _ _ _ hst
      have hnew := blockLoop_named flag k sc.p sc.streets st hst
      obtain ⟨key2, hnewmem, _⟩ := streetNamed_mem _ _ _ hnew
      rw [hfold] at hp
      intro c hobs
      rw [hp] at hobs
      rw [hs]
      by_cases hcm : c ∈ st.mid
      · have hkey := h.keys c (List.mem_flatMap.mpr ⟨(key1, st), hstmem, hcm⟩)
        have := f3 c hkey (Or.inl hcm)
        rw [this] at hobs
        exact ⟨_, hnewmem, hobs, hcm⟩
      · rw [f4 c hcm] at hobs
        obtain ⟨e, he, heb, hec⟩ := hc c hobs
        have hne : e.2.name ≠ k := by
          intro hek
          have h1 := streetNamed_of_mem sc.streets e h.names he
          rw [hek, hst] at h1
          have h2 : st = e.2 := Option.some.inj h1
          cases flag with
          | true =>
            apply hb
            rw [h2]
            exact heb
          | false =>
            apply hcm
            rw [h2]
            exact hec
        exact ⟨e, blockLoop_keeps flag k sc.p sc.streets e he hne, heb, hec⟩

theorem runBlocks_clearInv {A : Arith} (pts : List Point) (ops : List (Bool × String))
    (sc : Scene A) (h : BlockInv pts sc) (hc : ClearInv sc) : ClearInv (runBlocks sc ops) := by
  unfold runBlocks
  induction ops generalizing sc with
  | nil => exact hc
  | cons op t ih =>
    simp only [List.foldl_cons]
    exact ih _ (toggle_blockInv pts op.1 sc op.2 h) (toggle_clearInv pts op.1 sc op.2 h hc)

theorem build_clearInv {A : Arith} (pts : List Point) (streets : List (String × street))
    (sc : Scene A)
    (hp : sc.p = (loadPaths (loadPoints (Pathfinding.empty A) pts) streets pts).1) :
    ClearInv sc := by
  intro c hobs
  rw [hp, nodeAt_obstacle_of_all _ (loadPaths_clear streets _ pts
    (loadPoints_clear pts _ (by simp [Pathfinding.empty]))) c] at hobs
  cases hobs

/-- Blocking a street that is not blocked and unblocking it again, on the
street list and on the pathfinding object. -/
theorem blockLoop_undo {A : Arith} (k : String) (p p2 : Pathfinding A)
    (streets : List (String × street)) (st : street)
    (hst : streetNamed streets k = some st) (hb : st.isBlocked = false) :
    blockLoop true k p streets =
      (true, st.mid.foldl (fun p point => (setNodeObstacle p point true).2) p,
        (blockLoop true k p streets).2.2) ∧
    blockLoop false k p2 (blockLoop true k p streets).2.2 =
      (true, st.mid.foldl (fun p point => (setNodeObstacle p point false).2) p2, streets) := by
  induction streets with
  | nil => simp [streetNamed] at hst
  | cons x t ih =>
    obtain ⟨k0, s0⟩ := x
    by_cases hn : s0.name = k
    · have hs0 : s0 = st := by
        simpa [streetNamed, List.find?, hn] using hst
      subst hs0
      obtain ⟨nm, tr, bl, md, pls⟩ := s0
      simp only at hn hb
      subst hn
      subst hb
      constructor
      · simp [blockLoop]
      · simp [blockLoop]
    · have ht : streetNamed t k = some st := by
        simpa [streetNamed, List.find?, hn] using hst
      obtain ⟨i1, i2⟩ := ih ht
      constructor
      · simp only [blockLoop, hn, if_false]
        rw [i1]
      · simp only [blockLoop, hn, if_false]
        rw [i2]

theorem mids_nodup (l : List (String × street)) (hn : (allMids l).Nodup)
    (e : String × street) (he : e ∈ l) : e.2.mid.Nodup := by
  unfold allMids at hn
  rw [List.nodup_flatMap] at hn
  exact hn.1 e he

/-- In a state in which only mid nodes of blocked streets are obstacles,
blocking a street that is not blocked and unblocking it again gives the state
back. -/
theorem block_unblock_eq {A : Arith} (pts : List Point) (sc : Scene A) (k : String)
    (hinv : BlockInv pts sc) (hclr : ClearInv sc)
    (hk : ∀ st, streetNamed sc.streets k = some st → st.isBlocked = false) :
    (unblockStreet (blockStreet sc k).2 k).2 = sc := by
  cases hst : streetNamed sc.streets k with
  | none =>
    unfold unblockStreet blockStreet
    rw [blockLoop_none true k sc.p sc.streets hst]
    dsimp only
    rw [blockLoop_none false k sc.p sc.streets hst]
  | some st =>
    have hb := hk st hst
    obtain ⟨key1, hstmem, hstname⟩ := streetNamed_mem _ _ _ hst
    obtain ⟨i1, i2⟩ := blockLoop_undo k sc.p
      (st.mid.foldl (fun p point => (setNodeObstacle p point true).2) sc.p) sc.streets st hst hb
    have hfalse : ∀ c ∈ st.mid, (nodeAt sc.p.nodesMap c).obstacle = false := by
      intro c hc
      cases ho : (nodeAt sc.p.nodesMap c).obstacle with
      | false => rfl
      | true =>
        exfalso
        obtain ⟨e, he, heb, hec⟩ := hclr c ho
        have hne : e.2.name ≠ st.name := by
          intro hek
          have h1 := streetNamed_of_mem sc.streets e hinv.names he
          rw [hek, hstname, hst] at h1
          have h2 : st = e.2 := Option.some.inj h1
          rw [h2, heb] at hb
          cases hb
        exact mids_disjoint _ hinv.nodup e (key1, st) he hstmem hne c hec hc
    have hwf1 := (obstacleFold_wf st.mid true sc.p hinv.wf).1
    have hundo : st.mid.foldl (fun p point => (setNodeObstacle p point false).2)
        (st.mid.foldl (fun p point => (setNodeObstacle p point true).2) sc.p) = sc.p := by
      rw [obstacleFold_eq st.mid false _ hwf1, obstacleFold_eq st.mid true sc.p hinv.wf]
      dsimp only
      rw [flagFold_undo st.mid sc.p.nodesMap (mids_nodup _ hinv.nodup (key1, st) hstmem) hfalse]
    unfold unblockStreet blockStreet
    rw [i1]
    dsimp only
    rw [i2, hundo]

/-- C11: in every state reached from the built scene by blocking and
unblocking, for a street `k` that is not blocked, `blockStreet(k)` followed by
`unblockStreet(k)` gives the state back: every node has the obstacle flag it
had, street `k` has the blocked flag it had, and `solveAStar`/`getSolution`
return for every start and end the sequence they returned before. -/
theorem block_unblock_restores {A : Arith} (pts : List Point)
    (streets : List (String × street)) (sc0 : Scene A) (ops : List (Bool × String))
    (hfresh : ∀ e ∈ streets, e.2.mid = [] ∧ e.2.isBlocked = false)
    (hnames : (streets.map fun e => e.2.name).Nodup)
    (hends : ∀ e ∈ streets, ∀ p ∈ e.2.pathLines, EndsIn pts p)
    (hp : sc0.p = (loadPaths (loadPoints (Pathfinding.empty A) pts) streets pts).1)
    (hs : sc0.streets = (loadPaths (loadPoints (Pathfinding.empty A) pts) streets pts).2.1)
    (k : String)
    (hk : ∀ st, streetNamed (runBlocks sc0 ops).streets k = some st → st.isBlocked = false) :
    (unblockStreet (blockStreet (runBlocks sc0 ops) k).2 k).2 = runBlocks sc0 ops ∧
    (∀ c, (nodeAt (unblockStreet (blockStreet (runBlocks sc0 ops) k).2 k).2.p.nodesMap c).obstacle
      = (nodeAt (runBlocks sc0 ops).p.nodesMap c).obstacle) ∧
    streetNamed (unblockStreet (blockStreet (runBlocks sc0 ops) k).2 k).2.streets k =
      streetNamed (runBlocks sc0 ops).streets k ∧
    (∀ st, streetNamed (runBlocks sc0 ops).streets k = some st →
      (blockStreet (runBlocks sc0 ops) k).1 = true ∧
      streetNamed (blockStreet (runBlocks sc0 ops) k).2.streets k =
        some { st with isBlocked := true } ∧
      ∀ c ∈ st.mid,
        (nodeAt (blockStreet (runBlocks sc0 ops) k).2.p.nodesMap c).obstacle = true) ∧
    ∀ start finish,
      getSolution (solveAStar (loadGoal
        (unblockStreet (blockStreet (runBlocks sc0 ops) k).2 k).2.p start finish)) =
      getSolution (solveAStar (loadGoal (runBlocks sc0 ops).p start finish)) := by
  have hinv := runBlocks_blockInv pts ops sc0
    (build_blockInv pts streets sc0 hfresh hnames hends hp hs)
  have hclr := runBlocks_clearInv pts ops sc0
    (build_blockInv pts streets sc0 hfresh hnames hends hp hs)
    (build_clearInv pts streets sc0 hp)
  have heq := block_unblock_eq pts (runBlocks sc0 ops) k hinv hclr hk
  refine ⟨heq, ?_, ?_, ?_, ?_⟩
  · intro c
    rw [heq]
  · rw [heq]
  · intro st hst
    obtain ⟨key1, hstmem, hstname⟩ := streetNamed_mem _ _ _ hst
    have h1 := blockInv_blocks pts _ hinv (key1, st) hstmem
    rw [hstname] at h1
    refine ⟨h1.1, ?_, h1.2⟩
    unfold blockStreet
    exact blockLoop_named true k _ _ st hst
  · intro start finish
    rw [heq]

set_option maxRecDepth 100000 in
/-- Instance of `block_unblock_restores`: in `sceneCross` with street `b`
blocked, blocking street `a` makes its mid node `(5,5)` an obstacle, and
unblocking `a` gives the state back. -/
theorem block_unblock_restores_witness :
    (streetNamed (runBlocks sceneCross [(true, "b")]).streets "a").map (fun st => st.isBlocked)
      = some false ∧
    (nodeAt (blockStreet (runBlocks sceneCross [(true, "b")]) "a").2.p.nodesMap
      (5, 5)).obstacle = true ∧
    (unblockStreet (blockStreet (runBlocks sceneCross [(true, "b")]) "a").2 "a").2 =
      runBlocks sceneCross [(true, "b")] :=
  ⟨by decide, by decide,
    (block_unblock_restores (A := gridArith) [(0, 0), (10, 10), (0, 10), (10, 0)]
      [("a", mkStreet "a" [(0, 0, 10, 10)]), ("b", mkStreet "b" [(0, 10, 10, 0)])]
      sceneCross [(true, "b")] (by decide) (by decide) (by decide) rfl rfl "a"
      (fun st hst => by
        have h : (streetNamed (runBlocks sceneCross [(true, "b")]).streets "a").map
            (fun st => st.isBlocked) = some false := by decide
        rw [hst] at h
        exact Option.some.inj h)).1⟩

theorem keepOrig_refl (m : List (Int × line)) : KeepOrig m m :=
  fun _ l h => ⟨l, h, rfl, rfl, rfl⟩

theorem keepOrig_trans {m1 m2 m3 : List (Int × line)} (h12 : KeepOrig m1 m2)
    (h23 : KeepOrig m2 m3) : KeepOrig m1 m3 := by
  intro k l h
  obtain ⟨l2, h2, a1, a2, a3⟩ := h12 k l h
  obtain ⟨l3, h3, b1, b2, b3⟩ := h23 k l2 h2
  exact ⟨l3, h3, b1.trans a1, b2.trans a2, b3.trans a3⟩

theorem keepOrig_of_routes {m m' : List (Int × line)} (h : SameRoutes m m') : KeepOrig m m' := by
  intro k l hl
  obtain ⟨pl, hpl⟩ := h.found k l hl
  exact ⟨_, hpl, rfl, rfl, rfl⟩

theorem keepOrig_qmodify (m : List (Int × line)) (k : Int) (f : line → line)
    (hf : ∀ l, (f l).startOriginal = l.startOriginal ∧
      (f l).stopsAtOriginal = l.stopsAtOriginal ∧ (f l).endOriginal = l.endOriginal) :
    KeepOrig m (qmodify m k f) := by
  intro k1 l hl
  by_cases hk : k1 = k
  · subst hk
    exact ⟨f l, by rw [qfind_qmodify_self, hl]; rfl, (hf l).1, (hf l).2.1, (hf l).2.2⟩
  · exact ⟨l, by rw [qfind_qmodify_ne _ _ _ _ hk, hl], rfl, rfl, rfl⟩

theorem loadLines_asLoaded (objs : List lineObj) (lines : List (Int × line))
    (h : AsLoaded lines) : AsLoaded (loadLines lines objs) := by
  unfold loadLines
  induction objs generalizing lines with
  | nil => exact h
  | cons o t ih =>
    simp only [List.foldl_cons]
    apply ih
    exact all_qinsert
      (fun l : line => l.start = l.startOriginal ∧ l.stopsAt = l.stopsAtOriginal ∧
        l.end_ = l.endOriginal) _ _ _ _ ⟨rfl, rfl, rfl⟩ h

theorem setEditMode_lines {A : Arith} (sc : Scene A) (val : Bool) :
    (setEditMode sc val).lines = sc.lines := by
  unfold setEditMode deselectLine
  cases val <;> rfl

theorem mousePressEvent_lines {A : Arith} (sc : Scene A) (ctrl : Bool)
    (item : Option container) : (mousePressEvent sc ctrl item).lines = sc.lines := by
  unfold mousePressEvent selectStreet selectLine selectLineViaBus deselectStreet deselectLine
  cases ctrl
  · simp only [Bool.false_eq_true, if_false]
    cases item with
    | none =>
      dsimp only
      split <;> rfl
    | some cont =>
      dsimp only
      repeat' split
      all_goals rfl
  · rfl

theorem saveEdit_keepOrig {A : Arith} (sc : Scene A) : KeepOrig sc.lines (saveEdit sc).2.lines := by
  unfold saveEdit
  cases sc.selectedLine with
  | none => exact keepOrig_refl _
  | some sel =>
    dsimp only
    split
    · exact keepOrig_refl _
    · have hfr := saveEditFold_frame sel
        (sc.routeEditTemp.headD "") (sc.routeEditTemp.getLastD "") sc.buses
        (setRoute sc sel (sc.routeEditTemp.headD "") (sc.routeEditTemp.getLastD "")
          (sc.routeEditTemp.drop 1).dropLast, [])
      refine keepOrig_trans ?_ (keepOrig_of_routes hfr.routes)
      unfold setRoute
      exact keepOrig_qmodify _ _ _ (fun l => ⟨rfl, rfl, rfl⟩)

theorem editStep_keepOrig {A : Arith} (sc : Scene A) (op : EditOp) :
    KeepOrig sc.lines (editStep sc op).lines := by
  cases op with
  | begin =>
    unfold editStep
    rw [setEditMode_lines]
    exact keepOrig_refl _
  | press item =>
    unfold editStep
    rw [mousePressEvent_lines]
    exact keepOrig_refl _
  | commit => exact saveEdit_keepOrig sc
  | cancel =>
    unfold editStep
    rw [setEditMode_lines]
    exact keepOrig_refl _

theorem runEdits_keepOrig {A : Arith} (ops : List EditOp) (sc : Scene A) :
    KeepOrig sc.lines (runEdits sc ops).lines := by
  unfold runEdits
  induction ops generalizing sc with
  | nil => exact keepOrig_refl _
  | cons op t ih => exact keepOrig_trans (editStep_keepOrig sc op) (ih _)

theorem resetVehicle_routes {A : Arith} (s : Scene A × List (Int × bus A)) (e : Int × bus A) :
    SameRoutes s.1.lines (resetVehicle s e).1.lines := by
  unfold resetVehicle
  dsimp only
  exact (sceneFrame_trans (sceneFrame_trans (sceneFrame_touchLine _ _)
    (sceneFrame_touchStop _ _)) (getPath_frame _ _)).routes

theorem resetVehicles_routes {A : Arith} (sc : Scene A) :
    SameRoutes sc.lines (resetVehicles sc).lines := by
  unfold resetVehicles
  dsimp only
  have h : ∀ (bs : List (Int × bus A)) (s : Scene A × List (Int × bus A)),
      SameRoutes s.1.lines (bs.foldl resetVehicle s).1.lines := by
    intro bs
    induction bs with
    | nil => exact fun s => sameRoutes_refl _
    | cons e t ih => exact fun s => sameRoutes_trans (resetVehicle_routes s e) (ih _)
  exact h sc.buses (sc, [])

theorem qfind_map {κ α : Type} [DecidableEq κ] (m : List (κ × α)) (f : α → α) (k : κ) :
    qfind (m.map fun e => (e.1, f e.2)) k = (qfind m k).map f := by
  induction m with
  | nil => rfl
  | cons e t ih =>
    obtain ⟨k', v⟩ := e
    simp only [List.map_cons, qfind]
    split
    · rfl
    · exact ih

/-- C18: `loadLines` stores every line with `start`, `stopsAt` and `end` equal
to its `Original` members; no editor operation (entering and leaving edit mode,
mouse presses, `saveEdit`, successful or not, on whatever line is selected)
changes the `Original` members of a line or removes a line; hence in every
state reached from a loaded scene by such operations `resetLines` gives every
line the start, via-stops and end it had at load time. -/
theorem resetLines_restores {A : Arith} :
    (∀ objs : List lineObj, AsLoaded (loadLines [] objs)) ∧
    (∀ (sc : Scene A) (op : EditOp), KeepOrig sc.lines (editStep sc op).lines) ∧
    (∀ (sc0 : Scene A) (ops : List EditOp), AsLoaded sc0.lines →
      ∀ k l0, qfind sc0.lines k = some l0 →
        ∃ l1, qfind (resetLines (runEdits sc0 ops)).lines k = some l1 ∧
          l1.start = l0.start ∧ l1.stopsAt = l0.stopsAt ∧ l1.end_ = l0.end_ ∧
          l1.startOriginal = l0.startOriginal ∧ l1.stopsAtOriginal = l0.stopsAtOriginal ∧
          l1.endOriginal = l0.endOriginal) := by
  refine ⟨fun objs => loadLines_asLoaded objs [] (by simp [AsLoaded]), editStep_keepOrig, ?_⟩
  intro sc0 ops h0 k l0 hl0
  obtain ⟨l, hl, a1, a2, a3⟩ := runEdits_keepOrig ops sc0 k l0 hl0
  obtain ⟨b1, b2, b3⟩ := h0 (k, l0) (qfind_mem _ _ _ hl0)
  have hmap : qfind ((runEdits sc0 ops).lines.map fun e =>
      (e.1, { e.2 with start := e.2.startOriginal, stopsAt := e.2.stopsAtOriginal,
                       end_ := e.2.endOriginal, pathLines := [] })) k =
      some { l with start := l.startOriginal, stopsAt := l.stopsAtOriginal,
                    end_ := l.endOriginal, pathLines := [] } := by
    rw [qfind_map (runEdits sc0 ops).lines (fun l : line =>
      { l with start := l.startOriginal, stopsAt := l.stopsAtOriginal,
               end_ := l.endOriginal, pathLines := [] }) k, hl]
    rfl
  obtain ⟨pl, hpl⟩ := (resetVehicles_routes
    { runEdits sc0 ops with
      lines := (runEdits sc0 ops).lines.map fun e =>
        (e.1, { e.2 with start := e.2.startOriginal, stopsAt := e.2.stopsAtOriginal,
                         end_ := e.2.endOriginal, pathLines := [] }) }).found k _ hmap
  refine ⟨_, hpl, ?_, ?_, ?_, a1, a2, a3⟩
  · exact a1.trans b1.symm
  · exact a2.trans b2.symm
  · exact a3.trans b3.symm

set_option maxRecDepth 100000 in
/-- Instance of `resetLines_restores`: from `sceneLines`, selecting line 1,
editing it to the route `C, A` and committing; `resetLines` gives line 1 its
loaded route `A, B, C` back. -/
theorem resetLines_restores_witness :
    qfind sceneLines.lines 1 = some { mkLine 1 "A" ["B"] "C" with color := "red" } ∧
    ((qfind (runEdits sceneLines [EditOp.press (lineItem 1), EditOp.begin,
      EditOp.press (stopItem "C"), EditOp.press (stopItem "A"), EditOp.commit]).lines 1).map
        fun l => (l.start, l.stopsAt, l.end_)) = some ("C", [], "A") ∧
    ∃ l1, qfind (resetLines (runEdits sceneLines [EditOp.press (lineItem 1), EditOp.begin,
        EditOp.press (stopItem "C"), EditOp.press (stopItem "A"), EditOp.commit])).lines 1 =
        some l1 ∧ l1.start = "A" ∧ l1.stopsAt = ["B"] ∧ l1.end_ = "C" :=
  ⟨by decide, by decide,
    have h := (resetLines_restores (A := gridArith)).2.2 sceneLines
      [EditOp.press (lineItem 1), EditOp.begin, EditOp.press (stopItem "C"),
        EditOp.press (stopItem "A"), EditOp.commit]
      ((resetLines_restores (A := gridArith)).1 _) 1
      { mkLine 1 "A" ["B"] "C" with color := "red" } (by decide)
    h.imp fun l1 hl1 => ⟨hl1.1, hl1.2.1, hl1.2.2.1, hl1.2.2.2.1⟩⟩

theorem pathFrame_refl {A : Arith} (lineno : Int) (sc : Scene A) : PathFrame lineno sc sc :=
  ⟨fun _ _ => rfl, fun _ => rfl⟩

theorem pathFrame_trans {A : Arith} {lineno : Int} {sc1 sc2 sc3 : Scene A}
    (h12 : PathFrame lineno sc1 sc2) (h23 : PathFrame lineno sc2 sc3) :
    PathFrame lineno sc1 sc3 :=
  ⟨fun k hk => (h23.others k hk).trans (h12.others k hk),
    fun k => (h23.stopRead k).trans (h12.stopRead k)⟩

theorem pathFrame_touchLine {A : Arith} (sc : Scene A) (k : Int) :
    PathFrame k sc (touchLine sc k) :=
  ⟨fun k1 hk => qfind_qindex_ne intLt line.zero sc.lines k k1 hk, fun _ => rfl⟩

theorem stopAt_touchStop {A : Arith} (sc : Scene A) (k k1 : String) :
    stopAt (touchStop sc k) k1 = stopAt sc k1 := by
  unfold stopAt touchStop
  exact qget_qindex strLt stop.zero sc.stops k k1

theorem pathFrame_touchStop {A : Arith} (lineno : Int) (sc : Scene A) (k : String) :
    PathFrame lineno sc (touchStop sc k) :=
  ⟨fun _ _ => rfl, stopAt_touchStop sc k⟩

theorem pathFrame_setP {A : Arith} (lineno : Int) (sc : Scene A) (p : Pathfinding A) :
    PathFrame lineno sc { sc with p := p } :=
  ⟨fun _ _ => rfl, fun _ => rfl⟩

theorem pathFrame_setPathLines {A : Arith} (sc : Scene A) (k : Int) (r : List Segment) :
    PathFrame k sc { sc with lines := qmodify sc.lines k fun l => { l with pathLines := r } } :=
  ⟨fun _ hk => qfind_qmodify_ne _ _ _ _ hk, fun _ => rfl⟩

theorem viaLegFold_pathFrame {A : Arith} (lineno : Int) (mid : List String) (s : Legs A) :
    PathFrame lineno s.sc (mid.foldl viaLeg s).sc := by
  induction mid generalizing s with
  | nil => exact pathFrame_refl _ _
  | cons k t ih =>
    refine pathFrame_trans ?_ (ih _)
    unfold viaLeg
    exact pathFrame_trans (pathFrame_touchStop _ _ _) (pathFrame_setP _ _ _)

theorem viaLegs_pathFrame {A : Arith} (sc : Scene A) (b : bus A) (mid0 : List String)
    (start : Point) : PathFrame b.lineno sc (viaLegs sc b mid0 start).sc := by
  unfold viaLegs
  split
  · exact pathFrame_refl _ _
  · exact viaLegFold_pathFrame _ _ { sc := sc, halt := b.halt, path := [(0, 0)], start := start }

theorem lastLeg_pathFrame {A : Arith} (s : Legs A) (b : bus A) (startSaved finish : Point) :
    PathFrame b.lineno s.sc (lastLeg s b startSaved finish).2.1 := by
  unfold lastLeg
  refine pathFrame_trans
    (pathFrame_setP _ s.sc (solveAStar (loadGoal s.sc.p s.start finish))) ?_
  refine pathFrame_trans (pathFrame_touchLine _ b.lineno) ?_
  exact pathFrame_setPathLines _ _ _

theorem getPath_pathFrame {A : Arith} (sc : Scene A) (b : bus A) :
    PathFrame b.lineno sc (getPath sc b).2.1 := by
  unfold getPath
  dsimp only
  refine pathFrame_trans ?_ (lastLeg_pathFrame _ _ _ _)
  refine pathFrame_trans ?_ (viaLegs_pathFrame _ _ _ _)
  refine pathFrame_trans ?_ (pathFrame_touchStop _ _ _)
  refine pathFrame_trans ?_ (pathFrame_touchStop _ _ _)
  exact pathFrame_touchLine sc b.lineno

/-- The loop of `saveEdit` over a bus of the selected line. -/
theorem saveEditBus_on {A : Arith} (sel : Int) (start finish : String)
    (s : Scene A × List (Int × bus A)) (e : Int × bus A)
    (h : e.2.lineno = (lineAt s.1 sel).no) :
    saveEditBus sel start finish s e =
      ((getPath (touchStop s.1 start) (routeBus s.1 start finish e.2)).2.1,
       s.2 ++ [(e.1, { (getPath (touchStop s.1 start) (routeBus s.1 start finish e.2)).2.2 with
         path := (getPath (touchStop s.1 start) (routeBus s.1 start finish e.2)).1 })]) := by
  unfold saveEditBus routeBus
  rw [if_pos h]
  simp only [stopAt_touchStop]

theorem saveEditBus_off {A : Arith} (sel : Int) (start finish : String)
    (s : Scene A × List (Int × bus A)) (e : Int × bus A)
    (h : e.2.lineno ≠ (lineAt s.1 sel).no) :
    saveEditBus sel start finish s e = (s.1, s.2 ++ [e]) := by
  unfold saveEditBus
  rw [if_neg h]

theorem saveEditBus_acc {A : Arith} (sel : Int) (start finish : String)
    (s : Scene A × List (Int × bus A)) (e : Int × bus A) :
    ∃ x, (saveEditBus sel start finish s e).2 = s.2 ++ [x] := by
  unfold saveEditBus
  split
  · exact ⟨_, rfl⟩
  · exact ⟨_, rfl⟩

theorem saveEditFold_acc {A : Arith} (sel : Int) (start finish : String)
    (bs : List (Int × bus A)) (s : Scene A × List (Int × bus A)) :
    ∃ L, (bs.foldl (saveEditBus sel start finish) s).2 = s.2 ++ L ∧ L.length = bs.length := by
  induction bs generalizing s with
  | nil => exact ⟨[], by simp, rfl⟩
  | cons e t ih =>
    obtain ⟨x, hx⟩ := saveEditBus_acc sel start finish s e
    obtain ⟨L, hL, hlen⟩ := ih (saveEditBus sel start finish s e)
    refine ⟨x :: L, ?_, by simp [hlen]⟩
    rw [List.foldl_cons, hL, hx]
    simp

/-- What the loop of `saveEdit` keeps true of the scene it hands on: the frame
of the scene with the new route, and the number of the selected line. -/
theorem saveEditFold_inv {A : Arith} (sel : Int) (start finish : String)
    (bs : List (Int × bus A)) (scR : Scene A) (s : Scene A × List (Int × bus A))
    (hno : (lineAt scR sel).no = sel)
    (h1 : SceneFrame scR s.1) (h2 : PathFrame sel scR s.1) :
    SceneFrame scR (bs.foldl (saveEditBus sel start finish) s).1 ∧
    PathFrame sel scR (bs.foldl (saveEditBus sel start finish) s).1 ∧
    (lineAt (bs.foldl (saveEditBus sel start finish) s).1 sel).no = sel := by
  have hread : ∀ sc' : Scene A, SceneFrame scR sc' → (lineAt sc' sel).no = sel := by
    intro sc' h
    obtain ⟨pl, hpl⟩ := h.routes.read sel
    unfold lineAt at hno ⊢
    rw [hpl]
    exact hno
  induction bs generalizing s with
  | nil => exact ⟨h1, h2, hread _ h1⟩
  | cons e t ih =>
    rw [List.foldl_cons]
    apply ih
    · exact sceneFrame_trans h1 (saveEditBus_frame sel start finish s e)
    · refine pathFrame_trans h2 ?_
      by_cases he : e.2.lineno = (lineAt s.1 sel).no
      · rw [saveEditBus_on sel start finish s e he]
        dsimp only
        have hl : (routeBus s.1 start finish e.2).lineno = sel := by
          unfold routeBus
          dsimp only
          rw [he, hread _ h1]
        have := getPath_pathFrame (touchStop s.1 start) (routeBus s.1 start finish e.2)
        rw [hl] at this
        exact pathFrame_trans (pathFrame_touchStop _ _ _) this
      · rw [saveEditBus_off sel start finish s e he]
        exact pathFrame_refl _ _

theorem getElem?_append_mid {α : Type} (l1 l2 : List α) (x : α) (n : Nat)
    (h : l1.length = n) : (l1 ++ x :: l2)[n]? = some x := by
  subst h
  rw [List.getElem?_append_right (Nat.le_refl _)]
  simp

/-- C17: after a successful `saveEdit` on the selected line (key and number
`sel`) with the provisional list `s, ..., e`: a bus whose `lineno` is `sel` has
`startStation = lastStation = s`, `endStation = e`, `reversed = false`,
`wait = initWait`, an empty `visited`, the coordinate of stop `s` as position,
and as `path` what `getPath` returns for it in the scene the loop has reached,
a scene that holds the new route; a bus of another line is unchanged; and so is
every other line. -/
theorem saveEdit_resets_buses {A : Arith} (sc : Scene A) (sel : Int) (l0 : line)
    (hsel : sc.selectedLine = some sel) (hl : qfind sc.lines sel = some l0)
    (hno : l0.no = sel) (hlen : 2 ≤ sc.routeEditTemp.length) :
    (saveEdit sc).1 = true ∧
    (saveEdit sc).2.buses.length = sc.buses.length ∧
    (∀ pre k b post, sc.buses = pre ++ (k, b) :: post →
      ∃ b', (saveEdit sc).2.buses[pre.length]? = some (k, b') ∧
        (b.lineno ≠ sel → b' = b) ∧
        (b.lineno = sel →
          b'.startStation = sc.routeEditTemp.headD "" ∧
          b'.lastStation = sc.routeEditTemp.headD "" ∧
          b'.endStation = sc.routeEditTemp.getLastD "" ∧
          b'.reversed = false ∧ b'.wait = b.initWait ∧ b'.visited = [] ∧
          b'.pos_x = A.dOfInt (stopAt sc (sc.routeEditTemp.headD "")).coord.1 ∧
          b'.pos_y = A.dOfInt (stopAt sc (sc.routeEditTemp.headD "")).coord.2 ∧
          ∃ sci, SceneFrame (setRoute sc sel (sc.routeEditTemp.headD "")
              (sc.routeEditTemp.getLastD "") (sc.routeEditTemp.drop 1).dropLast) sci ∧
            (∀ n, stopAt sci n = stopAt sc n) ∧
            sci = touchStop (pre.foldl (saveEditBus sel (sc.routeEditTemp.headD "")
              (sc.routeEditTemp.getLastD ""))
              (setRoute sc sel (sc.routeEditTemp.headD "") (sc.routeEditTemp.getLastD "")
                (sc.routeEditTemp.drop 1).dropLast, [])).1 (sc.routeEditTemp.headD "") ∧
            b'.path = (getPath sci (routeBus sc (sc.routeEditTemp.headD "")
              (sc.routeEditTemp.getLastD "") b)).1)) ∧
    (∀ k, k ≠ sel → qfind (saveEdit sc).2.lines k = qfind sc.lines k) := by
  have hlt : ¬ sc.routeEditTemp.length < 2 := by omega
  generalize hs : sc.routeEditTemp.headD "" = s
  generalize he : sc.routeEditTemp.getLastD "" = e
  generalize hv : (sc.routeEditTemp.drop 1).dropLast = via
  have hres : saveEdit sc = (true, deselectLine
      { (sc.buses.foldl (saveEditBus sel s e) (setRoute sc sel s e via, [])).1 with
        buses := (sc.buses.foldl (saveEditBus sel s e) (setRoute sc sel s e via, [])).2 }) := by
    unfold saveEdit
    rw [hsel]
    simp only [hlt, if_false, hs, he, hv]
    rfl
  have hnoR : (lineAt (setRoute sc sel s e via) sel).no = sel := by
    unfold lineAt setRoute qget
    dsimp only
    rw [qfind_qmodify_self, hl]
    exact hno
  have hstopR : ∀ n, stopAt (setRoute sc sel s e via) n = stopAt sc n := fun _ => rfl
  have hothR : ∀ k, k ≠ sel → qfind (setRoute sc sel s e via).lines k = qfind sc.lines k := by
    intro k hk
    unfold setRoute
    exact qfind_qmodify_ne _ _ _ _ hk
  rw [hres]
  refine ⟨rfl, ?_, ?_, ?_⟩
  · obtain ⟨L, hL, hlen'⟩ := saveEditFold_acc sel s e sc.buses (setRoute sc sel s e via, [])
    show (sc.buses.foldl (saveEditBus sel s e) (setRoute sc sel s e via, [])).2.length = _
    rw [hL]
    simpa using hlen'
  · intro pre k b post hb
    show ∃ b', (sc.buses.foldl (saveEditBus sel s e) (setRoute sc sel s e via, [])).2[pre.length]?
      = some (k, b') ∧ _
    rw [hb, List.foldl_append, List.foldl_cons]
    obtain ⟨i1, i2, i3⟩ := saveEditFold_inv sel s e pre (setRoute sc sel s e via)
      (setRoute sc sel s e via, []) hnoR (sceneFrame_refl _) (pathFrame_refl _ _)
    obtain ⟨Lpre, hLpre, hlenpre⟩ := saveEditFold_acc sel s e pre (setRoute sc sel s e via, [])
    generalize pre.foldl (saveEditBus sel s e) (setRoute sc sel s e via, []) = sp at *
    simp only [List.nil_append] at hLpre
    obtain ⟨Lpost, hLpost, _⟩ := saveEditFold_acc sel s e post (saveEditBus sel s e sp (k, b))
    rw [hLpost]
    by_cases hline : b.lineno = sel
    · have hon : ((k, b) : Int × bus A).2.lineno = (lineAt sp.1 sel).no := by
        rw [i3]
        exact hline
      rw [saveEditBus_on sel s e sp (k, b) hon]
      dsimp only
      have hrb : routeBus sp.1 s e b = routeBus sc s e b := by
        unfold routeBus
        rw [(i2.stopRead s).trans (hstopR s)]
      rw [hrb]
      refine ⟨{ (getPath (touchStop sp.1 s) (routeBus sc s e b)).2.2 with
          path := (getPath (touchStop sp.1 s) (routeBus sc s e b)).1 }, ?_,
        fun hc => absurd hline hc, fun _ => ?_⟩
      · rw [List.append_assoc]
        exact getElem?_append_mid _ _ _ _ (by rw [hLpre]; exact hlenpre)
      · have hbus := getPath_bus (touchStop sp.1 s) (routeBus sc s e b)
        refine ⟨?_, ?_, ?_, ?_, ?_, ?_, ?_, ?_, touchStop sp.1 s,
          sceneFrame_trans i1 (sceneFrame_touchStop _ _), ?_, rfl, rfl⟩
        · rw [hbus]; rfl
        · rw [hbus]; rfl
        · rw [hbus]; rfl
        · rw [hbus]; rfl
        · rw [hbus]; rfl
        · rw [hbus]; rfl
        · rw [hbus]; rfl
        · rw [hbus]; rfl
        · intro n
          rw [stopAt_touchStop, i2.stopRead, hstopR]
    · have hoff : ((k, b) : Int × bus A).2.lineno ≠ (lineAt sp.1 sel).no := by
        rw [i3]
        exact hline
      rw [saveEditBus_off sel s e sp (k, b) hoff]
      dsimp only
      refine ⟨b, ?_, fun _ => rfl, fun hc => absurd hc hline⟩
      rw [List.append_assoc]
      exact getElem?_append_mid _ _ _ _ (by rw [hLpre]; exact hlenpre)
  · intro k hk
    obtain ⟨_, i2, _⟩ := saveEditFold_inv sel s e sc.buses (setRoute sc sel s e via)
      (setRoute sc sel s e via, []) hnoR (sceneFrame_refl _) (pathFrame_refl _ _)
    show qfind (sc.buses.foldl (saveEditBus sel s e) (setRoute sc sel s e via, [])).1.lines k = _
    rw [i2.others k hk, hothR k hk]

set_option maxRecDepth 100000 in
/-- Instance of `saveEdit_resets_buses`: in `sceneBus` the commit of the route
`B, A` for line 1 moves the bus of line 1 to stop `B` at `(10,0)` and leaves
the bus of line 2 and line 2 as they are. -/
theorem saveEdit_resets_buses_witness :
    sceneBus.selectedLine = some 1 ∧
    qfind sceneBus.lines 1 = some { mkLine 1 "A" ["B"] "C" with color := "red" } ∧
    2 ≤ sceneBus.routeEditTemp.length ∧
    ((saveEdit sceneBus).2.buses.map fun e =>
      (e.1, e.2.lineno, e.2.startStation, e.2.lastStation, e.2.endStation)) =
      [(0, 1, "B", "B", "A"), (1, 2, "B", "B", "A")] ∧
    ((saveEdit sceneBus).2.buses.map fun e =>
      (gridArith.dToInt e.2.pos_x, gridArith.dToInt e.2.pos_y)) = [(10, 0), (10, 0)] ∧
    ((saveEdit sceneBus).2.buses.map fun e => e.2.path) =
      [[(10, 0, 5, 0), (5, 0, 0, 0)], []] ∧
    (∃ b', (saveEdit sceneBus).2.buses[([] : List (Int × bus gridArith)).length]? =
        some (0, b') ∧ b'.startStation = "B") ∧
    qfind (saveEdit sceneBus).2.lines 2 = qfind sceneBus.lines 2 :=
  have h := saveEdit_resets_buses sceneBus 1 { mkLine 1 "A" ["B"] "C" with color := "red" }
    (by decide) (by decide) (by decide) (by decide)
  ⟨by decide, by decide, by decide, by decide, by decide, by decide,
    (h.2.2.1 [] 0 (mkBus 1 0 0 "A" "C" false) [(1, mkBus 2 10 0 "B" "A" false)] rfl).imp
      fun b' hb' => ⟨hb'.1, (hb'.2.2 (by decide)).1⟩,
    h.2.2.2 2 (by decide)⟩

theorem nodeAt_qindex {A : Arith} (m : List (Point × Node A)) (k k1 : Point) :
    nodeAt (qindex pointLt (Node.zero A) m k) k1 = nodeAt m k1 := by
  unfold nodeAt
  exact qget_qindex pointLt (Node.zero A) m k k1

theorem nodeAt_qinsert_self {A : Arith} (m : List (Point × Node A)) (k : Point) (v : Node A) :
    nodeAt (qinsert pointLt m k v) k = v := by
  unfold nodeAt qget
  rw [qfind_qinsert_self]
  rfl

theorem nodeAt_qinsert_ne {A : Arith} (m : List (Point × Node A)) (k k1 : Point) (v : Node A)
    (h : k1 ≠ k) : nodeAt (qinsert pointLt m k v) k1 = nodeAt m k1 := by
  unfold nodeAt qget
  rw [qfind_qinsert_ne pointLt m k k1 v h]

theorem midCoord_comm (a b : Int) : midCoord a b = midCoord b a := by
  unfold midCoord
  by_cases h1 : a ≥ b
  · by_cases h2 : b ≥ a
    · have : a = b := by omega
      subst this
      rfl
    · rw [if_pos h1, if_neg h2]
  · rw [if_neg h1, if_pos (by omega : b ≥ a)]

/-- The node map after `attachMid`, read at a key that is neither the visited
node nor the midpoint. -/
theorem attachMid_other {A : Arith} (s : BuildState A) (c other k : Point) (hc : k ≠ c)
    (hm : k ≠ (midCoord (nodeAt s.g.nodesMap c).x other.1,
      midCoord (nodeAt s.g.nodesMap c).y other.2)) :
    nodeAt (attachMid s c other).g.nodesMap k = nodeAt s.g.nodesMap k := by
  unfold attachMid
  dsimp only
  split
  · rw [nodeAt_qmodify_ne _ _ _ _ hc, nodeAt_qindex]
  · dsimp only
    rw [nodeAt_qmodify_ne _ _ _ _ hc, nodeAt_qindex, nodeAt_qinsert_ne _ _ _ _ hm,
      nodeAt_qindex, nodeAt_qindex, nodeAt_qmodify_ne _ _ _ _ hc]

/-- The midpoint node after `attachMid` when it was there before. -/
theorem attachMid_mid_present {A : Arith} (s : BuildState A) (c other : Point)
    (hne : (midCoord (nodeAt s.g.nodesMap c).x other.1,
      midCoord (nodeAt s.g.nodesMap c).y other.2) ≠ c)
    (hp : qcontains s.g.nodesMap (midCoord (nodeAt s.g.nodesMap c).x other.1,
      midCoord (nodeAt s.g.nodesMap c).y other.2) = true) :
    nodeAt (attachMid s c other).g.nodesMap (midCoord (nodeAt s.g.nodesMap c).x other.1,
      midCoord (nodeAt s.g.nodesMap c).y other.2) =
    nodeAt s.g.nodesMap (midCoord (nodeAt s.g.nodesMap c).x other.1,
      midCoord (nodeAt s.g.nodesMap c).y other.2) := by
  unfold attachMid
  dsimp only
  rw [if_pos hp, nodeAt_qmodify_ne _ _ _ _ hne, nodeAt_qindex]

/-- The midpoint node after `attachMid` when it is new: its neighbours are the
visited node and the far end. -/
theorem attachMid_mid_fresh {A : Arith} (s : BuildState A) (c other : Point)
    (hc : qcontains s.g.nodesMap c = true)
    (hp : ¬ qcontains s.g.nodesMap (midCoord (nodeAt s.g.nodesMap c).x other.1,
      midCoord (nodeAt s.g.nodesMap c).y other.2) = true) :
    (nodeAt (attachMid s c other).g.nodesMap (midCoord (nodeAt s.g.nodesMap c).x other.1,
      midCoord (nodeAt s.g.nodesMap c).y other.2)).neighbours =
    [((nodeAt s.g.nodesMap c).x, (nodeAt s.g.nodesMap c).y), other] := by
  have hne : (midCoord (nodeAt s.g.nodesMap c).x other.1,
      midCoord (nodeAt s.g.nodesMap c).y other.2) ≠ c := by
    intro h
    rw [h] at hp
    exact hp hc
  unfold attachMid
  dsimp only
  rw [if_neg hp]
  dsimp only
  rw [nodeAt_qmodify_ne _ _ _ _ hne, nodeAt_qindex, nodeAt_qinsert_self]

/-- The visited node after `attachMid`: the midpoint is its last neighbour. -/
theorem attachMid_self {A : Arith} (s : BuildState A) (c other : Point)
    (hc : qcontains s.g.nodesMap c = true) :
    (nodeAt (attachMid s c other).g.nodesMap c).neighbours =
      (nodeAt s.g.nodesMap c).neighbours ++
        [(midCoord (nodeAt s.g.nodesMap c).x other.1,
          midCoord (nodeAt s.g.nodesMap c).y other.2)] := by
  unfold attachMid
  dsimp only
  split
  · rename_i hp
    rw [nodeAt_qmodify_self _ _ _ (by rw [qcontains_qindex]; simp [hc]), nodeAt_qindex]
  · rename_i hp
    have hne : c ≠ (midCoord (nodeAt s.g.nodesMap c).x other.1,
        midCoord (nodeAt s.g.nodesMap c).y other.2) := by
      intro h
      rw [← h] at hp
      exact hp hc
    dsimp only
    rw [nodeAt_qmodify_self _ _ _ (by
        simp only [qcontains_qindex, qcontains_qinsert, qcontains_qmodify, hc]
        simp),
      nodeAt_qindex, nodeAt_qinsert_ne _ _ _ _ hne, nodeAt_qindex, nodeAt_qindex,
      nodeAt_qmodify_self _ _ _ hc]

/-- The three cases of `visitNode` for a node that sits under its own coordinate. -/
theorem visitNode_cases {A : Arith} (path : Segment) (s : BuildState A) (c : Point)
    (hxy : (((nodeAt s.g.nodesMap c).x, (nodeAt s.g.nodesMap c).y) : Point) = c) :
    (c = (path.1, path.2.1) → visitNode path s c = attachMid s c (path.2.2.1, path.2.2.2)) ∧
    (c ≠ (path.1, path.2.1) → c = (path.2.2.1, path.2.2.2) →
      visitNode path s c = attachMid s c (path.1, path.2.1)) ∧
    (c ≠ (path.1, path.2.1) → c ≠ (path.2.2.1, path.2.2.2) → visitNode path s c = s) := by
  have hx : (nodeAt s.g.nodesMap c).x = c.1 := congrArg Prod.fst hxy
  have hy : (nodeAt s.g.nodesMap c).y = c.2 := congrArg Prod.snd hxy
  unfold visitNode
  dsimp only
  rw [hx, hy]
  refine ⟨?_, ?_, ?_⟩
  · intro h
    rw [if_pos (by rw [h]; exact ⟨rfl, rfl⟩)]
  · intro h1 h2
    rw [if_neg (fun h => h1 (Prod.ext h.1 h.2)), if_pos (by rw [h2]; exact ⟨rfl, rfl⟩)]
  · intro h1 h2
    rw [if_neg (fun h => h1 (Prod.ext h.1 h.2)), if_neg (fun h => h2 (Prod.ext h.1 h.2))]

/-- The coordinate `attachMid` computes, for a node under its own coordinate
that is the first end of the segment, is `segMid` of the segment. -/
theorem newCoord_first {A : Arith} (path : Segment) (m : List (Point × Node A)) (c : Point)
    (hxy : (((nodeAt m c).x, (nodeAt m c).y) : Point) = c) (h : c = (path.1, path.2.1)) :
    ((midCoord (nodeAt m c).x path.2.2.1, midCoord (nodeAt m c).y path.2.2.2) : Point) =
      segMid path := by
  have hx : (nodeAt m c).x = c.1 := congrArg Prod.fst hxy
  have hy : (nodeAt m c).y = c.2 := congrArg Prod.snd hxy
  rw [hx, hy, h]
  rfl

theorem newCoord_second {A : Arith} (path : Segment) (m : List (Point × Node A)) (c : Point)
    (hxy : (((nodeAt m c).x, (nodeAt m c).y) : Point) = c)
    (h : c = (path.2.2.1, path.2.2.2)) :
    ((midCoord (nodeAt m c).x path.1, midCoord (nodeAt m c).y path.2.1) : Point) =
      segMid path := by
  have hx : (nodeAt m c).x = c.1 := congrArg Prod.fst hxy
  have hy : (nodeAt m c).y = c.2 := congrArg Prod.snd hxy
  rw [hx, hy, h]
  unfold segMid
  rw [midCoord_comm path.2.2.1, midCoord_comm path.2.2.2]

/-- What `visitNode` does to a node under its own coordinate, in one statement:
nothing, or `attachMid` from an end of the segment towards the other end, with
the segment's midpoint as the new coordinate. -/
theorem visitNode_step {A : Arith} (path : Segment) (s : BuildState A) (c : Point)
    (hxy : (((nodeAt s.g.nodesMap c).x, (nodeAt s.g.nodesMap c).y) : Point) = c) :
    visitNode path s c = s ∨
    ∃ other, visitNode path s c = attachMid s c other ∧
      ((midCoord (nodeAt s.g.nodesMap c).x other.1,
        midCoord (nodeAt s.g.nodesMap c).y other.2) : Point) = segMid path ∧
      ((c = (path.1, path.2.1) ∧ other = (path.2.2.1, path.2.2.2)) ∨
       (c = (path.2.2.1, path.2.2.2) ∧ other = (path.1, path.2.1))) := by
  obtain ⟨h1, h2, h3⟩ := visitNode_cases path s c hxy
  by_cases hc1 : c = (path.1, path.2.1)
  · exact Or.inr ⟨_, h1 hc1, newCoord_first path _ c hxy hc1, Or.inl ⟨hc1, rfl⟩⟩
  · by_cases hc2 : c = (path.2.2.1, path.2.2.2)
    · exact Or.inr ⟨_, h2 hc1 hc2, newCoord_second path _ c hxy hc2, Or.inr ⟨hc2, rfl⟩⟩
    · exact Or.inl (h3 hc1 hc2)

theorem attachMid_keys_of {A : Arith} (s : BuildState A) (c other k : Point)
    (h : qcontains (attachMid s c other).g.nodesMap k = true) :
    k = (midCoord (nodeAt s.g.nodesMap c).x other.1,
      midCoord (nodeAt s.g.nodesMap c).y other.2) ∨
    k = ((nodeAt s.g.nodesMap c).x, (nodeAt s.g.nodesMap c).y) ∨ k = other ∨
    qcontains s.g.nodesMap k = true := by
  unfold attachMid at h
  dsimp only at h
  split at h
  · simp only [qcontains_qmodify, qcontains_qindex, Bool.or_eq_true, decide_eq_true_eq] at h
    rcases h with h | h
    · exact Or.inl h
    · exact Or.inr (Or.inr (Or.inr h))
  · simp only [qcontains_qmodify, qcontains_qindex, qcontains_qinsert, Bool.or_eq_true,
      decide_eq_true_eq] at h
    rcases h with h | h | h | h | h
    · exact Or.inl h
    · exact Or.inl h
    · exact Or.inr (Or.inr (Or.inl h))
    · exact Or.inr (Or.inl h)
    · exact Or.inr (Or.inr (Or.inr h))

/-- Once the midpoint node of `seg` has the two ends as neighbours, visiting a
node for any segment with ends among the start points leaves it so. -/
theorem visitNode_midOk {A : Arith} (pts done : List Point) (path seg : Segment)
    (s : BuildState A) (c : Point) (hc : qcontains s.g.nodesMap c = true)
    (he : EndsIn pts path) (h : BInv pts (done ++ s.st.mid) s.g) (hm : segMid seg ∉ pts)
    (hok : MidOk s.g.nodesMap seg) : MidOk (visitNode path s c).g.nodesMap seg := by
  have hxy := nodeAt_wf s.g.nodesMap c h.wf hc
  rcases visitNode_step path s c hxy with h1 | ⟨other, h1, hnew, hends⟩
  · rw [h1]
    exact hok
  · rw [h1]
    have hcp : c ∈ pts := by
      rcases hends with ⟨h2, _⟩ | ⟨h2, _⟩
      · rw [h2]; exact he.1
      · rw [h2]; exact he.2
    have hcm : segMid seg ≠ c := fun hh => hm (by rw [hh]; exact hcp)
    have hsame : nodeAt (attachMid s c other).g.nodesMap (segMid seg) =
        nodeAt s.g.nodesMap (segMid seg) := by
      by_cases hmn : segMid seg = segMid path
      · have := attachMid_mid_present s c other (by rw [hnew, ← hmn]; exact hcm)
          (by rw [hnew, ← hmn]; exact hok.1)
        rw [hnew, ← hmn] at this
        exact this
      · exact attachMid_other s c other _ hcm (by rw [hnew]; exact hmn)
    exact ⟨attachMid_keys s c other _ hok.1, by rw [hsame]; exact hok.2⟩

/-- Visiting an end of `seg` while the midpoint has no node creates the node
with the two ends as neighbours. -/
theorem visitNode_creates {A : Arith} (pts done : List Point) (seg : Segment)
    (s : BuildState A) (c : Point) (hc : qcontains s.g.nodesMap c = true)
    (h : BInv pts (done ++ s.st.mid) s.g)
    (habs : ¬ qcontains s.g.nodesMap (segMid seg) = true)
    (hends : c = (seg.1, seg.2.1) ∨ c = (seg.2.2.1, seg.2.2.2)) :
    MidOk (visitNode seg s c).g.nodesMap seg := by
  have hxy := nodeAt_wf s.g.nodesMap c h.wf hc
  obtain ⟨h1, h2, _⟩ := visitNode_cases seg s c hxy
  by_cases hc1 : c = (seg.1, seg.2.1)
  · rw [h1 hc1]
    have hnew := newCoord_first seg _ c hxy hc1
    have hp := attachMid_has_mid s c (seg.2.2.1, seg.2.2.2)
    have hf := attachMid_mid_fresh s c (seg.2.2.1, seg.2.2.2) hc (by rw [hnew]; exact habs)
    rw [hnew] at hp hf
    rw [hxy] at hf
    exact ⟨hp, Or.inl (hf.trans (by rw [hc1]))⟩
  · have hc2 : c = (seg.2.2.1, seg.2.2.2) := by
      rcases hends with h3 | h3
      · exact absurd h3 hc1
      · exact h3
    rw [h2 hc1 hc2]
    have hnew := newCoord_second seg _ c hxy hc2
    have hp := attachMid_has_mid s c (seg.1, seg.2.1)
    have hf := attachMid_mid_fresh s c (seg.1, seg.2.1) hc (by rw [hnew]; exact habs)
    rw [hnew] at hp hf
    rw [hxy] at hf
    exact ⟨hp, Or.inr (hf.trans (by rw [hc2]))⟩

/-- Visiting a node for a segment with another midpoint does not create the
node at the midpoint of `seg`. -/
theorem visitNode_absent {A : Arith} (pts done : List Point) (path : Segment) (M : Point)
    (s : BuildState A) (c : Point) (hc : qcontains s.g.nodesMap c = true)
    (he : EndsIn pts path) (h : BInv pts (done ++ s.st.mid) s.g) (hm : M ∉ pts)
    (hne : segMid path ≠ M) (habs : ¬ qcontains s.g.nodesMap M = true) :
    ¬ qcontains (visitNode path s c).g.nodesMap M = true := by
  have hxy := nodeAt_wf s.g.nodesMap c h.wf hc
  rcases visitNode_step path s c hxy with h1 | ⟨other, h1, hnew, hends⟩
  · rw [h1]
    exact habs
  · rw [h1]
    intro hcon
    have hcp : c ∈ pts := by
      rcases hends with ⟨h2, _⟩ | ⟨h2, _⟩
      · rw [h2]; exact he.1
      · rw [h2]; exact he.2
    have hop : other ∈ pts := by
      rcases hends with ⟨_, h2⟩ | ⟨_, h2⟩
      · rw [h2]; exact he.2
      · rw [h2]; exact he.1
    rcases attachMid_keys_of s c other M hcon with h2 | h2 | h2 | h2
    · rw [hnew] at h2
      exact hne h2.symm
    · rw [hxy] at h2
      exact hm (by rw [h2]; exact hcp)
    · exact hm (by rw [h2]; exact hop)
    · exact habs h2

/-- A neighbour of a node stays a neighbour when a node is visited. -/
theorem visitNode_mono {A : Arith} (pts done : List Point) (path : Segment)
    (s : BuildState A) (c : Point) (hc : qcontains s.g.nodesMap c = true)
    (h : BInv pts (done ++ s.st.mid) s.g) (k x : Point)
    (hx : x ∈ (nodeAt s.g.nodesMap k).neighbours) :
    x ∈ (nodeAt (visitNode path s c).g.nodesMap k).neighbours := by
  have hxy := nodeAt_wf s.g.nodesMap c h.wf hc
  rcases visitNode_step path s c hxy with h1 | ⟨other, h1, _, _⟩
  · rw [h1]
    exact hx
  · rw [h1]
    by_cases hkc : k = c
    · rw [hkc, attachMid_self s c other hc]
      rw [hkc] at hx
      exact List.mem_append_left _ hx
    · by_cases hkn : k = (midCoord (nodeAt s.g.nodesMap c).x other.1,
          midCoord (nodeAt s.g.nodesMap c).y other.2)
      · by_cases hp : qcontains s.g.nodesMap k = true
        · have := attachMid_mid_present s c other (by rw [← hkn]; exact hkc)
            (by rw [← hkn]; exact hp)
          rw [← hkn] at this
          rw [this]
          exact hx
        · rw [nodeAt_absent _ _ hp] at hx
          simp [Node.zero] at hx
      · rw [attachMid_other s c other k hkc hkn]
        exact hx

/-- Visiting an end of the segment links it to the midpoint. -/
theorem visitNode_links {A : Arith} (pts done : List Point) (seg : Segment)
    (s : BuildState A) (c : Point) (hc : qcontains s.g.nodesMap c = true)
    (h : BInv pts (done ++ s.st.mid) s.g)
    (hends : c = (seg.1, seg.2.1) ∨ c = (seg.2.2.1, seg.2.2.2)) :
    segMid seg ∈ (nodeAt (visitNode seg s c).g.nodesMap c).neighbours := by
  have hxy := nodeAt_wf s.g.nodesMap c h.wf hc
  obtain ⟨h1, h2, _⟩ := visitNode_cases seg s c hxy
  by_cases hc1 : c = (seg.1, seg.2.1)
  · rw [h1 hc1, attachMid_self s c _ hc, newCoord_first seg _ c hxy hc1]
    simp
  · have hc2 : c = (seg.2.2.1, seg.2.2.2) := by
      rcases hends with h3 | h3
      · exact absurd h3 hc1
      · exact h3
    rw [h2 hc1 hc2, attachMid_self s c _ hc, newCoord_second seg _ c hxy hc2]
    simp

theorem nodeFold_midOk {A : Arith} (pts done : List Point) (path seg : Segment)
    (ks : List Point) (s : BuildState A) (he : EndsIn pts path)
    (h : BInv pts (done ++ s.st.mid) s.g) (hm : segMid seg ∉ pts)
    (hok : MidOk s.g.nodesMap seg) :
    MidOk (ks.foldl (fun s c => if qcontains s.g.nodesMap c then visitNode path s c else s)
      s).g.nodesMap seg := by
  induction ks generalizing s with
  | nil => exact hok
  | cons c t ih =>
    simp only [List.foldl_cons]
    by_cases hc : qcontains s.g.nodesMap c = true
    · rw [if_pos hc]
      exact ih _ (visitNode_binv pts done path s c hc he h)
        (visitNode_midOk pts done path seg s c hc he h hm hok)
    · rw [if_neg hc]
      exact ih _ h hok

theorem nodeFold_absent {A : Arith} (pts done : List Point) (path : Segment) (M : Point)
    (ks : List Point) (s : BuildState A) (he : EndsIn pts path)
    (h : BInv pts (done ++ s.st.mid) s.g) (hm : M ∉ pts) (hne : segMid path ≠ M)
    (habs : ¬ qcontains s.g.nodesMap M = true) :
    ¬ qcontains (ks.foldl
      (fun s c => if qcontains s.g.nodesMap c then visitNode path s c else s)
      s).g.nodesMap M = true := by
  induction ks generalizing s with
  | nil => exact habs
  | cons c t ih =>
    simp only [List.foldl_cons]
    by_cases hc : qcontains s.g.nodesMap c = true
    · rw [if_pos hc]
      exact ih _ (visitNode_binv pts done path s c hc he h)
        (visitNode_absent pts done path M s c hc he h hm hne habs)
    · rw [if_neg hc]
      exact ih _ h habs

theorem nodeFold_creates {A : Arith} (pts done : List Point) (seg : Segment)
    (ks : List Point) (s : BuildState A) (he : EndsIn pts seg)
    (h : BInv pts (done ++ s.st.mid) s.g) (hm : segMid seg ∉ pts)
    (hst : ¬ qcontains s.g.nodesMap (segMid seg) = true ∨ MidOk s.g.nodesMap seg)
    (hk : ((seg.1, seg.2.1) : Point) ∈ ks) :
    MidOk (ks.foldl (fun s c => if qcontains s.g.nodesMap c then visitNode seg s c else s)
      s).g.nodesMap seg := by
  induction ks generalizing s with
  | nil => simp at hk
  | cons c t ih =>
    rcases hst with habs | hok
    · simp only [List.foldl_cons]
      by_cases hc : qcontains s.g.nodesMap c = true
      · rw [if_pos hc]
        have hb := visitNode_binv pts done seg s c hc he h
        by_cases hends : c = (seg.1, seg.2.1) ∨ c = (seg.2.2.1, seg.2.2.2)
        · exact nodeFold_midOk pts done seg seg t _ he hb hm
            (visitNode_creates pts done seg s c hc h habs hends)
        · have hxy := nodeAt_wf s.g.nodesMap c h.wf hc
          have h3 := (visitNode_cases seg s c hxy).2.2 (fun hh => hends (Or.inl hh))
            (fun hh => hends (Or.inr hh))
          rw [h3]
          apply ih s h (Or.inl habs)
          rcases List.mem_cons.mp hk with hk1 | hk1
          · exact absurd (Or.inl hk1.symm) hends
          · exact hk1
      · rw [if_neg hc]
        apply ih s h (Or.inl habs)
        rcases List.mem_cons.mp hk with hk1 | hk1
        · rw [← hk1] at hc
          exact absurd (h.ginv.keysPts _ he.1) hc
        · exact hk1
    · exact nodeFold_midOk pts done seg seg (c :: t) s he h hm hok

theorem nodeFold_mono {A : Arith} (pts done : List Point) (path : Segment)
    (ks : List Point) (s : BuildState A) (he : EndsIn pts path)
    (h : BInv pts (done ++ s.st.mid) s.g) (k x : Point)
    (hx : x ∈ (nodeAt s.g.nodesMap k).neighbours) :
    x ∈ (nodeAt (ks.foldl
      (fun s c => if qcontains s.g.nodesMap c then visitNode path s c else s)
      s).g.nodesMap k).neighbours := by
  induction ks generalizing s with
  | nil => exact hx
  | cons c t ih =>
    simp only [List.foldl_cons]
    by_cases hc : qcontains s.g.nodesMap c = true
    · rw [if_pos hc]
      exact ih _ (visitNode_binv pts done path s c hc he h)
        (visitNode_mono pts done path s c hc h k x hx)
    · rw [if_neg hc]
      exact ih _ h hx

theorem nodeFold_links {A : Arith} (pts done : List Point) (seg : Segment)
    (ks : List Point) (s : BuildState A) (he : EndsIn pts seg)
    (h : BInv pts (done ++ s.st.mid) s.g) (P : Point)
    (hends : P = (seg.1, seg.2.1) ∨ P = (seg.2.2.1, seg.2.2.2)) (hk : P ∈ ks) :
    segMid seg ∈ (nodeAt (ks.foldl
      (fun s c => if qcontains s.g.nodesMap c then visitNode seg s c else s)
      s).g.nodesMap P).neighbours := by
  have hP : P ∈ pts := by
    rcases hends with h1 | h1
    · rw [h1]; exact he.1
    · rw [h1]; exact he.2
  induction ks generalizing s with
  | nil => simp at hk
  | cons c t ih =>
    simp only [List.foldl_cons]
    by_cases hcP : c = P
    · have hc : qcontains s.g.nodesMap c = true := by
        rw [hcP]
        exact h.ginv.keysPts _ hP
      rw [if_pos hc]
      apply nodeFold_mono pts done seg t _ he (visitNode_binv pts done seg s c hc he h)
      have := visitNode_links pts done seg s c hc h (by rw [hcP]; exact hends)
      rw [hcP] at this
      rw [hcP]
      exact this
    · have hkt : P ∈ t := by
        rcases List.mem_cons.mp hk with hk1 | hk1
        · exact absurd hk1.symm hcP
        · exact hk1
      by_cases hc : qcontains s.g.nodesMap c = true
      · rw [if_pos hc]
        exact ih _ (visitNode_binv pts done seg s c hc he h) hkt
      · rw [if_neg hc]
        exact ih _ h hkt

theorem mem_loopKeys_second {A : Arith} (m : List (Point × Node A)) (path : Segment) :
    ((path.2.2.1, path.2.2.2) : Point) ∈ loopKeys m path := by
  unfold loopKeys
  simp only [List.foldl_cons, List.foldl_nil, mem_insertKey]
  tauto

theorem loadSegment_midOk {A : Arith} (pts done : List Point) (path seg : Segment)
    (s : BuildState A) (he : EndsIn pts path) (h : BInv pts (done ++ s.st.mid) s.g)
    (hm : segMid seg ∉ pts) (hok : MidOk s.g.nodesMap seg) :
    MidOk (loadSegment s path).g.nodesMap seg :=
  nodeFold_midOk pts done path seg _ s he h hm hok

theorem loadSegment_absent {A : Arith} (pts done : List Point) (path : Segment) (M : Point)
    (s : BuildState A) (he : EndsIn pts path) (h : BInv pts (done ++ s.st.mid) s.g)
    (hm : M ∉ pts) (hne : segMid path ≠ M) (habs : ¬ qcontains s.g.nodesMap M = true) :
    ¬ qcontains (loadSegment s path).g.nodesMap M = true :=
  nodeFold_absent pts done path M _ s he h hm hne habs

theorem loadSegment_creates {A : Arith} (pts done : List Point) (seg : Segment)
    (s : BuildState A) (he : EndsIn pts seg) (h : BInv pts (done ++ s.st.mid) s.g)
    (hm : segMid seg ∉ pts)
    (hst : ¬ qcontains s.g.nodesMap (segMid seg) = true ∨ MidOk s.g.nodesMap seg) :
    MidOk (loadSegment s seg).g.nodesMap seg :=
  nodeFold_creates pts done seg _ s he h hm hst (mem_loopKeys _ seg)

theorem loadSegment_mono {A : Arith} (pts done : List Point) (path : Segment)
    (s : BuildState A) (he : EndsIn pts path) (h : BInv pts (done ++ s.st.mid) s.g)
    (k x : Point) (hx : x ∈ (nodeAt s.g.nodesMap k).neighbours) :
    x ∈ (nodeAt (loadSegment s path).g.nodesMap k).neighbours :=
  nodeFold_mono pts done path _ s he h k x hx

theorem loadSegment_links {A : Arith} (pts done : List Point) (seg : Segment)
    (s : BuildState A) (he : EndsIn pts seg) (h : BInv pts (done ++ s.st.mid) s.g) :
    EndsLinked (loadSegment s seg).g.nodesMap seg :=
  ⟨nodeFold_links pts done seg _ s he h _ (Or.inl rfl) (mem_loopKeys _ seg),
    nodeFold_links pts done seg _ s he h _ (Or.inr rfl) (mem_loopKeys_second _ seg)⟩

theorem segFold_midOk {A : Arith} (pts done : List Point) (segs : List Segment)
    (seg : Segment) (s : BuildState A) (he : ∀ p ∈ segs, EndsIn pts p)
    (h : BInv pts (done ++ s.st.mid) s.g) (hm : segMid seg ∉ pts)
    (hok : MidOk s.g.nodesMap seg) : MidOk (segs.foldl loadSegment s).g.nodesMap seg := by
  induction segs generalizing s with
  | nil => exact hok
  | cons p t ih =>
    have hp := he p (List.mem_cons_self _ _)
    exact ih _ (fun q hq => he q (List.mem_cons_of_mem _ hq)) (loadSegment_binv pts done s p hp h)
      (loadSegment_midOk pts done p seg s hp h hm hok)

theorem segFold_absent {A : Arith} (pts done : List Point) (segs : List Segment) (M : Point)
    (s : BuildState A) (he : ∀ p ∈ segs, EndsIn pts p)
    (h : BInv pts (done ++ s.st.mid) s.g) (hm : M ∉ pts) (hne : ∀ p ∈ segs, segMid p ≠ M)
    (habs : ¬ qcontains s.g.nodesMap M = true) :
    ¬ qcontains (segs.foldl loadSegment s).g.nodesMap M = true := by
  induction segs generalizing s with
  | nil => exact habs
  | cons p t ih =>
    have hp := he p (List.mem_cons_self _ _)
    exact ih _ (fun q hq => he q (List.mem_cons_of_mem _ hq)) (loadSegment_binv pts done s p hp h)
      (fun q hq => hne q (List.mem_cons_of_mem _ hq))
      (loadSegment_absent pts done p M s hp h hm (hne p (List.mem_cons_self _ _)) habs)

theorem segFold_mono {A : Arith} (pts done : List Point) (segs : List Segment)
    (s : BuildState A) (he : ∀ p ∈ segs, EndsIn pts p)
    (h : BInv pts (done ++ s.st.mid) s.g) (k x : Point)
    (hx : x ∈ (nodeAt s.g.nodesMap k).neighbours) :
    x ∈ (nodeAt (segs.foldl loadSegment s).g.nodesMap k).neighbours := by
  induction segs generalizing s with
  | nil => exact hx
  | cons p t ih =>
    have hp := he p (List.mem_cons_self _ _)
    exact ih _ (fun q hq => he q (List.mem_cons_of_mem _ hq)) (loadSegment_binv pts done s p hp h)
      (loadSegment_mono pts done p s hp h k x hx)

theorem segFold_creates {A : Arith} (pts done : List Point) (sp ss : List Segment)
    (seg : Segment) (s : BuildState A) (he : ∀ p ∈ sp ++ seg :: ss, EndsIn pts p)
    (h : BInv pts (done ++ s.st.mid) s.g) (hm : segMid seg ∉ pts)
    (hne : ∀ p ∈ sp, segMid p ≠ segMid seg)
    (hst : ¬ qcontains s.g.nodesMap (segMid seg) = true ∨ MidOk s.g.nodesMap seg) :
    MidOk ((sp ++ seg :: ss).foldl loadSegment s).g.nodesMap seg := by
  rw [List.foldl_append, List.foldl_cons]
  have he1 : ∀ p ∈ sp, EndsIn pts p := fun p hp => he p (List.mem_append_left _ hp)
  have he2 : EndsIn pts seg := he seg (List.mem_append_right _ (List.mem_cons_self _ _))
  have he3 : ∀ p ∈ ss, EndsIn pts p :=
    fun p hp => he p (List.mem_append_right _ (List.mem_cons_of_mem _ hp))
  have hb1 := (segFold_binv pts done sp s he1 h).1
  have hst1 : ¬ qcontains (sp.foldl loadSegment s).g.nodesMap (segMid seg) = true ∨
      MidOk (sp.foldl loadSegment s).g.nodesMap seg := by
    rcases hst with h1 | h1
    · exact Or.inl (segFold_absent pts done sp _ s he1 h hm hne h1)
    · exact Or.inr (segFold_midOk pts done sp seg s he1 h hm h1)
  exact segFold_midOk pts done ss seg _ he3 (loadSegment_binv pts done _ seg he2 hb1) hm
    (loadSegment_creates pts done seg _ he2 hb1 hm hst1)

theorem endsLinked_mono {A : Arith} (m m' : List (Point × Node A)) (seg : Segment)
    (h : ∀ k x, x ∈ (nodeAt m k).neighbours → x ∈ (nodeAt m' k).neighbours)
    (hl : EndsLinked m seg) : EndsLinked m' seg :=
  ⟨h _ _ hl.1, h _ _ hl.2⟩

theorem segFold_links {A : Arith} (pts done : List Point) (segs : List Segment)
    (seg : Segment) (s : BuildState A) (he : ∀ p ∈ segs, EndsIn pts p)
    (h : BInv pts (done ++ s.st.mid) s.g) (hseg : seg ∈ segs) :
    EndsLinked (segs.foldl loadSegment s).g.nodesMap seg := by
  induction segs generalizing s with
  | nil => simp at hseg
  | cons p t ih =>
    have hp := he p (List.mem_cons_self _ _)
    have het : ∀ q ∈ t, EndsIn pts q := fun q hq => he q (List.mem_cons_of_mem _ hq)
    have hb := loadSegment_binv pts done s p hp h
    by_cases hin : seg ∈ t
    · exact ih _ het hb hin
    · have hsp : seg = p := by
        rcases List.mem_cons.mp hseg with h1 | h1
        · exact h1
        · exact absurd h1 hin
      subst hsp
      rw [List.foldl_cons]
      exact endsLinked_mono _ _ seg (fun k x hx => segFold_mono pts done t _ het hb k x hx)
        (loadSegment_links pts done seg s hp h)

theorem paths_midOk {A : Arith} (pts : List Point) (streets : List (String × street))
    (g : Pathfinding A) (points done : List Point) (seg : Segment)
    (hfresh : ∀ e ∈ streets, e.2.mid = [])
    (he : ∀ e ∈ streets, ∀ p ∈ e.2.pathLines, EndsIn pts p) (h : BInv pts done g)
    (hm : segMid seg ∉ pts) (hok : MidOk g.nodesMap seg) :
    MidOk (loadPaths g streets points).1.nodesMap seg := by
  induction streets generalizing g points done with
  | nil => exact hok
  | cons e t ih =>
    obtain ⟨k, st⟩ := e
    have hst : st.mid = [] := hfresh (k, st) (List.mem_cons_self _ _)
    have hb0 : BInv pts (done ++ ({ g := g, st := st, points := points } : BuildState A).st.mid)
        ({ g := g, st := st, points := points } : BuildState A).g := by simpa [hst] using h
    have hes := he (k, st) (List.mem_cons_self _ _)
    have h1 := (segFold_binv pts done st.pathLines _ hes hb0).1
    simp only [loadPaths]
    exact ih _ _ _ (fun e he1 => hfresh e (List.mem_cons_of_mem _ he1))
      (fun e he1 => he e (List.mem_cons_of_mem _ he1)) h1
      (segFold_midOk pts done st.pathLines seg _ hes hb0 hm hok)

theorem paths_mono {A : Arith} (pts : List Point) (streets : List (String × street))
    (g : Pathfinding A) (points done : List Point)
    (hfresh : ∀ e ∈ streets, e.2.mid = [])
    (he : ∀ e ∈ streets, ∀ p ∈ e.2.pathLines, EndsIn pts p) (h : BInv pts done g)
    (k x : Point) (hx : x ∈ (nodeAt g.nodesMap k).neighbours) :
    x ∈ (nodeAt (loadPaths g streets points).1.nodesMap k).neighbours := by
  induction streets generalizing g points done with
  | nil => exact hx
  | cons e t ih =>
    obtain ⟨k0, st⟩ := e
    have hst : st.mid = [] := hfresh (k0, st) (List.mem_cons_self _ _)
    have hb0 : BInv pts (done ++ ({ g := g, st := st, points := points } : BuildState A).st.mid)
        ({ g := g, st := st, points := points } : BuildState A).g := by simpa [hst] using h
    have hes := he (k0, st) (List.mem_cons_self _ _)
    have h1 := (segFold_binv pts done st.pathLines _ hes hb0).1
    simp only [loadPaths]
    exact ih _ _ _ (fun e he1 => hfresh e (List.mem_cons_of_mem _ he1))
      (fun e he1 => he e (List.mem_cons_of_mem _ he1)) h1
      (segFold_mono pts done st.pathLines _ hes hb0 k x hx)

theorem paths_links {A : Arith} (pts : List Point) (streets : List (String × street))
    (g : Pathfinding A) (points done : List Point) (seg : Segment)
    (hfresh : ∀ e ∈ streets, e.2.mid = [])
    (he : ∀ e ∈ streets, ∀ p ∈ e.2.pathLines, EndsIn pts p) (h : BInv pts done g)
    (hseg : ∃ e ∈ streets, seg ∈ e.2.pathLines) :
    EndsLinked (loadPaths g streets points).1.nodesMap seg := by
  induction streets generalizing g points done with
  | nil =>
    obtain ⟨e, he1, _⟩ := hseg
    simp at he1
  | cons e t ih =>
    obtain ⟨k0, st⟩ := e
    have hst : st.mid = [] := hfresh (k0, st) (List.mem_cons_self _ _)
    have hb0 : BInv pts (done ++ ({ g := g, st := st, points := points } : BuildState A).st.mid)
        ({ g := g, st := st, points := points } : BuildState A).g := by simpa [hst] using h
    have hes := he (k0, st) (List.mem_cons_self _ _)
    have h1 := (segFold_binv pts done st.pathLines _ hes hb0).1
    have hft : ∀ e ∈ t, e.2.mid = [] := fun e he1 => hfresh e (List.mem_cons_of_mem _ he1)
    have het : ∀ e ∈ t, ∀ p ∈ e.2.pathLines, EndsIn pts p :=
      fun e he1 => he e (List.mem_cons_of_mem _ he1)
    simp only [loadPaths]
    by_cases hin : ∃ e ∈ t, seg ∈ e.2.pathLines
    · exact ih _ _ _ hft het h1 hin
    · have hs : seg ∈ st.pathLines := by
        obtain ⟨e, he1, he2⟩ := hseg
        rcases List.mem_cons.mp he1 with h2 | h2
        · rw [h2] at he2
          exact he2
        · exact absurd ⟨e, h2, he2⟩ hin
      exact endsLinked_mono _ _ seg
        (fun k x hx => paths_mono pts t _ _ _ hft het h1 k x hx)
        (segFold_links pts done st.pathLines seg _ hes hb0 hs)

theorem loadPoints_binv {A : Arith} (pts : List Point) :
    BInv pts [] (loadPoints (Pathfinding.empty A) pts) := by
  refine ⟨⟨by simp, List.nodup_nil, fun c hc => loadPoints_keys pts _ c (Or.inl hc), by simp⟩,
    loadPoints_wf pts _ (fun e he => by simp [Pathfinding.empty] at he), ?_⟩
  intro c hc
  rcases loadPoints_only pts _ c hc with h1 | h1
  · exact Or.inl h1
  · simp [Pathfinding.empty, qcontains, qfind] at h1

theorem paths_creates {A : Arith} (pts : List Point) (pre post : List (String × street))
    (k : String) (st : street) (sp ss : List Segment) (seg : Segment)
    (g : Pathfinding A) (points done : List Point)
    (hfresh : ∀ e ∈ pre ++ (k, st) :: post, e.2.mid = [])
    (he : ∀ e ∈ pre ++ (k, st) :: post, ∀ p ∈ e.2.pathLines, EndsIn pts p)
    (hsegs : st.pathLines = sp ++ seg :: ss)
    (h : BInv pts done g) (hm : segMid seg ∉ pts)
    (hpre : ∀ e ∈ pre, ∀ q ∈ e.2.pathLines, segMid q ≠ segMid seg)
    (hsp : ∀ q ∈ sp, segMid q ≠ segMid seg)
    (habs : ¬ qcontains g.nodesMap (segMid seg) = true) :
    MidOk (loadPaths g (pre ++ (k, st) :: post) points).1.nodesMap seg := by
  induction pre generalizing g points done with
  | nil =>
    have hst : st.mid = [] := hfresh (k, st) (by simp)
    have hb0 : BInv pts (done ++ ({ g := g, st := st, points := points } : BuildState A).st.mid)
        ({ g := g, st := st, points := points } : BuildState A).g := by simpa [hst] using h
    have hes : ∀ p ∈ st.pathLines, EndsIn pts p := he (k, st) (by simp)
    have h1 := (segFold_binv pts done st.pathLines _ hes hb0).1
    simp only [List.nil_append, loadPaths]
    refine paths_midOk pts post _ _ _ seg (fun e he1 => hfresh e (by simp [he1]))
      (fun e he1 => he e (by simp [he1])) h1 hm ?_
    unfold loadStreet
    dsimp only
    rw [hsegs]
    rw [hsegs] at hes
    exact segFold_creates pts done sp ss seg _ hes hb0 hm hsp (Or.inl habs)
  | cons e t ih =>
    obtain ⟨k0, st0⟩ := e
    have hst : st0.mid = [] := hfresh (k0, st0) (by simp)
    have hb0 : BInv pts
        (done ++ ({ g := g, st := st0, points := points } : BuildState A).st.mid)
        ({ g := g, st := st0, points := points } : BuildState A).g := by simpa [hst] using h
    have hes : ∀ p ∈ st0.pathLines, EndsIn pts p := he (k0, st0) (by simp)
    have h1 := (segFold_binv pts done st0.pathLines _ hes hb0).1
    simp only [List.cons_append, loadPaths]
    refine ih _ _ _ (fun e he1 => hfresh e (by simp [he1]))
      (fun e he1 => he e (by simp [he1])) h1
      (fun e he1 => hpre e (List.mem_cons_of_mem _ he1)) ?_
    exact segFold_absent pts done st0.pathLines _ _ hes hb0 hm
      (hpre (k0, st0) (List.mem_cons_self _ _)) habs

set_option maxRecDepth 100000 in
/-- C12 fails as stated, in two ways. In `sceneCross` the segment
`(0,10)-(10,0)` of street `b` has the integer midpoint `(5,5)`; the node there
was created for street `a` and has the neighbours `(0,0)` and `(10,10)`, not
`(0,10)` and `(10,0)`. In `sceneFar` the segment
`(-2000000000,0)-(2000000000,0)` has the integer midpoint `(0,0)`; the `int`
difference of the ends overflows, the extra node is at `(-2147483648,0)`, no
node is at `(0,0)`, and the two end nodes have `(-2147483648,0)` as their only
neighbour. -/
theorem midpoint_of_other_street :
    (streetNamed sceneCross.streets "b").map (fun st => st.pathLines) = some [(0, 10, 10, 0)] ∧
    segMid (0, 10, 10, 0) = (5, 5) ∧
    sceneCross.p =
      (loadPaths (loadPoints (Pathfinding.empty gridArith) [(0, 0), (10, 10), (0, 10), (10, 0)])
        [("a", mkStreet "a" [(0, 0, 10, 10)]), ("b", mkStreet "b" [(0, 10, 10, 0)])]
        [(0, 0), (10, 10), (0, 10), (10, 0)]).1 ∧
    (nodeAt sceneCross.p.nodesMap (5, 5)).neighbours = [(0, 0), (10, 10)] ∧
    ¬ MidOk sceneCross.p.nodesMap (0, 10, 10, 0) ∧
    (nodeAt sceneCross.p.nodesMap (0, 10)).neighbours = [(5, 5)] ∧
    (nodeAt sceneCross.p.nodesMap (10, 0)).neighbours = [(5, 5)] ∧
    (sceneFar.p =
        (loadPaths (loadPoints (Pathfinding.empty gridArith)
          [(-2000000000, 0), (2000000000, 0)])
          [("s", mkStreet "s" [(-2000000000, 0, 2000000000, 0)])]
          [(-2000000000, 0), (2000000000, 0)]).1 ∧
      intMid (-2000000000, 0, 2000000000, 0) = (0, 0) ∧
      segMid (-2000000000, 0, 2000000000, 0) = (-2147483648, 0) ∧
      qkeys sceneFar.p.nodesMap = [(-2147483648, 0), (-2000000000, 0), (2000000000, 0)] ∧
      qcontains sceneFar.p.nodesMap (0, 0) = false ∧
      (nodeAt sceneFar.p.nodesMap (-2000000000, 0)).neighbours = [(-2147483648, 0)] ∧
      (nodeAt sceneFar.p.nodesMap (2000000000, 0)).neighbours = [(-2147483648, 0)] ∧
      (0, 0) ∉ (nodeAt sceneFar.p.nodesMap (-2000000000, 0)).neighbours ∧
      (0, 0) ∉ (nodeAt sceneFar.p.nodesMap (2000000000, 0)).neighbours) := by
  refine ⟨by decide, by decide, rfl, by decide, ?_, by decide, by decide,
    rfl, by decide, by decide, by decide, by decide, by decide, by decide, by decide,
    by decide⟩
  intro h
  have h1 : (nodeAt sceneCross.p.nodesMap (5, 5)).neighbours = [(0, 0), (10, 10)] := by decide
  have h2 : segMid (0, 10, 10, 0) = (5, 5) := by decide
  unfold MidOk at h
  rw [h2, h1] at h
  rcases h.2 with h3 | h3
  · exact absurd h3 (by decide)
  · exact absurd h3 (by decide)

/-- C12 (amended): after `loadPoints` and `loadPaths` on streets with empty mid
lists whose segment ends are all among the points, the nodes at the two ends of
every segment have the extra node of the segment, at the coordinate `segMid`
that `loadPaths` computes in `int` arithmetic, among their neighbours; and for
a segment whose extra-node coordinate is not among the points and is not the
extra-node coordinate of a segment processed before it (a segment of an
earlier street in map order, or an earlier segment of the same street), the
node at that coordinate has exactly the two ends of the segment as its
neighbours. The extra-node coordinate is the integer midpoint of the segment
whenever the ends of the segment are `int` coordinates whose difference on
each axis is in `int` range. -/
theorem build_neighbours {A : Arith} (pts : List Point) (streets : List (String × street))
    (hfresh : ∀ e ∈ streets, e.2.mid = [])
    (hends : ∀ e ∈ streets, ∀ p ∈ e.2.pathLines, EndsIn pts p) :
    (∀ e ∈ streets, ∀ seg ∈ e.2.pathLines,
      EndsLinked (loadPaths (loadPoints (Pathfinding.empty A) pts) streets pts).1.nodesMap seg) ∧
    (∀ pre k st post sp seg ss, streets = pre ++ (k, st) :: post →
      st.pathLines = sp ++ seg :: ss → segMid seg ∉ pts →
      (∀ e ∈ pre, ∀ q ∈ e.2.pathLines, segMid q ≠ segMid seg) →
      (∀ q ∈ sp, segMid q ≠ segMid seg) →
      MidOk (loadPaths (loadPoints (Pathfinding.empty A) pts) streets pts).1.nodesMap seg) ∧
    (∀ seg : Segment, SegInRange seg → segMid seg = intMid seg) := by
  have h0 := loadPoints_binv (A := A) pts
  refine ⟨?_, ?_, fun seg hseg => segMid_intMid seg hseg⟩
  · intro e he seg hseg
    exact paths_links pts streets _ pts [] seg hfresh hends h0 ⟨e, he, hseg⟩
  · intro pre k st post sp seg ss hst hsegs hm hpre hsp
    subst hst
    refine paths_creates pts pre post k st sp ss seg _ pts [] hfresh hends hsegs h0 hm hpre hsp ?_
    intro hc
    rcases h0.only _ hc with h1 | h1
    · exact hm h1
    · simp at h1

set_option maxRecDepth 100000 in
/-- Instance of `build_neighbours`: in `sceneCross` the segment `(0,0)-(10,10)`
of street `a`, the first street, has the midpoint node `(5,5)` with the
neighbours `(0,0)` and `(10,10)`. -/
theorem build_neighbours_witness :
    SegInRange (0, 0, 10, 10) ∧ intMid (0, 0, 10, 10) = (5, 5) ∧
    segMid (0, 0, 10, 10) = intMid (0, 0, 10, 10) ∧
    (nodeAt sceneCross.p.nodesMap (5, 5)).neighbours = [(0, 0), (10, 10)] ∧
    MidOk (loadPaths (loadPoints (Pathfinding.empty gridArith)
        [(0, 0), (10, 10), (0, 10), (10, 0)])
      [("a", mkStreet "a" [(0, 0, 10, 10)]), ("b", mkStreet "b" [(0, 10, 10, 0)])]
      [(0, 0), (10, 10), (0, 10), (10, 0)]).1.nodesMap (0, 0, 10, 10) ∧
    EndsLinked (loadPaths (loadPoints (Pathfinding.empty gridArith)
        [(0, 0), (10, 10), (0, 10), (10, 0)])
      [("a", mkStreet "a" [(0, 0, 10, 10)]), ("b", mkStreet "b" [(0, 10, 10, 0)])]
      [(0, 0), (10, 10), (0, 10), (10, 0)]).1.nodesMap (0, 10, 10, 0) :=
  have h := build_neighbours (A := gridArith) [(0, 0), (10, 10), (0, 10), (10, 0)]
    [("a", mkStreet "a" [(0, 0, 10, 10)]), ("b", mkStreet "b" [(0, 10, 10, 0)])]
    (by decide) (by decide)
  ⟨by decide, by decide, h.2.2 (0, 0, 10, 10) (by decide), by decide,
    h.2.1 [] "a" (mkStreet "a" [(0, 0, 10, 10)]) [("b", mkStreet "b" [(0, 10, 10, 0)])] []
      (0, 0, 10, 10) [] rfl rfl (by decide) (by simp) (by simp),
    h.1 ("b", mkStreet "b" [(0, 10, 10, 0)]) (by decide) (0, 10, 10, 0) (by decide)⟩

theorem getPath_segments {A : Arith} (sc : Scene A) (b : bus A) :
    (getPath sc b).1 = pathSegments (getPathPoints sc b) := rfl

theorem solutionLoop_eq {A : Arith} (m : List (Point × Node A)) (fuel : Nat) (p : Point)
    (acc : List Point) :
    solutionLoop m fuel p acc =
      ((chainFrom m fuel p).reverse.map fun k => ((nodeAt m k).x, (nodeAt m k).y)) ++ acc := by
  induction fuel generalizing p acc with
  | zero => rfl
  | succ f ih =>
    unfold solutionLoop chainFrom
    cases hp : (nodeAt m p).parent with
    | none => simp [hp]
    | some q =>
      simp only [hp]
      rw [ih]
      simp

/-- The chain from `p`, with enough fuel: it ends at the root, links every
node to its parent, and holds no node twice. -/
theorem chainFrom_spec {A : Arith} (m : List (Point × Node A)) (p r : Point) (d : Nat)
    (h : ChainTo m p r d) (fuel : Nat) (hf : d < fuel) :
    (chainFrom m fuel p).head? = some p ∧
    (chainFrom m fuel p).getLast? = some r ∧
    (chainFrom m fuel p).Chain' (fun a b => (nodeAt m a).parent = some b) ∧
    (∀ x ∈ chainFrom m fuel p, ∃ d', d' ≤ d ∧ ChainTo m x r d') ∧
    (chainFrom m fuel p).Nodup := by
  induction h generalizing fuel with
  | root n hn =>
    obtain ⟨f, rfl⟩ : ∃ f, fuel = f + 1 := ⟨fuel - 1, by omega⟩
    unfold chainFrom
    simp only [hn]
    refine ⟨rfl, rfl, List.chain'_singleton _, ?_, List.nodup_singleton _⟩
    intro x hx
    rw [List.mem_singleton] at hx
    exact ⟨0, Nat.le_refl _, by rw [hx]; exact ChainTo.root n hn⟩
  | step n q r d hn hq ih =>
    obtain ⟨f, rfl⟩ : ∃ f, fuel = f + 1 := ⟨fuel - 1, by omega⟩
    obtain ⟨i1, i2, i3, i4, i5⟩ := ih f (by omega)
    unfold chainFrom
    simp only [hn]
    have hne : chainFrom m f q ≠ [] := by
      intro hc
      rw [hc] at i1
      cases i1
    refine ⟨rfl, ?_, ?_, ?_, ?_⟩
    · cases hl : chainFrom m f q with
      | nil => exact absurd hl hne
      | cons y t =>
        rw [List.getLast?_cons_cons, ← hl]
        exact i2
    · rw [List.chain'_cons']
      refine ⟨?_, i3⟩
      intro y hy
      rw [i1] at hy
      rw [← Option.some.inj hy]
      exact hn
    · intro x hx
      rcases List.mem_cons.mp hx with hx | hx
      · exact ⟨d + 1, Nat.le_refl _, by rw [hx]; exact ChainTo.step n q r d hn hq⟩
      · obtain ⟨d', hd', hc⟩ := i4 x hx
        exact ⟨d', by omega, hc⟩
    · rw [List.nodup_cons]
      refine ⟨?_, i5⟩
      intro hin
      obtain ⟨d', hd', hc⟩ := i4 n hin
      have := (chainTo_det m n r r d' (d + 1) hc (ChainTo.step n q r d hn hq)).2
      omega

theorem chainFrom_mem {A : Arith} (m : List (Point × Node A)) (fuel : Nat) (p x : Point)
    (hx : x ∈ chainFrom m fuel p) : x = p ∨ ∃ y, (nodeAt m y).parent = some x := by
  induction fuel generalizing p with
  | zero => simp [chainFrom] at hx
  | succ f ih =>
    unfold chainFrom at hx
    cases hp : (nodeAt m p).parent with
    | none =>
      simp only [hp, List.mem_singleton] at hx
      exact Or.inl hx
    | some q =>
      simp only [hp, List.mem_cons] at hx
      rcases hx with hx | hx
      · exact Or.inl hx
      · rcases ih q hx with h1 | h1
        · exact Or.inr ⟨p, by rw [h1]; exact hp⟩
        · exact Or.inr h1

theorem expandable_reach {A : Arith} (m m' : List (Point × Node A)) (h : SameGraph m m')
    (start finish : Point) (hr : Reachable m start finish) : Reachable m' start finish := by
  rcases hr with h1 | ⟨u, hu, hnb⟩
  · exact Or.inl h1
  · exact Or.inr ⟨u, expandable_same m m' h start u hu, by rw [h.neighbours]; exact hnb⟩

theorem resetSearch_qmodify {A : Arith} (m : List (Point × Node A)) (k : Point)
    (f : Node A → Node A)
    (hf : ∀ n, (f n).x = n.x ∧ (f n).y = n.y ∧ (f n).obstacle = n.obstacle ∧
      (f n).neighbours = n.neighbours) :
    resetSearch (qmodify m k f) = resetSearch m := by
  induction m with
  | nil => rfl
  | cons e t ih =>
    obtain ⟨k', v⟩ := e
    rw [qmodify_cons]
    split
    · unfold resetSearch
      simp only [List.map_cons, (hf v).1, (hf v).2.1, (hf v).2.2.1, (hf v).2.2.2]
    · unfold resetSearch at ih ⊢
      simp only [List.map_cons, ih]

theorem resetSearch_idem {A : Arith} (m : List (Point × Node A)) :
    resetSearch (resetSearch m) = resetSearch m := by
  unfold resetSearch
  rw [List.map_map]
  rfl

theorem relax_graph {A : Arith} (cur finish : Point) (s : Search A) (nb : Point) :
    resetSearch (relax cur finish s nb).nodes = resetSearch s.nodes := by
  unfold relax
  dsimp only
  split
  · exact resetSearch_qmodify _ _ _ (fun n => ⟨rfl, rfl, rfl, rfl⟩)
  · rfl

theorem relaxFold_graph {A : Arith} (cur finish : Point) (nbs : List Point) (s : Search A) :
    resetSearch (nbs.foldl (relax cur finish) s).nodes = resetSearch s.nodes := by
  induction nbs generalizing s with
  | nil => rfl
  | cons nb t ih =>
    rw [List.foldl_cons, ih, relax_graph]

theorem searchStep_graph {A : Arith} (finish : Point) (s s' : Search A)
    (h : searchStep finish s = some s') : resetSearch s'.nodes = resetSearch s.nodes := by
  unfold searchStep at h
  split at h
  · cases h
  · dsimp only at h
    split at h
    · cases h
    · simp only [Option.some.injEq] at h
      rw [← h, relaxFold_graph]
      exact resetSearch_qmodify _ _ _ (fun n => ⟨rfl, rfl, rfl, rfl⟩)

theorem searchLoop_graph {A : Arith} (finish : Point) (fuel : Nat) (s : Search A) :
    resetSearch (searchLoop finish fuel s).nodes = resetSearch s.nodes := by
  induction fuel generalizing s with
  | zero => rfl
  | succ f ih =>
    unfold searchLoop
    cases hs : searchStep finish s with
    | none => rfl
    | some s' =>
      dsimp only
      rw [ih, searchStep_graph finish s s' hs]

/-- `solveAStar` changes only the search fields of the nodes. -/
theorem solveAStar_graph {A : Arith} (g : Pathfinding A) :
    resetSearch (solveAStar g).nodesMap = resetSearch g.nodesMap := by
  unfold solveAStar
  cases g.nodeStart with
  | none => rfl
  | some start =>
    cases g.nodeEnd with
    | none => rfl
    | some finish =>
      dsimp only
      rw [searchLoop_graph]
      dsimp only
      refine (resetSearch_qmodify _ _ _ ?_).trans
        ((resetSearch_qmodify _ _ _ ?_).trans (resetSearch_idem _)) <;>
      · intro n
        exact ⟨rfl, rfl, rfl, rfl⟩

theorem qcontains_of_graph {A : Arith} (m m' : List (Point × Node A))
    (h : resetSearch m = resetSearch m') (k : Point) : qcontains m' k = qcontains m k := by
  rw [← qcontains_resetSearch m' k, ← h, qcontains_resetSearch]

/-- The solution for two coordinates that have nodes depends on the node map
only through the graph: keys, coordinates, obstacle flags and neighbours. -/
theorem solution_congr {A : Arith} (g g' : Pathfinding A) (u v : Point)
    (h : resetSearch g.nodesMap = resetSearch g'.nodesMap)
    (hu : qcontains g.nodesMap u = true) (hv : qcontains g.nodesMap v = true) :
    solution g u v = solution g' u v := by
  have hu' : qcontains g'.nodesMap u = true := by rw [qcontains_of_graph _ _ h]; exact hu
  have hv' : qcontains g'.nodesMap v = true := by rw [qcontains_of_graph _ _ h]; exact hv
  unfold solution getSolution solveAStar loadGoal
  dsimp only
  rw [qindex_of_contains _ _ _ _ hu, qindex_of_contains _ _ _ _ hv,
    qindex_of_contains _ _ _ _ hu', qindex_of_contains _ _ _ _ hv', h]

/-- After `loadGoal` and `solveAStar` for two coordinates that have nodes the
graph is the one before. -/
theorem solve_graph {A : Arith} (g : Pathfinding A) (u v : Point)
    (hu : qcontains g.nodesMap u = true) (hv : qcontains g.nodesMap v = true) :
    resetSearch (solveAStar (loadGoal g u v)).nodesMap = resetSearch g.nodesMap := by
  rw [solveAStar_graph, loadGoal_present g u v hu hv]

theorem solution_ne_nil {A : Arith} (g : Pathfinding A) (u v : Point) :
    solution g u v ≠ [] := by
  have hlen : 0 < (solveAStar (loadGoal g u v)).nodesMap.length := by
    have h1 : (resetSearch (solveAStar (loadGoal g u v)).nodesMap).length =
        (resetSearch (loadGoal g u v).nodesMap).length := by rw [solveAStar_graph]
    unfold resetSearch at h1
    rw [List.length_map, List.length_map] at h1
    rw [h1]
    have hc : qcontains (loadGoal g u v).nodesMap v = true := by
      unfold loadGoal
      dsimp only
      rw [qcontains_qindex]
      simp
    cases hm : (loadGoal g u v).nodesMap with
    | nil => simp [hm, qcontains, qfind] at hc
    | cons e t => simp
  have hend : (solveAStar (loadGoal g u v)).nodeEnd = some v := by
    unfold solveAStar loadGoal
    rfl
  obtain ⟨f, hf⟩ : ∃ f, (solveAStar (loadGoal g u v)).nodesMap.length = f + 1 :=
    ⟨_, (Nat.succ_pred_eq_of_pos hlen).symm⟩
  intro hnil
  have hl := solutionLoop_last_nil (solveAStar (loadGoal g u v)).nodesMap f v
  unfold solution getSolution at hnil
  rw [hend] at hnil
  dsimp only at hnil
  rw [hf] at hnil
  rw [hnil] at hl
  cases hl

theorem joinLegs_pair (sol : Point → Point → List Point) (u v : Point) :
    joinLegs sol [u, v] = sol u v := rfl

theorem joinLegs_cons (sol : Point → Point → List Point) (u v w : Point) (rest : List Point) :
    joinLegs sol (u :: v :: w :: rest) = (sol u v).dropLast ++ joinLegs sol (v :: w :: rest) :=
  rfl

theorem dropLast_append_of_ne (a b : List Point) (h : b ≠ []) :
    (a ++ b).dropLast = a ++ b.dropLast := by
  induction a with
  | nil => rfl
  | cons x t ih =>
    cases hb : t ++ b with
    | nil => exact absurd (List.append_eq_nil.mp hb).2 h
    | cons y r =>
      rw [List.cons_append, hb, List.dropLast_cons₂, ← hb, ih]
      rfl

/-- The loop over the via-stops in `getPath`, in terms of the solutions on the
graph the scene had at the start. -/
theorem viaFold_spec {A : Arith} (sc : Scene A) (finish : Point) (mids : List String)
    (s : Legs A)
    (hg : resetSearch s.sc.p.nodesMap = resetSearch sc.p.nodesMap)
    (hst : ∀ n, stopAt s.sc n = stopAt sc n)
    (hstart : qcontains sc.p.nodesMap s.start = true)
    (hmids : ∀ key ∈ mids, qcontains sc.p.nodesMap (stopAt sc key).coord = true) :
    resetSearch (mids.foldl viaLeg s).sc.p.nodesMap = resetSearch sc.p.nodesMap ∧
    qcontains sc.p.nodesMap (mids.foldl viaLeg s).start = true ∧
    (mids.foldl viaLeg s).path.dropLast ++ solution sc.p (mids.foldl viaLeg s).start finish =
      s.path.dropLast ++
        joinLegs (solution sc.p) (s.start :: (mids.map fun n => (stopAt sc n).coord) ++ [finish]) := by
  induction mids generalizing s with
  | nil => exact ⟨hg, hstart, rfl⟩
  | cons key t ih =>
    rw [List.foldl_cons]
    have hmp : (stopAt (touchStop s.sc key) key).coord = (stopAt sc key).coord := by
      rw [stopAt_touchStop, hst]
    have hkey := hmids key (List.mem_cons_self _ _)
    have hstart' : qcontains s.sc.p.nodesMap s.start = true := by
      rw [qcontains_of_graph _ _ hg.symm]
      exact hstart
    have hkey' : qcontains s.sc.p.nodesMap (stopAt sc key).coord = true := by
      rw [qcontains_of_graph _ _ hg.symm]
      exact hkey
    have hsol : getSolution (solveAStar (loadGoal s.sc.p s.start (stopAt sc key).coord)) =
        solution sc.p s.start (stopAt sc key).coord :=
      solution_congr s.sc.p sc.p _ _ hg hstart' hkey'
    have hv : viaLeg s key =
        { sc := { touchStop s.sc key with
                  p := solveAStar (loadGoal s.sc.p s.start (stopAt sc key).coord) },
          halt := (viaLeg s key).halt,
          path := s.path.dropLast ++ solution sc.p s.start (stopAt sc key).coord,
          start := (stopAt sc key).coord } := by
      have htp : (touchStop s.sc key).p = s.sc.p := rfl
      unfold viaLeg
      simp only [hmp, htp, hsol]
    obtain ⟨i1, i2, i3⟩ := ih (viaLeg s key)
      (by rw [hv]; exact (solve_graph s.sc.p _ _ hstart' hkey').trans hg)
      (by
        intro n
        rw [hv]
        exact (stopAt_touchStop s.sc key n).trans (hst n))
      (by rw [hv]; exact hkey)
      (fun k hk => hmids k (List.mem_cons_of_mem _ hk))
    refine ⟨i1, i2, ?_⟩
    rw [i3]
    have hp : (viaLeg s key).path =
        s.path.dropLast ++ solution sc.p s.start (stopAt sc key).coord := by rw [hv]
    have hs : (viaLeg s key).start = (stopAt sc key).coord := by rw [hv]
    rw [hp, hs, dropLast_append_of_ne _ _ (solution_ne_nil sc.p _ _), List.append_assoc]
    congr 1
    rw [List.map_cons]
    cases hrest : (t.map fun n => (stopAt sc n).coord) ++ [finish] with
    | nil => simp at hrest
    | cons w r =>
      show _ = joinLegs (solution sc.p) (s.start :: (stopAt sc key).coord ::
        ((t.map fun n => (stopAt sc n).coord) ++ [finish]))
      rw [hrest, joinLegs_cons]
      show (solution sc.p s.start (stopAt sc key).coord).dropLast ++
        joinLegs (solution sc.p) ((stopAt sc key).coord ::
          ((t.map fun n => (stopAt sc n).coord) ++ [finish])) = _
      rw [hrest]

/-- The point sequence `getPath` assembles, in terms of the solutions on the
graph of the scene: the legs between consecutive stops of the route in the
direction of the bus. -/
theorem getPathPoints_eq {A : Arith} (sc : Scene A) (b : bus A)
    (hstops : ∀ c ∈ routeCoords sc b.lineno, qcontains sc.p.nodesMap c = true) :
    getPathPoints sc b =
      joinLegs (solution sc.p)
        (if b.reversed then (routeCoords sc b.lineno).reverse else routeCoords sc b.lineno) := by
  have hl : lineAt (touchLine sc b.lineno) b.lineno = lineAt sc b.lineno :=
    lineAt_touchLine sc b.lineno b.lineno
  have hrc : routeCoords sc b.lineno =
      (stopAt sc (lineAt sc b.lineno).start).coord ::
        (((lineAt sc b.lineno).stopsAt.map fun n => (stopAt sc n).coord) ++
          [(stopAt sc (lineAt sc b.lineno).end_).coord]) := by
    unfold routeCoords stations
    simp
  have hS : qcontains sc.p.nodesMap (stopAt sc (lineAt sc b.lineno).start).coord = true :=
    hstops _ (by rw [hrc]; simp)
  have hE : qcontains sc.p.nodesMap (stopAt sc (lineAt sc b.lineno).end_).coord = true :=
    hstops _ (by rw [hrc]; simp)
  have hV : ∀ key ∈ (lineAt sc b.lineno).stopsAt,
      qcontains sc.p.nodesMap (stopAt sc key).coord = true := by
    intro key hk
    apply hstops
    rw [hrc]
    simp only [List.mem_cons, List.mem_append, List.mem_map, List.mem_singleton]
    exact Or.inr (Or.inl ⟨key, hk, rfl⟩)
  have hst3 : ∀ n, stopAt (touchStop (touchStop (touchLine sc b.lineno)
      (lineAt sc b.lineno).start) (lineAt sc b.lineno).end_) n = stopAt sc n := by
    intro n
    rw [stopAt_touchStop, stopAt_touchStop]
    rfl
  unfold getPathPoints
  simp only [hl, stopAt_touchStop]
  have hs0 : ∀ n, stopAt (touchLine sc b.lineno) n = stopAt sc n := fun _ => rfl
  simp only [hs0]
  unfold viaLegs
  by_cases hempty : (lineAt sc b.lineno).stopsAt = []
  · simp only [hempty, List.isEmpty_nil, if_true, List.nil_append]
    rw [hrc, hempty]
    have hp : (touchStop (touchStop (touchLine sc b.lineno) (lineAt sc b.lineno).start)
        (lineAt sc b.lineno).end_).p = sc.p := rfl
    rw [hp]
    cases b.reversed <;> rfl
  · have hne : (lineAt sc b.lineno).stopsAt.isEmpty = false := by
      cases h : (lineAt sc b.lineno).stopsAt with
      | nil => exact absurd h hempty
      | cons x t => rfl
    simp only [hne, Bool.false_eq_true, if_false]
    have hgoal : ∀ (g : Pathfinding A) (u v : Point),
        getSolution (solveAStar (loadGoal g u v)) = solution g u v := fun _ _ _ => rfl
    rw [hgoal]
    cases hr : b.reversed with
    | false =>
      simp only [Bool.false_eq_true, if_false]
      obtain ⟨i1, i2, i3⟩ := viaFold_spec sc (stopAt sc (lineAt sc b.lineno).end_).coord
        (lineAt sc b.lineno).stopsAt
        { sc := touchStop (touchStop (touchLine sc b.lineno) (lineAt sc b.lineno).start)
            (lineAt sc b.lineno).end_,
          halt := b.halt, path := [(0, 0)],
          start := (stopAt sc (lineAt sc b.lineno).start).coord }
        rfl hst3 hS hV
      rw [solution_congr _ sc.p _ _ i1
        (by rw [qcontains_of_graph _ _ i1.symm]; exact i2)
        (by rw [qcontains_of_graph _ _ i1.symm]; exact hE)]
      rw [hrc]
      exact i3
    | true =>
      simp only [if_true]
      obtain ⟨i1, i2, i3⟩ := viaFold_spec sc (stopAt sc (lineAt sc b.lineno).start).coord
        (lineAt sc b.lineno).stopsAt.reverse
        { sc := touchStop (touchStop (touchLine sc b.lineno) (lineAt sc b.lineno).start)
            (lineAt sc b.lineno).end_,
          halt := b.halt, path := [(0, 0)],
          start := (stopAt sc (lineAt sc b.lineno).end_).coord }
        rfl hst3 hE (fun key hk => hV key (List.mem_reverse.mp hk))
      rw [solution_congr _ sc.p _ _ i1
        (by rw [qcontains_of_graph _ _ i1.symm]; exact i2)
        (by rw [qcontains_of_graph _ _ i1.symm]; exact hS)]
      rw [hrc]
      have hlist : ((stopAt sc (lineAt sc b.lineno).start).coord ::
          (((lineAt sc b.lineno).stopsAt.map fun n => (stopAt sc n).coord) ++
            [(stopAt sc (lineAt sc b.lineno).end_).coord])).reverse =
          (stopAt sc (lineAt sc b.lineno).end_).coord ::
            (((lineAt sc b.lineno).stopsAt.reverse.map fun n => (stopAt sc n).coord) ++
              [(stopAt sc (lineAt sc b.lineno).start).coord]) := by
        simp
      rw [hlist]
      exact i3

theorem graphPart_iff {A : Arith} (m m' : List (Point × Node A)) :
    graphPart m = graphPart m' ↔ resetSearch m = resetSearch m' := by
  induction m generalizing m' with
  | nil =>
    cases m' with
    | nil => simp [graphPart, resetSearch]
    | cons e t => simp [graphPart, resetSearch]
  | cons e t ih =>
    cases m' with
    | nil => simp [graphPart, resetSearch]
    | cons e' t' =>
      have ih' := ih t'
      unfold graphPart resetSearch at ih' ⊢
      simp only [List.map_cons, List.cons.injEq, Prod.mk.injEq, Node.mk.injEq]
      rw [ih']
      constructor
      · rintro ⟨⟨h1, h2, h3, h4, h5⟩, h6⟩
        exact ⟨⟨h1, h5, trivial, trivial, trivial, h2, h3, h4, trivial⟩, h6⟩
      · rintro ⟨⟨h1, h5, -, -, -, h2, h3, h4, -⟩, h6⟩
        exact ⟨⟨h1, h2, h3, h4, h5⟩, h6⟩

/-- C26: for two states of the node map that hold the same graph (same keys,
coordinates, neighbour lists and obstacle flags, the search fields `visited`,
`parent`, `localGoal`, `globalGoal` being arbitrary in both) and a start and an
end that have nodes, `loadGoal`, `solveAStar` and `getSolution` return the same
sequence in both; and `solveAStar` leaves the graph as it is: it changes no
key, coordinate, neighbour list or obstacle flag. -/
theorem search_ignores_old_search {A : Arith} (g g' : Pathfinding A) (start finish : Point)
    (h : graphPart g.nodesMap = graphPart g'.nodesMap)
    (hs : qcontains g.nodesMap start = true) (hf : qcontains g.nodesMap finish = true) :
    getSolution (solveAStar (loadGoal g start finish)) =
      getSolution (solveAStar (loadGoal g' start finish)) ∧
    graphPart (solveAStar (loadGoal g start finish)).nodesMap = graphPart g.nodesMap ∧
    graphPart (solveAStar g).nodesMap = graphPart g.nodesMap :=
  ⟨solution_congr g g' start finish ((graphPart_iff _ _).mp h) hs hf,
    (graphPart_iff _ _).mpr (solve_graph g start finish hs hf),
    (graphPart_iff _ _).mpr (solveAStar_graph g)⟩

set_option maxRecDepth 100000 in
/-- Instance of `search_ignores_old_search`: the graph of `sceneGap` as built,
and the same graph after a search from `(10,0)` to `(0,0)` has run on it. -/
theorem search_ignores_old_search_witness :
    sceneGap.p.nodesMap ≠ (solveAStar (loadGoal sceneGap.p (10, 0) (0, 0))).nodesMap ∧
    graphPart sceneGap.p.nodesMap =
      graphPart (solveAStar (loadGoal sceneGap.p (10, 0) (0, 0))).nodesMap ∧
    getSolution (solveAStar (loadGoal sceneGap.p (0, 0) (10, 0))) = [(0, 0), (5, 0), (10, 0)] ∧
    (getSolution (solveAStar (loadGoal sceneGap.p (0, 0) (10, 0))) =
      getSolution (solveAStar (loadGoal
        (solveAStar (loadGoal sceneGap.p (10, 0) (0, 0))) (0, 0) (10, 0))) ∧
     graphPart (solveAStar (loadGoal sceneGap.p (0, 0) (10, 0))).nodesMap =
       graphPart sceneGap.p.nodesMap ∧
     graphPart (solveAStar sceneGap.p).nodesMap = graphPart sceneGap.p.nodesMap) :=
  ⟨by decide, by decide, by decide,
    search_ignores_old_search sceneGap.p (solveAStar (loadGoal sceneGap.p (10, 0) (0, 0)))
      (0, 0) (10, 0) (by decide) (by decide) (by decide)⟩

/-- After the search the solution is the parent chain of the end node, read
from its root. -/
theorem solution_chain {A : Arith} (hA : A.Lawful) (g : Pathfinding A) (start finish : Point)
    (hG : GraphOk g.nodesMap) (hs : qcontains g.nodesMap start = true)
    (hf : qcontains g.nodesMap finish = true) :
    ∃ (G : List (Point × Node A)) (s : Search A) (r : Point) (d : Nat),
      SameGraph g.nodesMap G ∧ SInv G start none [] s ∧
      (∀ f ∈ s.notTested, (nodeAt s.nodes f).visited = true) ∧
      ChainTo s.nodes finish r d ∧ d < s.nodes.length ∧
      solution g start finish = (chainFrom s.nodes s.nodes.length finish).reverse := by
  obtain ⟨G, s, hnodes, hend, hsame0, _, hinv, hdone⟩ := solve_inv hA g start finish hG.2
  have hsame : SameGraph g.nodesMap G := by
    rw [loadGoal_present g start finish hs hf] at hsame0
    exact hsame0
  have hx : ∀ k, (nodeAt s.nodes k).x = (nodeAt g.nodesMap k).x :=
    fun k => (hinv.same.x k).trans (hsame.x k)
  have hy : ∀ k, (nodeAt s.nodes k).y = (nodeAt g.nodesMap k).y :=
    fun k => (hinv.same.y k).trans (hsame.y k)
  have hfG : qcontains G finish = true := by rw [hsame.keys]; exact hf
  have hfS : qcontains s.nodes finish = true := by rw [hinv.same.keys]; exact hfG
  have hparP : ∀ y x, (nodeAt s.nodes y).parent = some x → qcontains s.nodes x = true := by
    intro y x hyx
    rw [hinv.same.keys]
    exact (hinv.vis x (hinv.par y x hyx).1).1
  obtain ⟨r, d, hch⟩ := hinv.rooted finish
  have hd := chainTo_depth s.nodes finish r d hch hfS hparP
  refine ⟨G, s, r, d, hsame, hinv, hdone, hch, hd, ?_⟩
  unfold solution getSolution
  rw [hend, hnodes]
  dsimp only
  rw [solutionLoop_eq, List.append_nil]
  have hid : ∀ k ∈ (chainFrom s.nodes s.nodes.length finish).reverse,
      (((nodeAt s.nodes k).x, (nodeAt s.nodes k).y) : Point) = k := by
    intro k hk
    rw [List.mem_reverse] at hk
    have hkg : qcontains g.nodesMap k = true := by
      rcases chainFrom_mem s.nodes _ finish k hk with h1 | ⟨y, hy1⟩
      · rw [h1]; exact hf
      · rw [← hsame.keys]
        exact (hinv.vis k (hinv.par y k hy1).1).1
    exact coord_final g.nodesMap s.nodes hG.1 hx hy k hkg
  rw [List.map_congr_left hid, List.map_id']

theorem mem_inner_of_nodup {α : Type} (l : List α) (p r x : α) (hn : l.Nodup)
    (hp : l.head? = some p) (hr : l.getLast? = some r) (hx : x ∈ l.dropLast.tail) :
    x ∈ l ∧ x ≠ p ∧ x ≠ r := by
  cases l with
  | nil => simp at hx
  | cons a t =>
    simp only [List.head?_cons, Option.some.injEq] at hp
    subst hp
    cases t with
    | nil => simp at hx
    | cons b u =>
      rw [List.dropLast_cons₂, List.tail_cons] at hx
      have hne : b :: u ≠ [] := List.cons_ne_nil _ _
      have hsplit := List.dropLast_append_getLast hne
      have hlast : (b :: u).getLast hne = r := by
        rw [List.getLast?_cons_cons, List.getLast?_eq_getLast _ hne] at hr
        exact Option.some.inj hr
      rw [hlast] at hsplit
      have hxt : x ∈ b :: u := List.mem_of_mem_dropLast hx
      rw [List.nodup_cons] at hn
      refine ⟨List.mem_cons_of_mem _ hxt, ?_, ?_⟩
      · intro hxa
        rw [hxa] at hxt
        exact hn.1 hxt
      · intro hxr
        have hn2 := hn.2
        rw [← hsplit, List.nodup_append] at hn2
        rw [hxr] at hx
        exact hn2.2.2 hx (List.mem_singleton_self r)

/-- C27: for a graph as the build makes it, with any obstacle flags, and a
start and an end that have nodes, the sequence `getSolution` returns after
`loadGoal` and `solveAStar` is a walk in the graph: of two consecutive points
the second is in the neighbour list of the first; every point of it other than
its first and its last is a node that is not an obstacle; and when the end is
not reachable from the start it is the one-element sequence of the end. -/
theorem solution_is_walk {A : Arith} (hA : A.Lawful) (g : Pathfinding A)
    (start finish : Point) (hG : GraphOk g.nodesMap)
    (hs : qcontains g.nodesMap start = true) (hf : qcontains g.nodesMap finish = true) :
    Walk g.nodesMap (getSolution (solveAStar (loadGoal g start finish))) ∧
    (∀ x ∈ (getSolution (solveAStar (loadGoal g start finish))).dropLast.tail,
      (nodeAt g.nodesMap x).obstacle = false) ∧
    (¬ Reachable g.nodesMap start finish →
      getSolution (solveAStar (loadGoal g start finish)) = [finish]) := by
  obtain ⟨G, s, r, d, hsame, hinv, hdone, hch, hd, hsol⟩ :=
    solution_chain hA g start finish hG hs hf
  obtain ⟨c1, c2, c3, c4, c5⟩ := chainFrom_spec s.nodes finish r d hch s.nodes.length hd
  have hgoal : getSolution (solveAStar (loadGoal g start finish)) = solution g start finish :=
    rfl
  rw [hgoal, hsol]
  refine ⟨?_, ?_, ?_⟩
  · unfold Walk
    rw [List.chain'_reverse]
    refine List.Chain'.imp ?_ c3
    intro a b hab
    show a ∈ (nodeAt g.nodesMap b).neighbours
    have := (hinv.par a b hab).2.1
    rw [hsame.neighbours] at this
    exact this
  · intro x hx
    have hrev := mem_inner_of_nodup _ r finish x (List.nodup_reverse.mpr c5)
      (by rw [List.head?_reverse]; exact c2) (by rw [List.getLast?_reverse]; exact c1) hx
    obtain ⟨hmem, hxr, hxf⟩ := hrev
    rw [List.mem_reverse] at hmem
    have hchild : ∃ y, (nodeAt s.nodes y).parent = some x := by
      rcases chainFrom_mem s.nodes _ finish x hmem with h1 | h1
      · exact absurd h1 hxf
      · exact h1
    obtain ⟨y, hy⟩ := hchild
    have hvis := hinv.vis x (hinv.par y x hy).1
    have hxs : x ≠ start := by
      intro hxs
      obtain ⟨d', _, hcx⟩ := c4 x hmem
      cases hcx with
      | root _ _ => exact hxr rfl
      | step _ p _ _ hp _ =>
        rw [hxs, hinv.startN.2] at hp
        cases hp
    rw [← hsame.obstacle]
    rcases hvis.2.2.2 with h1 | h1
    · exact absurd h1 hxs
    · exact h1
  · intro hnr
    have hpar : (nodeAt s.nodes finish).parent = none := by
      cases hp : (nodeAt s.nodes finish).parent with
      | none => rfl
      | some p =>
        exfalso
        apply hnr
        have hpv := hinv.par finish p hp
        have hexp := (hinv.vis p hpv.1).2.1
        exact expandable_reach G g.nodesMap (sameGraph_symm hsame) start finish
          (Or.inr ⟨p, hexp, hpv.2.1⟩)
    have hlen : s.nodes.length = (s.nodes.length - 1) + 1 := by omega
    rw [hlen]
    unfold chainFrom
    rw [hpar]
    rfl

/-- `solveAStar` after `loadGoal` is the loop run from `searchStart`, for one
pass more than there are nodes. -/
theorem solveAStar_loop {A : Arith} (g : Pathfinding A) (start finish : Point) :
    (solveAStar (loadGoal g start finish)).nodesMap =
      (searchLoop finish
        ((searchStart (loadGoal g start finish).nodesMap start finish).nodes.length + 1)
        (searchStart (loadGoal g start finish).nodesMap start finish)).nodes := rfl

/-- The invariant of the search holds when the loop is entered. -/
theorem searchStart_inv {A : Arith} (hA : A.Lawful) (g : Pathfinding A) (start finish : Point)
    (hG : LinksOk g.nodesMap) :
    ∃ G : List (Point × Node A),
      SameGraph (loadGoal g start finish).nodesMap G ∧ LinksOk G ∧
      SInv G start none [] (searchStart (loadGoal g start finish).nodesMap start finish) := by
  have hL : LinksOk (loadGoal g start finish).nodesMap := by
    unfold loadGoal
    exact linksOk_qindex _ _ (linksOk_qindex _ _ hG)
  have hs : qcontains (loadGoal g start finish).nodesMap start = true := by
    unfold loadGoal
    dsimp only
    rw [qcontains_qindex, qcontains_qindex]
    simp
  generalize (loadGoal g start finish).nodesMap = m at hL hs
  have hsame : SameGraph m (searchStart m start finish).nodes := by
    unfold searchStart
    dsimp only
    refine sameGraph_trans (sameGraph_trans (sameGraph_resetSearch _)
      (sameGraph_qmodify _ _ _ ?_)) (sameGraph_qmodify _ _ _ ?_) <;>
    · intro n
      exact ⟨rfl, rfl, rfl, rfl⟩
  have hok : LinksOk (searchStart m start finish).nodes := by
    unfold searchStart
    dsimp only
    refine linksOk_qmodify _ _ _ ?_ (linksOk_qmodify _ _ _ ?_ (linksOk_resetSearch _ hL)) <;>
    · intro n
      exact ⟨rfl, rfl, rfl, rfl⟩
  exact ⟨_, hsame, hok, search_init hA m start
    (fun n => distance n (nodeAt (qmodify (resetSearch m) start
      fun n => { n with localGoal := A.fZero }) finish)) hs⟩

/-- The invariant of the search holds after any number of passes of the loop. -/
theorem searchLoop_inv {A : Arith} (hA : A.Lawful) (G : List (Point × Node A))
    (hG : LinksOk G) (start finish : Point) (n : Nat) (s : Search A)
    (h : SInv G start none [] s) : SInv G start none [] (searchLoop finish n s) := by
  induction n generalizing s with
  | zero => exact h
  | succ n ih =>
    unfold searchLoop
    cases hs : searchStep finish s with
    | none => exact h
    | some s' => exact ih s' (searchStep_some hA G hG start finish s s' h hs).1

set_option maxRecDepth 100000 in
/-- C24 fails as stated: in the graph of `sceneGap` with the node `(5,0)`
marked as an obstacle, the search from `(0,0)` to `(10,0)` expands the start
node and relaxes its neighbour `(5,0)`: afterwards the obstacle has the start
node as its parent, `localGoal` 5 and `globalGoal` 10, not `INFINITY`. -/
theorem obstacle_is_relaxed :
    (nodeAt graphBlocked.nodesMap (5, 0)).obstacle = true ∧
    ((5, 0) : Point) ≠ (0, 0) ∧
    (nodeAt (solveAStar (loadGoal graphBlocked (0, 0) (10, 0))).nodesMap (5, 0)).parent =
      some (0, 0) ∧
    (nodeAt (solveAStar (loadGoal graphBlocked (0, 0) (10, 0))).nodesMap (5, 0)).localGoal =
      gridArith.fOfInt 5 ∧
    (nodeAt (solveAStar (loadGoal graphBlocked (0, 0) (10, 0))).nodesMap (5, 0)).globalGoal =
      gridArith.fOfInt 10 ∧
    gridArith.fOfInt 5 ≠ gridArith.fInf ∧ gridArith.fOfInt 10 ≠ gridArith.fInf ∧
    (nodeAt (solveAStar (loadGoal graphBlocked (0, 0) (10, 0))).nodesMap (5, 0)).visited =
      false := by
  refine ⟨by decide, by decide, by decide, by decide, by decide, by decide, by decide,
    by decide⟩

theorem expandable_of_nodeAt {A : Arith} (m m' : List (Point × Node A))
    (h : ∀ k, nodeAt m' k = nodeAt m k) (start u : Point) (hu : Expandable m start u) :
    Expandable m' start u := by
  induction hu with
  | start => exact Expandable.start
  | step u v _ hv ho ih =>
    exact Expandable.step u v ih (by rw [h]; exact hv) (by rw [h]; exact ho)

/-- C24 (amended): during and after `solveAStar`, a node other than the start
node whose obstacle flag is true is never in the frontier `notTestedNodes` and
is never expanded: after every number of passes of the loop it is not in the
frontier and its visited flag is false, and its visited flag is false when
`solveAStar` returns. It is relaxed, however, when it is a neighbour of a node
that the search expands: its `localGoal` is then below `INFINITY` and its
parent is not null when `solveAStar` returns. -/
theorem obstacle_never_expanded {A : Arith} (hA : A.Lawful) (g : Pathfinding A)
    (start finish k : Point) (hG : LinksOk g.nodesMap) (hk : k ≠ start)
    (hobs : (nodeAt g.nodesMap k).obstacle = true) :
    (∀ n, k ∉ (searchAfter g start finish n).notTested ∧
      (nodeAt (searchAfter g start finish n).nodes k).visited = false) ∧
    (nodeAt (solveAStar (loadGoal g start finish)).nodesMap k).visited = false ∧
    (∀ u, Expandable g.nodesMap start u → k ∈ (nodeAt g.nodesMap u).neighbours →
      A.fLt (nodeAt (solveAStar (loadGoal g start finish)).nodesMap k).localGoal A.fInf =
        true ∧
      (nodeAt (solveAStar (loadGoal g start finish)).nodesMap k).parent ≠ none) := by
  obtain ⟨G, hsame, hok, hinit⟩ := searchStart_inv hA g start finish hG
  have hobsG : (nodeAt G k).obstacle = true := by
    rw [hsame.obstacle, nodeAt_loadGoal]
    exact hobs
  have hall : ∀ n, k ∉ (searchAfter g start finish n).notTested ∧
      (nodeAt (searchAfter g start finish n).nodes k).visited = false := by
    intro n
    have hinv : SInv G start none [] (searchAfter g start finish n) :=
      searchLoop_inv hA G hok start finish n _ hinit
    constructor
    · intro hmem
      rcases (hinv.front k hmem).2.2.2 with h1 | h1
      · exact hk h1
      · rw [hobsG] at h1
        cases h1
    · cases hv : (nodeAt (searchAfter g start finish n).nodes k).visited with
      | false => rfl
      | true =>
        rcases (hinv.vis k hv).2.2.2 with h1 | h1
        · exact absurd h1 hk
        · rw [hobsG] at h1
          cases h1
  refine ⟨hall, ?_, ?_⟩
  · rw [solveAStar_loop]
    exact (hall _).2
  · intro u hu hku
    obtain ⟨G', s, hnodes, _, hsame', hok', hinv', hdone'⟩ := solve_inv hA g start finish hG
    have hsameG : ∀ x, (nodeAt G' x).neighbours = (nodeAt g.nodesMap x).neighbours :=
      fun x => (hsame'.neighbours x).trans (by rw [nodeAt_loadGoal])
    have huL : Expandable (loadGoal g start finish).nodesMap start u :=
      expandable_of_nodeAt g.nodesMap _ (fun x => nodeAt_loadGoal g start finish x) start u hu
    have huG : Expandable G' start u := expandable_same _ G' hsame' start u huL
    have hkuG : k ∈ (nodeAt G' u).neighbours := by
      rw [hsameG]
      exact hku
    have huv := search_complete G' start s hinv' hdone' u huG
    have hcl := hinv'.closed u huv k
    simp only [reduceCtorEq, if_false] at hcl
    have hfin : LocalFin s.nodes k := (hcl hkuG).1
    have hkG : qcontains G' k = true :=
      hok'.1 _ (nodeAt_mem G' u (hinv'.vis u huv).1) k hkuG
    rw [hnodes]
    refine ⟨hfin, ?_⟩
    rcases hinv'.finPar k hkG hfin with h1 | h1
    · exact absurd h1 hk
    · exact h1

set_option maxRecDepth 100000 in
/-- Instance of `obstacle_never_expanded`: the obstacle `(5,0)` of
`graphBlocked` in the search from `(0,0)` to `(10,0)`. -/
theorem obstacle_never_expanded_witness :
    gridArith.Lawful ∧ LinksOk graphBlocked.nodesMap ∧ ((5, 0) : Point) ≠ (0, 0) ∧
    (nodeAt graphBlocked.nodesMap (5, 0)).obstacle = true ∧
    ((5, 0) : Point) ∈ (nodeAt graphBlocked.nodesMap (0, 0)).neighbours ∧
    ((∀ n, ((5, 0) : Point) ∉ (searchAfter graphBlocked (0, 0) (10, 0) n).notTested ∧
      (nodeAt (searchAfter graphBlocked (0, 0) (10, 0) n).nodes (5, 0)).visited = false) ∧
    (nodeAt (solveAStar (loadGoal graphBlocked (0, 0) (10, 0))).nodesMap (5, 0)).visited =
      false ∧
    (∀ u, Expandable graphBlocked.nodesMap (0, 0) u →
      ((5, 0) : Point) ∈ (nodeAt graphBlocked.nodesMap u).neighbours →
      gridArith.fLt
        (nodeAt (solveAStar (loadGoal graphBlocked (0, 0) (10, 0))).nodesMap (5, 0)).localGoal
        gridArith.fInf = true ∧
      (nodeAt (solveAStar (loadGoal graphBlocked (0, 0) (10, 0))).nodesMap (5, 0)).parent ≠
        none)) :=
  ⟨gridArith_lawful, by decide, by decide, by decide, by decide,
    obstacle_never_expanded gridArith_lawful graphBlocked (0, 0) (10, 0) (5, 0)
      (by decide) (by decide) (by decide)⟩

theorem relaxFold_visited {A : Arith} (cur finish k : Point) (l : List Point) (s : Search A) :
    (nodeAt (l.foldl (relax cur finish) s).nodes k).visited = (nodeAt s.nodes k).visited := by
  induction l generalizing s with
  | nil => rfl
  | cons nb t ih => rw [List.foldl_cons, ih, relax_visited]

/-- A pass of the loop that does not leave it takes a node of the frontier that
is not visited and marks it; no other visited flag changes. -/
theorem searchStep_expands {A : Arith} (finish : Point) (s s' : Search A)
    (h : searchStep finish s = some s') :
    ∃ cur, cur ∈ s.notTested ∧ (nodeAt s.nodes cur).visited = false ∧
      (qcontains s.nodes cur = true → (nodeAt s'.nodes cur).visited = true) ∧
      ∀ k, k ≠ cur → (nodeAt s'.nodes k).visited = (nodeAt s.nodes k).visited := by
  unfold searchStep at h
  split at h
  · cases h
  · dsimp only at h
    split at h
    · cases h
    · rename_i cur rest hd
      simp only [Option.some.injEq] at h
      refine ⟨cur, ?_, dropWhile_head_neg (fun k => (nodeAt s.nodes k).visited) _ cur rest hd,
        ?_, ?_⟩
      · have : cur ∈ cur :: rest := List.mem_cons_self _ _
        rw [← hd] at this
        exact (mem_sortByGoal _ _ _).mp ((List.dropWhile_sublist _).subset this)
      · intro hc
        rw [← h, relaxFold_visited, nodeAt_qmodify_self _ _ _ hc]
      · intro k hk
        rw [← h, relaxFold_visited, nodeAt_qmodify_ne _ _ _ _ hk]

theorem searchStep_done {A : Arith} (finish : Point) (s : Search A)
    (h : ∀ f ∈ s.notTested, (nodeAt s.nodes f).visited = true) :
    searchStep finish s = none := by
  cases hs : searchStep finish s with
  | none => rfl
  | some s' =>
    obtain ⟨cur, h1, h2, _⟩ := searchStep_expands finish s s' hs
    rw [h cur h1] at h2
    cases h2

/-- The loop is left after at most as many passes as there are nodes that are
not visited. -/
theorem searchLoop_stops {A : Arith} (hA : A.Lawful) (G : List (Point × Node A))
    (hG : LinksOk G) (start finish : Point) (n : Nat) (s : Search A)
    (h : SInv G start none [] s) (hn : unvisited s.nodes ≤ n) :
    searchStep finish (searchLoop finish n s) = none := by
  induction n generalizing s with
  | zero =>
    unfold searchLoop
    cases hs : searchStep finish s with
    | none => rfl
    | some s' =>
      have := (searchStep_some hA G hG start finish s s' h hs).2
      omega
  | succ n ih =>
    unfold searchLoop
    cases hs : searchStep finish s with
    | none => exact hs
    | some s' =>
      obtain ⟨h1, h2⟩ := searchStep_some hA G hG start finish s s' h hs
      exact ih s' h1 (by omega)

theorem searchLoop_more {A : Arith} (finish : Point) (n : Nat) (s : Search A)
    (h : searchStep finish (searchLoop finish n s) = none) :
    searchLoop finish (n + 1) s = searchLoop finish n s := by
  induction n generalizing s with
  | zero =>
    unfold searchLoop at h ⊢
    rw [h]
  | succ n ih =>
    rw [searchLoop] at h
    rw [searchLoop]
    cases hs : searchStep finish s with
    | none =>
      rw [searchLoop, hs]
    | some s' =>
      rw [hs] at h
      dsimp only at h ⊢
      rw [ih s' h]
      conv_rhs => rw [searchLoop, hs]

theorem searchStart_length {A : Arith} (m : List (Point × Node A)) (start finish : Point) :
    (searchStart m start finish).nodes.length = m.length := by
  unfold searchStart
  dsimp only
  rw [length_qmodify, length_qmodify]
  unfold resetSearch
  rw [List.length_map]

/-- C25: `solveAStar` and `getSolution` terminate. Every pass of the loop of
`solveAStar` that does not leave the loop marks exactly one node visited that
was not visited before and changes no other visited flag, so the number of
nodes not visited goes down by one; after as many passes as the map has nodes
the loop is left, and the node map `solveAStar` returns is the one of that
state. In that map the parent chain of the end node has no node twice and
reaches a node without a parent in fewer steps than there are nodes, so the
loop of `getSolution` ends at that node. -/
theorem search_terminates {A : Arith} (hA : A.Lawful) (g : Pathfinding A)
    (start finish : Point) (hG : LinksOk g.nodesMap) :
    (∀ n s', searchStep finish (searchAfter g start finish n) = some s' →
      unvisited s'.nodes + 1 = unvisited (searchAfter g start finish n).nodes ∧
      ∃ cur, (nodeAt (searchAfter g start finish n).nodes cur).visited = false ∧
        (nodeAt s'.nodes cur).visited = true ∧
        ∀ k, k ≠ cur →
          (nodeAt s'.nodes k).visited = (nodeAt (searchAfter g start finish n).nodes k).visited) ∧
    searchStep finish
      (searchAfter g start finish (loadGoal g start finish).nodesMap.length) = none ∧
    (solveAStar (loadGoal g start finish)).nodesMap =
      (searchAfter g start finish (loadGoal g start finish).nodesMap.length).nodes ∧
    ∃ r d, ChainTo (solveAStar (loadGoal g start finish)).nodesMap finish r d ∧
      d < (solveAStar (loadGoal g start finish)).nodesMap.length ∧
      (chainFrom (solveAStar (loadGoal g start finish)).nodesMap
        (solveAStar (loadGoal g start finish)).nodesMap.length finish).Nodup ∧
      (nodeAt (solveAStar (loadGoal g start finish)).nodesMap r).parent = none ∧
      (getSolution (solveAStar (loadGoal g start finish))).head? =
        some ((nodeAt (solveAStar (loadGoal g start finish)).nodesMap r).x,
              (nodeAt (solveAStar (loadGoal g start finish)).nodesMap r).y) := by
  obtain ⟨G, hsame, hok, hinit⟩ := searchStart_inv hA g start finish hG
  have hlen := searchStart_length (loadGoal g start finish).nodesMap start finish
  have hstop : searchStep finish
      (searchAfter g start finish (loadGoal g start finish).nodesMap.length) = none := by
    unfold searchAfter
    apply searchLoop_stops hA G hok start finish _ _ hinit
    rw [← hlen]
    exact unvisited_le _
  refine ⟨?_, hstop, ?_, ?_⟩
  · intro n s' hs'
    have hinv : SInv G start none [] (searchAfter g start finish n) :=
      searchLoop_inv hA G hok start finish n _ hinit
    refine ⟨(searchStep_some hA G hok start finish _ s' hinv hs').2, ?_⟩
    obtain ⟨cur, h1, h2, h3, h4⟩ := searchStep_expands finish _ s' hs'
    refine ⟨cur, h2, h3 ?_, h4⟩
    rw [hinv.same.keys]
    exact (hinv.front cur h1).1
  · rw [solveAStar_loop, hlen]
    unfold searchAfter at hstop ⊢
    rw [searchLoop_more finish _ _ hstop]
  · obtain ⟨G', s, hnodes, hend, hsame', _, hinv, _⟩ := solve_inv hA g start finish hG
    have hfL : qcontains (loadGoal g start finish).nodesMap finish = true := by
      unfold loadGoal
      dsimp only
      rw [qcontains_qindex]
      simp
    have hfS : qcontains s.nodes finish = true := by
      rw [hinv.same.keys, hsame'.keys]
      exact hfL
    have hparP : ∀ y x, (nodeAt s.nodes y).parent = some x → qcontains s.nodes x = true := by
      intro y x hyx
      rw [hinv.same.keys]
      exact (hinv.vis x (hinv.par y x hyx).1).1
    obtain ⟨r, d, hch⟩ := hinv.rooted finish
    have hd := chainTo_depth s.nodes finish r d hch hfS hparP
    obtain ⟨_, _, _, _, c5⟩ := chainFrom_spec s.nodes finish r d hch s.nodes.length hd
    refine ⟨r, d, ?_, ?_, ?_, ?_, ?_⟩
    · rw [hnodes]; exact hch
    · rw [hnodes]; exact hd
    · rw [hnodes]; exact c5
    · rw [hnodes]; exact (chainTo_root s.nodes finish r d hch).1
    · unfold getSolution
      rw [hend, hnodes]
      exact solutionLoop_head s.nodes finish r d hch _ hd []

set_option maxRecDepth 100000 in
/-- Instance of `search_terminates`: the search from `(0,0)` to `(10,0)` in the
graph of `sceneGap`, which has four nodes. -/
theorem search_terminates_witness :
    gridArith.Lawful ∧ LinksOk sceneGap.p.nodesMap ∧
    (loadGoal sceneGap.p (0, 0) (10, 0)).nodesMap.length = 4 ∧
    ((∀ n s', searchStep (10, 0) (searchAfter sceneGap.p (0, 0) (10, 0) n) = some s' →
      unvisited s'.nodes + 1 = unvisited (searchAfter sceneGap.p (0, 0) (10, 0) n).nodes ∧
      ∃ cur, (nodeAt (searchAfter sceneGap.p (0, 0) (10, 0) n).nodes cur).visited = false ∧
        (nodeAt s'.nodes cur).visited = true ∧
        ∀ k, k ≠ cur →
          (nodeAt s'.nodes k).visited =
            (nodeAt (searchAfter sceneGap.p (0, 0) (10, 0) n).nodes k).visited) ∧
    searchStep (10, 0)
      (searchAfter sceneGap.p (0, 0) (10, 0)
        (loadGoal sceneGap.p (0, 0) (10, 0)).nodesMap.length) = none ∧
    (solveAStar (loadGoal sceneGap.p (0, 0) (10, 0))).nodesMap =
      (searchAfter sceneGap.p (0, 0) (10, 0)
        (loadGoal sceneGap.p (0, 0) (10, 0)).nodesMap.length).nodes ∧
    ∃ r d, ChainTo (solveAStar (loadGoal sceneGap.p (0, 0) (10, 0))).nodesMap (10, 0) r d ∧
      d < (solveAStar (loadGoal sceneGap.p (0, 0) (10, 0))).nodesMap.length ∧
      (chainFrom (solveAStar (loadGoal sceneGap.p (0, 0) (10, 0))).nodesMap
        (solveAStar (loadGoal sceneGap.p (0, 0) (10, 0))).nodesMap.length (10, 0)).Nodup ∧
      (nodeAt (solveAStar (loadGoal sceneGap.p (0, 0) (10, 0))).nodesMap r).parent = none ∧
      (getSolution (solveAStar (loadGoal sceneGap.p (0, 0) (10, 0)))).head? =
        some ((nodeAt (solveAStar (loadGoal sceneGap.p (0, 0) (10, 0))).nodesMap r).x,
              (nodeAt (solveAStar (loadGoal sceneGap.p (0, 0) (10, 0))).nodesMap r).y)) :=
  ⟨gridArith_lawful, by decide, by decide,
    search_terminates gridArith_lawful sceneGap.p (0, 0) (10, 0) (by decide)⟩

set_option maxRecDepth 100000 in
/-- Instance of `solution_is_walk`: the solution from `(0,0)` to `(20,0)` in the
graph of `sceneStraight`. -/
theorem solution_is_walk_witness :
    gridArith.Lawful ∧ GraphOk sceneStraight.p.nodesMap ∧
    qcontains sceneStraight.p.nodesMap (0, 0) = true ∧
    qcontains sceneStraight.p.nodesMap (20, 0) = true ∧
    getSolution (solveAStar (loadGoal sceneStraight.p (0, 0) (20, 0))) =
      [(0, 0), (5, 0), (10, 0), (15, 0), (20, 0)] ∧
    (Walk sceneStraight.p.nodesMap
      (getSolution (solveAStar (loadGoal sceneStraight.p (0, 0) (20, 0)))) ∧
    (∀ x ∈ (getSolution (solveAStar (loadGoal sceneStraight.p (0, 0) (20, 0)))).dropLast.tail,
      (nodeAt sceneStraight.p.nodesMap x).obstacle = false) ∧
    (¬ Reachable sceneStraight.p.nodesMap (0, 0) (20, 0) →
      getSolution (solveAStar (loadGoal sceneStraight.p (0, 0) (20, 0))) = [(20, 0)])) :=
  ⟨gridArith_lawful, by decide, by decide, by decide, by decide,
    solution_is_walk gridArith_lawful sceneStraight.p (0, 0) (20, 0)
      (by decide) (by decide) (by decide)⟩

theorem streetFold_route {A : Arith} (l : List (String × street)) (b : bus A) :
    SameRoute b (l.foldl streetOf b) := by
  induction l generalizing b with
  | nil => exact ⟨rfl, rfl, rfl, rfl, rfl⟩
  | cons e t ih =>
    simp only [List.foldl_cons]
    have h := ih (streetOf b e)
    have h0 : SameRoute b (streetOf b e) := by
      unfold streetOf
      dsimp only
      split <;> exact ⟨rfl, rfl, rfl, rfl, rfl⟩
    exact ⟨h.lineno.trans h0.lineno, h.reversed.trans h0.reversed,
      h.startStation.trans h0.startStation, h.endStation.trans h0.endStation,
      h.wait.trans h0.wait⟩

theorem tickPoint_route {A : Arith} (r : Scene A × bus A) (step : A.D) :
    SameRoute r.2 (tickPoint r step).2 ∧ (tickPoint r step).2.pos_x = r.2.pos_x ∧
    (tickPoint r step).2.pos_y = r.2.pos_y ∧ SceneFrame r.1 (tickPoint r step).1 := by
  unfold tickPoint
  split
  · exact ⟨⟨rfl, rfl, rfl, rfl, rfl⟩, rfl, rfl, sceneFrame_refl _⟩
  · split
    · exact ⟨⟨rfl, rfl, rfl, rfl, rfl⟩, rfl, rfl, sceneFrame_refl _⟩
    · exact ⟨⟨rfl, rfl, rfl, rfl, rfl⟩, rfl, rfl, reachPoint_frame _ _ _⟩

theorem tickMove_route {A : Arith} (r : Scene A × bus A) (step : A.D) :
    SameRoute r.2 (tickMove r step).2 ∧ (tickMove r step).1 = r.1 := by
  unfold tickMove
  split
  · exact ⟨⟨rfl, rfl, rfl, rfl, rfl⟩, rfl⟩
  · split
    · refine ⟨?_, rfl⟩
      unfold moveBus
      have h := streetFold_route r.1.streets
        { r.2 with
          pos_x := A.dAdd r.2.pos_x (A.dMul (A.dDiv step (A.dOfInt r.2.slow)) (A.cos r.2.d))
          pos_y := A.dAdd r.2.pos_y (A.dMul (A.dDiv step (A.dOfInt r.2.slow)) (A.sin r.2.d)) }
      exact ⟨h.lineno, h.reversed, h.startStation, h.endStation, h.wait⟩
    · exact ⟨⟨rfl, rfl, rfl, rfl, rfl⟩, rfl⟩

/-- What the turn at the end station does to the bus. -/
theorem turnAround_fields {A : Arith} (sc : Scene A) (b : bus A) :
    (turnAround sc b).2.lineno = b.lineno ∧
    (turnAround sc b).2.reversed = !b.reversed ∧
    (turnAround sc b).2.startStation =
      (if !b.reversed then (lineAt sc b.lineno).end_ else (lineAt sc b.lineno).start) ∧
    (turnAround sc b).2.endStation =
      (if !b.reversed then (lineAt sc b.lineno).start else (lineAt sc b.lineno).end_) ∧
    (turnAround sc b).2.wait = sc.waitStop ∧
    (turnAround sc b).2.pos_x = b.pos_x ∧ (turnAround sc b).2.pos_y = b.pos_y ∧
    (turnAround sc b).2.lastStation = b.lastStation ∧
    (turnAround sc b).2.slow = b.slow := by
  unfold turnAround
  dsimp only
  rw [getPath_bus, lineAt_touchLine]
  exact ⟨rfl, rfl, rfl, rfl, rfl, rfl, rfl, rfl, rfl⟩

/-- One tick of a bus that does not wait and stands at its end station: the
turn, then the point scan and the third stage. -/
theorem turnTick_eq {A : Arith} (sc : Scene A) (b : bus A) (step : A.D) (hw : b.wait = 0)
    (hl : b.lastStation = b.endStation) :
    setNewPosition sc b step = tickMove (tickPoint (turnAround sc b) step) step := by
  unfold setNewPosition tickTurn
  rw [if_neg (by omega), if_pos hl]

/-- C23: one tick of a bus with `wait = 0` and `lastStation = endStation`
negates `reversed`, sets `startStation` and `endStation` to the end and the
start of the line if the bus is now reversed and to its start and end if not,
and sets `wait` to `waitStop`; the `start`, `end`, `stopsAt` and the three
`Original` members of every line are left as they are. A later tick of the
same kind, of a bus of the line that runs in the new direction, gives back the
old value of `reversed` and the stations of the line in the old direction,
which are the old `startStation` and `endStation` of a bus that had the
stations of its line. -/
theorem turnaround_tick {A : Arith} (sc : Scene A) (b : bus A) (step : A.D)
    (hw : b.wait = 0) (hl : b.lastStation = b.endStation) :
    (setNewPosition sc b step).2.reversed = (!b.reversed) ∧
    (setNewPosition sc b step).2.startStation =
      (if (setNewPosition sc b step).2.reversed then (lineAt sc b.lineno).end_
       else (lineAt sc b.lineno).start) ∧
    (setNewPosition sc b step).2.endStation =
      (if (setNewPosition sc b step).2.reversed then (lineAt sc b.lineno).start
       else (lineAt sc b.lineno).end_) ∧
    (setNewPosition sc b step).2.wait = sc.waitStop ∧
    (∀ k, (lineAt (setNewPosition sc b step).1 k).start = (lineAt sc k).start ∧
      (lineAt (setNewPosition sc b step).1 k).end_ = (lineAt sc k).end_ ∧
      (lineAt (setNewPosition sc b step).1 k).stopsAt = (lineAt sc k).stopsAt ∧
      (lineAt (setNewPosition sc b step).1 k).startOriginal = (lineAt sc k).startOriginal ∧
      (lineAt (setNewPosition sc b step).1 k).stopsAtOriginal = (lineAt sc k).stopsAtOriginal ∧
      (lineAt (setNewPosition sc b step).1 k).endOriginal = (lineAt sc k).endOriginal) ∧
    (∀ (sc' : Scene A) (b' : bus A) (step' : A.D), b'.wait = 0 →
      b'.lastStation = b'.endStation → b'.lineno = b.lineno →
      b'.reversed = (setNewPosition sc b step).2.reversed →
      (lineAt sc' b.lineno).start = (lineAt sc b.lineno).start →
      (lineAt sc' b.lineno).end_ = (lineAt sc b.lineno).end_ →
      (setNewPosition sc' b' step').2.reversed = b.reversed ∧
      (setNewPosition sc' b' step').2.startStation = dirStart sc b ∧
      (setNewPosition sc' b' step').2.endStation = dirEnd sc b ∧
      (b.startStation = dirStart sc b → b.endStation = dirEnd sc b →
        (setNewPosition sc' b' step').2.startStation = b.startStation ∧
        (setNewPosition sc' b' step').2.endStation = b.endStation)) := by
  have hgen : ∀ (sc : Scene A) (b : bus A) (step : A.D), b.wait = 0 →
      b.lastStation = b.endStation →
      (setNewPosition sc b step).2.reversed = (!b.reversed) ∧
      (setNewPosition sc b step).2.startStation =
        (if !b.reversed then (lineAt sc b.lineno).end_ else (lineAt sc b.lineno).start) ∧
      (setNewPosition sc b step).2.endStation =
        (if !b.reversed then (lineAt sc b.lineno).start else (lineAt sc b.lineno).end_) ∧
      (setNewPosition sc b step).2.wait = sc.waitStop ∧
      SceneFrame sc (setNewPosition sc b step).1 := by
    intro sc b step hw hl
    rw [turnTick_eq sc b step hw hl]
    obtain ⟨_, t2, t3, t4, t5, _⟩ := turnAround_fields sc b
    obtain ⟨p1, _, _, p4⟩ := tickPoint_route (turnAround sc b) step
    obtain ⟨m1, m2⟩ := tickMove_route (tickPoint (turnAround sc b) step) step
    refine ⟨(m1.reversed.trans p1.reversed).trans t2,
      (m1.startStation.trans p1.startStation).trans t3,
      (m1.endStation.trans p1.endStation).trans t4,
      (m1.wait.trans p1.wait).trans t5, ?_⟩
    rw [m2]
    exact sceneFrame_trans (turnAround_frame sc b) p4
  obtain ⟨g1, g2, g3, g4, g5⟩ := hgen sc b step hw hl
  refine ⟨g1, ?_, ?_, g4, ?_, ?_⟩
  · rw [g2, g1]
  · rw [g3, g1]
  · intro k
    obtain ⟨pl, hpl⟩ := g5.routes.read k
    unfold lineAt
    rw [hpl]
    exact ⟨rfl, rfl, rfl, rfl, rfl, rfl⟩
  · intro sc' b' step' hw' hl' hno hrev hs he
    obtain ⟨q1, q2, q3, _, _⟩ := hgen sc' b' step' hw' hl'
    rw [hno, hs, he, hrev, g1] at q2 q3
    rw [hrev, g1] at q1
    simp only [Bool.not_not] at q1 q2 q3
    have r2 : (setNewPosition sc' b' step').2.startStation = dirStart sc b := by
      rw [q2]; rfl
    have r3 : (setNewPosition sc' b' step').2.endStation = dirEnd sc b := by
      rw [q3]; rfl
    exact ⟨q1, r2, r3, fun h1 h2 => ⟨r2.trans h1.symm, r3.trans h2.symm⟩⟩

set_option maxRecDepth 100000 in
/-- Instance of `turnaround_tick`: the bus of `sceneTurn` that stands at the end
stop `B` of its line is reversed by the tick and gets the stations `B`, `A`
and the wait 3000. -/
theorem turnaround_tick_witness :
    busArrived.wait = 0 ∧ busArrived.lastStation = busArrived.endStation ∧
    (setNewPosition sceneTurn busArrived (gridArith.dOfInt 1)).2.reversed = true ∧
    (setNewPosition sceneTurn busArrived (gridArith.dOfInt 1)).2.startStation = "B" ∧
    (setNewPosition sceneTurn busArrived (gridArith.dOfInt 1)).2.endStation = "A" ∧
    (setNewPosition sceneTurn busArrived (gridArith.dOfInt 1)).2.wait = 3000 ∧
    ((setNewPosition sceneTurn busArrived (gridArith.dOfInt 1)).2.reversed =
      (!busArrived.reversed) ∧
    (setNewPosition sceneTurn busArrived (gridArith.dOfInt 1)).2.startStation =
      (if (setNewPosition sceneTurn busArrived (gridArith.dOfInt 1)).2.reversed then
        (lineAt sceneTurn busArrived.lineno).end_
       else (lineAt sceneTurn busArrived.lineno).start) ∧
    (setNewPosition sceneTurn busArrived (gridArith.dOfInt 1)).2.endStation =
      (if (setNewPosition sceneTurn busArrived (gridArith.dOfInt 1)).2.reversed then
        (lineAt sceneTurn busArrived.lineno).start
       else (lineAt sceneTurn busArrived.lineno).end_) ∧
    (setNewPosition sceneTurn busArrived (gridArith.dOfInt 1)).2.wait = sceneTurn.waitStop ∧
    (∀ k,
      (lineAt (setNewPosition sceneTurn busArrived (gridArith.dOfInt 1)).1 k).start =
        (lineAt sceneTurn k).start ∧
      (lineAt (setNewPosition sceneTurn busArrived (gridArith.dOfInt 1)).1 k).end_ =
        (lineAt sceneTurn k).end_ ∧
      (lineAt (setNewPosition sceneTurn busArrived (gridArith.dOfInt 1)).1 k).stopsAt =
        (lineAt sceneTurn k).stopsAt ∧
      (lineAt (setNewPosition sceneTurn busArrived (gridArith.dOfInt 1)).1 k).startOriginal =
        (lineAt sceneTurn k).startOriginal ∧
      (lineAt (setNewPosition sceneTurn busArrived (gridArith.dOfInt 1)).1 k).stopsAtOriginal =
        (lineAt sceneTurn k).stopsAtOriginal ∧
      (lineAt (setNewPosition sceneTurn busArrived (gridArith.dOfInt 1)).1 k).endOriginal =
        (lineAt sceneTurn k).endOriginal) ∧
    (∀ (sc' : Scene gridArith) (b' : bus gridArith) (step' : gridArith.D), b'.wait = 0 →
      b'.lastStation = b'.endStation → b'.lineno = busArrived.lineno →
      b'.reversed = (setNewPosition sceneTurn busArrived (gridArith.dOfInt 1)).2.reversed →
      (lineAt sc' busArrived.lineno).start = (lineAt sceneTurn busArrived.lineno).start →
      (lineAt sc' busArrived.lineno).end_ = (lineAt sceneTurn busArrived.lineno).end_ →
      (setNewPosition sc' b' step').2.reversed = busArrived.reversed ∧
      (setNewPosition sc' b' step').2.startStation = dirStart sceneTurn busArrived ∧
      (setNewPosition sc' b' step').2.endStation = dirEnd sceneTurn busArrived ∧
      (busArrived.startStation = dirStart sceneTurn busArrived →
        busArrived.endStation = dirEnd sceneTurn busArrived →
        (setNewPosition sc' b' step').2.startStation = busArrived.startStation ∧
        (setNewPosition sc' b' step').2.endStation = busArrived.endStation))) :=
  ⟨by decide, by decide, by decide, by decide, by decide, by decide,
    turnaround_tick sceneTurn busArrived (gridArith.dOfInt 1) (by decide) (by decide)⟩

set_option maxRecDepth 100000 in
/-- C22, the tick of the turnaround moves the bus: the block of
`setNewPosition` that turns the bus sets `wait = waitStop` but does not return.
Line 1 of `sceneTurn` runs from `A` `(10,0)` to `B` `(0,0)`, and the bus stands
at `B` with `wait = 0` and `lastStation = endStation`. The tick with step 1
turns the bus around (it is reversed afterwards and waits 3000) and, in the
same call, finds the point `(0,0)`, sets the heading towards `(5,0)` and moves
the bus: `pos_x` goes from 0 to 1. The next tick takes the waiting branch,
which returns at once: it counts `wait` down and leaves `pos_x` at 1. -/
theorem turnaround_tick_moves :
    busArrived.wait = 0 ∧ busArrived.lastStation = busArrived.endStation ∧
    (lineAt sceneTurn 1).start ≠ (lineAt sceneTurn 1).end_ ∧
    gridArith.dToInt busArrived.pos_x = 0 ∧ gridArith.dToInt busArrived.pos_y = 0 ∧
    (setNewPosition sceneTurn busArrived (gridArith.dOfInt 1)).2.reversed = true ∧
    (setNewPosition sceneTurn busArrived (gridArith.dOfInt 1)).2.wait = 3000 ∧
    (tickPoint (turnAround sceneTurn busArrived) (gridArith.dOfInt 1)).2.path =
      [(5, 0, 10, 0)] ∧
    gridArith.dToInt (setNewPosition sceneTurn busArrived (gridArith.dOfInt 1)).2.pos_x = 1 ∧
    gridArith.dToInt (setNewPosition sceneTurn busArrived (gridArith.dOfInt 1)).2.pos_y = 0 ∧
    (setNewPosition (setNewPosition sceneTurn busArrived (gridArith.dOfInt 1)).1
      (setNewPosition sceneTurn busArrived (gridArith.dOfInt 1)).2 (gridArith.dOfInt 1)).2.wait
      = 2990 ∧
    gridArith.dToInt (setNewPosition (setNewPosition sceneTurn busArrived (gridArith.dOfInt 1)).1
      (setNewPosition sceneTurn busArrived (gridArith.dOfInt 1)).2
      (gridArith.dOfInt 1)).2.pos_x = 1 := by
  refine ⟨by decide, by decide, by decide, by decide, by decide, by decide, by decide,
    by decide, by decide, by decide, by decide, by decide⟩

set_option maxRecDepth 100000 in
/-- C29, the failing run: `saveEdit` on `sceneSave` saves line 1 as the line
from `A` to `B` and leaves its bus with `slow = 0` and `wait = 0`, while the
bus of line 2 keeps `slow = 1`. The next tick of the bus of line 1 neither
waits nor turns, is not halted and not at its end station, so it moves the bus
with the divisor `slow = 0`. `resetVehicles`, which `resetTime` calls, sets
`slow = 1` for every bus. -/
theorem saveEdit_zero_slow :
    (saveEdit sceneSave).1 = true ∧
    ((saveEdit sceneSave).2.buses.map fun e => (e.1, e.2.lineno, e.2.slow, e.2.wait)) =
      [(0, 1, 0, 0), (1, 2, 1, 0)] ∧
    (∀ e ∈ (saveEdit sceneSave).2.buses, e.2.lineno = 1 →
      (tickPoint (tickTurn (saveEdit sceneSave).2 e.2) (gridArith.dOfInt 1)).2.slow = 0 ∧
      (tickPoint (tickTurn (saveEdit sceneSave).2 e.2) (gridArith.dOfInt 1)).2.halt = false ∧
      (tickPoint (tickTurn (saveEdit sceneSave).2 e.2) (gridArith.dOfInt 1)).2.lastStation ≠
        (tickPoint (tickTurn (saveEdit sceneSave).2 e.2)
          (gridArith.dOfInt 1)).2.endStation ∧
      (setNewPosition (saveEdit sceneSave).2 e.2 (gridArith.dOfInt 1)).2 =
        moveBus (tickPoint (tickTurn (saveEdit sceneSave).2 e.2) (gridArith.dOfInt 1)).1
          (tickPoint (tickTurn (saveEdit sceneSave).2 e.2) (gridArith.dOfInt 1)).2
          (gridArith.dOfInt 1)) ∧
    (∀ e ∈ (resetVehicles (saveEdit sceneSave).2).buses, e.2.slow = 1) := by
  refine ⟨by decide, by decide, by decide, by decide⟩

theorem pathFold_eq (l : List Point) (acc : List Segment) (prev : Point) :
    l.foldl (fun (r : List Segment × Point) q => (r.1 ++ [tupleCat r.2 q], q)) (acc, prev) =
      (acc ++ List.zipWith tupleCat (prev :: l) l, (prev :: l).getLastD (0, 0)) := by
  induction l generalizing acc prev with
  | nil => simp
  | cons a t ih =>
    rw [List.foldl_cons, ih]
    simp [List.getLastD_cons]

theorem zipWith_snoc (a z : Point) (mid : List Point) :
    List.zipWith tupleCat (a :: (mid ++ [z])) (mid ++ [z]) =
      List.zipWith tupleCat (a :: mid) mid ++ [tupleCat ((a :: mid).getLastD (0, 0)) z] := by
  induction mid generalizing a with
  | nil => simp
  | cons b t ih =>
    simp only [List.cons_append, List.zipWith_cons_cons, ih b, List.getLastD_cons]

/-- The segments `getPath` makes of a point sequence join every point of it to
the next one. -/
theorem pathSegments_zip (path : List Point) :
    pathSegments path = List.zipWith tupleCat path path.tail := by
  cases path with
  | nil => rfl
  | cons a t =>
    cases t with
    | nil => rfl
    | cons b u =>
      have hne : b :: u ≠ [] := List.cons_ne_nil _ _
      have hsplit := List.dropLast_append_getLast hne
      unfold pathSegments
      rw [if_pos (by simp)]
      dsimp only
      have hdrop : (List.drop 1 (a :: b :: u)).dropLast = (b :: u).dropLast := rfl
      rw [hdrop, List.headD_cons, pathFold_eq]
      dsimp only
      rw [List.nil_append, List.tail_cons]
      have hlast : (a :: b :: u).getLastD (0, 0) = (b :: u).getLast hne := by
        rw [List.getLastD_cons, List.getLastD_eq_getLast?, List.getLast?_eq_getLast _ hne]
        rfl
      rw [hlast]
      conv_rhs => rw [← hsplit]
      rw [zipWith_snoc]

/-- For start and end with nodes in a graph as the build makes it, the solution
ends at the end coordinate. -/
theorem solution_last {A : Arith} (hA : A.Lawful) (g : Pathfinding A) (start finish : Point)
    (hG : GraphOk g.nodesMap) (hs : qcontains g.nodesMap start = true)
    (hf : qcontains g.nodesMap finish = true) :
    (solution g start finish).getLast? = some finish := by
  obtain ⟨G, s, r, d, _, _, _, hch, hd, hsol⟩ := solution_chain hA g start finish hG hs hf
  rw [hsol, List.getLast?_reverse]
  exact (chainFrom_spec s.nodes finish r d hch s.nodes.length hd).1

theorem split_of_last {α : Type} (l : List α) (v : α) (h : l.getLast? = some v) :
    l = l.dropLast ++ [v] := by
  have hne : l ≠ [] := by
    intro h0
    rw [h0] at h
    cases h
  have h1 := List.dropLast_append_getLast hne
  rw [List.getLast?_eq_getLast _ hne] at h
  rw [Option.some.inj h] at h1
  exact h1.symm

theorem split_of_head {α : Type} (l : List α) (u : α) (h : l.head? = some u) :
    l = u :: l.tail := by
  cases l with
  | nil => cases h
  | cons a t =>
    simp only [List.head?_cons, Option.some.injEq] at h
    rw [h, List.tail_cons]

/-- When every leg begins at its start and ends at its end, dropping the last
point of every leg but the last gives the same sequence as dropping the first
point of every leg but the first. -/
theorem joinLegs_tails (sol : Point → Point → List Point) (cs : List Point)
    (h : cs.Chain' fun u v => (sol u v).head? = some u ∧ (sol u v).getLast? = some v) :
    joinLegs sol cs = joinTails sol cs := by
  induction cs with
  | nil => rfl
  | cons u t ih =>
    cases t with
    | nil => rfl
    | cons v r =>
      rw [List.chain'_cons] at h
      cases r with
      | nil => simp [joinLegs, joinTails, laterLegs]
      | cons w r2 =>
        have ih' := ih h.2
        rw [joinLegs_cons, ih']
        have hv := h.2
        rw [List.chain'_cons] at hv
        show (sol u v).dropLast ++ (sol v w ++ laterLegs sol (w :: r2)) =
          sol u v ++ ((sol v w).tail ++ laterLegs sol (w :: r2))
        have e1 := split_of_last (sol u v) v h.1.2
        have e2 := split_of_head (sol v w) v hv.1.1
        conv_rhs => rw [e1]
        conv_lhs => rw [e2]
        simp

theorem joinTails_head (sol : Point → Point → List Point) (u v : Point) (rest : List Point)
    (h : (sol u v).head? = some u) : (joinTails sol (u :: v :: rest)).head? = some u := by
  show (sol u v ++ laterLegs sol (v :: rest)).head? = some u
  rw [split_of_head _ u h]
  rfl

theorem joinTails_last (sol : Point → Point → List Point) (u v : Point) (rest : List Point)
    (h : (u :: v :: rest).Chain' fun u v =>
      (sol u v).head? = some u ∧ (sol u v).getLast? = some v) :
    (joinTails sol (u :: v :: rest)).getLast? = (u :: v :: rest).getLast? := by
  induction rest generalizing u v with
  | nil =>
    rw [List.chain'_cons] at h
    show (sol u v ++ []).getLast? = _
    rw [List.append_nil, h.1.2]
    rfl
  | cons w r ih =>
    rw [List.chain'_cons] at h
    have ih' := ih v w h.2
    have hv := h.2
    rw [List.chain'_cons] at hv
    have e2 := split_of_head (sol v w) v hv.1.1
    have hj : joinTails sol (u :: v :: w :: r) =
        (sol u v).dropLast ++ joinTails sol (v :: w :: r) := by
      show sol u v ++ ((sol v w).tail ++ laterLegs sol (w :: r)) =
        (sol u v).dropLast ++ (sol v w ++ laterLegs sol (w :: r))
      conv_lhs => rw [split_of_last (sol u v) v h.1.2]
      conv_rhs => rw [e2]
      simp
    have hne : joinTails sol (v :: w :: r) ≠ [] := by
      intro h0
      have := joinTails_head sol v w r hv.1.1
      rw [h0] at this
      cases this
    rw [hj, List.getLast?_append_of_ne_nil _ hne, ih']
    simp [List.getLast?_cons_cons]

theorem inOrder_append (l p cs : List Point) (h : InOrder p cs) : InOrder (l ++ p) cs := by
  cases h with
  | nil => exact InOrder.nil _
  | cons l1 l2 c cs' h' =>
    rw [← List.append_assoc]
    exact InOrder.cons _ _ _ _ h'

theorem joinTails_inOrder (sol : Point → Point → List Point) (u v : Point)
    (rest : List Point)
    (h : (u :: v :: rest).Chain' fun u v =>
      (sol u v).head? = some u ∧ (sol u v).getLast? = some v) :
    InOrder (joinTails sol (u :: v :: rest)) (u :: v :: rest) := by
  induction rest generalizing u v with
  | nil =>
    rw [List.chain'_cons] at h
    show InOrder (sol u v ++ []) [u, v]
    rw [List.append_nil]
    have e1 := split_of_head (sol u v) u h.1.1
    have e2 := split_of_last (sol u v) v h.1.2
    rw [e1]
    refine InOrder.cons [] _ u [v] ?_
    rw [← e1, e2]
    exact InOrder.cons _ [] v [] (InOrder.nil _)
  | cons w r ih =>
    rw [List.chain'_cons] at h
    have ih' := ih v w h.2
    have hv := h.2
    rw [List.chain'_cons] at hv
    have e1 := split_of_head (sol u v) u h.1.1
    have e2 := split_of_head (sol v w) v hv.1.1
    have hj : joinTails sol (u :: v :: w :: r) =
        (sol u v).dropLast ++ joinTails sol (v :: w :: r) := by
      show sol u v ++ ((sol v w).tail ++ laterLegs sol (w :: r)) =
        (sol u v).dropLast ++ (sol v w ++ laterLegs sol (w :: r))
      conv_lhs => rw [split_of_last (sol u v) v h.1.2]
      conv_rhs => rw [e2]
      simp
    have hhead : joinTails sol (u :: v :: w :: r) =
        u :: (joinTails sol (u :: v :: w :: r)).tail :=
      split_of_head _ u (joinTails_head sol u v (w :: r) h.1.1)
    rw [hhead]
    refine InOrder.cons [] _ u (v :: w :: r) ?_
    rw [← hhead, hj]
    exact inOrder_append _ _ _ ih'

theorem chain'_with_mem {α : Type} (R : α → α → Prop) (P : α → Prop) (l : List α)
    (h : l.Chain' R) (hp : ∀ a ∈ l, P a) : l.Chain' fun a b => R a b ∧ P a ∧ P b := by
  induction l with
  | nil => exact List.chain'_nil
  | cons a t ih =>
    cases t with
    | nil => exact List.chain'_singleton _
    | cons b r =>
      rw [List.chain'_cons] at h ⊢
      exact ⟨⟨h.1, hp a (by simp), hp b (by simp)⟩,
        ih h.2 (fun x hx => hp x (List.mem_cons_of_mem _ hx))⟩

theorem dirCoords_shape {A : Arith} (sc : Scene A) (b : bus A) :
    ∃ u v rest, dirCoords sc b = u :: v :: rest := by
  have hlen : 2 ≤ (dirCoords sc b).length := by
    unfold dirCoords routeCoords stations
    split <;> simp
  cases h : dirCoords sc b with
  | nil => rw [h] at hlen; simp at hlen
  | cons u t =>
    cases t with
    | nil => rw [h] at hlen; simp at hlen
    | cons v rest => exact ⟨u, v, rest, rfl⟩

/-- The segment list `getPath` returns is the one it stores in the line. -/
theorem lastLeg_stored {A : Arith} (s : Legs A) (b : bus A) (startSaved finish : Point) :
    (lineAt (lastLeg s b startSaved finish).2.1 b.lineno).pathLines =
      (lastLeg s b startSaved finish).1 := by
  unfold lastLeg lineAt qget touchLine
  dsimp only
  rw [qfind_qmodify_self, qfind_qindex_self]
  rfl

theorem getPath_stored {A : Arith} (sc : Scene A) (b : bus A) :
    (lineAt (getPath sc b).2.1 b.lineno).pathLines = (getPath sc b).1 := by
  unfold getPath
  exact lastLeg_stored _ _ _ _

/-- C28: for a graph as the build makes it and a line whose stops all have
nodes, when the solution of every leg (from one stop of the route to the next,
in the direction of the bus) begins at the start point of the leg, the point
sequence `getPath` assembles is the solution of the first leg followed by the
solution of every later leg without its first point. It begins at the
coordinate of the first stop of the route, ends at the coordinate of the last
one and passes the coordinates of the stops in route order. The segment list
returned joins every point of the sequence to the next one, so it has one
segment less than there are points (none for a single point), and the same
list is stored in `pathLines` of the line. -/
theorem getPath_assembles {A : Arith} (hA : A.Lawful) (sc : Scene A) (b : bus A)
    (hG : GraphOk sc.p.nodesMap)
    (hstops : ∀ c ∈ routeCoords sc b.lineno, qcontains sc.p.nodesMap c = true)
    (hbeg : (dirCoords sc b).Chain' fun u v =>
      (getSolution (solveAStar (loadGoal sc.p u v))).head? = some u) :
    getPathPoints sc b =
      joinTails (fun u v => getSolution (solveAStar (loadGoal sc.p u v))) (dirCoords sc b) ∧
    (getPathPoints sc b).head? = (dirCoords sc b).head? ∧
    (getPathPoints sc b).getLast? = (dirCoords sc b).getLast? ∧
    InOrder (getPathPoints sc b) (dirCoords sc b) ∧
    (getPath sc b).1 =
      List.zipWith tupleCat (getPathPoints sc b) (getPathPoints sc b).tail ∧
    (getPath sc b).1.length = (getPathPoints sc b).length - 1 ∧
    (lineAt (getPath sc b).2.1 b.lineno).pathLines = (getPath sc b).1 := by
  have hsolfun : (fun u v => getSolution (solveAStar (loadGoal sc.p u v))) = solution sc.p :=
    rfl
  rw [hsolfun]
  have hmem : ∀ c ∈ dirCoords sc b, qcontains sc.p.nodesMap c = true := by
    intro c hc
    unfold dirCoords at hc
    split at hc
    · exact hstops c (List.mem_reverse.mp hc)
    · exact hstops c hc
  have hfull : (dirCoords sc b).Chain' fun u v =>
      (solution sc.p u v).head? = some u ∧ (solution sc.p u v).getLast? = some v := by
    refine List.Chain'.imp ?_ (chain'_with_mem _ (fun c => qcontains sc.p.nodesMap c = true)
      _ hbeg hmem)
    intro u v huv
    exact ⟨huv.1, solution_last hA sc.p u v hG huv.2.1 huv.2.2⟩
  have hpts : getPathPoints sc b = joinTails (solution sc.p) (dirCoords sc b) := by
    rw [getPathPoints_eq sc b hstops]
    exact joinLegs_tails _ _ hfull
  have hseg : (getPath sc b).1 =
      List.zipWith tupleCat (getPathPoints sc b) (getPathPoints sc b).tail := by
    rw [getPath_segments, pathSegments_zip]
  obtain ⟨u, v, rest, hcs⟩ := dirCoords_shape sc b
  rw [hcs] at hfull
  refine ⟨hpts, ?_, ?_, ?_, hseg, ?_, getPath_stored sc b⟩
  · rw [hpts, hcs]
    rw [List.chain'_cons] at hfull
    exact joinTails_head _ u v rest hfull.1.1
  · rw [hpts, hcs]
    exact joinTails_last _ u v rest hfull
  · rw [hpts, hcs]
    exact joinTails_inOrder _ u v rest hfull
  · rw [hseg, List.length_zipWith, List.length_tail]
    omega

set_option maxRecDepth 100000 in
/-- Instance of `getPath_assembles`: line 1 of `sceneStraight` from `A` over `B`
to `C`; the two legs `(0,0),(5,0),(10,0)` and `(10,0),(15,0),(20,0)` give five
points and four segments. -/
theorem getPath_assembles_witness :
    gridArith.Lawful ∧ GraphOk sceneStraight.p.nodesMap ∧
    (∀ c ∈ routeCoords sceneStraight (mkBus 1 0 0 "A" "C" false).lineno,
      qcontains sceneStraight.p.nodesMap c = true) ∧
    ((dirCoords sceneStraight (mkBus 1 0 0 "A" "C" false)).Chain' fun u v =>
      (getSolution (solveAStar (loadGoal sceneStraight.p u v))).head? = some u) ∧
    getPathPoints sceneStraight (mkBus 1 0 0 "A" "C" false) =
      [(0, 0), (5, 0), (10, 0), (15, 0), (20, 0)] ∧
    (getPath sceneStraight (mkBus 1 0 0 "A" "C" false)).1 =
      [(0, 0, 5, 0), (5, 0, 10, 0), (10, 0, 15, 0), (15, 0, 20, 0)] ∧
    (getPathPoints sceneStraight (mkBus 1 0 0 "A" "C" false) =
      joinTails (fun u v => getSolution (solveAStar (loadGoal sceneStraight.p u v)))
        (dirCoords sceneStraight (mkBus 1 0 0 "A" "C" false)) ∧
    (getPathPoints sceneStraight (mkBus 1 0 0 "A" "C" false)).head? =
      (dirCoords sceneStraight (mkBus 1 0 0 "A" "C" false)).head? ∧
    (getPathPoints sceneStraight (mkBus 1 0 0 "A" "C" false)).getLast? =
      (dirCoords sceneStraight (mkBus 1 0 0 "A" "C" false)).getLast? ∧
    InOrder (getPathPoints sceneStraight (mkBus 1 0 0 "A" "C" false))
      (dirCoords sceneStraight (mkBus 1 0 0 "A" "C" false)) ∧
    (getPath sceneStraight (mkBus 1 0 0 "A" "C" false)).1 =
      List.zipWith tupleCat (getPathPoints sceneStraight (mkBus 1 0 0 "A" "C" false))
        (getPathPoints sceneStraight (mkBus 1 0 0 "A" "C" false)).tail ∧
    (getPath sceneStraight (mkBus 1 0 0 "A" "C" false)).1.length =
      (getPathPoints sceneStraight (mkBus 1 0 0 "A" "C" false)).length - 1 ∧
    (lineAt (getPath sceneStraight (mkBus 1 0 0 "A" "C" false)).2.1
      (mkBus 1 0 0 "A" "C" false).lineno).pathLines =
      (getPath sceneStraight (mkBus 1 0 0 "A" "C" false)).1) :=
  have hbeg : (dirCoords sceneStraight (mkBus 1 0 0 "A" "C" false)).Chain' fun u v =>
      (getSolution (solveAStar (loadGoal sceneStraight.p u v))).head? = some u := by
    have hd : dirCoords sceneStraight (mkBus 1 0 0 "A" "C" false) =
        [(0, 0), (10, 0), (20, 0)] := by decide
    rw [hd]
    exact List.Chain'.cons (by decide) (List.Chain'.cons (by decide)
      (List.chain'_singleton _))
  ⟨gridArith_lawful, by decide, by decide, hbeg, by decide, by decide,
    getPath_assembles gridArith_lawful sceneStraight (mkBus 1 0 0 "A" "C" false)
      (by decide) (by decide) hbeg⟩

theorem pointLt_trans (a b c : Point) (h1 : pointLt a b = true) (h2 : pointLt b c = true) :
    pointLt a c = true := by
  unfold pointLt at *
  simp only [Bool.or_eq_true, Bool.and_eq_true, decide_eq_true_eq] at *
  omega

theorem pointLt_irrefl (a : Point) : pointLt a a = false := by
  unfold pointLt
  simp

theorem pointLt_total (a b : Point) (hne : a ≠ b) (h : pointLt a b = false) :
    pointLt b a = true := by
  have hne' : ¬ (a.1 = b.1 ∧ a.2 = b.2) := fun hh => hne (Prod.ext hh.1 hh.2)
  unfold pointLt at *
  simp only [Bool.or_eq_true, Bool.and_eq_true, decide_eq_true_eq, Bool.or_eq_false_iff,
    Bool.and_eq_false_imp, decide_eq_false_iff_not] at *
  omega

theorem qkeys_qmodify {A : Arith} (m : List (Point × Node A)) (k : Point)
    (f : Node A → Node A) : qkeys (qmodify m k f) = qkeys m := by
  induction m with
  | nil => rfl
  | cons e t ih =>
    obtain ⟨k', v⟩ := e
    rw [qmodify_cons]
    split
    · rfl
    · unfold qkeys at ih ⊢
      simp only [List.map_cons, ih]

theorem mem_qkeys_qinsert {A : Arith} (m : List (Point × Node A)) (k k1 : Point) (v : Node A)
    (h : k1 ∈ qkeys (qinsert pointLt m k v)) : k1 = k ∨ k1 ∈ qkeys m := by
  unfold qkeys at h ⊢
  rw [List.mem_map] at h
  obtain ⟨e, he, hk⟩ := h
  rcases mem_qinsert pointLt m k v e he with h1 | h1
  · left
    rw [← hk, h1]
  · right
    rw [← hk]
    exact List.mem_map_of_mem _ h1

theorem qinsert_asc {A : Arith} (m : List (Point × Node A)) (k : Point) (v : Node A)
    (h : KeysAsc m) : KeysAsc (qinsert pointLt m k v) := by
  induction m with
  | nil =>
    unfold KeysAsc qkeys qinsert
    simp
  | cons e t ih =>
    obtain ⟨k', v'⟩ := e
    have ht : KeysAsc t := by
      unfold KeysAsc qkeys at h ⊢
      rw [List.map_cons, List.pairwise_cons] at h
      exact h.2
    have hk' : ∀ x ∈ qkeys t, pointLt k' x = true := by
      unfold KeysAsc qkeys at h
      rw [List.map_cons, List.pairwise_cons] at h
      exact h.1
    unfold qinsert
    split
    · rename_i heq
      unfold KeysAsc qkeys at h ⊢
      rw [List.map_cons] at h ⊢
      dsimp only at h ⊢
      rw [← heq]
      exact h
    · rename_i hne
      split
      · rename_i hlt
        unfold KeysAsc qkeys at h ⊢
        rw [List.map_cons, List.pairwise_cons]
        refine ⟨?_, h⟩
        intro x hx
        rw [List.map_cons] at hx
        rcases List.mem_cons.mp hx with h1 | h1
        · rw [h1]; exact hlt
        · exact pointLt_trans _ _ _ hlt (hk' x h1)
      · rename_i hlt
        have hgt : pointLt k' k = true :=
          pointLt_total k k' (fun hh => hne hh.symm) (by simpa using hlt)
        have ih' := ih ht
        unfold KeysAsc at ih' ⊢
        show List.Pairwise _ (k' :: qkeys (qinsert pointLt t k v))
        rw [List.pairwise_cons]
        refine ⟨?_, ih'⟩
        intro x hx
        rcases mem_qkeys_qinsert t k x v hx with h1 | h1
        · rw [h1]; exact hgt
        · exact hk' x h1

theorem qindex_asc {A : Arith} (m : List (Point × Node A)) (k : Point) (h : KeysAsc m) :
    KeysAsc (qindex pointLt (Node.zero A) m k) := by
  unfold qindex
  split
  · exact h
  · exact qinsert_asc m k _ h

theorem qmodify_asc {A : Arith} (m : List (Point × Node A)) (k : Point) (f : Node A → Node A)
    (h : KeysAsc m) : KeysAsc (qmodify m k f) := by
  unfold KeysAsc
  rw [qkeys_qmodify]
  exact h

theorem attachMid_asc {A : Arith} (s : BuildState A) (c other : Point)
    (h : KeysAsc s.g.nodesMap) : KeysAsc (attachMid s c other).g.nodesMap := by
  unfold attachMid
  dsimp only
  split
  · exact qmodify_asc _ _ _ (qindex_asc _ _ h)
  · exact qmodify_asc _ _ _ (qindex_asc _ _ (qinsert_asc _ _ _
      (qindex_asc _ _ (qindex_asc _ _ (qmodify_asc _ _ _ h)))))

theorem keysAsc_nodup {A : Arith} (m : List (Point × Node A)) (h : KeysAsc m) :
    (qkeys m).Nodup := by
  unfold KeysAsc at h
  refine List.Pairwise.imp ?_ h
  intro a b hab heq
  rw [heq, pointLt_irrefl] at hab
  cases hab

/-- When the midpoint already has a node, the body only appends it to the
neighbours of the visited node. -/
theorem attachMid_of_present {A : Arith} (s : BuildState A) (c other : Point)
    (hp : qcontains s.g.nodesMap (midCoord (nodeAt s.g.nodesMap c).x other.1,
      midCoord (nodeAt s.g.nodesMap c).y other.2) = true) :
    attachMid s c other =
      { s with g := { s.g with nodesMap := qmodify s.g.nodesMap c fun n =>
          { n with neighbours := n.neighbours ++
            [(midCoord (nodeAt s.g.nodesMap c).x other.1,
              midCoord (nodeAt s.g.nodesMap c).y other.2)] } } } := by
  unfold attachMid
  dsimp only
  rw [if_pos hp, qindex_of_contains _ _ _ _ hp]

theorem attachMid_wf {A : Arith} (s : BuildState A) (c other : Point)
    (hc : qcontains s.g.nodesMap c = true) (ho : qcontains s.g.nodesMap other = true)
    (h : NodesWf s.g.nodesMap) : NodesWf (attachMid s c other).g.nodesMap := by
  by_cases hp : qcontains s.g.nodesMap (midCoord (nodeAt s.g.nodesMap c).x other.1,
      midCoord (nodeAt s.g.nodesMap c).y other.2) = true
  · rw [attachMid_of_present s c other hp]
    exact nodesWf_qmodify _ _ _ (fun n => ⟨rfl, rfl⟩) h
  · have hxy := nodeAt_wf s.g.nodesMap c h hc
    unfold attachMid
    dsimp only
    rw [if_neg hp]
    dsimp only
    have h1 : NodesWf (qmodify s.g.nodesMap c fun n =>
        { n with obstacle := false, visited := false, parent := none }) :=
      nodesWf_qmodify _ _ _ (fun n => ⟨rfl, rfl⟩) h
    have hc1 : qcontains (qmodify s.g.nodesMap c fun n =>
        { n with obstacle := false, visited := false, parent := none })
        ((nodeAt s.g.nodesMap c).x, (nodeAt s.g.nodesMap c).y) = true := by
      rw [hxy, qcontains_qmodify]
      exact hc
    have ho1 : qcontains (qmodify s.g.nodesMap c fun n =>
        { n with obstacle := false, visited := false, parent := none }) other = true := by
      rw [qcontains_qmodify]
      exact ho
    rw [qindex_of_contains _ _ _ _ hc1, qindex_of_contains _ _ _ _ ho1]
    have h2 := nodesWf_qinsert _ (midCoord (nodeAt s.g.nodesMap c).x other.1,
      midCoord (nodeAt s.g.nodesMap c).y other.2)
      ({ obstacle := false, visited := false, globalGoal := A.fZero, localGoal := A.fZero,
         x := midCoord (nodeAt s.g.nodesMap c).x other.1,
         y := midCoord (nodeAt s.g.nodesMap c).y other.2,
         neighbours := [((nodeAt s.g.nodesMap c).x, (nodeAt s.g.nodesMap c).y), other],
         parent := none } : Node A) rfl h1
    rw [qindex_of_contains _ _ _ _ (by rw [qcontains_qinsert]; simp)]
    exact nodesWf_qmodify _ _ _ (fun n => ⟨rfl, rfl⟩) h2

theorem attachMid_points {A : Arith} (s : BuildState A) (c other k : Point)
    (h : k ∈ (attachMid s c other).points) :
    k ∈ s.points ∨ k = (midCoord (nodeAt s.g.nodesMap c).x other.1,
      midCoord (nodeAt s.g.nodesMap c).y other.2) := by
  unfold attachMid at h
  dsimp only at h
  split at h
  · exact Or.inl h
  · dsimp only at h
    split at h
    · exact Or.inl h
    · rcases List.mem_append.mp h with h1 | h1
      · exact Or.inl h1
      · exact Or.inr (List.mem_singleton.mp h1)

/-- Induction over the build: a property of the node map and of `points` that
every pass of the node loop keeps holds after `loadPaths`. -/
theorem loadPaths_induct {A : Arith} (allsegs : List Segment)
    (P : List (Point × Node A) → List Point → Prop)
    (hstep : ∀ (s : BuildState A) (path : Segment) (c : Point), path ∈ allsegs →
      qcontains s.g.nodesMap c = true → P s.g.nodesMap s.points →
      P (visitNode path s c).g.nodesMap (visitNode path s c).points)
    (streets : List (String × street)) (g : Pathfinding A) (points : List Point)
    (hsegs : ∀ e ∈ streets, ∀ p ∈ e.2.pathLines, p ∈ allsegs)
    (hP : P g.nodesMap points) :
    P (loadPaths g streets points).1.nodesMap (loadPaths g streets points).2.2 := by
  have hfold : ∀ (path : Segment) (ks : List Point) (s : BuildState A), path ∈ allsegs →
      P s.g.nodesMap s.points →
      P (ks.foldl (fun s c => if qcontains s.g.nodesMap c then visitNode path s c else s)
          s).g.nodesMap
        (ks.foldl (fun s c => if qcontains s.g.nodesMap c then visitNode path s c else s)
          s).points := by
    intro path ks
    induction ks with
    | nil => intro s _ h; exact h
    | cons c t ih =>
      intro s hp h
      simp only [List.foldl_cons]
      apply ih _ hp
      split
      · rename_i hc
        exact hstep s path c hp hc h
      · exact h
  have hseg : ∀ (segs : List Segment) (s : BuildState A), (∀ p ∈ segs, p ∈ allsegs) →
      P s.g.nodesMap s.points →
      P (segs.foldl loadSegment s).g.nodesMap (segs.foldl loadSegment s).points := by
    intro segs
    induction segs with
    | nil => intro s _ h; exact h
    | cons p t ih =>
      intro s hp h
      simp only [List.foldl_cons]
      apply ih _ (fun q hq => hp q (List.mem_cons_of_mem _ hq))
      exact hfold p _ s (hp p (List.mem_cons_self _ _)) h
  induction streets generalizing g points with
  | nil => exact hP
  | cons e t ih =>
    obtain ⟨k, st⟩ := e
    simp only [loadPaths]
    apply ih
    · exact fun e he => hsegs e (List.mem_cons_of_mem _ he)
    · unfold loadStreet
      exact hseg st.pathLines _ (hsegs (k, st) (List.mem_cons_self _ _)) hP

theorem visitNode_buildInv {A : Arith} (pts : List Point) (segs : List Segment)
    (hends : ∀ p ∈ segs, EndsIn pts p) (s : BuildState A) (path : Segment) (c : Point)
    (hp : path ∈ segs) (hc : qcontains s.g.nodesMap c = true)
    (h : BuildInv pts segs s.g.nodesMap s.points) :
    BuildInv pts segs (visitNode path s c).g.nodesMap (visitNode path s c).points := by
  have hxy := nodeAt_wf s.g.nodesMap c h.wf hc
  rcases visitNode_step path s c hxy with h0 | ⟨other, heq, hmid, hcase⟩
  · rw [h0]; exact h
  · have ho : other ∈ pts := by
      rcases hcase with ⟨_, h2⟩ | ⟨_, h2⟩
      · rw [h2]; exact (hends path hp).2
      · rw [h2]; exact (hends path hp).1
    rw [heq]
    refine ⟨attachMid_wf s c other hc (h.starts other ho) h.wf,
      fun k hk => attachMid_keys s c other k (h.starts k hk),
      attachMid_asc s c other h.asc, ?_, ?_⟩
    · intro k hk
      rcases attachMid_keys_of s c other k hk with h1 | h1 | h1 | h1
      · right
        rw [h1, hmid]
        exact List.mem_map_of_mem _ hp
      · rw [h1, hxy]
        exact h.origin c hc
      · left
        rw [h1]; exact ho
      · exact h.origin k h1
    · intro k hk
      rcases attachMid_points s c other k hk with h1 | h1
      · exact attachMid_keys s c other k (h.known k h1)
      · rw [h1]
        exact attachMid_has_mid s c other

theorem loadPoint_asc {A : Arith} (g : Pathfinding A) (point : Point)
    (h : KeysAsc g.nodesMap) : KeysAsc (loadPoint g point).nodesMap := by
  unfold loadPoint
  split
  · exact h
  · exact qinsert_asc _ _ _ h

theorem loadPoints_asc {A : Arith} (points : List Point) (g : Pathfinding A)
    (h : KeysAsc g.nodesMap) : KeysAsc (loadPoints g points).nodesMap := by
  induction points generalizing g with
  | nil => exact h
  | cons p t ih =>
    simp only [loadPoints, List.foldl_cons]
    exact ih _ (loadPoint_asc g p h)

/-- The invariant of the build holds of the graph that `loadPoints` and
`loadPaths` make. -/
theorem build_buildInv {A : Arith} (pts : List Point) (streets : List (String × street))
    (hends : ∀ e ∈ streets, ∀ p ∈ e.2.pathLines, EndsIn pts p) :
    BuildInv pts (allSegs streets) (build A pts streets).1.nodesMap
      (build A pts streets).2.2 := by
  have hsegs : ∀ e ∈ streets, ∀ p ∈ e.2.pathLines, p ∈ allSegs streets := by
    intro e he p hp
    unfold allSegs
    rw [List.mem_flatMap]
    exact ⟨e, he, hp⟩
  have hends' : ∀ p ∈ allSegs streets, EndsIn pts p := by
    intro p hp
    unfold allSegs at hp
    rw [List.mem_flatMap] at hp
    obtain ⟨e, he, hpe⟩ := hp
    exact hends e he p hpe
  unfold build
  apply loadPaths_induct (allSegs streets) (BuildInv pts (allSegs streets))
    (fun s path c hp hc h => visitNode_buildInv pts _ hends' s path c hp hc h) streets _ pts
    hsegs
  have hempty : NodesWf (Pathfinding.empty A).nodesMap := by
    intro e he
    simp [Pathfinding.empty] at he
  refine ⟨loadPoints_wf pts _ hempty, fun c hc => loadPoints_keys pts _ c (Or.inl hc),
    loadPoints_asc pts _ (by simp [KeysAsc, qkeys, Pathfinding.empty]), ?_,
    fun c hc => loadPoints_keys pts _ c (Or.inl hc)⟩
  intro c hc
  rcases loadPoints_only pts _ c hc with h1 | h1
  · exact Or.inl h1
  · simp [Pathfinding.empty, qcontains, qfind] at h1

theorem coords_eq_keys {A : Arith} (m : List (Point × Node A)) (h : NodesWf m) :
    (m.map fun e => ((e.2.x, e.2.y) : Point)) = qkeys m := by
  unfold qkeys
  apply List.map_congr_left
  intro e he
  exact h e he

theorem length_le_of_origin {A : Arith} (pts : List Point) (segs : List Segment)
    (m : List (Point × Node A)) (hasc : KeysAsc m)
    (h : ∀ c, qcontains m c = true → c ∈ pts ∨ c ∈ segs.map segMid) :
    m.length ≤ pts.dedup.length + segs.length := by
  have hsub : qkeys m ⊆ pts.dedup ++ segs.map segMid := by
    intro c hc
    unfold qkeys at hc
    rw [List.mem_map] at hc
    obtain ⟨e, he, hce⟩ := hc
    have := h c (by rw [← hce]; exact qcontains_of_mem m e he)
    rw [List.mem_append, List.mem_dedup]
    exact this
  have hlen := ((keysAsc_nodup m hasc).subperm hsub).length_le
  rw [List.length_append, List.length_map] at hlen
  unfold qkeys at hlen
  rw [List.length_map] at hlen
  exact hlen

theorem midCoordInt_eq (a b : Int) : midCoordInt a b = midCoord a b := rfl

theorem qcontains_iff_keys {A : Arith} (m : List (Point × Node A)) (k : Point) :
    qcontains m k = true ↔ k ∈ qkeys m := by
  constructor
  · exact mem_qkeys m k
  · intro h
    unfold qkeys at h
    rw [List.mem_map] at h
    obtain ⟨e, he, hk⟩ := h
    rw [← hk]
    exact qcontains_of_mem m e he

theorem mem_segEnds (segs : List Segment) (p : Segment) (hp : p ∈ segs) :
    ((p.1, p.2.1) : Point) ∈ segEnds segs ∧ ((p.2.2.1, p.2.2.2) : Point) ∈ segEnds segs := by
  unfold segEnds
  simp only [List.mem_flatMap]
  exact ⟨⟨p, hp, by simp⟩, ⟨p, hp, by simp⟩⟩

theorem visitNode_rebuildInv {A : Arith} (segs : List Segment) (g1 : List (Point × Node A))
    (hmid : ∀ p ∈ segs, qcontains g1 (segMid p) = true)
    (s : BuildState A) (path : Segment) (c : Point)
    (hp : path ∈ segs) (hc : qcontains s.g.nodesMap c = true)
    (h : RebuildInv segs g1 s.g.nodesMap) :
    RebuildInv segs g1 (visitNode path s c).g.nodesMap := by
  have hxy := nodeAt_wf s.g.nodesMap c h.wf hc
  rcases visitNode_step path s c hxy with h0 | ⟨other, heq, hm, hcase⟩
  · rw [h0]; exact h
  · have hpres : qcontains s.g.nodesMap (midCoord (nodeAt s.g.nodesMap c).x other.1,
        midCoord (nodeAt s.g.nodesMap c).y other.2) = true := by
      rw [hm, qcontains_iff_keys, h.keys, ← qcontains_iff_keys]
      exact hmid path hp
    have hcend : c ∈ segEnds segs := by
      rcases hcase with ⟨h1, _⟩ | ⟨h1, _⟩
      · rw [h1]; exact (mem_segEnds segs path hp).1
      · rw [h1]; exact (mem_segEnds segs path hp).2
    rw [heq, attachMid_of_present s c other hpres]
    dsimp only
    refine ⟨nodesWf_qmodify _ _ _ (fun n => ⟨rfl, rfl⟩) h.wf, ?_, ?_⟩
    · rw [qkeys_qmodify]
      exact h.keys
    · intro k
      obtain ⟨extra, he1, he2⟩ := h.grown k
      by_cases hk : k = c
      · rw [hk, nodeAt_qmodify_self _ _ _ hc]
        dsimp only
        rw [hk] at he1
        rw [he1, List.append_assoc]
        exact ⟨_, rfl, fun hn => absurd hcend hn⟩
      · rw [nodeAt_qmodify_ne _ _ _ _ hk]
        exact ⟨extra, he1, he2⟩

theorem loadPoints_present {A : Arith} (points : List Point) (g : Pathfinding A)
    (h : ∀ c ∈ points, qcontains g.nodesMap c = true) : loadPoints g points = g := by
  induction points with
  | nil => rfl
  | cons p t ih =>
    simp only [loadPoints, List.foldl_cons]
    have hp : loadPoint g p = g := by
      unfold loadPoint
      rw [if_pos (h p (List.mem_cons_self _ _))]
    rw [hp]
    exact ih (fun c hc => h c (List.mem_cons_of_mem _ hc))

theorem allSegs_loadPaths {A : Arith} (streets : List (String × street)) (g : Pathfinding A)
    (points : List Point) : allSegs (loadPaths g streets points).2.1 = allSegs streets := by
  induction streets generalizing g points with
  | nil => rfl
  | cons e t ih =>
    obtain ⟨k, st⟩ := e
    simp only [loadPaths, allSegs, List.flatMap_cons]
    unfold allSegs at ih
    rw [ih]
    unfold loadStreet
    rw [(segFold_street st.pathLines { g := g, st := st, points := points }).2.1]

/-- A second run of the build, with points that all have nodes and streets
whose segments are segments of the first run, keeps the nodes and appends
neighbours at segment ends only. -/
theorem rebuild_inv {A : Arith} (segs : List Segment) (g : Pathfinding A)
    (hwf : NodesWf g.nodesMap) (hmid : ∀ p ∈ segs, qcontains g.nodesMap (segMid p) = true)
    (points : List Point) (streets : List (String × street))
    (hpts : ∀ c ∈ points, qcontains g.nodesMap c = true)
    (hsegs : ∀ e ∈ streets, ∀ p ∈ e.2.pathLines, p ∈ segs) :
    RebuildInv segs g.nodesMap (rebuild g points streets).nodesMap := by
  unfold rebuild
  rw [loadPoints_present points g hpts]
  exact loadPaths_induct segs (fun m _ => RebuildInv segs g.nodesMap m)
    (fun s path c hp hc h => visitNode_rebuildInv segs g.nodesMap hmid s path c hp hc h)
    streets g points hsegs ⟨hwf, rfl, fun k => ⟨[], by simp, fun _ => rfl⟩⟩

theorem rebuildInv_facts {A : Arith} (segs : List Segment) (g1 m : List (Point × Node A))
    (h : RebuildInv segs g1 m) :
    m.length = g1.length ∧ (∀ k, qcontains m k = qcontains g1 k) := by
  constructor
  · have := congrArg List.length h.keys
    unfold qkeys at this
    rw [List.length_map, List.length_map] at this
    exact this
  · intro k
    have h1 := qcontains_iff_keys m k
    have h2 := qcontains_iff_keys g1 k
    rw [h.keys] at h1
    cases hm : qcontains m k <;> cases hg : qcontains g1 k <;> simp_all

/-- After the build every segment of every street has a node at its integer
midpoint. -/
theorem build_mid_nodes {A : Arith} (pts : List Point) (streets : List (String × street))
    (hfresh : ∀ e ∈ streets, e.2.mid = [])
    (hends : ∀ e ∈ streets, ∀ p ∈ e.2.pathLines, EndsIn pts p) :
    ∀ p ∈ allSegs streets, qcontains (build A pts streets).1.nodesMap (segMid p) = true := by
  intro p hp
  have h := (loadPaths_binv pts streets (loadPoints (Pathfinding.empty A) pts) pts []
    hfresh hends (loadPoints_binv pts)).2
  rw [← allSegs_loadPaths streets (loadPoints (Pathfinding.empty A) pts) pts] at hp
  unfold allSegs at hp
  rw [List.mem_flatMap] at hp
  obtain ⟨e, he, hpe⟩ := hp
  exact h e he p hpe

set_option maxRecDepth 100000 in
/-- C21 fails as stated: the graph of `sceneGap` is built from the points
`(0,0)`, `(10,0)`, `(20,20)` and the street from `(0,0)` to `(10,0)`. A second
run of `loadPoints` and `loadPaths`, with the points and streets passed the
first time or with the ones the first run left behind, keeps the four nodes
but appends the midpoint `(5,0)` once more to the neighbours of `(0,0)`: the
node has one neighbour pointer before and two after. -/
theorem rebuild_adds_neighbour :
    (build gridArith gapPoints gapStreets).1 = sceneGap.p ∧
    (build gridArith gapPoints gapStreets).2.1 = sceneGap.streets ∧
    (build gridArith gapPoints gapStreets).2.2 = sceneGap.points ∧
    sceneGap.p.nodesMap.length = 4 ∧
    (nodeAt sceneGap.p.nodesMap (0, 0)).neighbours = [(5, 0)] ∧
    (rebuild sceneGap.p gapPoints gapStreets).nodesMap.length = 4 ∧
    (nodeAt (rebuild sceneGap.p gapPoints gapStreets).nodesMap (0, 0)).neighbours =
      [(5, 0), (5, 0)] ∧
    (rebuild sceneGap.p sceneGap.points sceneGap.streets).nodesMap.length = 4 ∧
    (nodeAt (rebuild sceneGap.p sceneGap.points sceneGap.streets).nodesMap
      (0, 0)).neighbours = [(5, 0), (5, 0)] := by
  refine ⟨by decide, by decide, by decide, by decide, by decide, by decide, by decide,
    by decide, by decide⟩

/-- In a second run of the build, a pass of the node loop shortens no neighbour
list, and the pass for a node at an end of the segment appends one neighbour
to that node. -/
theorem visitNode_rebuild_len {A : Arith} (segs : List Segment) (g1 : List (Point × Node A))
    (hmid : ∀ p ∈ segs, qcontains g1 (segMid p) = true)
    (s : BuildState A) (path : Segment) (c k : Point)
    (hp : path ∈ segs) (hc : qcontains s.g.nodesMap c = true)
    (h : RebuildInv segs g1 s.g.nodesMap) :
    (nodeAt s.g.nodesMap k).neighbours.length ≤
      (nodeAt (visitNode path s c).g.nodesMap k).neighbours.length ∧
    (c = k → (k = (path.1, path.2.1) ∨ k = (path.2.2.1, path.2.2.2)) →
      (nodeAt s.g.nodesMap k).neighbours.length + 1 ≤
        (nodeAt (visitNode path s c).g.nodesMap k).neighbours.length) := by
  have hxy := nodeAt_wf s.g.nodesMap c h.wf hc
  have hsm : qcontains s.g.nodesMap (segMid path) = true := by
    rw [qcontains_iff_keys, h.keys, ← qcontains_iff_keys]
    exact hmid path hp
  have hattach : ∀ other : Point,
      ((midCoord (nodeAt s.g.nodesMap c).x other.1,
        midCoord (nodeAt s.g.nodesMap c).y other.2) : Point) = segMid path →
      (nodeAt s.g.nodesMap k).neighbours.length ≤
        (nodeAt (attachMid s c other).g.nodesMap k).neighbours.length ∧
      (c = k → (nodeAt s.g.nodesMap k).neighbours.length + 1 ≤
        (nodeAt (attachMid s c other).g.nodesMap k).neighbours.length) := by
    intro other hm
    rw [attachMid_of_present s c other (by rw [hm]; exact hsm)]
    dsimp only
    by_cases hk : k = c
    · rw [hk, nodeAt_qmodify_self _ _ _ hc]
      dsimp only
      rw [List.length_append]
      simp
    · rw [nodeAt_qmodify_ne _ _ _ _ hk]
      exact ⟨Nat.le_refl _, fun hck => absurd hck.symm hk⟩
  obtain ⟨v1, v2, v3⟩ := visitNode_cases path s c hxy
  by_cases h1 : c = (path.1, path.2.1)
  · rw [v1 h1]
    have := hattach (path.2.2.1, path.2.2.2) (newCoord_first path s.g.nodesMap c hxy h1)
    exact ⟨this.1, fun hck _ => this.2 hck⟩
  · by_cases h2 : c = (path.2.2.1, path.2.2.2)
    · rw [v2 h1 h2]
      have := hattach (path.1, path.2.1) (newCoord_second path s.g.nodesMap c hxy h2)
      exact ⟨this.1, fun hck _ => this.2 hck⟩
    · rw [v3 h1 h2]
      refine ⟨Nat.le_refl _, ?_⟩
      intro hck hend
      rw [← hck] at hend
      rcases hend with he | he
      · exact absurd he h1
      · exact absurd he h2

theorem nodeFold_rebuild_len {A : Arith} (segs : List Segment) (g1 : List (Point × Node A))
    (hmid : ∀ p ∈ segs, qcontains g1 (segMid p) = true) (path : Segment) (k : Point)
    (hp : path ∈ segs) (ks : List Point) (s : BuildState A)
    (h : RebuildInv segs g1 s.g.nodesMap) :
    RebuildInv segs g1 (ks.foldl
      (fun s c => if qcontains s.g.nodesMap c then visitNode path s c else s) s).g.nodesMap ∧
    (nodeAt s.g.nodesMap k).neighbours.length ≤
      (nodeAt (ks.foldl (fun s c => if qcontains s.g.nodesMap c then visitNode path s c else s)
        s).g.nodesMap k).neighbours.length ∧
    (k ∈ ks → qcontains g1 k = true →
      (k = (path.1, path.2.1) ∨ k = (path.2.2.1, path.2.2.2)) →
      (nodeAt s.g.nodesMap k).neighbours.length + 1 ≤
        (nodeAt (ks.foldl
          (fun s c => if qcontains s.g.nodesMap c then visitNode path s c else s)
          s).g.nodesMap k).neighbours.length) := by
  induction ks generalizing s with
  | nil => exact ⟨h, Nat.le_refl _, fun hk => absurd hk (List.not_mem_nil _)⟩
  | cons c t ih =>
    simp only [List.foldl_cons]
    by_cases hc : qcontains s.g.nodesMap c = true
    · rw [if_pos hc]
      have h1 := visitNode_rebuildInv segs g1 hmid s path c hp hc h
      obtain ⟨l1, l2⟩ := visitNode_rebuild_len segs g1 hmid s path c k hp hc h
      obtain ⟨i1, i2, i3⟩ := ih (visitNode path s c) h1
      refine ⟨i1, Nat.le_trans l1 i2, ?_⟩
      intro hk hkp hend
      by_cases hck : c = k
      · exact Nat.le_trans (l2 hck hend) i2
      · have hkt : k ∈ t := by
          rcases List.mem_cons.mp hk with h3 | h3
          · exact absurd h3.symm hck
          · exact h3
        exact Nat.le_trans (Nat.add_le_add_right l1 1) (i3 hkt hkp hend)
    · rw [if_neg hc]
      obtain ⟨i1, i2, i3⟩ := ih s h
      refine ⟨i1, i2, ?_⟩
      intro hk hkp hend
      have hkt : k ∈ t := by
        rcases List.mem_cons.mp hk with h3 | h3
        · exfalso
          apply hc
          rw [← h3, qcontains_iff_keys, h.keys, ← qcontains_iff_keys]
          exact hkp
        · exact h3
      exact i3 hkt hkp hend

theorem segFold_rebuild_len {A : Arith} (segs : List Segment) (g1 : List (Point × Node A))
    (hmid : ∀ p ∈ segs, qcontains g1 (segMid p) = true) (k : Point)
    (l : List Segment) (hl : ∀ p ∈ l, p ∈ segs) (s : BuildState A)
    (h : RebuildInv segs g1 s.g.nodesMap) :
    RebuildInv segs g1 (l.foldl loadSegment s).g.nodesMap ∧
    (nodeAt s.g.nodesMap k).neighbours.length ≤
      (nodeAt (l.foldl loadSegment s).g.nodesMap k).neighbours.length ∧
    (qcontains g1 k = true → k ∈ segEnds l →
      (nodeAt s.g.nodesMap k).neighbours.length + 1 ≤
        (nodeAt (l.foldl loadSegment s).g.nodesMap k).neighbours.length) := by
  induction l generalizing s with
  | nil =>
    refine ⟨h, Nat.le_refl _, ?_⟩
    intro _ hk
    simp [segEnds] at hk
  | cons p t ih =>
    simp only [List.foldl_cons]
    have hp : p ∈ segs := hl p (List.mem_cons_self _ _)
    obtain ⟨n1, n2, n3⟩ := nodeFold_rebuild_len segs g1 hmid p k hp
      (loopKeys s.g.nodesMap p) s h
    obtain ⟨i1, i2, i3⟩ := ih (fun q hq => hl q (List.mem_cons_of_mem _ hq))
      (loadSegment s p) n1
    refine ⟨i1, Nat.le_trans n2 i2, ?_⟩
    intro hkp hk
    unfold segEnds at hk
    rw [List.flatMap_cons, List.mem_append] at hk
    rcases hk with hk | hk
    · have hend : k = (p.1, p.2.1) ∨ k = (p.2.2.1, p.2.2.2) := by
        simpa using hk
      have hmem : k ∈ loopKeys s.g.nodesMap p := by
        rcases hend with he | he
        · rw [he]; exact mem_loopKeys _ p
        · rw [he]; exact mem_loopKeys_second _ p
      exact Nat.le_trans (n3 hmem hkp hend) i2
    · exact Nat.le_trans (Nat.add_le_add_right n2 1) (i3 hkp hk)

theorem loadPaths_rebuild_len {A : Arith} (segs : List Segment) (g1 : List (Point × Node A))
    (hmid : ∀ p ∈ segs, qcontains g1 (segMid p) = true) (k : Point)
    (streets : List (String × street)) (hs : ∀ e ∈ streets, ∀ p ∈ e.2.pathLines, p ∈ segs)
    (g : Pathfinding A) (points : List Point) (h : RebuildInv segs g1 g.nodesMap) :
    (nodeAt g.nodesMap k).neighbours.length ≤
      (nodeAt (loadPaths g streets points).1.nodesMap k).neighbours.length ∧
    (qcontains g1 k = true → k ∈ segEnds (allSegs streets) →
      (nodeAt g.nodesMap k).neighbours.length + 1 ≤
        (nodeAt (loadPaths g streets points).1.nodesMap k).neighbours.length) := by
  induction streets generalizing g points with
  | nil =>
    refine ⟨Nat.le_refl _, ?_⟩
    intro _ hk
    simp [segEnds, allSegs] at hk
  | cons e t ih =>
    obtain ⟨key, st⟩ := e
    simp only [loadPaths]
    obtain ⟨n1, n2, n3⟩ := segFold_rebuild_len segs g1 hmid k st.pathLines
      (hs (key, st) (List.mem_cons_self _ _)) { g := g, st := st, points := points } h
    obtain ⟨i2, i3⟩ := ih (fun e he => hs e (List.mem_cons_of_mem _ he))
      (loadStreet { g := g, st := st, points := points }).g
      (loadStreet { g := g, st := st, points := points }).points n1
    refine ⟨Nat.le_trans n2 i2, ?_⟩
    intro hkp hk
    have hsplit : k ∈ segEnds st.pathLines ∨ k ∈ segEnds (allSegs t) := by
      unfold segEnds allSegs at hk ⊢
      simp only [List.flatMap_cons, List.flatMap_append, List.mem_append] at hk
      exact hk
    rcases hsplit with hk1 | hk1
    · exact Nat.le_trans (n3 hkp hk1) i2
    · exact Nat.le_trans (Nat.add_le_add_right n2 1) (i3 hkp hk1)

theorem rebuild_grows {A : Arith} (segs : List Segment) (g : Pathfinding A)
    (hwf : NodesWf g.nodesMap) (hmid : ∀ p ∈ segs, qcontains g.nodesMap (segMid p) = true)
    (points : List Point) (streets : List (String × street))
    (hpts : ∀ c ∈ points, qcontains g.nodesMap c = true)
    (hsegs : ∀ e ∈ streets, ∀ p ∈ e.2.pathLines, p ∈ segs) (k : Point)
    (hk : qcontains g.nodesMap k = true) (hend : k ∈ segEnds (allSegs streets)) :
    (nodeAt g.nodesMap k).neighbours.length + 1 ≤
      (nodeAt (rebuild g points streets).nodesMap k).neighbours.length := by
  unfold rebuild
  rw [loadPoints_present points g hpts]
  exact (loadPaths_rebuild_len segs g.nodesMap hmid k streets hsegs g points
    ⟨hwf, rfl, fun k => ⟨[], by simp, fun _ => rfl⟩⟩).2 hk hend

theorem segEnds_in {pts : List Point} (streets : List (String × street))
    (hends : ∀ e ∈ streets, ∀ p ∈ e.2.pathLines, EndsIn pts p) (k : Point)
    (hk : k ∈ segEnds (allSegs streets)) : k ∈ pts := by
  unfold segEnds allSegs at hk
  simp only [List.mem_flatMap] at hk
  obtain ⟨p, ⟨e, he, hp⟩, hkp⟩ := hk
  have := hends e he p hp
  simp only [List.mem_cons, List.mem_singleton, List.not_mem_nil, or_false] at hkp
  rcases hkp with h1 | h1
  · rw [h1]; exact this.1
  · rw [h1]; exact this.2

/-- C21 (amended): in the graph that `loadPoints` and `loadPaths` build from
points and streets (streets as loaded, with empty mid lists, every segment end
among the points) no two nodes have the same coordinate. A second run of
`loadPoints` and `loadPaths` on the built graph, with the points and streets
passed the first time or with the ones the first run left behind, leaves the
number of nodes and the nodes themselves unchanged, and leaves the neighbour
list of every node that is not an end of a segment unchanged; a node at an end
of a segment keeps its neighbours and gets at least one more appended. -/
theorem rebuild_keeps_nodes {A : Arith} (pts : List Point) (streets : List (String × street))
    (hfresh : ∀ e ∈ streets, e.2.mid = [])
    (hends : ∀ e ∈ streets, ∀ p ∈ e.2.pathLines, EndsIn pts p) :
    ((build A pts streets).1.nodesMap.map fun e => ((e.2.x, e.2.y) : Point)).Nodup ∧
    ((rebuild (build A pts streets).1 pts streets).nodesMap.length =
        (build A pts streets).1.nodesMap.length ∧
      (∀ k, qcontains (rebuild (build A pts streets).1 pts streets).nodesMap k =
        qcontains (build A pts streets).1.nodesMap k) ∧
      ∀ k, ∃ extra,
        (nodeAt (rebuild (build A pts streets).1 pts streets).nodesMap k).neighbours =
          (nodeAt (build A pts streets).1.nodesMap k).neighbours ++ extra ∧
        (k ∉ segEnds (allSegs streets) → extra = []) ∧
        (k ∈ segEnds (allSegs streets) → extra ≠ [])) ∧
    ((rebuild (build A pts streets).1 (build A pts streets).2.2
        (build A pts streets).2.1).nodesMap.length =
        (build A pts streets).1.nodesMap.length ∧
      (∀ k, qcontains (rebuild (build A pts streets).1 (build A pts streets).2.2
          (build A pts streets).2.1).nodesMap k =
        qcontains (build A pts streets).1.nodesMap k) ∧
      ∀ k, ∃ extra,
        (nodeAt (rebuild (build A pts streets).1 (build A pts streets).2.2
          (build A pts streets).2.1).nodesMap k).neighbours =
          (nodeAt (build A pts streets).1.nodesMap k).neighbours ++ extra ∧
        (k ∉ segEnds (allSegs streets) → extra = []) ∧
        (k ∈ segEnds (allSegs streets) → extra ≠ [])) := by
  have hb := build_buildInv (A := A) pts streets hends
  have hmid := build_mid_nodes (A := A) pts streets hfresh hends
  have hs1 : ∀ e ∈ streets, ∀ p ∈ e.2.pathLines, p ∈ allSegs streets := by
    intro e he p hp
    unfold allSegs
    rw [List.mem_flatMap]
    exact ⟨e, he, hp⟩
  have hall2 : allSegs (build A pts streets).2.1 = allSegs streets := by
    unfold build
    exact allSegs_loadPaths _ _ _
  have hs2 : ∀ e ∈ (build A pts streets).2.1, ∀ p ∈ e.2.pathLines, p ∈ allSegs streets := by
    intro e he p hp
    rw [← hall2]
    unfold allSegs
    rw [List.mem_flatMap]
    exact ⟨e, he, hp⟩
  have h1 := rebuild_inv (allSegs streets) (build A pts streets).1 hb.wf hmid pts streets
    hb.starts hs1
  have h2 := rebuild_inv (allSegs streets) (build A pts streets).1 hb.wf hmid
    (build A pts streets).2.2 (build A pts streets).2.1 hb.known hs2
  have hne : ∀ (a b extra : List Point), b = a ++ extra → a.length + 1 ≤ b.length →
      extra ≠ [] := by
    intro a b extra hab hlen h0
    rw [hab, h0, List.append_nil] at hlen
    omega
  refine ⟨?_, ⟨(rebuildInv_facts _ _ _ h1).1, (rebuildInv_facts _ _ _ h1).2, ?_⟩,
    ⟨(rebuildInv_facts _ _ _ h2).1, (rebuildInv_facts _ _ _ h2).2, ?_⟩⟩
  · rw [coords_eq_keys _ hb.wf]
    exact keysAsc_nodup _ hb.asc
  · intro k
    obtain ⟨extra, e1, e2⟩ := h1.grown k
    refine ⟨extra, e1, e2, fun hk => hne _ _ extra e1 ?_⟩
    exact rebuild_grows (allSegs streets) _ hb.wf hmid pts streets hb.starts hs1 k
      (hb.starts k (segEnds_in streets hends k hk)) hk
  · intro k
    obtain ⟨extra, e1, e2⟩ := h2.grown k
    refine ⟨extra, e1, e2, fun hk => hne _ _ extra e1 ?_⟩
    exact rebuild_grows (allSegs streets) _ hb.wf hmid (build A pts streets).2.2
      (build A pts streets).2.1 hb.known hs2 k
      (hb.starts k (segEnds_in streets hends k hk)) (by rw [hall2]; exact hk)

set_option maxRecDepth 100000 in
/-- Instance of `rebuild_keeps_nodes`: the points and the street of `sceneGap`. -/
theorem rebuild_keeps_nodes_witness :
    (∀ e ∈ gapStreets, e.2.mid = []) ∧
    (∀ e ∈ gapStreets, ∀ p ∈ e.2.pathLines, EndsIn gapPoints p) ∧
    (((build gridArith gapPoints gapStreets).1.nodesMap.map
      fun e => ((e.2.x, e.2.y) : Point)).Nodup ∧
    ((rebuild (build gridArith gapPoints gapStreets).1 gapPoints gapStreets).nodesMap.length =
        (build gridArith gapPoints gapStreets).1.nodesMap.length ∧
      (∀ k,
        qcontains (rebuild (build gridArith gapPoints gapStreets).1 gapPoints
          gapStreets).nodesMap k =
        qcontains (build gridArith gapPoints gapStreets).1.nodesMap k) ∧
      ∀ k, ∃ extra,
        (nodeAt (rebuild (build gridArith gapPoints gapStreets).1 gapPoints
          gapStreets).nodesMap k).neighbours =
          (nodeAt (build gridArith gapPoints gapStreets).1.nodesMap k).neighbours ++ extra ∧
        (k ∉ segEnds (allSegs gapStreets) → extra = []) ∧
        (k ∈ segEnds (allSegs gapStreets) → extra ≠ [])) ∧
    ((rebuild (build gridArith gapPoints gapStreets).1
        (build gridArith gapPoints gapStreets).2.2
        (build gridArith gapPoints gapStreets).2.1).nodesMap.length =
        (build gridArith gapPoints gapStreets).1.nodesMap.length ∧
      (∀ k,
        qcontains (rebuild (build gridArith gapPoints gapStreets).1
          (build gridArith gapPoints gapStreets).2.2
          (build gridArith gapPoints gapStreets).2.1).nodesMap k =
        qcontains (build gridArith gapPoints gapStreets).1.nodesMap k) ∧
      ∀ k, ∃ extra,
        (nodeAt (rebuild (build gridArith gapPoints gapStreets).1
          (build gridArith gapPoints gapStreets).2.2
          (build gridArith gapPoints gapStreets).2.1).nodesMap k).neighbours =
          (nodeAt (build gridArith gapPoints gapStreets).1.nodesMap k).neighbours ++ extra ∧
        (k ∉ segEnds (allSegs gapStreets) → extra = []) ∧
        (k ∈ segEnds (allSegs gapStreets) → extra ≠ []))) :=
  ⟨by decide, by decide, rebuild_keeps_nodes gapPoints gapStreets (by decide) (by decide)⟩

/-- C30: for two `int` coordinates whose difference is in machine range, the
coordinate of the extra node that `loadPaths` computes on an axis is
`min(a,b) + |a-b|/2`, which is `(a+b)/2` rounded down, lies between `a` and
`b`, and is the same computed from `a` towards `b` or from `b` towards `a`; so
the extra node of a segment is the same from both its ends. In the graph built
from points and streets whose segment ends are all among the points, every
node is one of the points or the extra node of a segment, and there are at
most as many nodes as there are distinct points and segments together. -/
theorem midpoint_and_size {A : Arith} (a b : Int) (ha : InInt a) (hb : InInt b)
    (hd : a - b < 2 ^ 31 ∧ b - a < 2 ^ 31)
    (pts : List Point) (streets : List (String × street))
    (hends : ∀ e ∈ streets, ∀ p ∈ e.2.pathLines, EndsIn pts p) :
    (midCoordInt a b = min a b + |a - b| / 2 ∧ midCoordInt a b = (a + b) / 2 ∧
      min a b ≤ midCoordInt a b ∧ midCoordInt a b ≤ max a b ∧
      midCoordInt a b = midCoordInt b a ∧ midCoord a b = midCoordInt a b) ∧
    (∀ seg : Segment,
      ((midCoord seg.2.2.1 seg.1, midCoord seg.2.2.2 seg.2.1) : Point) = segMid seg) ∧
    (∀ c, qcontains (build A pts streets).1.nodesMap c = true →
      c ∈ pts ∨ ∃ seg ∈ allSegs streets, c = segMid seg) ∧
    (build A pts streets).1.nodesMap.length ≤ pts.dedup.length + (allSegs streets).length := by
  have hb' := build_buildInv (A := A) pts streets hends
  have e1 := midCoordInt_eq a b
  have e2 := midCoordInt_eq b a
  obtain ⟨f1, f2, f3, f4⟩ := midCoord_floor a b ha hb hd
  have habs : |a - b| = max a b - min a b := by
    rcases le_total a b with h | h
    · rw [max_eq_right h, min_eq_left h, abs_of_nonpos (by omega)]
      omega
    · rw [max_eq_left h, min_eq_right h, abs_of_nonneg (by omega)]
  refine ⟨⟨?_, ?_, ?_, ?_, ?_, e1.symm⟩, ?_, ?_, ?_⟩
  · rw [e1, habs]; exact f1
  · rw [e1]; exact f2
  · rw [e1]; exact f3
  · rw [e1]; exact f4
  · rw [e1, e2]; exact midCoord_comm a b
  · intro seg
    unfold segMid
    rw [midCoord_comm seg.2.2.1 seg.1, midCoord_comm seg.2.2.2 seg.2.1]
  · intro c hc
    rcases hb'.origin c hc with h1 | h1
    · exact Or.inl h1
    · right
      rw [List.mem_map] at h1
      obtain ⟨seg, hs, hseg⟩ := h1
      exact ⟨seg, hs, hseg.symm⟩
  · exact length_le_of_origin pts (allSegs streets) _ hb'.asc hb'.origin

set_option maxRecDepth 100000 in
/-- Instance of `midpoint_and_size`: the coordinates `-7` and `10`, whose extra
coordinate is `1`, and the graph of `sceneGap` with four nodes for three
points and one segment. -/
theorem midpoint_and_size_witness :
    InInt (-7) ∧ InInt 10 ∧ ((-7 : Int) - 10 < 2 ^ 31 ∧ (10 : Int) - (-7) < 2 ^ 31) ∧
    (∀ e ∈ gapStreets, ∀ p ∈ e.2.pathLines, EndsIn gapPoints p) ∧
    midCoordInt (-7) 10 = 1 ∧ midCoordInt 10 (-7) = 1 ∧
    (build gridArith gapPoints gapStreets).1.nodesMap.length = 4 ∧
    gapPoints.dedup.length + (allSegs gapStreets).length = 4 ∧
    ((midCoordInt (-7) 10 = min (-7) 10 + |(-7 : Int) - 10| / 2 ∧
      midCoordInt (-7) 10 = ((-7) + 10) / 2 ∧
      min (-7) 10 ≤ midCoordInt (-7) 10 ∧ midCoordInt (-7) 10 ≤ max (-7) 10 ∧
      midCoordInt (-7) 10 = midCoordInt 10 (-7) ∧ midCoord (-7) 10 = midCoordInt (-7) 10) ∧
    (∀ seg : Segment,
      ((midCoord seg.2.2.1 seg.1, midCoord seg.2.2.2 seg.2.1) : Point) = segMid seg) ∧
    (∀ c, qcontains (build gridArith gapPoints gapStreets).1.nodesMap c = true →
      c ∈ gapPoints ∨ ∃ seg ∈ allSegs gapStreets, c = segMid seg) ∧
    (build gridArith gapPoints gapStreets).1.nodesMap.length ≤
      gapPoints.dedup.length + (allSegs gapStreets).length) :=
  ⟨by decide, by decide, by decide, by decide, by decide, by decide, by decide, by decide,
    midpoint_and_size (-7) 10 (by decide) (by decide) (by decide) gapPoints gapStreets
      (by decide)⟩

end Icp
